import Mathlib

/-!
# Control-flow graph construction for NWScript bytecode, and other parts of xoreos

A shallow embedding of the block builder of `src/nwscript/block.cpp` and proofs
of its properties (namespace `NWScript`), followed by embeddings of the memory
write streams of `src/common/memwritestream.cpp`, of the string utilities of
`src/common/strutil.cpp` and of the tokenizer of
`src/common/streamtokenizer.cpp` (namespace `Common`), of the conversion of
NSBTX textures to ITEX images of `src/aurora/nsbtxfile.cpp` (namespace
`Aurora`), of the command line of `src/unrim.cpp` (namespace `Unrim`) and of
the header of a TXB image of `src/images/txb.cpp` (namespace `Images`).  The
definitions of all parts come first, the theorems follow.

Memory model of the block builder.  The C++ code works on two collections linked by raw pointers:
the instruction collection (`Instructions`) and the block collection
(`Blocks`).  A pointer to an instruction is modelled as the index of the
instruction in the instruction collection, a pointer to a block as the index
of the block in the block collection; the null pointer is `none`.
Dereferencing an index that is outside its collection is the error
`Error.invalidPointer`.

The members of an `Instruction` that the builder only reads (`address`,
`opcode`, `addressType`, `branches`, `follower`) are kept in the record
`Instruction`.  The one member the builder writes, `block`, is kept as a
component of its own in the state (`State.block`), indexed by the instruction
index.

The recursion of `constructBlocks`/`followBranchBlock` is bounded by a fuel
argument; `Error.outOfFuel` is returned when it runs out.
-/

namespace NWScript

/-! ## Data model -/

/-- Modelled from the spec: the opcode enumeration of `instruction.h`, which is
not among the sources.  The six branch-influencing opcodes that `block.cpp`
names are constructors of their own; every other opcode of the instruction set
is `kOpcodeOther n`. -/
inductive Opcode where
  | kOpcodeJMP
  | kOpcodeJSR
  | kOpcodeJZ
  | kOpcodeJNZ
  | kOpcodeRETN
  | kOpcodeSTORESTATE
  | kOpcodeOther (n : Nat)
  deriving DecidableEq, Repr

/-- Modelled from the spec: the address type enumeration of `instruction.h`
(tags None, JumpDestination, SubroutineStart); `block.cpp` only compares
against `kAddressTypeNone`. -/
inductive AddressType where
  | kAddressTypeNone
  | kAddressTypeJumpDestination
  | kAddressTypeSubroutineStart
  deriving DecidableEq, Repr

/-- Modelled from the spec: the edge type enumeration of `block.h`; the six
values are the ones `block.cpp` uses. -/
inductive BlockEdgeType where
  | kBlockEdgeTypeUnconditional
  | kBlockEdgeTypeConditionalTrue
  | kBlockEdgeTypeConditionalFalse
  | kBlockEdgeTypeFunctionCall
  | kBlockEdgeTypeFunctionReturn
  | kBlockEdgeTypeStoreState
  deriving DecidableEq, Repr

/-- Modelled from the spec: the struct `Instruction` of `instruction.h`, which is
not among the sources, with the members `block.cpp` reads.  `branches` and
`follower` are pointers to instructions, that is, indices into the instruction
collection.  The member `block`, which `block.cpp` writes, is `State.block`. -/
structure Instruction where
  address : Nat
  opcode : Opcode
  addressType : AddressType
  branches : List Nat
  follower : Option Nat
  deriving DecidableEq, Repr

/-- Modelled from the spec: the struct `Block` of `block.h`, which is not among
the sources, with the members `block.cpp` uses.  `instructions` holds
instruction pointers, `parents` and `children` hold block pointers; all three
and `childrenTypes` grow by `push_back`. -/
structure Block where
  startAddress : Nat
  instructions : List Nat
  parents : List Nat
  children : List Nat
  childrenTypes : List BlockEdgeType
  deriving DecidableEq, Repr

/-- Modelled from the spec: the constructor `Block(address)` of `block.h`, a
block with the given start address and without instructions and edges. -/
def Block.new (address : Nat) : Block :=
  { startAddress := address, instructions := [], parents := [], children := [],
    childrenTypes := [] }

/-- The mutable memory of the builder: the `block` member of every instruction
and the block collection. -/
structure State where
  block : Nat → Option Nat
  blocks : List Block

/-- Ways in which the construction does not return a graph. -/
inductive Error where
  | assertionFailed
  | invalidPointer
  | outOfFuel
  deriving DecidableEq, Repr

/-- The test of lines 100-102: the opcode influences control flow. -/
def Opcode.isBranch : Opcode → Bool
  | .kOpcodeJMP => true
  | .kOpcodeJSR => true
  | .kOpcodeJZ => true
  | .kOpcodeJNZ => true
  | .kOpcodeRETN => true
  | .kOpcodeSTORESTATE => true
  | .kOpcodeOther _ => false

/-! ## The builder -/

/-- The three `push_back` statements that link a block with one of its children
(lines 57-60 and lines 75-78): `block` becomes a parent of `branchBlock`, and
`branchBlock` a child of `block` with the given edge type. -/
def linkBlocks (s : State) (block branchBlock : Nat) (type : BlockEdgeType) :
    Except Error State :=
  match s.blocks[branchBlock]? with
  | none => .error .invalidPointer
  | some t =>
    let blocks1 := s.blocks.set branchBlock { t with parents := t.parents ++ [block] }
    match blocks1[block]? with
    | none => .error .invalidPointer
    | some b =>
      .ok { s with
            blocks := blocks1.set block
              { b with children := b.children ++ [branchBlock],
                       childrenTypes := b.childrenTypes ++ [type] } }

/-- The function `addBranchBlock` (lines 36-63).  Returns the new state, the
block of the branch (`branchBlock`) and `needAdd`. -/
def addBranchBlock (code : List Instruction) (s : State) (block branchDestination : Nat)
    (type : BlockEdgeType) : Except Error (State × Nat × Bool) :=
  match code[branchDestination]? with
  | none => .error .invalidPointer
  | some d =>
    match s.block branchDestination with
    | some branchBlock =>
      match linkBlocks s block branchBlock type with
      | .error e => .error e
      | .ok s1 => .ok (s1, branchBlock, false)
    | none =>
      match linkBlocks { s with blocks := s.blocks ++ [Block.new d.address] } block
          s.blocks.length type with
      | .error e => .error e
      | .ok s1 => .ok (s1, s.blocks.length, true)

/-- The statement `if (addBranchBlock(...)) constructBlocks(blocks, *branchBlock, dest);`
of lines 90-91, 126-127, 137-140, 150-153 and 163-166.  The recursive call of
`constructBlocks` is the argument `recurse`. -/
def branchTo (recurse : State → Nat → Option Nat → Except Error State)
    (code : List Instruction) (s : State) (block branchDestination : Nat)
    (type : BlockEdgeType) : Except Error State :=
  match addBranchBlock code s block branchDestination type with
  | .error e => .error e
  | .ok (s1, branchBlock, needAdd) =>
    if needAdd then recurse s1 branchBlock (some branchDestination) else .ok s1

/-- The function `followBranchBlock` (lines 115-173).  The assertions on
`branches.size()` and `follower` are the patterns on `instr.branches` and
`instr.follower`. -/
def followBranchBlock (recurse : State → Nat → Option Nat → Except Error State)
    (code : List Instruction) (s : State) (block : Nat) (instr : Instruction) :
    Except Error State :=
  match instr.opcode with
  | .kOpcodeJMP =>
    match instr.branches with
    | [t] => branchTo recurse code s block t .kBlockEdgeTypeUnconditional
    | _ => .error .assertionFailed
  | .kOpcodeJZ | .kOpcodeJNZ =>
    match instr.branches with
    | [t, f] =>
      match branchTo recurse code s block t .kBlockEdgeTypeConditionalTrue with
      | .error e => .error e
      | .ok s1 => branchTo recurse code s1 block f .kBlockEdgeTypeConditionalFalse
    | _ => .error .assertionFailed
  | .kOpcodeJSR =>
    match instr.branches, instr.follower with
    | [t], some f =>
      match branchTo recurse code s block t .kBlockEdgeTypeFunctionCall with
      | .error e => .error e
      | .ok s1 => branchTo recurse code s1 block f .kBlockEdgeTypeFunctionReturn
    | _, _ => .error .assertionFailed
  | .kOpcodeSTORESTATE =>
    match instr.branches, instr.follower with
    | [t], some f =>
      match branchTo recurse code s block t .kBlockEdgeTypeStoreState with
      | .error e => .error e
      | .ok s1 => branchTo recurse code s1 block f .kBlockEdgeTypeFunctionReturn
    | _, _ => .error .assertionFailed
  | _ => .ok s

/-- Lines 97-98: put the instruction into the block and vice versa. -/
def putInstruction (s : State) (block : Nat) (b : Block) (blockInstr : Nat) : State :=
  { block := fun j => if j = blockInstr then some block else s.block j,
    blocks := s.blocks.set block { b with instructions := b.instructions ++ [blockInstr] } }

/-- The recursive function `constructBlocks(blocks, block, instr)` (lines 65-113).
One unit of fuel is used per iteration of the `while` loop; the loop is the
call on `follower` at the end. -/
def constructBlocksFrom (code : List Instruction) :
    Nat → State → Nat → Option Nat → Except Error State
  | _, s, _, none => .ok s
  | 0, _, _, some _ => .error .outOfFuel
  | fuel + 1, s, block, some blockInstr =>
    match code[blockInstr]? with
    | none => .error .invalidPointer
    | some i =>
      match s.block blockInstr with
      | some other => linkBlocks s block other .kBlockEdgeTypeUnconditional
      | none =>
        match s.blocks[block]? with
        | none => .error .invalidPointer
        | some b =>
          if i.addressType ≠ .kAddressTypeNone ∧ b.instructions ≠ [] then
            branchTo (constructBlocksFrom code fuel) code s block blockInstr
              .kBlockEdgeTypeUnconditional
          else if i.opcode.isBranch then
            followBranchBlock (constructBlocksFrom code fuel) code
              (putInstruction s block b blockInstr) block i
          else
            constructBlocksFrom code fuel (putInstruction s block b blockInstr) block
              i.follower

/-- The public function `constructBlocks(blocks, instructions)` (lines 176-186).
`block0` is the `block` member of the instructions on entry. -/
def constructBlocks (fuel : Nat) (code : List Instruction) (block0 : Nat → Option Nat)
    (blocks : List Block) : Except Error State :=
  if blocks ≠ [] then .error .assertionFailed
  else
    match code with
    | [] => .ok { block := block0, blocks := blocks }
    | first :: _ =>
      constructBlocksFrom code fuel
        { block := block0, blocks := blocks ++ [Block.new first.address] }
        blocks.length (some 0)

/-- No instruction has a block. -/
def noBlock : Nat → Option Nat := fun _ => none

/-! ## Well-formed instruction streams -/

/-- The arity the spec fixes for each opcode: one branch for `JMP`, two for
`JZ`/`JNZ`, one branch and a follower for `JSR`/`STORESTATE` (the spec counts
the follower these two opcodes need in the arity of the instruction), no branch
for any other opcode. -/
def arityOK (i : Instruction) : Bool :=
  match i.opcode with
  | .kOpcodeJMP => i.branches.length == 1
  | .kOpcodeJZ => i.branches.length == 2
  | .kOpcodeJNZ => i.branches.length == 2
  | .kOpcodeJSR => i.branches.length == 1 && i.follower.isSome
  | .kOpcodeSTORESTATE => i.branches.length == 1 && i.follower.isSome
  | _ => i.branches.length == 0

/-- A well-formed instruction stream: addresses strictly ascending, the follower
of every instruction is the next instruction of the stream (absent for the last
one), every branch is an instruction of the stream, and the arity of every
instruction matches its opcode. -/
def WellFormed (code : List Instruction) : Prop :=
  (code.map Instruction.address).Pairwise (fun a b => a < b) ∧
  (∀ k, k < code.length →
    (code[k]?).bind Instruction.follower = if k + 1 < code.length then some (k + 1) else none) ∧
  (∀ i ∈ code, ∀ t ∈ i.branches, t < code.length) ∧
  (∀ i ∈ code, arityOK i = true)

instance (code : List Instruction) : Decidable (WellFormed code) := by
  unfold WellFormed
  infer_instance

/-! ## The steps of the construction as a relation -/

/-- The destinations `followBranchBlock` follows for an instruction, in order,
each with the type of its edge; `none` when one of its assertions fails. -/
def branchTargets (i : Instruction) : Option (List (Nat × BlockEdgeType)) :=
  match i.opcode with
  | .kOpcodeJMP =>
    match i.branches with
    | [t] => some [(t, .kBlockEdgeTypeUnconditional)]
    | _ => none
  | .kOpcodeJZ | .kOpcodeJNZ =>
    match i.branches with
    | [t, f] => some [(t, .kBlockEdgeTypeConditionalTrue), (f, .kBlockEdgeTypeConditionalFalse)]
    | _ => none
  | .kOpcodeJSR =>
    match i.branches, i.follower with
    | [t], some f => some [(t, .kBlockEdgeTypeFunctionCall), (f, .kBlockEdgeTypeFunctionReturn)]
    | _, _ => none
  | .kOpcodeSTORESTATE =>
    match i.branches, i.follower with
    | [t], some f => some [(t, .kBlockEdgeTypeStoreState), (f, .kBlockEdgeTypeFunctionReturn)]
    | _, _ => none
  | _ => some []

/-- Follow a list of destinations one after the other with `branchTo`. -/
def branchAll (recurse : State → Nat → Option Nat → Except Error State)
    (code : List Instruction) (s : State) (block : Nat) :
    List (Nat × BlockEdgeType) → Except Error State
  | [] => .ok s
  | (d, ty) :: rest =>
    match branchTo recurse code s block d ty with
    | .error e => .error e
    | .ok s1 => branchAll recurse code s1 block rest

/-- What a run of the builder is working on: the `while` loop of
`constructBlocks` for a block at an instruction, one `branchTo` statement, or
the destinations of `followBranchBlock` that are still to be followed. -/
inductive Task where
  | loop (block : Nat) (blockInstr : Option Nat)
  | branch (block dest : Nat) (type : BlockEdgeType)
  | branches (block : Nat) (targets : List (Nat × BlockEdgeType))

/-- Big-step relation of the builder: `Exec code t s s1` says that task `t`
started in state `s` completes in state `s1`.  Each rule is one path through
the code. -/
inductive Exec (code : List Instruction) : Task → State → State → Prop where
  | loopEnd (s : State) (b : Nat) : Exec code (.loop b none) s s
  | loopSeen {s s1 : State} {b x c : Nat} {i : Instruction} :
      code[x]? = some i → s.block x = some c →
      linkBlocks s b c .kBlockEdgeTypeUnconditional = .ok s1 →
      Exec code (.loop b (some x)) s s1
  | loopSplit {s s1 : State} {b x : Nat} {i : Instruction} {bl : Block} :
      code[x]? = some i → s.block x = none → s.blocks[b]? = some bl →
      i.addressType ≠ .kAddressTypeNone → bl.instructions ≠ [] →
      Exec code (.branch b x .kBlockEdgeTypeUnconditional) s s1 →
      Exec code (.loop b (some x)) s s1
  | loopBranch {s s1 : State} {b x : Nat} {i : Instruction} {bl : Block}
      {l : List (Nat × BlockEdgeType)} :
      code[x]? = some i → s.block x = none → s.blocks[b]? = some bl →
      ¬ (i.addressType ≠ .kAddressTypeNone ∧ bl.instructions ≠ []) →
      i.opcode.isBranch = true → branchTargets i = some l →
      Exec code (.branches b l) (putInstruction s b bl x) s1 →
      Exec code (.loop b (some x)) s s1
  | loopNext {s s1 : State} {b x : Nat} {i : Instruction} {bl : Block} :
      code[x]? = some i → s.block x = none → s.blocks[b]? = some bl →
      ¬ (i.addressType ≠ .kAddressTypeNone ∧ bl.instructions ≠ []) →
      i.opcode.isBranch = false →
      Exec code (.loop b i.follower) (putInstruction s b bl x) s1 →
      Exec code (.loop b (some x)) s s1
  | branchOld {s s1 : State} {b d c : Nat} {ty : BlockEdgeType} {i : Instruction} :
      code[d]? = some i → s.block d = some c → linkBlocks s b c ty = .ok s1 →
      Exec code (.branch b d ty) s s1
  | branchNew {s s1 s2 : State} {b d : Nat} {ty : BlockEdgeType} {i : Instruction} :
      code[d]? = some i → s.block d = none →
      linkBlocks { s with blocks := s.blocks ++ [Block.new i.address] } b s.blocks.length ty
        = .ok s1 →
      Exec code (.loop s.blocks.length (some d)) s1 s2 →
      Exec code (.branch b d ty) s s2
  | branchesNil (s : State) (b : Nat) : Exec code (.branches b []) s s
  | branchesCons {s s1 s2 : State} {b d : Nat} {ty : BlockEdgeType}
      {rest : List (Nat × BlockEdgeType)} :
      Exec code (.branch b d ty) s s1 → Exec code (.branches b rest) s1 s2 →
      Exec code (.branches b ((d, ty) :: rest)) s s2

/-! ## Effect of the elementary steps -/

/-- The block at index `k` after `block` was linked to its child `child`. -/
def Block.linked (block child : Nat) (type : BlockEdgeType) (k : Nat) (b : Block) : Block :=
  { b with
    parents := if k = child then b.parents ++ [block] else b.parents,
    children := if k = block then b.children ++ [child] else b.children,
    childrenTypes := if k = block then b.childrenTypes ++ [type] else b.childrenTypes }

/-! ## Invariants of the construction -/

/-- The follower of every instruction is the next index of the stream. -/
def FollowerNext (code : List Instruction) : Prop :=
  ∀ k i f, code[k]? = some i → i.follower = some f → f = k + 1

/-- The `block` members and the instruction lists of the blocks agree. -/
structure Consistent (s : State) : Prop where
  valid : ∀ x c, s.block x = some c → c < s.blocks.length
  mem_iff : ∀ b bl x, s.blocks[b]? = some bl → (x ∈ bl.instructions ↔ s.block x = some b)

/-- The instructions control flows to from an instruction, in the order the
builder links them: the destinations of `followBranchBlock` for an opcode that
influences control flow, the follower (if any) otherwise. -/
def successors (i : Instruction) : Option (List (Nat × BlockEdgeType)) :=
  if i.opcode.isBranch then branchTargets i
  else some (i.follower.toList.map (fun f => (f, BlockEdgeType.kBlockEdgeTypeUnconditional)))

/-- The children of block `bl` are the blocks of the instructions `l`, with the
edge types of `l`. -/
def Linked (s : State) (bl : Block) (l : List (Nat × BlockEdgeType)) : Prop :=
  bl.children.map some = l.map (fun p => s.block p.1) ∧ bl.childrenTypes = l.map Prod.snd

/-- The instruction list of `bl` is the run of `m + 1` instructions that starts
at index `h`; `h` is at the start address, no instruction before the last
influences control flow, none after the first is marked. -/
structure BlockShape (code : List Instruction) (bl : Block) (h m : Nat) : Prop where
  instrs : bl.instructions = List.range' h (m + 1)
  head : ∃ i, code[h]? = some i ∧ i.address = bl.startAddress
  inner : ∀ k i, h ≤ k → k < h + m → code[k]? = some i → i.opcode.isBranch = false
  unmarked : ∀ k i, h < k → k ≤ h + m → code[k]? = some i →
    i.addressType = .kAddressTypeNone

/-- Block `b` is complete: it has the shape of a basic block and its children
are the blocks of the successors of its last instruction. -/
def Done (code : List Instruction) (s : State) (b : Nat) : Prop :=
  ∃ bl h m last l, s.blocks[b]? = some bl ∧ BlockShape code bl h m ∧
    code[h + m]? = some last ∧ successors last = some l ∧ Linked s bl l

/-- Block `b` is being extended by the loop, which is at instruction `oi`:
either the block is still empty and `oi` is the unassigned instruction at its
start address, or it holds a run of instructions none of which influences
control flow and `oi` is the follower of the last one.  It has no children yet. -/
def Open (code : List Instruction) (s : State) (b : Nat) (oi : Option Nat) : Prop :=
  ∃ bl, s.blocks[b]? = some bl ∧ bl.children = [] ∧ bl.childrenTypes = [] ∧
    ((bl.instructions = [] ∧ ∃ x i, oi = some x ∧ code[x]? = some i ∧
        i.address = bl.startAddress ∧ s.block x = none) ∨
     (∃ h m last, BlockShape code bl h m ∧ code[h + m]? = some last ∧
        last.opcode.isBranch = false ∧ last.follower = oi))

/-- Two versions of a block that differ at most in their parents. -/
def SameCore (bl bl1 : Block) : Prop :=
  bl1.startAddress = bl.startAddress ∧ bl1.instructions = bl.instructions ∧
  bl1.children = bl.children ∧ bl1.childrenTypes = bl.childrenTypes

/-- What a task working on block `b` leaves alone: no block is removed, an
instruction that has a block keeps it, and every other block keeps its start
address, instructions and children. -/
structure Frame (s : State) (b : Nat) (s1 : State) : Prop where
  len : s.blocks.length ≤ s1.blocks.length
  keep : ∀ x c, s.block x = some c → s1.block x = some c
  core : ∀ k bl, k ≠ b → s.blocks[k]? = some bl →
    ∃ bl1, s1.blocks[k]? = some bl1 ∧ SameCore bl bl1

/-- Block `b` got the blocks of the instructions `l` as further children and
is otherwise unchanged. -/
def Grown (s : State) (b : Nat) (s1 : State) (l : List (Nat × BlockEdgeType)) : Prop :=
  ∃ bl bl1 cs, s.blocks[b]? = some bl ∧ s1.blocks[b]? = some bl1 ∧
    bl1.startAddress = bl.startAddress ∧ bl1.instructions = bl.instructions ∧
    bl1.children = bl.children ++ cs ∧ cs.map some = l.map (fun p => s1.block p.1) ∧
    bl1.childrenTypes = bl.childrenTypes ++ l.map Prod.snd

/-- What every task guarantees: consistency, the frame, and that all blocks it
created are complete. -/
def Common (code : List Instruction) (s : State) (b : Nat) (s1 : State) : Prop :=
  Consistent s1 ∧ Frame s b s1 ∧
  ∀ k, s.blocks.length ≤ k → k < s1.blocks.length → Done code s1 k

/-- Precondition of a task. -/
def Pre (code : List Instruction) : Task → State → Prop
  | .loop b oi, s => Open code s b oi
  | .branch b _ _, s => b < s.blocks.length
  | .branches b _, s => b < s.blocks.length

/-- Postcondition of a task. -/
def Post (code : List Instruction) : Task → State → State → Prop
  | .loop b oi, s, s1 =>
    Common code s b s1 ∧ Done code s1 b ∧
    ∀ x bl, oi = some x → s.block x = none → s.blocks[b]? = some bl →
      bl.instructions = [] → s1.block x = some b
  | .branch b d ty, s, s1 => Common code s b s1 ∧ Grown s b s1 [(d, ty)]
  | .branches b l, s, s1 => Common code s b s1 ∧ Grown s b s1 l

/-! ## Termination measure -/

/-- The number of instructions of the stream that have no block. -/
def unassigned (code : List Instruction) (s : State) : Nat :=
  ((Finset.range code.length).filter (fun x => s.block x = none)).card

/-! ## The construction completes on well-formed streams -/

/-- The fuel `fuel` is enough for the loop on block `b` in state `s`: two units
per instruction without a block, and one more unless the block is still empty. -/
def Enough (code : List Instruction) (fuel : Nat) (s : State) (b : Nat) : Prop :=
  2 * unassigned code s + 1 ≤ fuel ∨
  ((∃ bl, s.blocks[b]? = some bl ∧ bl.instructions = []) ∧ 2 * unassigned code s ≤ fuel)

/-! ## The graph built for a well-formed stream -/

/-- What holds of the state the construction returns for a well-formed stream:
the back-links and the instruction lists agree, every block is complete, and
the first instruction is in the first block. -/
structure Built (code : List Instruction) (s : State) : Prop where
  consistent : Consistent s
  done : ∀ k, k < s.blocks.length → Done code s k
  entry : code ≠ [] → s.block 0 = some 0

/-! ## Reachability -/

/-- The instructions control flow can reach from the first instruction: through
the follower of an instruction that does not influence control flow, through
every branch of a `JMP`, `JZ`, `JNZ`, `JSR` or `STORESTATE`, and through the
follower of a `JSR` or `STORESTATE`. -/
inductive Reachable (code : List Instruction) : Nat → Prop where
  | first : code ≠ [] → Reachable code 0
  | follower {x y : Nat} {i : Instruction} :
      Reachable code x → code[x]? = some i → i.opcode.isBranch = false →
      i.follower = some y → Reachable code y
  | branch {x y : Nat} {i : Instruction} :
      Reachable code x → code[x]? = some i →
      (i.opcode = .kOpcodeJMP ∨ i.opcode = .kOpcodeJZ ∨ i.opcode = .kOpcodeJNZ ∨
        i.opcode = .kOpcodeJSR ∨ i.opcode = .kOpcodeSTORESTATE) →
      y ∈ i.branches → Reachable code y
  | tail {x y : Nat} {i : Instruction} :
      Reachable code x → code[x]? = some i →
      (i.opcode = .kOpcodeJSR ∨ i.opcode = .kOpcodeSTORESTATE) →
      i.follower = some y → Reachable code y

/-! ## Example streams -/

/-- The cycle of the spec: `JZ` at address 0 (true: address 2, false: address 1),
`JMP` back to address 0 at address 1, `RETN` at address 2. -/
def cycleStream : List Instruction :=
  [{ address := 0, opcode := .kOpcodeJZ, addressType := .kAddressTypeNone,
     branches := [2, 1], follower := some 1 },
   { address := 1, opcode := .kOpcodeJMP, addressType := .kAddressTypeNone,
     branches := [0], follower := some 2 },
   { address := 2, opcode := .kOpcodeRETN, addressType := .kAddressTypeNone,
     branches := [], follower := none }]

/-- A subroutine call: `JSR` to address 8 at address 0, `RETN` at address 4, the
subroutine (a `RETN`) at address 8. -/
def callStream : List Instruction :=
  [{ address := 0, opcode := .kOpcodeJSR, addressType := .kAddressTypeNone,
     branches := [2], follower := some 1 },
   { address := 4, opcode := .kOpcodeRETN, addressType := .kAddressTypeNone,
     branches := [], follower := some 2 },
   { address := 8, opcode := .kOpcodeRETN, addressType := .kAddressTypeSubroutineStart,
     branches := [], follower := none }]

/-- A jump into the middle of straight-line code whose destination is not
marked: two instructions without influence on control flow at addresses 0 and 1,
and a `JMP` to address 1 at address 2. -/
def unmarkedJumpStream : List Instruction :=
  [{ address := 0, opcode := .kOpcodeOther 45, addressType := .kAddressTypeNone,
     branches := [], follower := some 1 },
   { address := 1, opcode := .kOpcodeOther 45, addressType := .kAddressTypeNone,
     branches := [], follower := some 2 },
   { address := 2, opcode := .kOpcodeJMP, addressType := .kAddressTypeNone,
     branches := [1], follower := none }]

/-! ## Total partition -/

/-- Every reachable instruction occurs in the instruction list of exactly one
block, and exactly once in that list. -/
def Partitioned (code : List Instruction) (s : State) : Prop :=
  ∀ x, Reachable code x →
    ∃ (b : Nat) (bl : Block), s.blocks[b]? = some bl ∧ bl.instructions.count x = 1 ∧
      ∀ (b1 : Nat) (bl1 : Block), s.blocks[b1]? = some bl1 → x ∈ bl1.instructions → b1 = b

/-! ## One block per address -/

/-- No two blocks of the collection have the same start address. -/
def DistinctStarts (s : State) : Prop :=
  ∀ (a b : Nat) (bla blb : Block), s.blocks[a]? = some bla → s.blocks[b]? = some blb →
    bla.startAddress = blb.startAddress → a = b

/-! ## Edges of the blocks -/

/-- Instruction `t` is in the instruction list of block `c`. -/
def InBlock (s : State) (c t : Nat) : Prop :=
  ∃ bl : Block, s.blocks[c]? = some bl ∧ t ∈ bl.instructions

/-- A block whose last instruction is `JZ` or `JNZ` has exactly two children:
the block containing `branches[0]` with type ConditionalTrue, then the block
containing `branches[1]` with type ConditionalFalse. -/
def ConditionalEdges (code : List Instruction) (s : State) : Prop :=
  ∀ (b x : Nat) (bl : Block) (i : Instruction), s.blocks[b]? = some bl →
    bl.instructions.getLast? = some x → code[x]? = some i →
    (i.opcode = .kOpcodeJZ ∨ i.opcode = .kOpcodeJNZ) →
    ∃ t f ct cf, i.branches = [t, f] ∧ bl.children = [ct, cf] ∧
      bl.childrenTypes = [.kBlockEdgeTypeConditionalTrue, .kBlockEdgeTypeConditionalFalse] ∧
      InBlock s ct t ∧ InBlock s cf f

/-- A block whose last instruction is `JSR` (`STORESTATE`) has exactly two
children: the block containing `branches[0]` with type FunctionCall
(StoreState), then the block containing the follower with type FunctionReturn. -/
def CallEdges (code : List Instruction) (s : State) : Prop :=
  ∀ (b x : Nat) (bl : Block) (i : Instruction), s.blocks[b]? = some bl →
    bl.instructions.getLast? = some x → code[x]? = some i →
    (i.opcode = .kOpcodeJSR ∨ i.opcode = .kOpcodeSTORESTATE) →
    ∃ t f ct cf, i.branches = [t] ∧ i.follower = some f ∧ bl.children = [ct, cf] ∧
      bl.childrenTypes =
        [if i.opcode = .kOpcodeJSR then .kBlockEdgeTypeFunctionCall
          else .kBlockEdgeTypeStoreState, .kBlockEdgeTypeFunctionReturn] ∧
      InBlock s ct t ∧ InBlock s cf f

/-- A block whose last instruction is `JMP` has exactly one child, the block
containing `branches[0]`, with type Unconditional; a block whose last
instruction is `RETN` has no children and no edge types. -/
def JumpEdges (code : List Instruction) (s : State) : Prop :=
  ∀ (b x : Nat) (bl : Block) (i : Instruction), s.blocks[b]? = some bl →
    bl.instructions.getLast? = some x → code[x]? = some i →
    (i.opcode = .kOpcodeJMP →
      ∃ t c, i.branches = [t] ∧ bl.children = [c] ∧
        bl.childrenTypes = [.kBlockEdgeTypeUnconditional] ∧ InBlock s c t) ∧
    (i.opcode = .kOpcodeRETN → bl.children = [] ∧ bl.childrenTypes = [])

/-! ## Branch edges and block starts -/

/-- The targets of a branch instruction: every element of `branches`, and for
`JSR` and `STORESTATE` also the follower. -/
def targetsOf (i : Instruction) : List Nat :=
  match i.opcode with
  | .kOpcodeJMP => i.branches
  | .kOpcodeJZ => i.branches
  | .kOpcodeJNZ => i.branches
  | .kOpcodeJSR => i.branches ++ i.follower.toList
  | .kOpcodeSTORESTATE => i.branches ++ i.follower.toList
  | _ => []

/-- The opcode is one of `JMP`, `JZ`, `JNZ`, `JSR`, `STORESTATE`. -/
def Opcode.hasTargets (o : Opcode) : Prop :=
  o = .kOpcodeJMP ∨ o = .kOpcodeJZ ∨ o = .kOpcodeJNZ ∨ o = .kOpcodeJSR ∨
    o = .kOpcodeSTORESTATE

/-- The property as the spec has it: for every block that ends in a branch
instruction, the child linked for each target is a block whose start address is
the address of the target. -/
def TargetsStartBlocks (code : List Instruction) (s : State) : Prop :=
  ∀ (b x : Nat) (bl : Block) (i : Instruction), s.blocks[b]? = some bl →
    bl.instructions.getLast? = some x → code[x]? = some i → i.opcode.hasTargets →
    List.Forall₂
      (fun c t => ∃ (blc : Block) (tgt : Instruction), s.blocks[c]? = some blc ∧
        code[t]? = some tgt ∧ blc.startAddress = tgt.address)
      bl.children (targetsOf i)

/-- The property the code has: for every block that ends in a branch
instruction, the child linked for each target is the block that contains the
target, and its start address is the address of the target when the target is
marked (its address type is not None) or is the follower of the branch
instruction. -/
def MarkedTargetsStartBlocks (code : List Instruction) (s : State) : Prop :=
  ∀ (b x : Nat) (bl : Block) (i : Instruction), s.blocks[b]? = some bl →
    bl.instructions.getLast? = some x → code[x]? = some i → i.opcode.hasTargets →
    List.Forall₂
      (fun c t => ∃ (blc : Block) (tgt : Instruction), s.blocks[c]? = some blc ∧
        code[t]? = some tgt ∧ t ∈ blc.instructions ∧
        (tgt.addressType ≠ .kAddressTypeNone ∨ i.follower = some t →
          blc.startAddress = tgt.address))
      bl.children (targetsOf i)

/-! ## Contiguity -/

/-- The instruction list of every block is a run of consecutive instructions of
the stream: every instruction after the first is the follower of the one before
it, and the list is the list of the indices `h`, ..., `h + m - 1` of the
stream. -/
def Contiguous (code : List Instruction) (s : State) : Prop :=
  ∀ (b : Nat) (bl : Block), s.blocks[b]? = some bl →
    (∀ (n x y : Nat), bl.instructions[n]? = some x → bl.instructions[n + 1]? = some y →
      ∃ i : Instruction, code[x]? = some i ∧ i.follower = some y) ∧
    (∃ h m, h + m ≤ code.length ∧ bl.instructions = List.range' h m)

/-! ## Totality -/

/-- A stream with a cycle and an unreachable instruction: a `JMP` to itself at
address 0 and a `RETN` at address 1 that nothing reaches. -/
def selfLoopStream : List Instruction :=
  [{ address := 0, opcode := .kOpcodeJMP, addressType := .kAddressTypeJumpDestination,
     branches := [0], follower := some 1 },
   { address := 1, opcode := .kOpcodeRETN, addressType := .kAddressTypeNone,
     branches := [], follower := none }]

/-! ## Adjacency symmetry -/

/-- Block `b` is among the children of block `a` if and only if `a` is among the
parents of `b`. -/
def Symmetric (s : State) : Prop :=
  ∀ (a b : Nat) (bla blb : Block), s.blocks[a]? = some bla → s.blocks[b]? = some blb →
    (b ∈ bla.children ↔ a ∈ blb.parents)

/-- The parents and children of every block are blocks of the collection. -/
def EdgesValid (s : State) : Prop :=
  ∀ (a : Nat) (bl : Block), s.blocks[a]? = some bl →
    (∀ c ∈ bl.children, c < s.blocks.length) ∧ (∀ p ∈ bl.parents, p < s.blocks.length)

/-- The graph of `cycleStream`: the block of the `JZ`, then the block of the
`RETN` (its ConditionalTrue child), then the block of the `JMP` (its
ConditionalFalse child), which leads back to the first block. -/
def cycleGraph : State :=
  { block := fun j =>
      if j = 1 then some 2 else if j = 2 then some 1 else if j = 0 then some 0 else none,
    blocks :=
      [{ startAddress := 0, instructions := [0], parents := [2], children := [1, 2],
         childrenTypes :=
           [.kBlockEdgeTypeConditionalTrue, .kBlockEdgeTypeConditionalFalse] },
       { startAddress := 2, instructions := [2], parents := [0], children := [],
         childrenTypes := [] },
       { startAddress := 1, instructions := [1], parents := [0], children := [0],
         childrenTypes := [.kBlockEdgeTypeUnconditional] }] }

/-! ## Branch instructions only at the end of a block -/

/-- No instruction of a block before its last one influences control flow. -/
def NoInnerBranch (code : List Instruction) (s : State) : Prop :=
  ∀ (b : Nat) (bl : Block), s.blocks[b]? = some bl →
    ∀ x ∈ bl.instructions.dropLast, ∀ i : Instruction, code[x]? = some i →
      i.opcode.isBranch = false

/-- No instruction of block `b` influences control flow. -/
def NoBranchYet (code : List Instruction) (s : State) (b : Nat) : Prop :=
  ∀ bl : Block, s.blocks[b]? = some bl →
    ∀ x ∈ bl.instructions, ∀ i : Instruction, code[x]? = some i → i.opcode.isBranch = false

/-- What the loop relies on: the block it extends holds no instruction that
influences control flow. -/
def PreNoBranch (code : List Instruction) : Task → State → Prop
  | .loop b _, s => NoBranchYet code s b
  | .branch _ _ _, _ => True
  | .branches _ _, _ => True

/-- No instruction other than the last one of a block has one of the opcodes
`JMP`, `JZ`, `JNZ`, `JSR`, `RETN`, `STORESTATE`. -/
def BranchOnlyLast (code : List Instruction) (s : State) : Prop :=
  ∀ (b n x : Nat) (bl : Block) (i : Instruction), s.blocks[b]? = some bl →
    n + 1 < bl.instructions.length → bl.instructions[n]? = some x → code[x]? = some i →
    i.opcode ≠ .kOpcodeJMP ∧ i.opcode ≠ .kOpcodeJZ ∧ i.opcode ≠ .kOpcodeJNZ ∧
    i.opcode ≠ .kOpcodeJSR ∧ i.opcode ≠ .kOpcodeRETN ∧ i.opcode ≠ .kOpcodeSTORESTATE

/-- The graph of `unmarkedJumpStream`: one block with all three instructions,
which is its own child and parent. -/
def unmarkedJumpGraph : State :=
  { block := fun j =>
      if j = 2 then some 0 else if j = 1 then some 0 else if j = 0 then some 0 else none,
    blocks :=
      [{ startAddress := 0, instructions := [0, 1, 2], parents := [0], children := [0],
         childrenTypes := [.kBlockEdgeTypeUnconditional] }] }

/-! ## Empty input, parallel edge lists, the cycle scenario -/

/-- Every block has as many edge types as children. -/
def ParallelEdges (s : State) : Prop :=
  ∀ (b : Nat) (bl : Block), s.blocks[b]? = some bl →
    bl.children.length = bl.childrenTypes.length

/-- The cycle of the spec with arbitrary address types: `JZ` at address 0 with
branches to address 2 and address 1, `JMP` back to address 0 at address 1,
`RETN` at address 2; followers in address order. -/
def cycleStreamWith (t0 t1 t2 : AddressType) : List Instruction :=
  [{ address := 0, opcode := .kOpcodeJZ, addressType := t0,
     branches := [2, 1], follower := some 1 },
   { address := 1, opcode := .kOpcodeJMP, addressType := t1,
     branches := [0], follower := some 2 },
   { address := 2, opcode := .kOpcodeRETN, addressType := t2,
     branches := [], follower := none }]

/-- The graph of the cycle scenario in the words of the spec: exactly three
blocks; the block of the first instruction has the block of the third and the
block of the second instruction as children, with types ConditionalTrue and
ConditionalFalse; the block of the second instruction has the block of the
first as its one child, with type Unconditional; the block of the third
instruction has no children. -/
def IsCycleGraph (s : State) : Prop :=
  s.blocks.length = 3 ∧
  ∃ (b0 b1 b2 : Nat) (bl0 bl1 bl2 : Block),
    s.block 0 = some b0 ∧ s.block 1 = some b1 ∧ s.block 2 = some b2 ∧
    s.blocks[b0]? = some bl0 ∧ s.blocks[b1]? = some bl1 ∧ s.blocks[b2]? = some bl2 ∧
    bl0.instructions = [0] ∧ bl1.instructions = [1] ∧ bl2.instructions = [2] ∧
    bl0.children = [b2, b1] ∧
    bl0.childrenTypes =
      [.kBlockEdgeTypeConditionalTrue, .kBlockEdgeTypeConditionalFalse] ∧
    bl1.children = [b0] ∧ bl1.childrenTypes = [.kBlockEdgeTypeUnconditional] ∧
    bl2.children = [] ∧ bl2.childrenTypes = []

/-- The graph of `callStream`: the block of the `JSR`, then the block of the
subroutine, then the block of the instruction after the call. -/
def callGraph : State :=
  { block := fun j =>
      if j = 1 then some 2 else if j = 2 then some 1 else if j = 0 then some 0 else none,
    blocks :=
      [{ startAddress := 0, instructions := [0], parents := [], children := [1, 2],
         childrenTypes :=
           [.kBlockEdgeTypeFunctionCall, .kBlockEdgeTypeFunctionReturn] },
       { startAddress := 8, instructions := [2], parents := [0], children := [],
         childrenTypes := [] },
       { startAddress := 4, instructions := [1], parents := [0], children := [],
         childrenTypes := [] }] }

/-! ## The entry block and the unreached instructions -/

/-- The first block of the collection starts at the address of the first
instruction, has the first instruction as the first element of its instruction
list, and is the only block whose instruction list contains it. -/
def EntryBlock (code : List Instruction) (s : State) : Prop :=
  ∃ (first : Instruction) (bl : Block), code[0]? = some first ∧ s.blocks[0]? = some bl ∧
    bl.startAddress = first.address ∧ bl.instructions.head? = some 0 ∧
    ∀ (b1 : Nat) (bl1 : Block), s.blocks[b1]? = some bl1 → 0 ∈ bl1.instructions → b1 = 0

/-- Every instruction that has a block is reachable. -/
def AllReachable (code : List Instruction) (s : State) : Prop :=
  ∀ x c, s.block x = some c → Reachable code x

/-- What the tasks rely on: the instructions they are about to visit are
reachable. -/
def PreReachable (code : List Instruction) : Task → State → Prop
  | .loop _ oi, _ => ∀ x, oi = some x → Reachable code x
  | .branch _ d _, _ => Reachable code d
  | .branches _ l, _ => ∀ p ∈ l, Reachable code p.1

/-- The instructions that have a block back-link are the instructions that
occur in the instruction list of a block, all of them are reachable, and an
instruction that is not reachable has no back-link and occurs in no block. -/
def OnlyReachable (code : List Instruction) (s : State) : Prop :=
  (∀ x, (∃ c, s.block x = some c) ↔
    ∃ (b : Nat) (bl : Block), s.blocks[b]? = some bl ∧ x ∈ bl.instructions) ∧
  (∀ x c, s.block x = some c → Reachable code x) ∧
  (∀ (b x : Nat) (bl : Block), s.blocks[b]? = some bl → x ∈ bl.instructions →
    Reachable code x) ∧
  (∀ x, ¬ Reachable code x →
    s.block x = none ∧
    ∀ (b : Nat) (bl : Block), s.blocks[b]? = some bl → x ∉ bl.instructions)

/-- A stream with an instruction that nothing reaches: a `RETN` at address 0 and
an instruction at address 1 behind it. -/
def deadCodeStream : List Instruction :=
  [{ address := 0, opcode := .kOpcodeRETN, addressType := .kAddressTypeNone,
     branches := [], follower := some 1 },
   { address := 1, opcode := .kOpcodeOther 45, addressType := .kAddressTypeNone,
     branches := [], follower := none }]

/-! ## Start address of the blocks -/

/-- The instruction list of the block is not empty and the start address of the
block is the address of the first instruction of the list. -/
def HeadOK (code : List Instruction) (bl : Block) : Prop :=
  ∃ (h : Nat) (t : List Nat) (i : Instruction),
    bl.instructions = h :: t ∧ code[h]? = some i ∧ bl.startAddress = i.address

/-- Every block of the collection has a non-empty instruction list and starts at
the address of its first instruction. -/
def StartsAtHead (code : List Instruction) (s : State) : Prop :=
  ∀ (b : Nat) (bl : Block), s.blocks[b]? = some bl → HeadOK code bl

/-- What the tasks rely on for the start addresses: every block other than the
one the loop extends starts at its first instruction, and the block the loop
extends does so too or is still empty, with the loop at the instruction at its
start address, which has no block. -/
def PreHead (code : List Instruction) : Task → State → Prop
  | .loop b oi, s =>
    (∀ (k : Nat) (bl : Block), k ≠ b → s.blocks[k]? = some bl → HeadOK code bl) ∧
    (∀ bl : Block, s.blocks[b]? = some bl →
      HeadOK code bl ∨
      (bl.instructions = [] ∧ ∃ (x : Nat) (i : Instruction), oi = some x ∧
        code[x]? = some i ∧ bl.startAddress = i.address ∧ s.block x = none))
  | .branch _ _ _, s => StartsAtHead code s
  | .branches _ _, s => StartsAtHead code s

/-- A single `RETN`. -/
def returnStream : List Instruction :=
  [{ address := 0, opcode := .kOpcodeRETN, addressType := .kAddressTypeNone,
     branches := [], follower := none }]

/-- Back-links on entry in which the first instruction already points to the
first block. -/
def firstHasBlock : Nat → Option Nat := fun j => if j = 0 then some 0 else none

/-- The result for `returnStream` when the first instruction has a block on
entry: the entry block stays empty and is linked to the block of the first
instruction, here itself. -/
def emptyEntryGraph : State :=
  { block := firstHasBlock,
    blocks :=
      [{ startAddress := 0, instructions := [], parents := [0], children := [0],
         childrenTypes := [.kBlockEdgeTypeUnconditional] }] }

/-! ## The parents of a block -/

/-- The property as the spec has it: no block occurs more than once in the
parents of a block. -/
def ParentsAreSet (s : State) : Prop :=
  ∀ (b : Nat) (bl : Block), s.blocks[b]? = some bl → bl.parents.Nodup

/-- A block `a` occurs in the parents of a block `b` as many times as `b` occurs
in the children of `a`: once per edge. -/
def ParentsPerEdge (s : State) : Prop :=
  ∀ (a b : Nat) (bla blb : Block), s.blocks[a]? = some bla → s.blocks[b]? = some blb →
    blb.parents.count a = bla.children.count b

/-- The property the code has: the parents of a block hold one entry per edge
into the block, and no block occurs in them more than twice. -/
def ParentsOncePerEdge (s : State) : Prop :=
  ParentsPerEdge s ∧
  ∀ (a b : Nat) (bl : Block), s.blocks[b]? = some bl → bl.parents.count a ≤ 2

/-- A conditional jump whose two branches are the same instruction: `JZ` at
address 0 with both branches to address 1, `RETN` at address 1. -/
def sameTargetStream : List Instruction :=
  [{ address := 0, opcode := .kOpcodeJZ, addressType := .kAddressTypeNone,
     branches := [1, 1], follower := some 1 },
   { address := 1, opcode := .kOpcodeRETN, addressType := .kAddressTypeJumpDestination,
     branches := [], follower := none }]

/-- The graph of `sameTargetStream`: the block of the `JZ` has the block of the
`RETN` as child twice, and the block of the `RETN` has the block of the `JZ` as
parent twice. -/
def sameTargetGraph : State :=
  { block := fun j => if j = 1 then some 1 else if j = 0 then some 0 else none,
    blocks :=
      [{ startAddress := 0, instructions := [0], parents := [], children := [1, 1],
         childrenTypes :=
           [.kBlockEdgeTypeConditionalTrue, .kBlockEdgeTypeConditionalFalse] },
       { startAddress := 1, instructions := [1], parents := [0, 0], children := [],
         childrenTypes := [] }] }

/-! ## Arity of `RETN` -/

/-- The property as the spec has it: construction returns no graph in which a
`RETN` with a non-empty `branches` list was put into a block. -/
def ReturnArityEnforced (code : List Instruction) : Prop :=
  ∀ (fuel : Nat) (s : State), constructBlocks fuel code noBlock [] = .ok s →
    ∀ (b x : Nat) (bl : Block) (i : Instruction), s.blocks[b]? = some bl →
      x ∈ bl.instructions → code[x]? = some i → i.opcode = .kOpcodeRETN → i.branches = []

/-- A `RETN` with a branch: its `branches` list holds the instruction itself. -/
def returnWithBranchStream : List Instruction :=
  [{ address := 0, opcode := .kOpcodeRETN, addressType := .kAddressTypeNone,
     branches := [0], follower := none }]

/-- The graph of a stream of one `RETN`: one block without edges. -/
def returnGraph : State :=
  { block := fun j => if j = 0 then some 0 else none,
    blocks :=
      [{ startAddress := 0, instructions := [0], parents := [], children := [],
         childrenTypes := [] }] }

/-! ## Termination -/

/-- The loop starts a descent: block `b` is still empty and the loop is at an
instruction of the stream that has no block. -/
def Fresh (code : List Instruction) (s : State) (b : Nat) (oi : Option Nat) : Prop :=
  ∃ (bl : Block) (x : Nat), s.blocks[b]? = some bl ∧ bl.instructions = [] ∧ oi = some x ∧
    x < code.length ∧ s.block x = none

/-- The fuel is enough for the loop, whatever the input: two units per
instruction without a block, and one more unless the loop starts a descent. -/
def EnoughAny (code : List Instruction) (fuel : Nat) (s : State) (b : Nat)
    (oi : Option Nat) : Prop :=
  2 * unassigned code s + 1 ≤ fuel ∨ (Fresh code s b oi ∧ 2 * unassigned code s ≤ fuel)

/-- The block a task works on. -/
def Task.block : Task → Nat
  | .loop b _ => b
  | .branch b _ _ => b
  | .branches b _ => b

/-- A task leaves the instruction lists of the other blocks that exist when it
starts as they are. -/
def OthersKept (s : State) (b : Nat) (s1 : State) : Prop :=
  ∀ (k : Nat) (bl : Block), k ≠ b → s.blocks[k]? = some bl →
    ∃ bl1 : Block, s1.blocks[k]? = some bl1 ∧ bl1.instructions = bl.instructions

/-- Termination of the construction on the stream `code` with the fuel `fuel`:
`constructBlocks` does not run out of fuel, whatever the back-links and blocks
on entry; `addBranchBlock` asks for a descent only into a block it has just
created, for an instruction of the stream that has no block; `branchTo` does
not descend for an instruction that has a block; a descent lowers the number
of instructions without a block; and a run of the loop on a block leaves the
instruction lists of all other blocks that exist when it starts as they are. -/
def Terminating (code : List Instruction) (fuel : Nat) : Prop :=
  (∀ (block0 : Nat → Option Nat) (blocks : List Block),
    constructBlocks fuel code block0 blocks ≠ .error .outOfFuel) ∧
  (∀ (s s1 : State) (b d bb : Nat) (ty : BlockEdgeType),
    addBranchBlock code s b d ty = .ok (s1, bb, true) →
    s.block d = none ∧ bb = s.blocks.length ∧ Fresh code s1 bb (some d)) ∧
  (∀ (r1 r2 : State → Nat → Option Nat → Except Error State) (s : State) (b d c : Nat)
    (ty : BlockEdgeType), s.block d = some c →
    branchTo r1 code s b d ty = branchTo r2 code s b d ty) ∧
  (∀ (n : Nat) (s s1 : State) (b x : Nat), Fresh code s b (some x) →
    constructBlocksFrom code n s b (some x) = .ok s1 →
    unassigned code s1 < unassigned code s) ∧
  (∀ (n : Nat) (s s1 : State) (b : Nat) (oi : Option Nat),
    constructBlocksFrom code n s b oi = .ok s1 → OthersKept s b s1)

/-! ## Malformed arity -/

/-- The arity of a jump or call is malformed: a `JMP`, `JSR` or `STORESTATE`
whose `branches` list does not have exactly one element, a `JZ` or `JNZ` whose
`branches` list does not have exactly two elements, or a `JSR` or `STORESTATE`
without a follower. -/
def malformedArity (i : Instruction) : Bool :=
  match i.opcode with
  | .kOpcodeJMP => i.branches.length != 1
  | .kOpcodeJZ => i.branches.length != 2
  | .kOpcodeJNZ => i.branches.length != 2
  | .kOpcodeJSR => i.branches.length != 1 || i.follower.isNone
  | .kOpcodeSTORESTATE => i.branches.length != 1 || i.follower.isNone
  | _ => false

/-- The function that carries out a task with the given fuel. -/
def runTask (code : List Instruction) (fuel : Nat) : Task → State → Except Error State
  | .loop b oi, s => constructBlocksFrom code fuel s b oi
  | .branch b d ty, s => branchTo (constructBlocksFrom code fuel) code s b d ty
  | .branches b l, s => branchAll (constructBlocksFrom code fuel) code s b l

/-- The task started in state `s` reaches an instruction with malformed arity,
that is, its loop puts such an instruction into a block.  Rule `here` is the
loop at such an instruction; the other rules are the paths of the code that
lead on to a later task that reaches one. -/
inductive ReachesMalformed (code : List Instruction) : Task → State → Prop where
  | here {s : State} {b x : Nat} {i : Instruction} {bl : Block} :
      code[x]? = some i → s.block x = none → s.blocks[b]? = some bl →
      ¬ (i.addressType ≠ .kAddressTypeNone ∧ bl.instructions ≠ []) →
      malformedArity i = true →
      ReachesMalformed code (.loop b (some x)) s
  | loopSplit {s : State} {b x : Nat} {i : Instruction} {bl : Block} :
      code[x]? = some i → s.block x = none → s.blocks[b]? = some bl →
      i.addressType ≠ .kAddressTypeNone → bl.instructions ≠ [] →
      ReachesMalformed code (.branch b x .kBlockEdgeTypeUnconditional) s →
      ReachesMalformed code (.loop b (some x)) s
  | loopBranch {s : State} {b x : Nat} {i : Instruction} {bl : Block}
      {l : List (Nat × BlockEdgeType)} :
      code[x]? = some i → s.block x = none → s.blocks[b]? = some bl →
      ¬ (i.addressType ≠ .kAddressTypeNone ∧ bl.instructions ≠ []) →
      i.opcode.isBranch = true → branchTargets i = some l →
      ReachesMalformed code (.branches b l) (putInstruction s b bl x) →
      ReachesMalformed code (.loop b (some x)) s
  | loopNext {s : State} {b x : Nat} {i : Instruction} {bl : Block} :
      code[x]? = some i → s.block x = none → s.blocks[b]? = some bl →
      ¬ (i.addressType ≠ .kAddressTypeNone ∧ bl.instructions ≠ []) →
      i.opcode.isBranch = false →
      ReachesMalformed code (.loop b i.follower) (putInstruction s b bl x) →
      ReachesMalformed code (.loop b (some x)) s
  | branchNew {s s1 : State} {b d : Nat} {ty : BlockEdgeType} {i : Instruction} :
      code[d]? = some i → s.block d = none →
      linkBlocks { s with blocks := s.blocks ++ [Block.new i.address] } b s.blocks.length ty
        = .ok s1 →
      ReachesMalformed code (.loop s.blocks.length (some d)) s1 →
      ReachesMalformed code (.branch b d ty) s
  | branchesHead {s : State} {b d : Nat} {ty : BlockEdgeType}
      {rest : List (Nat × BlockEdgeType)} :
      ReachesMalformed code (.branch b d ty) s →
      ReachesMalformed code (.branches b ((d, ty) :: rest)) s
  | branchesTail {s s1 : State} {b d : Nat} {ty : BlockEdgeType}
      {rest : List (Nat × BlockEdgeType)} :
      Exec code (.branch b d ty) s s1 → ReachesMalformed code (.branches b rest) s1 →
      ReachesMalformed code (.branches b ((d, ty) :: rest)) s

/-- The run of `constructBlocks` on the stream, started with the back-links
`block0` and no blocks, reaches an instruction with malformed arity. -/
def ReachesMalformedRun (code : List Instruction) (block0 : Nat → Option Nat) : Prop :=
  ∃ (first : Instruction) (rest : List Instruction), code = first :: rest ∧
    ReachesMalformed code (.loop 0 (some 0))
      { block := block0, blocks := [Block.new first.address] }

/-- Malformed arity aborts the construction of the graph of `code` with fuel
`fuel`: `followBranchBlock` fails its assertion on an instruction with
malformed arity; a run of `constructBlocks` that reaches such an instruction
ends with the assertion failure; and a graph that `constructBlocks` returns
holds no such instruction. -/
def AbortsOnMalformed (code : List Instruction) (fuel : Nat) : Prop :=
  (∀ (recurse : State → Nat → Option Nat → Except Error State) (s : State) (b : Nat)
    (i : Instruction), malformedArity i = true →
    followBranchBlock recurse code s b i = .error .assertionFailed) ∧
  (∀ block0 : Nat → Option Nat, ReachesMalformedRun code block0 →
    constructBlocks fuel code block0 [] = .error .assertionFailed) ∧
  (∀ (block0 : Nat → Option Nat) (blocks : List Block) (s : State),
    constructBlocks fuel code block0 blocks = .ok s →
    ∀ (b x : Nat) (bl : Block) (i : Instruction), s.blocks[b]? = some bl →
      x ∈ bl.instructions → code[x]? = some i → malformedArity i = false)

/-- A stream whose second instruction is a `JMP` without a branch. -/
def malformedJumpStream : List Instruction :=
  [{ address := 0, opcode := .kOpcodeOther 45, addressType := .kAddressTypeNone,
     branches := [], follower := some 1 },
   { address := 1, opcode := .kOpcodeJMP, addressType := .kAddressTypeNone,
     branches := [], follower := none }]

/-! ## Fallthrough edges -/

/-- A block whose last instruction does not influence control flow has no
children if that instruction has no follower; otherwise it has exactly one
child, with edge type Unconditional, and that child is the one block whose
first instruction is the follower. -/
def FallthroughEdges (code : List Instruction) (s : State) : Prop :=
  ∀ (b x : Nat) (bl : Block) (i : Instruction), s.blocks[b]? = some bl →
    bl.instructions.getLast? = some x → code[x]? = some i → i.opcode.isBranch = false →
    (i.follower = none → bl.children = [] ∧ bl.childrenTypes = []) ∧
    (∀ f, i.follower = some f →
      ∃ (c : Nat) (blc : Block), bl.children = [c] ∧
        bl.childrenTypes = [.kBlockEdgeTypeUnconditional] ∧
        s.blocks[c]? = some blc ∧ blc.instructions.head? = some f ∧
        ∀ (c1 : Nat) (bl1 : Block), s.blocks[c1]? = some bl1 →
          bl1.instructions.head? = some f → c1 = c)

/-- A stream with a fallthrough into a marked instruction: the instruction at
address 0 falls through to the `RETN` at address 1, which is marked as a jump
destination. -/
def fallthroughStream : List Instruction :=
  [ { address := 0, opcode := .kOpcodeOther 0, addressType := .kAddressTypeNone,
      branches := [], follower := some 1 },
    { address := 1, opcode := .kOpcodeRETN, addressType := .kAddressTypeJumpDestination,
      branches := [], follower := none } ]

/-! ## Convergence on a jump destination -/

/-- Both a jump and a fallthrough reach the marked instruction `t`: exactly one
block has the start address of `t`, `t` is its first instruction, and it is
the only child, with edge type Unconditional, of the block that ends in the
`JMP` at `j` and of the block that contains the instruction `p` before `t`. -/
def Converges (code : List Instruction) (s : State) (t j p : Nat) : Prop :=
  ∃ (c : Nat) (blc : Block) (T : Instruction), code[t]? = some T ∧
    s.blocks[c]? = some blc ∧ blc.startAddress = T.address ∧
    blc.instructions.head? = some t ∧
    (∀ (c1 : Nat) (bl1 : Block), s.blocks[c1]? = some bl1 →
      bl1.startAddress = T.address → c1 = c) ∧
    (∃ (bj : Nat) (blj : Block), s.blocks[bj]? = some blj ∧
      blj.instructions.getLast? = some j ∧ blj.children = [c] ∧
      blj.childrenTypes = [.kBlockEdgeTypeUnconditional]) ∧
    (∃ (bp : Nat) (blp : Block), s.blocks[bp]? = some blp ∧ p ∈ blp.instructions ∧
      blp.children = [c] ∧ blp.childrenTypes = [.kBlockEdgeTypeUnconditional])

/-- The split-on-target scenario of the spec: the `JZ` at address 1 leads to the
`JMP` at address 2, which targets address 5, and to address 3, from where the
path falls through address 4 into address 5. -/
def splitOnTargetStream : List Instruction :=
  [ { address := 0, opcode := .kOpcodeOther 0, addressType := .kAddressTypeNone,
      branches := [], follower := some 1 },
    { address := 1, opcode := .kOpcodeJZ, addressType := .kAddressTypeNone,
      branches := [3, 2], follower := some 2 },
    { address := 2, opcode := .kOpcodeJMP, addressType := .kAddressTypeNone,
      branches := [5], follower := some 3 },
    { address := 3, opcode := .kOpcodeOther 0, addressType := .kAddressTypeJumpDestination,
      branches := [], follower := some 4 },
    { address := 4, opcode := .kOpcodeOther 0, addressType := .kAddressTypeNone,
      branches := [], follower := some 5 },
    { address := 5, opcode := .kOpcodeRETN, addressType := .kAddressTypeJumpDestination,
      branches := [], follower := none } ]

/-! ## Number of blocks -/

/-- Instruction `d` is a destination of a branch: some instruction of the stream
has it among the destinations `followBranchBlock` follows (a branch of a `JMP`,
`JZ`, `JNZ`, `JSR` or `STORESTATE`, or the follower of a `JSR` or `STORESTATE`). -/
def isDestination (code : List Instruction) (d : Nat) : Bool :=
  code.any (fun i => ((branchTargets i).getD []).any (fun p => p.1 == d))

/-- The distinct addresses that are the entry address or the address of a
marked instruction. -/
def entryOrMarkedAddresses (code : List Instruction) : List Nat :=
  (code.enum.filterMap (fun p =>
    if p.1 = 0 ∨ p.2.addressType ≠ .kAddressTypeNone then some p.2.address else none)).dedup

/-- The distinct addresses that are the entry address, the address of a marked
instruction, or the address of a destination of a branch. -/
def blockStartAddresses (code : List Instruction) : List Nat :=
  (code.enum.filterMap (fun p =>
    if p.1 = 0 ∨ p.2.addressType ≠ .kAddressTypeNone ∨ isDestination code p.1 = true
    then some p.2.address else none)).dedup

/-- There are at most as many blocks as entry or marked addresses. -/
def BoundedByMarked (code : List Instruction) (s : State) : Prop :=
  s.blocks.length ≤ (entryOrMarkedAddresses code).length

/-- There are at most as many blocks as entry addresses, marked addresses and
addresses of branch destinations. -/
def BoundedByStarts (code : List Instruction) (s : State) : Prop :=
  s.blocks.length ≤ (blockStartAddresses code).length

/-- Instruction `d` may start a block: it is the first instruction, it is
marked, or it is a destination of a branch. -/
def StartCandidate (code : List Instruction) (d : Nat) : Prop :=
  d = 0 ∨ (∃ i, code[d]? = some i ∧ i.addressType ≠ .kAddressTypeNone) ∨
  ∃ (x : Nat) (i : Instruction) (l : List (Nat × BlockEdgeType)) (ty : BlockEdgeType),
    code[x]? = some i ∧ branchTargets i = some l ∧ (d, ty) ∈ l

/-- Every block starts at the address of an instruction that may start a block. -/
def AllStarts (code : List Instruction) (s : State) : Prop :=
  ∀ (b : Nat) (bl : Block), s.blocks[b]? = some bl →
    ∃ (d : Nat) (i : Instruction), code[d]? = some i ∧ i.address = bl.startAddress ∧
      StartCandidate code d

/-- What a task needs for `AllStarts`: the destinations it is about to follow
may start a block. -/
def PreStarts (code : List Instruction) : Task → Prop
  | .loop _ _ => True
  | .branch _ d _ => StartCandidate code d
  | .branches _ l => ∀ p ∈ l, StartCandidate code p.1

/-! ## Straight-line code -/

/-- Straight-line code: a well-formed stream whose last instruction is `RETN`,
whose other instructions do not influence control flow, and in which no
instruction after the first is marked. -/
def StraightLine (code : List Instruction) : Prop :=
  WellFormed code ∧
  code.getLast?.map (fun i => i.opcode) = some .kOpcodeRETN ∧
  (∀ k, k < code.length - 1 → (code[k]?).map (fun i => i.opcode.isBranch) = some false) ∧
  (∀ k, k < code.length → 0 < k →
    (code[k]?).map (fun i => i.addressType) = some .kAddressTypeNone)

instance (code : List Instruction) : Decidable (StraightLine code) := by
  unfold StraightLine
  infer_instance

/-- Straight-line code with the marks restricted only on the instructions
before the final `RETN`: a well-formed stream whose last instruction is `RETN`,
whose other instructions do not influence control flow, and in which none of
these other instructions after the first is marked.  The final `RETN` may be
marked. -/
def StraightLineStated (code : List Instruction) : Prop :=
  WellFormed code ∧
  code.getLast?.map (fun i => i.opcode) = some .kOpcodeRETN ∧
  (∀ k, k < code.length - 1 → (code[k]?).map (fun i => i.opcode.isBranch) = some false) ∧
  (∀ k, k < code.length - 1 → 0 < k →
    (code[k]?).map (fun i => i.addressType) = some .kAddressTypeNone)

instance (code : List Instruction) : Decidable (StraightLineStated code) := by
  unfold StraightLineStated
  infer_instance

/-- The graph of `fallthroughStream`: the block of the instruction at address
0, and the block of the marked `RETN`, its Unconditional child. -/
def fallthroughGraph : State :=
  { block := fun j => if j = 1 then some 1 else if j = 0 then some 0 else none,
    blocks :=
      [{ startAddress := 0, instructions := [0], parents := [], children := [1],
         childrenTypes := [.kBlockEdgeTypeUnconditional] },
       { startAddress := 1, instructions := [1], parents := [0], children := [],
         childrenTypes := [] }] }

/-- The graph is one block that holds the first `k` instructions of the stream
in order and has no children. -/
def OneBlock (s : State) (k : Nat) : Prop :=
  ∃ bl : Block, s.blocks = [bl] ∧ bl.instructions = List.range k ∧
    bl.children = [] ∧ bl.childrenTypes = []

/-- The straight-line scenario of the spec: five instructions without influence
on control flow at addresses 0 to 4, then `RETN` at address 5. -/
def straightLineStream : List Instruction :=
  [ { address := 0, opcode := .kOpcodeOther 1, addressType := .kAddressTypeSubroutineStart,
      branches := [], follower := some 1 },
    { address := 1, opcode := .kOpcodeOther 2, addressType := .kAddressTypeNone,
      branches := [], follower := some 2 },
    { address := 2, opcode := .kOpcodeOther 3, addressType := .kAddressTypeNone,
      branches := [], follower := some 3 },
    { address := 3, opcode := .kOpcodeOther 4, addressType := .kAddressTypeNone,
      branches := [], follower := some 4 },
    { address := 4, opcode := .kOpcodeOther 5, addressType := .kAddressTypeNone,
      branches := [], follower := some 5 },
    { address := 5, opcode := .kOpcodeRETN, addressType := .kAddressTypeNone,
      branches := [], follower := none } ]

/-! ## Marked instructions start a block -/

/-- A marked instruction is the first element of the instruction list of the
block that holds it: at every later position of every instruction list stands
an instruction that is not marked. -/
def MarkedFirst (code : List Instruction) (s : State) : Prop :=
  ∀ (b k x : Nat) (bl : Block) (i : Instruction), s.blocks[b]? = some bl →
    bl.instructions[k]? = some x → code[x]? = some i →
    i.addressType ≠ .kAddressTypeNone → k = 0

/-! ## Effect of `addBranchBlock` -/

/-- What the call `addBranchBlock(blocks, block, destination, branchBlock, type)`
does: the back-links are unchanged; if the destination (the instruction `d`)
has no block, one block is appended, which is empty, starts at the address of
the destination and has `block` as its one parent, and `needAdd` is true;
otherwise no block is appended and `needAdd` is false; every block that
existed keeps its start address and its instruction list, its parents with
`block` appended if it is the block of the branch, and its children and edge
types, with the block of the branch and `type` appended if it is `block`. -/
def AppendsOnly (code : List Instruction) (s : State) (block d : Nat) (type : BlockEdgeType)
    (s1 : State) (branchBlock : Nat) (needAdd : Bool) : Prop :=
  s1.block = s.block ∧
  (∀ (i : Instruction), code[d]? = some i → s.block d = none →
    needAdd = true ∧ branchBlock = s.blocks.length ∧
    s1.blocks.length = s.blocks.length + 1 ∧
    s1.blocks[branchBlock]? =
      some { startAddress := i.address, instructions := [], parents := [block],
             children := [], childrenTypes := [] }) ∧
  (∀ (c : Nat), s.block d = some c →
    needAdd = false ∧ branchBlock = c ∧ s1.blocks.length = s.blocks.length) ∧
  ∀ (k : Nat) (bl : Block), s.blocks[k]? = some bl →
    ∃ bl1 : Block, s1.blocks[k]? = some bl1 ∧ bl1.startAddress = bl.startAddress ∧
      bl1.instructions = bl.instructions ∧
      bl1.parents = (if k = branchBlock then bl.parents ++ [block] else bl.parents) ∧
      bl1.children = (if k = block then bl.children ++ [branchBlock] else bl.children) ∧
      bl1.childrenTypes = (if k = block then bl.childrenTypes ++ [type] else bl.childrenTypes)

/-! ## Opcodes `followBranchBlock` does not know -/

/-- The property as the claim has it: `followBranchBlock` does not return for an
instruction whose opcode is none of the six that influence control flow. -/
def AbortsOnOtherOpcode : Prop :=
  ∀ (recurse : State → Nat → Option Nat → Except Error State) (code : List Instruction)
    (s : State) (block : Nat) (i : Instruction), i.opcode.isBranch = false →
    ∃ e, followBranchBlock recurse code s block i = .error e

/-! ## Connectedness of the graph -/

/-- Every block but the first has a parent that stands before it in the
collection. -/
def ParentEarlier (s : State) : Prop :=
  ∀ (k : Nat) (bl : Block), s.blocks[k]? = some bl → 0 < k → ∃ p ∈ bl.parents, p < k

/-- The blocks that can be reached from the first block of the collection by
following children edges. -/
inductive BlockReachable (s : State) : Nat → Prop where
  | entry : 0 < s.blocks.length → BlockReachable s 0
  | child {p k : Nat} {bl : Block} :
      BlockReachable s p → s.blocks[p]? = some bl → k ∈ bl.children → BlockReachable s k

/-- The graph is connected in the order of discovery: every block but the first
has an earlier parent, and every block is reachable from the first. -/
def Connected (s : State) : Prop :=
  ParentEarlier s ∧ ∀ k, k < s.blocks.length → BlockReachable s k

/-! ## Back-links -/

/-- The big-step relation of the builder with the log of the executions of
line 98: `ExecLog code t s s1 log` says that task `t` started in state `s`
completes in state `s1`, and that `log` lists, in order, the instructions whose
`block` member it wrote, each with the block written. -/
inductive ExecLog (code : List Instruction) : Task → State → State → List (Nat × Nat) → Prop
    where
  | loopEnd (s : State) (b : Nat) : ExecLog code (.loop b none) s s []
  | loopSeen {s s1 : State} {b x c : Nat} {i : Instruction} :
      code[x]? = some i → s.block x = some c →
      linkBlocks s b c .kBlockEdgeTypeUnconditional = .ok s1 →
      ExecLog code (.loop b (some x)) s s1 []
  | loopSplit {s s1 : State} {b x : Nat} {i : Instruction} {bl : Block}
      {log : List (Nat × Nat)} :
      code[x]? = some i → s.block x = none → s.blocks[b]? = some bl →
      i.addressType ≠ .kAddressTypeNone → bl.instructions ≠ [] →
      ExecLog code (.branch b x .kBlockEdgeTypeUnconditional) s s1 log →
      ExecLog code (.loop b (some x)) s s1 log
  | loopBranch {s s1 : State} {b x : Nat} {i : Instruction} {bl : Block}
      {l : List (Nat × BlockEdgeType)} {log : List (Nat × Nat)} :
      code[x]? = some i → s.block x = none → s.blocks[b]? = some bl →
      ¬ (i.addressType ≠ .kAddressTypeNone ∧ bl.instructions ≠ []) →
      i.opcode.isBranch = true → branchTargets i = some l →
      ExecLog code (.branches b l) (putInstruction s b bl x) s1 log →
      ExecLog code (.loop b (some x)) s s1 ((x, b) :: log)
  | loopNext {s s1 : State} {b x : Nat} {i : Instruction} {bl : Block}
      {log : List (Nat × Nat)} :
      code[x]? = some i → s.block x = none → s.blocks[b]? = some bl →
      ¬ (i.addressType ≠ .kAddressTypeNone ∧ bl.instructions ≠ []) →
      i.opcode.isBranch = false →
      ExecLog code (.loop b i.follower) (putInstruction s b bl x) s1 log →
      ExecLog code (.loop b (some x)) s s1 ((x, b) :: log)
  | branchOld {s s1 : State} {b d c : Nat} {ty : BlockEdgeType} {i : Instruction} :
      code[d]? = some i → s.block d = some c → linkBlocks s b c ty = .ok s1 →
      ExecLog code (.branch b d ty) s s1 []
  | branchNew {s s1 s2 : State} {b d : Nat} {ty : BlockEdgeType} {i : Instruction}
      {log : List (Nat × Nat)} :
      code[d]? = some i → s.block d = none →
      linkBlocks { s with blocks := s.blocks ++ [Block.new i.address] } b s.blocks.length ty
        = .ok s1 →
      ExecLog code (.loop s.blocks.length (some d)) s1 s2 log →
      ExecLog code (.branch b d ty) s s2 log
  | branchesNil (s : State) (b : Nat) : ExecLog code (.branches b []) s s []
  | branchesCons {s s1 s2 : State} {b d : Nat} {ty : BlockEdgeType}
      {rest : List (Nat × BlockEdgeType)} {log1 log2 : List (Nat × Nat)} :
      ExecLog code (.branch b d ty) s s1 log1 → ExecLog code (.branches b rest) s1 s2 log2 →
      ExecLog code (.branches b ((d, ty) :: rest)) s s2 (log1 ++ log2)

/-- The log of the back-links a run of `constructBlocks` wrote: none for the
empty stream, and the log of the loop on the first block otherwise. -/
def RunLog (code : List Instruction) (block0 : Nat → Option Nat) (s : State)
    (log : List (Nat × Nat)) : Prop :=
  (code = [] ∧ log = []) ∨
  ∃ first rest, code = first :: rest ∧
    ExecLog code (.loop 0 (some 0)) { block := block0, blocks := [Block.new first.address] }
      s log

/-- What a log says of the states before and after: a back-link that is set is
kept, every instruction of the log had no back-link before and has the one
written after, no instruction is in the log twice, and an instruction that is
not in the log has the back-link it had. -/
structure WrittenOnce (s s1 : State) (log : List (Nat × Nat)) : Prop where
  keep : ∀ x c, s.block x = some c → s1.block x = some c
  fresh : ∀ x b, (x, b) ∈ log → s.block x = none ∧ s1.block x = some b
  once : (log.map Prod.fst).Nodup
  others : ∀ x, x ∉ log.map Prod.fst → s1.block x = s.block x

/-- The back-links are consistent and written once: a back-link refers to a
block of the collection and an instruction has the back-link `b` if and only
if it occurs in the instruction list of block `b`; the run has a log of the
back-links written in which no instruction occurs twice, and the back-links
after the run are the ones of the log. -/
def BackLinksConsistent (code : List Instruction) (s : State) : Prop :=
  Consistent s ∧
  ∃ log, RunLog code noBlock s log ∧ (log.map Prod.fst).Nodup ∧
    ∀ x b, s.block x = some b ↔ (x, b) ∈ log

end NWScript

namespace Common

/-! ## Memory write streams (`src/common/memwritestream.cpp`)

Memory is modelled as a function from the offset in an array to the byte at
that offset; a pointer into an array is the offset from its start.  Values of
type `size_t` are natural numbers below `2 ^ 64`, and the arithmetic on them
wraps around at `2 ^ 64`. -/

/-- Addition of two `size_t` values. -/
def addSize (a b : Nat) : Nat := (a + b) % 2 ^ 64

/-- Subtraction of two `size_t` values. -/
def subSize (a b : Nat) : Nat := (a + 2 ^ 64 - b % 2 ^ 64) % 2 ^ 64

/-- Multiplication of two `size_t` values. -/
def mulSize (a b : Nat) : Nat := (a * b) % 2 ^ 64

/-- The call `std::memcpy(dst + off, src, n)`: the bytes at the offsets
`off .. off + n - 1` of `dst` become the first `n` bytes of `src`. -/
def memcpy (dst : Nat → Nat) (off : Nat) (src : Nat → Nat) (n : Nat) : Nat → Nat :=
  fun i => if off ≤ i ∧ i < off + n then src (i - off) else dst i

/-- The members of a `MemoryWriteStream`.  `mem` is the memory at the address
`buf` the stream was constructed with, and `ptr` is the member `_ptr` as an
offset from `buf`. -/
structure MemoryWriteStream where
  mem : Nat → Nat
  ptr : Nat
  bufSize : Nat
  pos : Nat

/-- The constructor `MemoryWriteStream(buf, len)` (lines 57-58). -/
def MemoryWriteStream.new (buf : Nat → Nat) (len : Nat) : MemoryWriteStream :=
  { mem := buf, ptr := 0, bufSize := len, pos := 0 }

/-- The method `MemoryWriteStream::write` (lines 63-74); the result is the
stream after the call and the value returned. -/
def MemoryWriteStream.write (s : MemoryWriteStream) (dataPtr : Nat → Nat) (dataSize : Nat) :
    MemoryWriteStream × Nat :=
  let dataSize1 :=
    if dataSize > subSize s.bufSize s.pos then subSize s.bufSize s.pos else dataSize
  ({ s with
      mem := memcpy s.mem s.ptr dataPtr dataSize1,
      ptr := s.ptr + dataSize1,
      pos := addSize s.pos dataSize1 },
   dataSize1)

/-- The method `MemoryWriteStream::pos` (lines 76-78). -/
def MemoryWriteStream.getPos (s : MemoryWriteStream) : Nat := s.pos

/-- The method `MemoryWriteStream::size` (lines 80-82). -/
def MemoryWriteStream.size (s : MemoryWriteStream) : Nat := s.bufSize

/-- A sequence of calls of `write`, each given by its data and its size. -/
def MemoryWriteStream.writeAll (s : MemoryWriteStream) :
    List ((Nat → Nat) × Nat) → MemoryWriteStream
  | [] => s
  | (dataPtr, dataSize) :: rest => (s.write dataPtr dataSize).1.writeAll rest

/-- What one call `write(data, n)` does to a stream over a buffer of length
`len`: it returns `min n (len - pos)`, stores that many bytes of `data` at the
offset `pos` of the buffer, advances `pos` by that amount, and changes no other
byte; afterwards `pos() ≤ size() = len`. -/
def Truncates (len : Nat) (s : MemoryWriteStream) (data : Nat → Nat) (n : Nat) : Prop :=
  let r := s.write data n
  r.2 = min n (len - s.getPos) ∧
  r.1.getPos = s.getPos + r.2 ∧
  (∀ i, s.getPos ≤ i → i < s.getPos + r.2 → r.1.mem i = data (i - s.getPos)) ∧
  (∀ i, ¬ (s.getPos ≤ i ∧ i < s.getPos + r.2) → r.1.mem i = s.mem i) ∧
  r.1.getPos ≤ r.1.size ∧ r.1.size = len

/-- Ways in which a call on a growable stream does not return. -/
inductive Error where
  | outOfBounds
  | outOfFuel
  deriving DecidableEq, Repr

/-- The members of a `MemoryWriteStreamDynamic`.  `data` is the array `_data`
(`none` is the null pointer) and `ptr` is the member `_ptr` as an offset from
`_data`. -/
structure MemoryWriteStreamDynamic where
  data : Option (Nat → Nat)
  disposeMemory : Bool
  ptr : Nat
  pos : Nat
  capacity : Nat
  size : Nat

/-- The loop `while (_capacity < s) _capacity = MAX<size_t>(2, _capacity * 2)`
of `reserve` (lines 102-103), one unit of fuel per iteration; `none` when the
fuel runs out. -/
def growCapacity (s : Nat) : Nat → Nat → Option Nat
  | 0, capacity => if capacity < s then none else some capacity
  | fuel + 1, capacity =>
    if capacity < s then growCapacity s fuel (max 2 (mulSize capacity 2)) else some capacity

/-- The method `MemoryWriteStreamDynamic::reserve` (lines 96-113).  The array
`new byte[_capacity]` returns is `junk _capacity`, whose bytes are arbitrary;
the allocation itself is taken to succeed.  Copying more bytes than one of the
two arrays holds is the error `outOfBounds`. -/
def MemoryWriteStreamDynamic.reserve (junk : Nat → Nat → Nat) (fuel : Nat)
    (st : MemoryWriteStreamDynamic) (s : Nat) : Except Error MemoryWriteStreamDynamic :=
  if s ≤ st.capacity then .ok st
  else
    match growCapacity s fuel st.capacity with
    | none => .error .outOfFuel
    | some capacity =>
      match st.data with
      | none => .ok { st with capacity := capacity, data := some (junk capacity), ptr := st.pos }
      | some oldData =>
        if st.size ≤ capacity ∧ st.size ≤ st.capacity then
          .ok { st with
                capacity := capacity,
                data := some (memcpy (junk capacity) 0 oldData st.size),
                ptr := st.pos }
        else .error .outOfBounds

/-- The method `MemoryWriteStreamDynamic::ensureCapacity` (lines 115-122). -/
def MemoryWriteStreamDynamic.ensureCapacity (junk : Nat → Nat → Nat) (fuel : Nat)
    (st : MemoryWriteStreamDynamic) (newLen : Nat) : Except Error MemoryWriteStreamDynamic :=
  if newLen ≤ st.capacity then .ok st
  else
    match st.reserve junk fuel newLen with
    | .error e => .error e
    | .ok st1 => .ok { st1 with size := newLen }

/-- The method `MemoryWriteStreamDynamic::write` (lines 124-136); the result is
the stream after the call and the value returned.  A copy that runs over
the end of the array `_data` is the error `outOfBounds`. -/
def MemoryWriteStreamDynamic.write (junk : Nat → Nat → Nat) (fuel : Nat)
    (st : MemoryWriteStreamDynamic) (dataPtr : Nat → Nat) (dataSize : Nat) :
    Except Error (MemoryWriteStreamDynamic × Nat) :=
  match st.ensureCapacity junk fuel (addSize st.pos dataSize) with
  | .error e => .error e
  | .ok st1 =>
    if st1.ptr + dataSize ≤ st1.capacity then
      let pos1 := addSize st1.pos dataSize
      .ok ({ st1 with
              data := st1.data.map (fun m => memcpy m st1.ptr dataPtr dataSize),
              ptr := st1.ptr + dataSize,
              pos := pos1,
              size := if pos1 > st1.size then pos1 else st1.size },
           dataSize)
    else .error .outOfBounds

/-- The constructor `MemoryWriteStreamDynamic(disposeMemory, capacity)`
(lines 85-89). -/
def MemoryWriteStreamDynamic.new (junk : Nat → Nat → Nat) (fuel : Nat) (disposeMemory : Bool)
    (capacity : Nat) : Except Error MemoryWriteStreamDynamic :=
  MemoryWriteStreamDynamic.reserve junk fuel
    { data := none, disposeMemory := disposeMemory, ptr := 0, pos := 0, capacity := 0,
      size := 0 }
    capacity

/-- The method `MemoryWriteStreamDynamic::pos` (lines 148-150). -/
def MemoryWriteStreamDynamic.getPos (st : MemoryWriteStreamDynamic) : Nat := st.pos

/-- The method `MemoryWriteStreamDynamic::size` (lines 152-154). -/
def MemoryWriteStreamDynamic.getSize (st : MemoryWriteStreamDynamic) : Nat := st.size

/-- The method `MemoryWriteStreamDynamic::getData` (lines 156-158). -/
def MemoryWriteStreamDynamic.getData (st : MemoryWriteStreamDynamic) : Option (Nat → Nat) :=
  st.data

/-- The data of a call of `write` that writes the bytes `d`. -/
def bytesAt (d : List Nat) : Nat → Nat := fun i => d.getD i 0

/-- A sequence of calls of `write`, one for each list of bytes; the result is
the stream after the calls and the values they returned. -/
def MemoryWriteStreamDynamic.writeAll (junk : Nat → Nat → Nat) (fuel : Nat)
    (st : MemoryWriteStreamDynamic) :
    List (List Nat) → Except Error (MemoryWriteStreamDynamic × List Nat)
  | [] => .ok (st, [])
  | d :: rest =>
    match st.write junk fuel (bytesAt d) d.length with
    | .error e => .error e
    | .ok (st1, r) =>
      match MemoryWriteStreamDynamic.writeAll junk fuel st1 rest with
      | .error e => .error e
      | .ok (st2, rs) => .ok (st2, r :: rs)

/-- The stream holds what the calls with the data `ds` wrote: each call
returned the length of its data, `pos()` and `size()` are the total length, and
the first `size()` bytes of `getData()` are the concatenation of the data. -/
def HoldsWritten (st : MemoryWriteStreamDynamic) (rets : List Nat) (ds : List (List Nat)) :
    Prop :=
  rets = ds.map List.length ∧ st.getPos = ds.flatten.length ∧
  st.getSize = ds.flatten.length ∧
  ∀ (i x : Nat), ds.flatten[i]? = some x → ∃ m, st.getData = some m ∧ m i = x

/-- A capacity the loop of `reserve` produces: zero or a power of two between
`2` and `2 ^ 63`. -/
def PowCap (c : Nat) : Prop := c = 0 ∨ ∃ j, 1 ≤ j ∧ j ≤ 63 ∧ c = 2 ^ j

/-- The state of a stream that holds the bytes `w`, but for the member `_size`. -/
structure Holds (st : MemoryWriteStreamDynamic) (w : List Nat) : Prop where
  pos : st.pos = w.length
  ptr : st.ptr = w.length
  cap : w.length ≤ st.capacity
  pow : PowCap st.capacity
  null : st.data = none → st.capacity = 0
  bytes : ∀ (m : Nat → Nat) (i x : Nat), st.data = some m → w[i]? = some x → m i = x

/-! ## String utilities (`src/common/strutil.cpp`)

A `UString` is modelled as a `String`; a thrown `Exception` is the error of
`Except`, with the message of the exception. -/

/-- Modelled from the spec: the method `UString::equalsIgnoreCase` of
`ustring.cpp`, which is not among the sources.  Two strings are equal ignoring
case when they are equal once every character is replaced by its lower-case
form. -/
def equalsIgnoreCase (a b : String) : Bool :=
  a.toList.map Char.toLower == b.toList.map Char.toLower

/-- The specialisation `parseString<bool>` (lines 249-272).  The argument
`value` is the value of the reference on entry, the result is its value on
return.  The comparisons of the model do not throw, so the handler of lines
268-271 is never entered. -/
def parseStringBool (str : String) (value : Bool) (allowEmpty : Bool) : Except String Bool :=
  if str = "" then
    if allowEmpty then .ok value
    else .error "Trying to parse an empty string"
  else
    .ok (if equalsIgnoreCase str "true" || equalsIgnoreCase str "yes" ||
            equalsIgnoreCase str "y" || equalsIgnoreCase str "on" || str == "1"
          then true else false)

/-- The strings that parse as `true`: "true", "yes", "y" and "on" in any case,
and "1". -/
def IsTrueWord (s : String) : Prop :=
  equalsIgnoreCase s "true" = true ∨ equalsIgnoreCase s "yes" = true ∨
  equalsIgnoreCase s "y" = true ∨ equalsIgnoreCase s "on" = true ∨ s = "1"

/-- An integer type `composeString` is instantiated for: its width in bits and
whether it is signed.  A value of the type is an integer of its range. -/
structure IntType where
  bits : Nat
  signed : Bool
  deriving DecidableEq, Repr

/-- The integer types of the explicit instantiations of lines 333-342: `char`,
`short`, `int`, `long` and `long long`, each signed and unsigned (`long` has 64
bits, as `long long`). -/
def instantiatedTypes : List IntType :=
  [⟨8, true⟩, ⟨8, false⟩, ⟨16, true⟩, ⟨16, false⟩, ⟨32, true⟩, ⟨32, false⟩,
   ⟨64, true⟩, ⟨64, false⟩, ⟨64, true⟩, ⟨64, false⟩]

/-- The least value of an integer type. -/
def IntType.minValue (t : IntType) : Int := if t.signed then -(2 ^ (t.bits - 1)) else 0

/-- The greatest value of an integer type. -/
def IntType.maxValue (t : IntType) : Int :=
  if t.signed then 2 ^ (t.bits - 1) - 1 else 2 ^ t.bits - 1

/-- Conversion of an integer to an integer type: the value of the range of the
type that is congruent modulo `2 ^ bits`. -/
def IntType.wrap (t : IntType) (x : Int) : Int :=
  if t.signed then (x + 2 ^ (t.bits - 1)) % 2 ^ t.bits - 2 ^ (t.bits - 1) else x % 2 ^ t.bits

/-- The assignment `value = -value` of line 297.  For a type narrower than
`int` the operand is promoted to `int` and the result converted back; for the
wider types the negation of the least value overflows, and the result is taken
to be the one of two's complement arithmetic. -/
def IntType.negate (t : IntType) (value : Int) : Int := t.wrap (-value)

/-- Conversion of an `int` to `char`, as the code of the character. -/
def toCharCode (x : Int) : Nat := (x % 256).toNat

/-- The assignment `*p = c` on the buffer. -/
def store (buf : Nat → Nat) (p c : Nat) : Nat → Nat := fun i => if i = p then c else buf i

/-- The `do`/`while` loop of lines 304-306 that collects the digits, least
significant first; `bufEnd` is `buf + 63`.  The result is `strEnd` and the
buffer after the loop; `none` when the fuel runs out. -/
def collectDigits (t : IntType) : Nat → Int → Nat → (Nat → Nat) → Option (Nat × (Nat → Nat))
  | 0, _, _, _ => none
  | fuel + 1, value, strEnd, buf =>
    let buf1 := store buf strEnd (toCharCode (value.tmod 10 + 48))
    let value1 := t.wrap (value.tdiv 10)
    if value1 ≠ 0 ∧ strEnd + 1 < 63 then collectDigits t fuel value1 (strEnd + 1) buf1
    else some (strEnd + 1, buf1)

/-- The loop of lines 311-316 that reverses the digits; `none` when the fuel
runs out. -/
def reverseDigits : Nat → Nat → Nat → (Nat → Nat) → Option (Nat → Nat)
  | 0, strStart, strEnd, buf => if strStart < strEnd then none else some buf
  | fuel + 1, strStart, strEnd, buf =>
    if strStart < strEnd then
      reverseDigits fuel (strStart + 1) (strEnd - 1)
        (store (store buf strStart (buf strEnd)) strEnd (buf strStart))
    else some buf

/-- The characters of the C string at the start of the buffer, from position
`i` on: the characters before the first `'\0'`. -/
def cString (buf : Nat → Nat) : Nat → Nat → List Nat
  | 0, _ => []
  | fuel + 1, i => if buf i = 0 then [] else buf i :: cString buf fuel (i + 1)

/-- The function template `composeString` (lines 289-319) for the integer type
`t`.  `junk` is the content of the buffer `buf` on entry, which is not
initialised; the result is `none` when one of the loops runs out of fuel. -/
def composeString (t : IntType) (junk : Nat → Nat) (value : Int) : Option String :=
  let negative := decide (value < 0)
  let buf0 := if negative then store junk 0 45 else junk
  let value0 := if negative then t.negate value else value
  let strStart := if negative then 1 else 0
  match collectDigits t 64 value0 strStart buf0 with
  | none => none
  | some (strEnd, buf1) =>
    match reverseDigits 64 strStart (strEnd - 1) (store buf1 strEnd 0) with
    | none => none
    | some buf2 => some (String.mk ((cString buf2 64 0).map Char.ofNat))

/-- The canonical decimal representation of an integer, as character codes: a
leading `'-'` exactly for a negative value, then the digits of the absolute
value, most significant first, without leading zeros, and `'0'` for zero. -/
def decimalCodes (v : Int) : List Nat :=
  (if v < 0 then [45] else []) ++
  (if v = 0 then [48] else (Nat.digits 10 v.natAbs).reverse.map (fun d => d + 48))

/-- The canonical decimal representation of an integer. -/
def decimal (v : Int) : String := String.mk ((decimalCodes v).map Char.ofNat)

/-- The codes of the decimal digits of a natural number, least significant
first (`'0'` for zero). -/
def lsbCodes (n : Nat) : List Nat :=
  if n = 0 then [48] else (Nat.digits 10 n).map (fun d => d + 48)

/-! ## Parsing of numbers (`parseString<T>`, lines 146-247)

The conversion functions of the C library (`strtol` and the like) are not part
of the sources; the model takes them as given, as functions from the string at
`nptr` to the value, the offset of `*endptr` from `nptr` and whether `errno` is
`ERANGE` after the call.  Limits are the ones of a platform with 8-bit `char`,
16-bit `short`, 32-bit `int` and 64-bit `long`. -/

/-- What a conversion function gives back: the value, the offset of `*endptr`
from `nptr` (`none` for a null pointer), and whether `errno` is `ERANGE`. -/
structure Converted (α : Type) where
  value : α
  endptr : Option Nat
  rangeError : Bool

/-- The conversion functions of the C library that the helpers `parse` call. -/
structure CLibrary (F : Type) where
  strtoll : List Char → Converted Int
  strtoull : List Char → Converted Int
  strtol : List Char → Converted Int
  strtoul : List Char → Converted Int
  strtof : List Char → Converted F
  strtod : List Char → Converted F

/-- A value of a numeric type: an integer, or a floating-point number of the
type `F`. -/
inductive Number (F : Type) where
  | integer (v : Int)
  | real (x : F)

/-- The numeric types `parseString` is instantiated for (lines 274-286). -/
inductive NumericType where
  | signedChar
  | unsignedChar
  | signedShort
  | unsignedShort
  | signedInt
  | unsignedInt
  | signedLong
  | unsignedLong
  | signedLongLong
  | unsignedLongLong
  | float
  | double
  deriving DecidableEq, Repr

/-- The helpers `parse` for the types narrower than `long` (lines 162-208): the
value is converted with `strtol` or `strtoul`, `errno` is set to `ERANGE` when
it is outside the limits of the type, and it is cast to the type. -/
def parseNarrow (t : IntType) (r : Converted Int) : Converted (Number F) :=
  { value := .integer (t.wrap r.value),
    endptr := r.endptr,
    rangeError := r.rangeError || decide (r.value < t.minValue ∨ r.value > t.maxValue) }

/-- The helpers `parse` of lines 146-216, one for each numeric type. -/
def parse (lib : CLibrary F) : NumericType → List Char → Converted (Number F)
  | .signedLongLong, nptr =>
    { value := .integer (lib.strtoll nptr).value, endptr := (lib.strtoll nptr).endptr,
      rangeError := (lib.strtoll nptr).rangeError }
  | .unsignedLongLong, nptr =>
    { value := .integer (lib.strtoull nptr).value, endptr := (lib.strtoull nptr).endptr,
      rangeError := (lib.strtoull nptr).rangeError }
  | .signedLong, nptr =>
    { value := .integer (lib.strtol nptr).value, endptr := (lib.strtol nptr).endptr,
      rangeError := (lib.strtol nptr).rangeError }
  | .unsignedLong, nptr =>
    { value := .integer (lib.strtoul nptr).value, endptr := (lib.strtoul nptr).endptr,
      rangeError := (lib.strtoul nptr).rangeError }
  | .signedInt, nptr => parseNarrow ⟨32, true⟩ (lib.strtol nptr)
  | .unsignedInt, nptr => parseNarrow ⟨32, false⟩ (lib.strtoul nptr)
  | .signedShort, nptr => parseNarrow ⟨16, true⟩ (lib.strtol nptr)
  | .unsignedShort, nptr => parseNarrow ⟨16, false⟩ (lib.strtoul nptr)
  | .signedChar, nptr => parseNarrow ⟨8, true⟩ (lib.strtol nptr)
  | .unsignedChar, nptr => parseNarrow ⟨8, false⟩ (lib.strtoul nptr)
  | .float, nptr =>
    { value := .real (lib.strtof nptr).value, endptr := (lib.strtof nptr).endptr,
      rangeError := (lib.strtof nptr).rangeError }
  | .double, nptr =>
    { value := .real (lib.strtod nptr).value, endptr := (lib.strtod nptr).endptr,
      rangeError := (lib.strtod nptr).rangeError }

/-- The function `isspace` of the C library, in the "C" locale. -/
def isspace (c : Char) : Bool :=
  c = ' ' ∨ c = '\t' ∨ c = '\n' ∨ c = '\x0b' ∨ c = '\x0c' ∨ c = '\r'

/-- The number of steps of the loop `while (endptr && isspace(*endptr)) endptr++`
(lines 235-236) on the rest of the string from `endptr` on. -/
def skipSpaces : List Char → Nat
  | [] => 0
  | c :: rest => if isspace c then skipSpaces rest + 1 else 0

/-- The character `nptr[p]` of the C string: the terminating `'\0'` at the end
of the string. -/
def charAt (nptr : List Char) (p : Nat) : Char := nptr.getD p '\x00'

/-- The exceptions `parseString` throws. -/
inductive ParseFailure where
  | emptyString
  | cannotConvert
  | outOfRange
  deriving DecidableEq, Repr

/-- The value of the reference `value` when `parseString` is left, and the
exception it was left with, if any. -/
structure Parsed (F : Type) where
  value : Number F
  thrown : Option ParseFailure

/-- The text left at `endptr` after the loop of lines 235-236, when there is
any: `endptr` is not null and `*endptr` is not `'\0'`. -/
def textLeft (nptr : List Char) (endptr : Option Nat) : Bool :=
  match endptr with
  | none => false
  | some p => charAt nptr (p + skipSpaces (nptr.drop p)) != '\x00'

/-- The function template `parseString` (lines 219-247) for the numeric type
`t`.  The argument `value` is the value of the reference on entry. -/
def parseString (lib : CLibrary F) (t : NumericType) (str : String) (value : Number F)
    (allowEmpty : Bool) : Parsed F :=
  if str = "" then
    if allowEmpty then { value := value, thrown := none }
    else { value := value, thrown := some .emptyString }
  else
    let nptr := str.toList
    let oldValue := value
    let r := parse lib t nptr
    let value1 := r.value
    let checked : Except ParseFailure Unit :=
      if textLeft nptr r.endptr then .error .cannotConvert
      else if r.rangeError then .error .outOfRange
      else .ok ()
    match checked with
    | .error e => { value := oldValue, thrown := some e }
    | .ok _ => { value := value1, thrown := none }

/-- The types narrower than `long`, with their width and sign, and the value
the C library converted the string to. -/
def narrowValue (lib : CLibrary F) (nptr : List Char) : NumericType → Option (IntType × Int)
  | .signedInt => some (⟨32, true⟩, (lib.strtol nptr).value)
  | .unsignedInt => some (⟨32, false⟩, (lib.strtoul nptr).value)
  | .signedShort => some (⟨16, true⟩, (lib.strtol nptr).value)
  | .unsignedShort => some (⟨16, false⟩, (lib.strtoul nptr).value)
  | .signedChar => some (⟨8, true⟩, (lib.strtol nptr).value)
  | .unsignedChar => some (⟨8, false⟩, (lib.strtoul nptr).value)
  | _ => none

/-- Parsing is atomic: whenever `parseString` fails, `value` is what it was; it
fails for the empty string unless `allowEmpty`, for text other than white
space left after the number, and for a number outside the range of the type,
also when the number fits `long` but not the narrower type; for the empty
string with `allowEmpty` it returns and `value` is what it was. -/
def ParsesAtomically (lib : CLibrary F) (t : NumericType) (s : String) (value : Number F)
    (allowEmpty : Bool) : Prop :=
  ((parseString lib t s value allowEmpty).thrown ≠ none →
    (parseString lib t s value allowEmpty).value = value) ∧
  (s = "" → allowEmpty = false →
    (parseString lib t s value allowEmpty).thrown = some .emptyString) ∧
  (s ≠ "" → textLeft s.toList (parse lib t s.toList).endptr = true →
    (parseString lib t s value allowEmpty).thrown = some .cannotConvert) ∧
  (s ≠ "" → textLeft s.toList (parse lib t s.toList).endptr = false →
    (parse lib t s.toList).rangeError = true →
    (parseString lib t s value allowEmpty).thrown = some .outOfRange) ∧
  (∀ (w : IntType) (v : Int), narrowValue lib s.toList t = some (w, v) →
    (v < w.minValue ∨ v > w.maxValue) → (parse lib t s.toList).rangeError = true) ∧
  (s = "" → allowEmpty = true →
    (parseString lib t s value allowEmpty).thrown = none ∧
    (parseString lib t s value allowEmpty).value = value)

/-- An example of a C library: every conversion function reads the whole string
as the number 300. -/
def exampleLibrary : CLibrary Nat :=
  { strtoll := fun nptr => ⟨300, some nptr.length, false⟩,
    strtoull := fun nptr => ⟨300, some nptr.length, false⟩,
    strtol := fun nptr => ⟨300, some nptr.length, false⟩,
    strtoul := fun nptr => ⟨300, some nptr.length, false⟩,
    strtof := fun nptr => ⟨300, some nptr.length, false⟩,
    strtod := fun nptr => ⟨300, some nptr.length, false⟩ }

/-! ## Tokenizer of a stream (`src/common/streamtokenizer.cpp`)

A character is a value of type `uint32`, a natural number.  A `UString` is the
list of its characters.  The loops that read the stream take a fuel argument and
return `none` when it runs out. -/

/-- Modelled from the spec: the enumeration `ConsecutiveSeparatorRule` of
`streamtokenizer.h`, which is not among the sources. -/
inductive ConsecutiveSeparatorRule where
  | kRuleHeed
  | kRuleIgnoreSame
  | kRuleIgnoreAll
  deriving DecidableEq, Repr

/-- The members of a `StreamTokenizer`. -/
structure StreamTokenizer where
  conSepRule : ConsecutiveSeparatorRule
  separators : List Nat
  quotes : List Nat
  chunkEnds : List Nat
  ignores : List Nat
  deriving DecidableEq, Repr

/-- Modelled from the spec: a `SeekableReadStream` (`readstream.h`, not among
the sources): the bytes and the position. -/
structure SeekableReadStream where
  data : List Nat
  pos : Nat
  deriving DecidableEq, Repr

/-- Modelled from the spec: the constant `ReadStream::kEOF`. -/
def kEOF : Nat := 0xFFFFFFFF

/-- Modelled from the spec: the method `readChar`: the next byte, or `kEOF` at
the end of the stream, where the position stays. -/
def SeekableReadStream.readChar (s : SeekableReadStream) : Nat × SeekableReadStream :=
  match s.data[s.pos]? with
  | some b => (b % 256, { s with pos := s.pos + 1 })
  | none => (kEOF, s)

/-- Modelled from the spec: the call `seek(-1, kOriginCurrent)`. -/
def SeekableReadStream.seekBack (s : SeekableReadStream) : SeekableReadStream :=
  { s with pos := s.pos - 1 }

/-- The function `StreamTokenizer::isIn` (lines 36-42). -/
def isIn (c : Nat) : List Nat → Bool
  | [] => false
  | x :: rest => if x = c then true else isIn c rest

/-- The local variables of `getToken` that its first loop changes, and the
stream. -/
structure TokenState where
  stream : SeekableReadStream
  chunkEnd : Bool
  inQuote : Bool
  separator : Nat
  token : List Nat
  deriving DecidableEq, Repr

/-- The first loop of `getToken` (lines 70-121). -/
def readToken (tok : StreamTokenizer) : Nat → TokenState → Option TokenState
  | 0, _ => none
  | fuel + 1, st =>
    match st.stream.readChar with
    | (c, stream) =>
      if c = kEOF then some { st with stream := stream }
      else if isIn c tok.chunkEnds then
        some { st with stream := stream.seekBack, chunkEnd := true }
      else if isIn c tok.quotes then
        readToken tok fuel { st with stream := stream, inQuote := !st.inQuote }
      else if !st.inQuote && isIn c tok.separators then
        if st.token ≠ [] then some { st with stream := stream, separator := c }
        else if tok.conSepRule = .kRuleHeed then
          some { st with stream := stream, separator := c }
        else if tok.conSepRule = .kRuleIgnoreSame ∧ st.separator ≠ 0xFFFFFFFF ∧
            st.separator ≠ c then
          some { st with stream := stream, separator := c }
        else readToken tok fuel { st with stream := stream, separator := c }
      else if isIn c tok.ignores then readToken tok fuel { st with stream := stream }
      else readToken tok fuel { st with stream := stream, token := st.token ++ [c] }

/-- The second loop of `getToken` (lines 130-139). -/
def skipSeparators (tok : StreamTokenizer) (separator : Nat) :
    Nat → SeekableReadStream → Option SeekableReadStream
  | 0, _ => none
  | fuel + 1, s =>
    match s.readChar with
    | (c, stream) =>
      if c = kEOF then some stream
      else if (tok.conSepRule = .kRuleIgnoreSame ∧ c ≠ separator) ∨
          (tok.conSepRule = .kRuleIgnoreAll ∧ isIn c tok.separators = false) then
        some stream.seekBack
      else skipSeparators tok separator fuel stream

/-- The state of `getToken` before its first loop (lines 62-66). -/
def TokenState.init (stream : SeekableReadStream) : TokenState :=
  { stream := stream, chunkEnd := false, inQuote := false, separator := 0xFFFFFFFF, token := [] }

/-- Lines 124-125 of `getToken`: a token that starts with the character 0 is
cleared. -/
def clearEmpty (token : List Nat) : List Nat :=
  if token ≠ [] ∧ token.head? = some 0 then [] else token

/-- The function `StreamTokenizer::getToken` (lines 60-145): the token, and the
stream after the call. -/
def getToken (tok : StreamTokenizer) (fuel : Nat) (stream : SeekableReadStream) :
    Option (List Nat × SeekableReadStream) :=
  match readToken tok fuel (TokenState.init stream) with
  | none => none
  | some st =>
    let token := clearEmpty st.token
    if st.chunkEnd = false ∧ tok.conSepRule ≠ .kRuleHeed then
      match skipSeparators tok st.separator fuel st.stream with
      | none => none
      | some stream1 => some (token, stream1)
    else some (token, st.stream)

/-- The function `StreamTokenizer::isChunkEnd` (lines 199-209): the result, and
the stream after the call. -/
def isChunkEnd (tok : StreamTokenizer) (stream : SeekableReadStream) :
    Bool × SeekableReadStream :=
  match stream.readChar with
  | (c, stream1) =>
    if c = kEOF then (true, stream1)
    else (isIn c tok.chunkEnds, stream1.seekBack)

/-- The first loop of `getTokens` (lines 156-163), with `n` iterations at most;
`fuel` is the fuel of each call of `getToken`. -/
def tokensLoop (tok : StreamTokenizer) (fuel max : Nat) :
    Nat → SeekableReadStream → List (List Nat) → Nat →
      Option (Nat × List (List Nat) × SeekableReadStream)
  | 0, _, _, _ => none
  | n + 1, stream, list, realTokenCount =>
    match isChunkEnd tok stream with
    | (chunkEnd, stream1) =>
      if chunkEnd = false ∧ realTokenCount < max then
        match getToken tok fuel stream1 with
        | none => none
        | some (token, stream2) =>
          if token ≠ [] ∨ tok.conSepRule ≠ .kRuleIgnoreAll then
            tokensLoop tok fuel max n stream2 (list ++ [token]) (realTokenCount + 1)
          else tokensLoop tok fuel max n stream2 list realTokenCount
      else some (realTokenCount, list, stream1)

/-- Modelled from the spec: the method `clear` of a `std::vector`. -/
def clear (_list : List (List Nat)) : List (List Nat) := []

/-- The second loop of `getTokens` (lines 165-166): `def` is added until the
list has `min` entries. -/
def padTokens (list : List (List Nat)) (min : Nat) (defaultToken : List Nat) :
    List (List Nat) :=
  list ++ List.replicate (min - list.length) defaultToken

/-- The function `StreamTokenizer::getTokens` (lines 147-169): the count
returned, the list and the stream after the call.  The result is `none` when the
assertion of line 150 fails, and when the fuel runs out. -/
def getTokens (tok : StreamTokenizer) (fuel : Nat) (stream : SeekableReadStream)
    (list : List (List Nat)) (min max : Nat) (defaultToken : List Nat) :
    Option (Nat × List (List Nat) × SeekableReadStream) :=
  if max < min then none
  else
    match tokensLoop tok fuel max fuel stream (clear list) 0 with
    | none => none
    | some (realTokenCount, list1, stream1) =>
      some (realTokenCount, padTokens list1 min defaultToken, stream1)

/-- The characters that `readChar` returns from the position `a` up to the
position `b` of a stream with the bytes `data`. -/
def charsBetween (data : List Nat) (a b : Nat) : List Nat :=
  ((data.drop a).take (b - a)).map (· % 256)

/-- Each character of a run that is read from the stream, with the quote state
in which it is read: the state is toggled by each quote character. -/
def withQuoteState (tok : StreamTokenizer) : Bool → List Nat → List (Nat × Bool)
  | _, [] => []
  | inQuote, c :: rest =>
    (c, inQuote) :: withQuoteState tok (if isIn c tok.quotes then !inQuote else inQuote) rest

/-- A character that may be part of a token: it is no chunk end, no quote and
no ignored character, and when it is a separator, it is read inside quotes. -/
def TokenChar (tok : StreamTokenizer) (x : Nat × Bool) : Prop :=
  isIn x.1 tok.chunkEnds = false ∧ isIn x.1 tok.quotes = false ∧
  isIn x.1 tok.ignores = false ∧ (isIn x.1 tok.separators = true → x.2 = true)

/-- What the first loop of `getToken` does between the states `st` and `st1`:
the stream moves forward over characters that are no chunk ends, and the token
grows by characters that the loop has read. -/
structure ReadsToken (tok : StreamTokenizer) (st st1 : TokenState) : Prop where
  data : st1.stream.data = st.stream.data
  le : st.stream.pos ≤ st1.stream.pos
  contents : ∃ l : List (Nat × Bool),
    l.Sublist (withQuoteState tok st.inQuote
      (charsBetween st.stream.data st.stream.pos st1.stream.pos)) ∧
    st1.token = st.token ++ l.map Prod.fst ∧ ∀ x, x ∈ l → TokenChar tok x
  stop : st1.chunkEnd = true → st.chunkEnd = true ∨
    ∃ b, st1.stream.data[st1.stream.pos]? = some b ∧ isIn (b % 256) tok.chunkEnds = true
  nochunk : ∀ (p b : Nat), st.stream.pos ≤ p → p < st1.stream.pos →
    st.stream.data[p]? = some b → isIn (b % 256) tok.chunkEnds = false
  separator : st1.separator = st.separator ∨ isIn st1.separator tok.chunkEnds = false

/-- The contents of the token that `getToken` returns for the stream `s`, where
`st` is the state after the first loop and `s1` the stream after the call.  The
token has no chunk end, no quote and no ignored character; its characters are
characters that the first loop has read, in the order of the stream, and the
separators among them are read inside quotes; when the first loop stops at a
chunk end, the stream is on that character after the call; and a chunk end is
passed over only by the second loop, under the rule `kRuleIgnoreAll`, when it is
a separator too. -/
structure TokenContents (tok : StreamTokenizer) (s : SeekableReadStream) (st : TokenState)
    (token : List Nat) (s1 : SeekableReadStream) : Prop where
  plain : ∀ c, c ∈ token → isIn c tok.chunkEnds = false ∧ isIn c tok.quotes = false ∧
    isIn c tok.ignores = false
  quoted : ∃ l : List (Nat × Bool),
    l.Sublist (withQuoteState tok false (charsBetween s.data s.pos st.stream.pos)) ∧
    token = l.map Prod.fst ∧ ∀ x, x ∈ l → TokenChar tok x
  stop : st.chunkEnd = true →
    s1 = st.stream ∧ ∃ b, s1.data[s1.pos]? = some b ∧ isIn (b % 256) tok.chunkEnds = true
  passed : ∀ (p b : Nat), s.pos ≤ p → p < s1.pos → s.data[p]? = some b →
    isIn (b % 256) tok.chunkEnds = true →
    tok.conSepRule = .kRuleIgnoreAll ∧ isIn (b % 256) tok.separators = true ∧ st.stream.pos ≤ p

/-- An example of a tokenizer: the space separates, the double quote quotes, the
line feed ends a chunk and the carriage return is ignored. -/
def exampleTokenizer : StreamTokenizer :=
  { conSepRule := .kRuleIgnoreAll, separators := [32], quotes := [34], chunkEnds := [10],
    ignores := [13] }

/-- An example of a stream: the bytes of the line `"a b"  c`, a carriage return
and a line feed. -/
def exampleLine : SeekableReadStream :=
  { data := [34, 97, 32, 98, 34, 32, 32, 99, 13, 10], pos := 0 }

/-- The tokens that the successive calls of `getToken` return, from the stream
`s` to the stream `s1`, in the order of the calls.  A call is only made when the
stream is not at the end of a chunk; an empty token is left out under the rule
`kRuleIgnoreAll`. -/
inductive ReadsTokens (tok : StreamTokenizer) (fuel : Nat) :
    SeekableReadStream → List (List Nat) → SeekableReadStream → Prop where
  | done (s : SeekableReadStream) : ReadsTokens tok fuel s [] s
  | keep {s s1 s2 : SeekableReadStream} {token : List Nat} {tokens : List (List Nat)} :
      (isChunkEnd tok s).1 = false →
      getToken tok fuel s = some (token, s1) →
      (token ≠ [] ∨ tok.conSepRule ≠ .kRuleIgnoreAll) →
      ReadsTokens tok fuel s1 tokens s2 →
      ReadsTokens tok fuel s (token :: tokens) s2
  | drop {s s1 s2 : SeekableReadStream} {tokens : List (List Nat)} :
      (isChunkEnd tok s).1 = false →
      getToken tok fuel s = some ([], s1) →
      tok.conSepRule = .kRuleIgnoreAll →
      ReadsTokens tok fuel s1 tokens s2 →
      ReadsTokens tok fuel s tokens s2

/-- The result of `getTokens` on the stream `s`: the count `c` returned, the
list `out` and the stream `s1` after the call.  The count is at most `max`; the
list has `max(c, min)` entries; the first `c` entries are the tokens read from
the stream in order, up to the end of the chunk or up to `max` tokens; the other
entries are the default token; and under the rule `kRuleIgnoreAll` none of the
first `c` entries is empty. -/
structure TokensResult (tok : StreamTokenizer) (fuel : Nat) (s : SeekableReadStream)
    (min max : Nat) (defaultToken : List Nat) (c : Nat) (out : List (List Nat))
    (s1 : SeekableReadStream) : Prop where
  count : c ≤ max
  length : out.length = Max.max c min
  tokens : ReadsTokens tok fuel s (out.take c) s1
  stopped : (isChunkEnd tok s1).1 = true ∨ c = max
  padding : ∀ k, c ≤ k → k < out.length → out[k]? = some defaultToken
  nonempty : tok.conSepRule = .kRuleIgnoreAll → ∀ t, t ∈ out.take c → t ≠ []

end Common

namespace Aurora

/-! ## ITEX images made from NSBTX textures (`src/aurora/nsbtxfile.cpp`)

The stream a texture is read from is a list of bytes with a position; the
stream the image is written to is the list of the bytes written so far.
Values of type `uint32` are natural numbers below `2 ^ 32`, and the arithmetic
of `getITEXSize` and `writeITEXHeader` wraps around at `2 ^ 32`. -/

/-- Ways in which reading a texture does not return. -/
inductive Error where
  | readError
  | seekError
  | unsupportedFormat
  | outOfFuel
  deriving DecidableEq, Repr

/-- Modelled from the spec: the enumeration `Format` of `nsbtxfile.h`, which is
not among the sources.  The six formats `getTexture` converts are constructors
of their own; every other value of the three bits of the format is
`kFormatOther`. -/
inductive Format where
  | kFormatA3I5
  | kFormat2bpp
  | kFormat4bpp
  | kFormat8bpp
  | kFormatA5I3
  | kFormat16bpp
  | kFormatOther (n : Nat)
  deriving DecidableEq, Repr

/-- Modelled from the spec: the cast `(Format) ((flags >> 10) & 7)` of line 464,
with the values of the enumerators in the order of the table `kPaletteSize` of
`getPalette` (32 colours for value 1, 4 for 2, 16 for 3, 256 for 4, 8 for 6, none
for 7). -/
def Format.ofValue (n : Nat) : Format :=
  if n = 1 then .kFormatA3I5
  else if n = 2 then .kFormat2bpp
  else if n = 3 then .kFormat4bpp
  else if n = 4 then .kFormat8bpp
  else if n = 6 then .kFormatA5I3
  else if n = 7 then .kFormat16bpp
  else .kFormatOther n

/-- Modelled from the spec: the members of the structure `Texture` of
`nsbtxfile.h`, which is not among the sources, that `nsbtxfile.cpp` uses. -/
structure Texture where
  offset : Nat
  width : Nat
  height : Nat
  format : Format
  wrapX : Bool
  wrapY : Bool
  flipX : Bool
  flipY : Bool
  alpha : Bool
  coordTransform : Nat

/-- The body of the loop of `readTextures` (lines 451-494) for one texture: the
texture made from the offset word, the flags and the byte `unknown` read from
the file. -/
def readTexture (textureDataOffset offsetWord flags unknown : Nat) : Texture :=
  let width := 8 <<< ((flags >>> 4) &&& 7)
  let height := 8 <<< ((flags >>> 7) &&& 7)
  { offset := textureDataOffset + offsetWord * 8,
    width := if width = 0 then (if unknown &&& 3 = 2 then 512 else 256) else width,
    height := if height = 0 then (if (unknown >>> 4) &&& 3 = 2 then 512 else 256) else height,
    format := Format.ofValue ((flags >>> 10) &&& 7),
    wrapX := decide (flags &&& 1 ≠ 0),
    wrapY := decide ((flags >>> 1) &&& 1 ≠ 0),
    flipX := decide ((flags >>> 2) &&& 1 ≠ 0),
    flipY := decide ((flags >>> 3) &&& 1 ≠ 0),
    alpha := decide ((flags >>> 13) &&& 1 ≠ 0),
    coordTransform := flags >>> 14 }

/-- The constant `kXEOSITEXHeaderSize` (line 48). -/
def kXEOSITEXHeaderSize : Nat := 4 + 4 + 4 + 4 + 4 + 1 + 1 + 1 + 1 + 1

/-- The constant `kXEOSITEXMipMapHeaderSize` (line 49). -/
def kXEOSITEXMipMapHeaderSize : Nat := 4 + 4 + 4

/-- The function `NSBTXFile::getITEXSize` (lines 81-83), in `uint32` arithmetic. -/
def getITEXSize (texture : Texture) : Nat :=
  (kXEOSITEXHeaderSize + kXEOSITEXMipMapHeaderSize + texture.width * texture.height * 4)
    % 2 ^ 32

/-- Modelled from the spec: the macro `MKTAG` of `util.h`, which is not among
the sources: the four characters of a tag, the first in the highest byte. -/
def MKTAG (a b c d : Char) : Nat :=
  (a.toNat <<< 24) ||| (b.toNat <<< 16) ||| (c.toNat <<< 8) ||| d.toNat

/-- The constant `kXEOSID` (line 45). -/
def kXEOSID : Nat := MKTAG 'X' 'E' 'O' 'S'

/-- The constant `kITEXID` (line 46). -/
def kITEXID : Nat := MKTAG 'I' 'T' 'E' 'X'

/-- Modelled from the spec: the method `WriteStream::writeByte` of
`writestream.h`, which is not among the sources: one byte is written. -/
def writeByte (stream : List Nat) (value : Nat) : List Nat := stream ++ [value % 256]

/-- Modelled from the spec: the method `WriteStream::writeUint32LE` of
`writestream.h`: the four bytes of the value are written, the lowest first. -/
def writeUint32LE (stream : List Nat) (value : Nat) : List Nat :=
  stream ++ [value % 256, (value >>> 8) % 256, (value >>> 16) % 256, (value >>> 24) % 256]

/-- Modelled from the spec: the method `WriteStream::writeUint32BE` of
`writestream.h`: the four bytes of the value are written, the highest first. -/
def writeUint32BE (stream : List Nat) (value : Nat) : List Nat :=
  stream ++ [(value >>> 24) % 256, (value >>> 16) % 256, (value >>> 8) % 256, value % 256]

/-- The cast `(uint8)` of a `bool`. -/
def boolByte (b : Bool) : Nat := if b then 1 else 0

/-- The function `NSBTXFile::writeITEXHeader` (lines 92-109) on the stream of
the context. -/
def writeITEXHeader (texture : Texture) (stream : List Nat) : List Nat :=
  let s1 := writeUint32BE stream kXEOSID
  let s2 := writeUint32BE s1 kITEXID
  let s3 := writeUint32LE s2 0
  let s4 := writeUint32LE s3 4
  let s5 := writeByte s4 (boolByte texture.wrapX)
  let s6 := writeByte s5 (boolByte texture.wrapY)
  let s7 := writeByte s6 (boolByte texture.flipX)
  let s8 := writeByte s7 (boolByte texture.flipY)
  let s9 := writeByte s8 texture.coordTransform
  let s10 := writeUint32LE s9 1
  let s11 := writeUint32LE s10 texture.width
  let s12 := writeUint32LE s11 texture.height
  writeUint32LE s12 ((texture.width * texture.height * 4) % 2 ^ 32)

/-- The function `NSBTXFile::writePixel` (lines 111-116). -/
def writePixel (stream : List Nat) (r g b a : Nat) : List Nat :=
  writeByte (writeByte (writeByte (writeByte stream b) g) r) a

/-- Modelled from the spec: the stream `nsbtx` of the context, of the class
`SeekableSubReadStreamEndian` of `stream.h`, which is not among the sources:
the bytes of the file, the position, and the byte order of `readUint16`. -/
structure ReadStream where
  data : List Nat
  pos : Nat
  bigEndian : Bool

/-- Modelled from the spec: the method `seek`; a position after the end of the
stream is an error. -/
def ReadStream.seek (s : ReadStream) (offset : Nat) : Except Error ReadStream :=
  if offset ≤ s.data.length then .ok { s with pos := offset } else .error .seekError

/-- Modelled from the spec: the method `readByte`; reading at the end of the
stream is an error. -/
def ReadStream.readByte (s : ReadStream) : Except Error (Nat × ReadStream) :=
  match s.data[s.pos]? with
  | some b => .ok (b % 256, { s with pos := s.pos + 1 })
  | none => .error .readError

/-- Modelled from the spec: the method `readUint16`, in the byte order of the
stream. -/
def ReadStream.readUint16 (s : ReadStream) : Except Error (Nat × ReadStream) :=
  match s.data[s.pos]?, s.data[s.pos + 1]? with
  | some b0, some b1 =>
    .ok (if s.bigEndian then (b0 % 256) * 256 + b1 % 256 else (b1 % 256) * 256 + b0 % 256,
         { s with pos := s.pos + 2 })
  | _, _ => .error .readError

/-- The two streams of a `ReadContext`: the file read and the image written. -/
structure Streams where
  nsbtx : ReadStream
  stream : List Nat

/-- A `for` loop whose counter runs from `x` up to `bound` in steps of `step`,
one unit of fuel per iteration. -/
def forLoop (bound step : Nat) (body : Streams → Except Error Streams) :
    Nat → Nat → Streams → Except Error Streams
  | 0, x, st => if x < bound then .error .outOfFuel else .ok st
  | fuel + 1, x, st =>
    if x < bound then
      match body st with
      | .error e => .error e
      | .ok st1 => forLoop bound step body fuel (x + step) st1
    else .ok st

/-- The inner loops of `getTexture2bpp` (lines 123-133) and `getTexture4bpp`
(lines 144-154): `count` pixels of `bits` bits each are taken from the byte
`pixels`, the lowest first. -/
def unpackPixels (texture : Texture) (palette : Nat → Nat) (bits mask : Nat) :
    Nat → Nat → List Nat → List Nat
  | 0, _, stream => stream
  | count + 1, pixels, stream =>
    let pixel := pixels &&& mask
    let r := palette (pixel * 3 + 0)
    let g := palette (pixel * 3 + 1)
    let b := palette (pixel * 3 + 2)
    let a := if texture.alpha ∧ pixel = 0 then 0 else 255
    unpackPixels texture palette bits mask count (pixels >>> bits) (writePixel stream r g b a)

/-- The body of the loop over `x` of `getTexture2bpp` (lines 122-133). -/
def step2bpp (texture : Texture) (palette : Nat → Nat) (st : Streams) : Except Error Streams :=
  match st.nsbtx.readByte with
  | .error e => .error e
  | .ok (pixels, nsbtx) =>
    .ok { nsbtx := nsbtx, stream := unpackPixels texture palette 2 3 4 pixels st.stream }

/-- The body of the loop over `x` of `getTexture4bpp` (lines 143-154). -/
def step4bpp (texture : Texture) (palette : Nat → Nat) (st : Streams) : Except Error Streams :=
  match st.nsbtx.readByte with
  | .error e => .error e
  | .ok (pixels, nsbtx) =>
    .ok { nsbtx := nsbtx, stream := unpackPixels texture palette 4 15 2 pixels st.stream }

/-- The body of the loop over `x` of `getTexture8bpp` (lines 163-171). -/
def step8bpp (texture : Texture) (palette : Nat → Nat) (st : Streams) : Except Error Streams :=
  match st.nsbtx.readByte with
  | .error e => .error e
  | .ok (pixel, nsbtx) =>
    let r := palette (pixel * 3 + 0)
    let g := palette (pixel * 3 + 1)
    let b := palette (pixel * 3 + 2)
    let a := if texture.alpha ∧ pixel = 0 then 0 else 255
    .ok { nsbtx := nsbtx, stream := writePixel st.stream r g b a }

/-- The body of the loop over `x` of `getTexture16bpp` (lines 179-187). -/
def step16bpp (st : Streams) : Except Error Streams :=
  match st.nsbtx.readUint16 with
  | .error e => .error e
  | .ok (pixel, nsbtx) =>
    let r := ((pixel &&& 31) <<< 3) % 256
    let g := (((pixel >>> 5) &&& 31) <<< 3) % 256
    let b := (((pixel >>> 10) &&& 31) <<< 3) % 256
    let a := if pixel >>> 15 = 0 then 0 else 255
    .ok { nsbtx := nsbtx, stream := writePixel st.stream r g b a }

/-- The body of the loop over `x` of `getTextureA3I5` (lines 195-205). -/
def stepA3I5 (palette : Nat → Nat) (st : Streams) : Except Error Streams :=
  match st.nsbtx.readByte with
  | .error e => .error e
  | .ok (pixel, nsbtx) =>
    let index := pixel &&& 31
    let r := palette (index * 3 + 0)
    let g := palette (index * 3 + 1)
    let b := palette (index * 3 + 2)
    let a := ((((pixel >>> 5) <<< 2) + (pixel >>> 6)) <<< 3) % 256
    .ok { nsbtx := nsbtx, stream := writePixel st.stream r g b a }

/-- The body of the loop over `x` of `getTextureA5I3` (lines 213-223). -/
def stepA5I3 (palette : Nat → Nat) (st : Streams) : Except Error Streams :=
  match st.nsbtx.readByte with
  | .error e => .error e
  | .ok (pixel, nsbtx) =>
    let index := pixel &&& 7
    let r := palette (index * 3 + 0)
    let g := palette (index * 3 + 1)
    let b := palette (index * 3 + 2)
    let a := ((pixel >>> 3) <<< 3) % 256
    .ok { nsbtx := nsbtx, stream := writePixel st.stream r g b a }

/-- The two nested loops of the functions `getTexture2bpp` .. `getTextureA5I3`
(lines 118-226): the loop over `y`, and in it the loop over `x`, whose body
advances `x` by `step`. -/
def pixelLoops (texture : Texture) (step : Nat) (body : Streams → Except Error Streams)
    (st : Streams) : Except Error Streams :=
  forLoop texture.height 1 (forLoop texture.width step body texture.width 0) texture.height 0 st

/-- The function `NSBTXFile::getTexture` (lines 276-308). -/
def getTexture (texture : Texture) (palette : Nat → Nat) (st : Streams) :
    Except Error Streams :=
  match st.nsbtx.seek texture.offset with
  | .error e => .error e
  | .ok nsbtx =>
    let st1 : Streams := { nsbtx := nsbtx, stream := st.stream }
    match texture.format with
    | .kFormat2bpp => pixelLoops texture 4 (step2bpp texture palette) st1
    | .kFormat4bpp => pixelLoops texture 2 (step4bpp texture palette) st1
    | .kFormat8bpp => pixelLoops texture 1 (step8bpp texture palette) st1
    | .kFormat16bpp => pixelLoops texture 1 step16bpp st1
    | .kFormatA3I5 => pixelLoops texture 1 (stepA3I5 palette) st1
    | .kFormatA5I3 => pixelLoops texture 1 (stepA5I3 palette) st1
    | .kFormatOther _ => .error .unsupportedFormat

/-- The format is one of the six formats `getTexture` converts. -/
def Format.supported : Format → Bool
  | .kFormatOther _ => false
  | _ => true

/-- The number of bytes of the file that hold the pixels of a texture. -/
def textureBytes (texture : Texture) : Nat :=
  match texture.format with
  | .kFormat2bpp => texture.width / 4 * texture.height
  | .kFormat4bpp => texture.width / 2 * texture.height
  | .kFormat16bpp => texture.width * 2 * texture.height
  | _ => texture.width * texture.height

/-- The body of a loop reads `r` bytes and writes `c` bytes: it returns when `r`
bytes are left to read, and whenever it returns it has advanced the position by
`r` and written `c` bytes. -/
def Moves (body : Streams → Except Error Streams) (r c : Nat) : Prop :=
  ∀ st : Streams,
    (st.nsbtx.pos + r ≤ st.nsbtx.data.length → ∃ st1, body st = .ok st1) ∧
    ∀ st1, body st = .ok st1 →
      st1.nsbtx.pos = st.nsbtx.pos + r ∧ st1.nsbtx.data = st.nsbtx.data ∧
      st1.stream.length = st.stream.length + c

/-- The ITEX image agrees with its size: the size is `37 + width * height * 4`,
the header has 37 bytes, the last field of the header is the size less 37, and
whenever `getTexture` returns after `writeITEXHeader`, the bytes written are as
many as the size; it does return when the file holds the bytes of the texture. -/
def ITEXSizeAgrees (texture : Texture) (palette : Nat → Nat) (nsbtx : ReadStream) : Prop :=
  getITEXSize texture = 37 + texture.width * texture.height * 4 ∧
  (writeITEXHeader texture []).length = 37 ∧
  (writeITEXHeader texture []).drop 33 =
    writeUint32LE [] (texture.width * texture.height * 4) ∧
  (∀ st, getTexture texture palette ⟨nsbtx, writeITEXHeader texture []⟩ = .ok st →
    st.stream.length = getITEXSize texture) ∧
  (texture.offset + textureBytes texture ≤ nsbtx.data.length →
    ∃ st, getTexture texture palette ⟨nsbtx, writeITEXHeader texture []⟩ = .ok st)

end Aurora

namespace Unrim

/-! ## Command line of `unrim` (`src/unrim.cpp`)

The arguments are strings; `argv[0]` is the name of the program.  The text
`printUsage` and `printVersion` write is not modelled, only which of them was
called and on which stream. -/

/-- The enumeration `Command` (lines 40-45). -/
inductive Command where
  | kCommandNone
  | kCommandList
  | kCommandExtract
  deriving DecidableEq, Repr

/-- Modelled from the spec: the enumerators of `Aurora::GameID` (`types.h`, not
among the sources) that `unrim.cpp` names. -/
inductive GameID where
  | kGameIDUnknown
  | kGameIDNWN2
  | kGameIDJade
  deriving DecidableEq, Repr

/-- What `parseCommandLine` printed: the usage text on `stdout` or `stderr`, or
the version. -/
inductive Printed where
  | usageStdout
  | usageStderr
  | version
  deriving DecidableEq, Repr

/-- Reading `argv[0]` of an empty argument vector. -/
inductive Error where
  | invalidIndex
  deriving DecidableEq, Repr

/-- Modelled from the spec: the method `UString::beginsWith` of `ustring.cpp`,
which is not among the sources: the string starts with the characters of
`with`. -/
def beginsWith (s with_ : String) : Bool :=
  s.toList.take with_.length == with_.toList

/-- How the loop over the arguments (lines 91-138) ends: with one of its
`return false` statements, or at the end of the arguments with the list
`args` collected. -/
inductive Scan where
  | stopped (returnValue : Int) (printed : Printed) (game : GameID)
  | finished (args : List String) (game : GameID)
  deriving DecidableEq, Repr

/-- The loop over `argv[1..]` (lines 91-138), from the argument it is at, with
the values of `optionsEnd`, `args` and `game`. -/
def scanArguments : List String → Bool → List String → GameID → Scan
  | [], _, args, game => .finished args game
  | a :: rest, optionsEnd, args, game =>
    if a = "--" then scanArguments rest true args game
    else if optionsEnd = false then
      if a = "-h" ∨ a = "--help" then .stopped 0 .usageStdout game
      else if a = "--version" then .stopped 0 .version game
      else if a = "--nwn2" then scanArguments rest optionsEnd args .kGameIDNWN2
      else if a = "--jade" then scanArguments rest optionsEnd args .kGameIDJade
      else if beginsWith a "-" || beginsWith a "--" then .stopped 1 .usageStderr game
      else scanArguments rest optionsEnd (args ++ [a]) game
    else scanArguments rest optionsEnd (args ++ [a]) game

/-- The loop of lines 148-151 over `kCommandChar = { "l", "e" }`. -/
def findCommand (arg : String) : Command :=
  let command0 := Command.kCommandNone
  let command1 := if arg = "l" then .kCommandList else command0
  if arg = "e" then .kCommandExtract else command1

/-- The value returned by `parseCommandLine` and the values of its reference
parameters on return, with what was printed. -/
structure Outcome where
  result : Bool
  returnValue : Int
  command : Command
  file : String
  game : GameID
  printed : Option Printed
  deriving DecidableEq, Repr

/-- The function `parseCommandLine` (lines 84-164).  The arguments after `argv`
are the values of the reference parameters on entry. -/
def parseCommandLine (argv : List String) (returnValue : Int) (command : Command)
    (_file : String) (game : GameID) : Except Error Outcome :=
  match argv with
  | [] => .error .invalidIndex
  | _ :: rest =>
    match scanArguments rest false [] game with
    | .stopped returnValue1 printed game1 =>
      .ok { result := false, returnValue := returnValue1, command := command, file := "",
            game := game1, printed := some printed }
    | .finished args game1 =>
      match args with
      | [arg0, arg1] =>
        if findCommand arg0 = .kCommandNone then
          .ok { result := false, returnValue := 1, command := .kCommandNone, file := "",
                game := game1, printed := some .usageStderr }
        else
          .ok { result := true, returnValue := returnValue, command := findCommand arg0,
                file := arg1, game := game1, printed := none }
      | _ =>
        .ok { result := false, returnValue := 1, command := command, file := "",
              game := game1, printed := some .usageStderr }

/-- The arguments before the first `"--"`. -/
def optionsPart (args : List String) : List String := args.takeWhile (fun a => a ≠ "--")

/-- The arguments after the first `"--"`. -/
def afterOptions (args : List String) : List String :=
  (args.dropWhile (fun a => a ≠ "--")).drop 1

/-- The argument is `-h`, `--help` or `--version`. -/
def isHelp (a : String) : Bool := a = "-h" ∨ a = "--help" ∨ a = "--version"

/-- The argument is `--nwn2` or `--jade`. -/
def isGameOption (a : String) : Bool := a = "--nwn2" ∨ a = "--jade"

/-- The argument stops the scan when it stands before a `"--"`: it is `-h`,
`--help`, `--version`, or any other string starting with `'-'` except
`--nwn2` and `--jade`. -/
def isStop (a : String) : Bool := isHelp a || (beginsWith a "-" && !isGameOption a)

/-- The positional arguments in the words of the claim: the arguments before
the first `"--"` but `--nwn2` and `--jade`, and every argument after it. -/
def positionalsStated (args : List String) : List String :=
  (optionsPart args).filter (fun a => !isGameOption a) ++ afterOptions args

/-- The positional arguments of the code: the arguments before the first `"--"`
but `--nwn2` and `--jade`, and every argument after it that is not `"--"`. -/
def positionals (args : List String) : List String :=
  (optionsPart args).filter (fun a => !isGameOption a) ++
    (afterOptions args).filter (fun a => a ≠ "--")

/-- The condition for success, for a given list of positional arguments: no
argument before a `"--"` stops the scan, exactly two positional arguments
remain, and the first is `"l"` or `"e"`. -/
def Accepted (positional args : List String) : Prop :=
  (∀ a ∈ optionsPart args, isStop a = false) ∧
  ∃ c f, positional = [c, f] ∧ (c = "l" ∨ c = "e")

/-- The value of `returnValue` on failure: 0 when the first argument that stops
the scan is `-h`, `--help` or `--version`, and 1 in every other case. -/
def failureValue (args : List String) : Int :=
  match (optionsPart args).find? isStop with
  | some a => if isHelp a then 0 else 1
  | none => 1

/-- The command line in the words of the claim, for the arguments `args` after
`argv[0]`: `parseCommandLine` returns true exactly when the arguments are
accepted, with `positional` the positional arguments; on success `command` is
List for `"l"` and Extract for `"e"` and `file` is the second positional
argument; on failure `returnValue` is `failureValue args`. -/
def CommandLineSpec (positional : List String → List String) (name : String)
    (args : List String) (returnValue : Int) (command : Command) (file : String)
    (game : GameID) : Prop :=
  ∃ o, parseCommandLine (name :: args) returnValue command file game = .ok o ∧
    (o.result = true ↔ Accepted (positional args) args) ∧
    (o.result = true → ∃ c f, positional args = [c, f] ∧ o.file = f ∧
      o.command = if c = "l" then .kCommandList else .kCommandExtract) ∧
    (o.result = false → o.returnValue = failureValue args)

end Unrim

namespace Images

/-! ## Header of a TXB image (`src/images/txb.cpp`)

The stream is a list of bytes with a position.  The functions
`hasValidDimensions` and `getDataSize` of `images/util.h` are not among the
sources; the model takes them as given.  Values of type `uint32` are natural
numbers below `2 ^ 32`. -/

/-- The exceptions of `readHeader`, and the ones of the stream. -/
inductive Error where
  | readError
  | seekError
  | unsupportedDimensions
  | unsupportedEncoding
  | unknownEncoding
  | invalidDimensions
  | imageWouldNotFit
  | noMipMaps
  | invalidDataSize
  deriving DecidableEq, Repr

/-- Modelled from the spec: the enumerators of `PixelFormat` (`types.h`, not
among the sources) that `readHeader` names. -/
inductive PixelFormat where
  | kPixelFormatB8G8R8A8
  | kPixelFormatDXT1
  | kPixelFormatDXT5
  deriving DecidableEq, Repr

/-- Modelled from the spec: the functions `hasValidDimensions` and
`getDataSize` of `images/util.h`, which is not among the sources; `getDataSize`
may throw. -/
structure ImageUtil where
  hasValidDimensions : PixelFormat → Nat → Nat → Bool
  getDataSize : PixelFormat → Nat → Nat → Except Error Nat

/-- Modelled from the spec: the members of the structure `MipMap` of
`decoder.h`, which is not among the sources; `data` is `none` for the null
pointer. -/
structure MipMap where
  width : Nat
  height : Nat
  size : Nat
  data : Option (List Nat)
  deriving DecidableEq, Repr

/-- Modelled from the spec: a `Common::SeekableReadStream` (`readstream.h`, not
among the sources): the bytes and the position. -/
structure ReadStream where
  data : List Nat
  pos : Nat
  deriving DecidableEq, Repr

/-- Modelled from the spec: the method `readByte`; reading at the end of the
stream is an error. -/
def ReadStream.readByte (s : ReadStream) : Except Error (Nat × ReadStream) :=
  match s.data[s.pos]? with
  | some b => .ok (b % 256, { s with pos := s.pos + 1 })
  | none => .error .readError

/-- Modelled from the spec: the method `readUint16LE`. -/
def ReadStream.readUint16LE (s : ReadStream) : Except Error (Nat × ReadStream) :=
  match s.readByte with
  | .error e => .error e
  | .ok (b0, s1) =>
    match s1.readByte with
    | .error e => .error e
    | .ok (b1, s2) => .ok (b0 + b1 * 256, s2)

/-- Modelled from the spec: the method `readUint32LE`. -/
def ReadStream.readUint32LE (s : ReadStream) : Except Error (Nat × ReadStream) :=
  match s.readUint16LE with
  | .error e => .error e
  | .ok (w0, s1) =>
    match s1.readUint16LE with
    | .error e => .error e
    | .ok (w1, s2) => .ok (w0 + w1 * 65536, s2)

/-- Modelled from the spec: the method `skip`; a position after the end of the
stream is an error. -/
def ReadStream.skip (s : ReadStream) (n : Nat) : Except Error ReadStream :=
  if s.pos + n ≤ s.data.length then .ok { s with pos := s.pos + n } else .error .seekError

/-- The constant `kEncodingBGRA` (line 32). -/
def kEncodingBGRA : Nat := 4

/-- The constant `kEncodingDXT1` (line 33). -/
def kEncodingDXT1 : Nat := 10

/-- The constant `kEncodingDXT5` (line 34). -/
def kEncodingDXT5 : Nat := 12

/-- The fields of the header, as the local variables of `readHeader` after
line 96, and the stream behind them. -/
structure Fields where
  dataSize : Nat
  width : Nat
  height : Nat
  encoding : Nat
  mipMapCount : Nat
  txb : ReadStream
  deriving DecidableEq, Repr

/-- Lines 76-96 of `readHeader`: the fields of the header are read, and the
dimensions are checked. -/
def readFields (txb : ReadStream) : Except Error Fields :=
  match txb.readUint32LE with
  | .error e => .error e
  | .ok (dataSize, s1) =>
    match s1.skip 4 with
    | .error e => .error e
    | .ok s2 =>
      match s2.readUint16LE with
      | .error e => .error e
      | .ok (width, s3) =>
        match s3.readUint16LE with
        | .error e => .error e
        | .ok (height, s4) =>
          if width ≥ 0x8000 ∨ height ≥ 0x8000 then .error .unsupportedDimensions
          else
            match s4.readByte with
            | .error e => .error e
            | .ok (encoding, s5) =>
              match s5.readByte with
              | .error e => .error e
              | .ok (mipMapCount, s6) =>
                match s6.skip 2 with
                | .error e => .error e
                | .ok s7 =>
                  match s7.skip 4 with
                  | .error e => .error e
                  | .ok s8 =>
                    match s8.skip 108 with
                    | .error e => .error e
                    | .ok s9 =>
                      .ok { dataSize := dataSize, width := width, height := height,
                            encoding := encoding, mipMapCount := mipMapCount, txb := s9 }

/-- The loop of lines 145-179, with `remaining` iterations to go; `mipMaps` are
the mip maps kept so far. -/
def mipMapLoop (util : ImageUtil) (format : PixelFormat) (minDataSize : Nat) :
    Nat → Nat → Nat → Nat → Nat → List MipMap → Except Error (List MipMap)
  | 0, _, _, _, _, mipMaps => .ok mipMaps
  | remaining + 1, width, height, mipMapSize, dataSize, mipMaps =>
    let mipMapWidth := max width 1
    let mipMapHeight := max height 1
    if (mipMapWidth < 4 ∨ mipMapHeight < 4) ∧ mipMapWidth ≠ mipMapHeight then .ok mipMaps
    else
      let size := max mipMapSize minDataSize
      match util.getDataSize format mipMapWidth mipMapHeight with
      | .error e => .error e
      | .ok mipMapDataSize =>
        if dataSize < size ∨ size < mipMapDataSize then .ok mipMaps
        else
          let mipMaps1 := mipMaps ++
            [{ width := mipMapWidth, height := mipMapHeight, size := size, data := none }]
          if width >>> 1 < 1 ∧ height >>> 1 < 1 then .ok mipMaps1
          else
            mipMapLoop util format minDataSize remaining (width >>> 1) (height >>> 1)
              (mipMapSize >>> 2) (dataSize - size) mipMaps1

/-- The members of the `TXB` that `readHeader` sets, the value of
`needDeSwizzle` on return, and the stream behind the header. -/
structure Header where
  dataSize : Nat
  format : PixelFormat
  mipMaps : List MipMap
  needDeSwizzle : Bool
  txb : ReadStream
  deriving DecidableEq, Repr

/-- Lines 98-182 of `readHeader`, for the format, the least data size and the
size of the first mip map that the encoding gives. -/
def readMipMaps (util : ImageUtil) (f : Fields) (needDeSwizzle : Bool) (format : PixelFormat)
    (minDataSize mipMapSize : Nat) : Except Error Header :=
  if util.hasValidDimensions format f.width f.height = false then .error .invalidDimensions
  else
    match util.getDataSize format f.width f.height with
    | .error e => .error e
    | .ok fullImageDataSize =>
      if f.dataSize < fullImageDataSize then .error .imageWouldNotFit
      else
        match mipMapLoop util format minDataSize f.mipMapCount f.width f.height mipMapSize
            f.dataSize [] with
        | .error e => .error e
        | .ok mipMaps =>
          if f.mipMapCount ≠ 0 ∧ mipMaps = [] then .error .noMipMaps
          else
            .ok { dataSize := f.dataSize, format := format, mipMaps := mipMaps,
                  needDeSwizzle := needDeSwizzle, txb := f.txb }

/-- The function `TXB::readHeader` (lines 74-183). -/
def readHeader (util : ImageUtil) (txb : ReadStream) : Except Error Header :=
  match readFields txb with
  | .error e => .error e
  | .ok f =>
    if f.encoding = kEncodingBGRA then
      readMipMaps util f true .kPixelFormatB8G8R8A8 4 ((f.width * f.height * 4) % 2 ^ 32)
    else if f.encoding = kEncodingDXT1 then
      readMipMaps util f false .kPixelFormatDXT1 8 ((f.width * f.height) % 2 ^ 32 / 2)
    else if f.encoding = kEncodingDXT5 then
      readMipMaps util f false .kPixelFormatDXT5 16 ((f.width * f.height) % 2 ^ 32)
    else if f.encoding = 9 then .error .unsupportedEncoding
    else .error .unknownEncoding

/-- The mip maps `added` fit: they are at most `count`, their sizes add up to at
most `dataSize`, and the one at position `i` has the width `max 1 (width >> i)`
and the height `max 1 (height >> i)`. -/
def ChainFits (added : List MipMap) (count width height dataSize : Nat) : Prop :=
  added.length ≤ count ∧ (added.map MipMap.size).sum ≤ dataSize ∧
  ∀ (i : Nat) (m : MipMap), added[i]? = some m →
    m.width = max 1 (width >>> i) ∧ m.height = max 1 (height >>> i)

/-- The mip-map chain of a header fits the data of the header, and is not empty
unless the header has no mip maps. -/
def HeaderFits (f : Fields) (h : Header) : Prop :=
  ChainFits h.mipMaps f.mipMapCount f.width f.height f.dataSize ∧
  (f.mipMapCount ≠ 0 → h.mipMaps ≠ [])

/-- An example of the functions of `images/util.h`: every dimension is valid,
and an image has four bytes for each pixel. -/
def exampleUtil : ImageUtil :=
  { hasValidDimensions := fun _ _ _ => true,
    getDataSize := fun _ width height => .ok (width * height * 4) }

/-- An example of a TXB header: 20 bytes of data, a BGRA image of 2 by 2 pixels
with two mip maps. -/
def exampleHeader : ReadStream :=
  { data := [20, 0, 0, 0, 0, 0, 0, 0, 2, 0, 2, 0, 4, 2] ++ List.replicate 114 0, pos := 0 }

/-- The header that `readHeader` builds from `exampleHeader`: the mip maps of 2
by 2 and of 1 by 1 pixels. -/
def exampleResult : Header :=
  { dataSize := 20, format := .kPixelFormatB8G8R8A8,
    mipMaps := [⟨2, 2, 16, none⟩, ⟨1, 1, 4, none⟩], needDeSwizzle := true,
    txb := { exampleHeader with pos := 128 } }

end Images

/-! # Theorems -/

namespace NWScript

/-! ## The functions refine the relation -/

theorem followBranchBlock_eq_branchAll
    (recurse : State → Nat → Option Nat → Except Error State)
    (code : List Instruction) (s : State) (b : Nat) (i : Instruction) :
    followBranchBlock recurse code s b i =
      match branchTargets i with
      | none => .error .assertionFailed
      | some l => branchAll recurse code s b l := by
  have two : ∀ (s0 : State) (t f : Nat) (t1 t2 : BlockEdgeType),
      (match branchTo recurse code s0 b t t1 with
        | .error e => Except.error e
        | .ok s1 => branchTo recurse code s1 b f t2) =
      branchAll recurse code s0 b [(t, t1), (f, t2)] := by
    intro s0 t f t1 t2
    simp only [branchAll]
    cases branchTo recurse code s0 b t t1 with
    | error e => rfl
    | ok s1 =>
      simp only
      cases branchTo recurse code s1 b f t2 <;> rfl
  have one : ∀ (s0 : State) (t : Nat) (t1 : BlockEdgeType),
      branchTo recurse code s0 b t t1 = branchAll recurse code s0 b [(t, t1)] := by
    intro s0 t t1
    simp only [branchAll]
    cases branchTo recurse code s0 b t t1 <;> rfl
  unfold followBranchBlock branchTargets
  split
  · split
    · simp only [one]
    · rfl
  · split
    · simp only [two]
    · rfl
  · split
    · simp only [two]
    · rfl
  · split
    · simp only [two]
    · rfl
  · split
    · simp only [two]
    · rfl
  · rfl

theorem exec_of_branchTo {recurse : State → Nat → Option Nat → Except Error State}
    {code : List Instruction}
    (hrec : ∀ s b oi s1, recurse s b oi = .ok s1 → Exec code (.loop b oi) s s1)
    {s s1 : State} {b d : Nat} {ty : BlockEdgeType}
    (h : branchTo recurse code s b d ty = .ok s1) : Exec code (.branch b d ty) s s1 := by
  unfold branchTo addBranchBlock at h
  cases hd : code[d]? with
  | none => simp [hd] at h
  | some i =>
    cases hb : s.block d with
    | some c =>
      simp only [hd, hb] at h
      cases hl : linkBlocks s b c ty with
      | error e => simp [hl] at h
      | ok s2 =>
        simp [hl] at h
        subst h
        exact Exec.branchOld hd hb hl
    | none =>
      simp only [hd, hb] at h
      cases hl : linkBlocks { s with blocks := s.blocks ++ [Block.new i.address] } b
          s.blocks.length ty with
      | error e => simp [hl] at h
      | ok s2 =>
        simp [hl] at h
        exact Exec.branchNew hd hb hl (hrec _ _ _ _ h)

theorem exec_of_branchAll {recurse : State → Nat → Option Nat → Except Error State}
    {code : List Instruction}
    (hrec : ∀ s b oi s1, recurse s b oi = .ok s1 → Exec code (.loop b oi) s s1)
    (b : Nat) (l : List (Nat × BlockEdgeType)) :
    ∀ s s1, branchAll recurse code s b l = .ok s1 → Exec code (.branches b l) s s1 := by
  induction l with
  | nil =>
    intro s s1 h
    simp [branchAll] at h
    subst h
    exact Exec.branchesNil s b
  | cons p rest ih =>
    intro s s1 h
    obtain ⟨d, ty⟩ := p
    simp only [branchAll] at h
    cases hb : branchTo recurse code s b d ty with
    | error e => simp [hb] at h
    | ok s2 =>
      simp only [hb] at h
      exact Exec.branchesCons (exec_of_branchTo hrec hb) (ih s2 s1 h)

theorem exec_of_constructBlocksFrom (code : List Instruction) :
    ∀ fuel s b oi s1, constructBlocksFrom code fuel s b oi = .ok s1 →
      Exec code (.loop b oi) s s1 := by
  intro fuel
  induction fuel with
  | zero =>
    intro s b oi s1 h
    cases oi with
    | none =>
      simp [constructBlocksFrom] at h
      subst h
      exact Exec.loopEnd s b
    | some x => simp [constructBlocksFrom] at h
  | succ fuel ih =>
    intro s b oi s1 h
    cases oi with
    | none =>
      simp [constructBlocksFrom] at h
      subst h
      exact Exec.loopEnd s b
    | some x =>
      simp only [constructBlocksFrom] at h
      cases hx : code[x]? with
      | none => simp [hx] at h
      | some i =>
        simp only [hx] at h
        cases hb : s.block x with
        | some c =>
          simp only [hb] at h
          exact Exec.loopSeen hx hb h
        | none =>
          simp only [hb] at h
          cases hbl : s.blocks[b]? with
          | none => simp [hbl] at h
          | some bl =>
            simp only [hbl] at h
            by_cases hsplit : i.addressType ≠ .kAddressTypeNone ∧ bl.instructions ≠ []
            · rw [if_pos hsplit] at h
              exact Exec.loopSplit hx hb hbl hsplit.1 hsplit.2 (exec_of_branchTo ih h)
            · rw [if_neg hsplit] at h
              cases hbr : i.opcode.isBranch with
              | true =>
                simp only [hbr, if_true] at h
                rw [followBranchBlock_eq_branchAll] at h
                cases ht : branchTargets i with
                | none => simp [ht] at h
                | some l =>
                  simp only [ht] at h
                  exact Exec.loopBranch hx hb hbl hsplit hbr ht (exec_of_branchAll ih b l _ _ h)
              | false =>
                simp only [hbr] at h
                exact Exec.loopNext hx hb hbl hsplit hbr (ih _ _ _ _ h)

/-! ## Effect of the elementary steps -/

theorem getElem?_set_of_some {α : Type} {l : List α} {i : Nat} {a b : α}
    (h : l[i]? = some b) (j : Nat) :
    (l.set i a)[j]? = if j = i then some a else l[j]? := by
  have hi : i < l.length := (List.getElem?_eq_some_iff.1 h).1
  rw [List.getElem?_set]
  by_cases hij : i = j
  · subst hij
    simp [hi]
  · have hji : ¬ j = i := fun e => hij e.symm
    simp [hij, hji]

theorem linkBlocks_ok {s s1 : State} {a c : Nat} {ty : BlockEdgeType}
    (h : linkBlocks s a c ty = .ok s1) :
    s1.block = s.block ∧ a < s.blocks.length ∧ c < s.blocks.length ∧
    s1.blocks.length = s.blocks.length ∧
    ∀ k, s1.blocks[k]? = (s.blocks[k]?).map (Block.linked a c ty k) := by
  unfold linkBlocks at h
  cases hc : s.blocks[c]? with
  | none => simp [hc] at h
  | some t =>
    simp only [hc] at h
    have hclt : c < s.blocks.length := (List.getElem?_eq_some_iff.1 hc).1
    cases ha : (s.blocks.set c { t with parents := t.parents ++ [a] })[a]? with
    | none => simp [ha] at h
    | some b =>
      simp only [ha] at h
      have halt : a < s.blocks.length := by
        have := (List.getElem?_eq_some_iff.1 ha).1
        simpa using this
      have hs1 : s1 = { s with
          blocks := (s.blocks.set c { t with parents := t.parents ++ [a] }).set a
            { b with children := b.children ++ [c],
                     childrenTypes := b.childrenTypes ++ [ty] } } := by
        injection h with h
        exact h.symm
      subst hs1
      refine ⟨rfl, halt, hclt, by simp, ?_⟩
      intro k
      simp only
      rw [getElem?_set_of_some ha k]
      rw [getElem?_set_of_some hc a] at ha
      by_cases hka : k = a
      · subst hka
        by_cases hkc : k = c
        · subst hkc
          simp only [if_true] at ha
          injection ha with ha
          subst ha
          simp [hc, Block.linked]
        · simp only [hkc, if_false] at ha
          simp [ha, Block.linked, hkc]
      · rw [if_neg hka, getElem?_set_of_some hc k]
        by_cases hkc : k = c
        · subst hkc
          simp [hc, Block.linked, hka]
        · rw [if_neg hkc]
          cases hk : s.blocks[k]? with
          | none => rfl
          | some bk => simp [Block.linked, hka, hkc]

theorem linkBlocks_total (s : State) {a c : Nat} (ty : BlockEdgeType)
    (ha : a < s.blocks.length) (hc : c < s.blocks.length) :
    ∃ s1, linkBlocks s a c ty = .ok s1 := by
  unfold linkBlocks
  have h1 : s.blocks[c]? = some s.blocks[c] := List.getElem?_eq_getElem hc
  rw [h1]
  simp only
  have h2 : a < (s.blocks.set c { s.blocks[c] with parents := s.blocks[c].parents ++ [a] }).length := by
    simpa using ha
  rw [List.getElem?_eq_getElem h2]
  exact ⟨_, rfl⟩

theorem putInstruction_blocks {s : State} {b : Nat} {bl : Block} (x : Nat)
    (h : s.blocks[b]? = some bl) (k : Nat) :
    (putInstruction s b bl x).blocks[k]? =
      if k = b then some { bl with instructions := bl.instructions ++ [x] }
      else s.blocks[k]? := by
  unfold putInstruction
  simp only
  exact getElem?_set_of_some h k

theorem putInstruction_block (s : State) (b : Nat) (bl : Block) (x j : Nat) :
    (putInstruction s b bl x).block j = if j = x then some b else s.block j := rfl

theorem putInstruction_length (s : State) (b : Nat) (bl : Block) (x : Nat) :
    (putInstruction s b bl x).blocks.length = s.blocks.length := by
  simp [putInstruction]

theorem getElem?_concat {α : Type} (l : List α) (a : α) (k : Nat) :
    (l ++ [a])[k]? = if k = l.length then some a else l[k]? := by
  by_cases hk : k = l.length
  · subst hk
    simp
  · rw [if_neg hk]
    by_cases hlt : k < l.length
    · exact List.getElem?_append_left hlt
    · have hge : l.length < k := by omega
      rw [List.getElem?_eq_none (by simp; omega), List.getElem?_eq_none (by omega)]

/-! ## Invariants of the construction -/

theorem SameCore.rfl (bl : Block) : SameCore bl bl := ⟨Eq.refl _, Eq.refl _, Eq.refl _, Eq.refl _⟩

theorem SameCore.core_trans {a b c : Block} (h1 : SameCore a b) (h2 : SameCore b c) :
    SameCore a c :=
  ⟨h2.1.trans h1.1, h2.2.1.trans h1.2.1, h2.2.2.1.trans h1.2.2.1, h2.2.2.2.trans h1.2.2.2⟩

theorem Frame.refl (s : State) (b : Nat) : Frame s b s :=
  ⟨Nat.le_refl _, fun _ _ h => h, fun _ bl _ h => ⟨bl, h, SameCore.rfl bl⟩⟩

theorem Frame.frame_trans {s s1 s2 : State} {b b1 : Nat} (h1 : Frame s b s1) (h2 : Frame s1 b1 s2)
    (hb : b1 = b ∨ s.blocks.length ≤ b1) : Frame s b s2 := by
  refine ⟨Nat.le_trans h1.len h2.len, fun x c h => h2.keep x c (h1.keep x c h), ?_⟩
  intro k bl hk hbl
  obtain ⟨bl1, hbl1, hc1⟩ := h1.core k bl hk hbl
  have hklt : k < s.blocks.length := (List.getElem?_eq_some_iff.1 hbl).1
  have hk1 : k ≠ b1 := by
    rcases hb with hb | hb
    · rw [hb]; exact hk
    · omega
  obtain ⟨bl2, hbl2, hc2⟩ := h2.core k bl1 hk1 hbl1
  exact ⟨bl2, hbl2, hc1.core_trans hc2⟩

theorem Linked.mono {s s1 : State} {bl bl1 : Block} {l : List (Nat × BlockEdgeType)}
    (h : Linked s bl l) (hkeep : ∀ x c, s.block x = some c → s1.block x = some c)
    (hc : bl1.children = bl.children) (ht : bl1.childrenTypes = bl.childrenTypes) :
    Linked s1 bl1 l := by
  refine ⟨?_, by rw [ht, h.2]⟩
  rw [hc]
  have h1 := h.1
  clear h hc ht
  generalize bl.children = cs at h1
  induction l generalizing cs with
  | nil => simpa using h1
  | cons p rest ih =>
    cases cs with
    | nil => simp at h1
    | cons c r =>
      simp only [List.map_cons, List.cons.injEq] at h1 ⊢
      exact ⟨(hkeep _ _ h1.1.symm).symm, ih r h1.2⟩

theorem BlockShape.shape_of_sameCore {code : List Instruction} {bl bl1 : Block} {h m : Nat}
    (hs : BlockShape code bl h m) (hc : SameCore bl bl1) : BlockShape code bl1 h m :=
  ⟨by rw [hc.2.1]; exact hs.instrs, by rw [hc.1]; exact hs.head, hs.inner, hs.unmarked⟩

theorem Done.done_of_sameCore {code : List Instruction} {s s1 : State} {b : Nat}
    (h : Done code s b) (hkeep : ∀ x c, s.block x = some c → s1.block x = some c)
    (hcore : ∀ bl, s.blocks[b]? = some bl → ∃ bl1, s1.blocks[b]? = some bl1 ∧ SameCore bl bl1) :
    Done code s1 b := by
  obtain ⟨bl, h0, m, last, l, hbl, hshape, hlast, hsucc, hlinked⟩ := h
  obtain ⟨bl1, hbl1, hc⟩ := hcore bl hbl
  exact ⟨bl1, h0, m, last, l, hbl1, hshape.shape_of_sameCore hc, hlast, hsucc,
    hlinked.mono hkeep hc.2.2.1 hc.2.2.2⟩

theorem Done.of_frame {code : List Instruction} {s s1 : State} {b k : Nat}
    (h : Done code s k) (hf : Frame s b s1) (hk : k ≠ b) : Done code s1 k :=
  h.done_of_sameCore hf.keep (fun bl hbl => hf.core k bl hk hbl)

theorem linkBlocks_lookup {s s1 : State} {a c : Nat} {ty : BlockEdgeType}
    (h : linkBlocks s a c ty = .ok s1) {k : Nat} {bl : Block} (hk : s.blocks[k]? = some bl) :
    s1.blocks[k]? = some (bl.linked a c ty k) := by
  rw [(linkBlocks_ok h).2.2.2.2 k, hk]
  rfl

theorem linkBlocks_lookup_inv {s s1 : State} {a c : Nat} {ty : BlockEdgeType}
    (h : linkBlocks s a c ty = .ok s1) {k : Nat} {bl1 : Block} (hk : s1.blocks[k]? = some bl1) :
    ∃ bl, s.blocks[k]? = some bl ∧ bl1 = bl.linked a c ty k := by
  rw [(linkBlocks_ok h).2.2.2.2 k] at hk
  cases hs : s.blocks[k]? with
  | none => simp [hs] at hk
  | some bl =>
    rw [hs] at hk
    simp only [Option.map_some'] at hk
    injection hk with hk
    exact ⟨bl, rfl, hk.symm⟩

theorem linkBlocks_frame {s s1 : State} {a c : Nat} {ty : BlockEdgeType}
    (h : linkBlocks s a c ty = .ok s1) : Frame s a s1 := by
  obtain ⟨hb, _, _, hlen, _⟩ := linkBlocks_ok h
  refine ⟨Nat.le_of_eq hlen.symm, fun x c hx => by rw [hb]; exact hx, ?_⟩
  intro k bl hk hbl
  refine ⟨_, linkBlocks_lookup h hbl, ?_⟩
  simp [SameCore, Block.linked, hk]

theorem linkBlocks_consistent {s s1 : State} {a c : Nat} {ty : BlockEdgeType}
    (h : linkBlocks s a c ty = .ok s1) (hs : Consistent s) : Consistent s1 := by
  obtain ⟨hb, _, _, hlen, _⟩ := linkBlocks_ok h
  refine ⟨fun x c hx => ?_, fun b bl1 x hbl1 => ?_⟩
  · rw [hlen]
    rw [hb] at hx
    exact hs.valid x c hx
  · obtain ⟨bl, hbl, rfl⟩ := linkBlocks_lookup_inv h hbl1
    rw [hb]
    exact hs.mem_iff b bl x hbl

theorem linkBlocks_grown {s s1 : State} {a c d : Nat} {ty : BlockEdgeType}
    (h : linkBlocks s a c ty = .ok s1) (hd : s.block d = some c) :
    Grown s a s1 [(d, ty)] := by
  obtain ⟨hb, ha, _, _, _⟩ := linkBlocks_ok h
  have hbl : s.blocks[a]? = some s.blocks[a] := List.getElem?_eq_getElem ha
  refine ⟨_, _, [c], hbl, linkBlocks_lookup h hbl, ?_⟩
  simp [Block.linked, hb, hd]

theorem newBlock_lookup (s : State) (addr k : Nat) :
    ({ s with blocks := s.blocks ++ [Block.new addr] } : State).blocks[k]? =
      if k = s.blocks.length then some (Block.new addr) else s.blocks[k]? :=
  getElem?_concat s.blocks (Block.new addr) k

theorem newBlock_consistent {s : State} (addr : Nat) (hs : Consistent s) :
    Consistent { s with blocks := s.blocks ++ [Block.new addr] } := by
  refine ⟨fun x c hx => ?_, fun b bl x hbl => ?_⟩
  · have := hs.valid x c hx
    simp only [List.length_append, List.length_singleton]
    omega
  · rw [newBlock_lookup] at hbl
    by_cases hb : b = s.blocks.length
    · rw [if_pos hb] at hbl
      injection hbl with hbl
      subst hbl
      simp only [Block.new, List.not_mem_nil, false_iff]
      intro hx
      have := hs.valid x b hx
      omega
    · rw [if_neg hb] at hbl
      exact hs.mem_iff b bl x hbl

theorem newBlock_frame (s : State) (addr b : Nat) :
    Frame s b { s with blocks := s.blocks ++ [Block.new addr] } := by
  refine ⟨by simp, fun x c hx => hx, ?_⟩
  intro k bl _ hbl
  have hklt : k < s.blocks.length := (List.getElem?_eq_some_iff.1 hbl).1
  refine ⟨bl, ?_, SameCore.rfl bl⟩
  rw [newBlock_lookup, if_neg (by omega)]
  exact hbl

theorem putInstruction_consistent {s : State} {b x : Nat} {bl : Block}
    (hs : Consistent s) (hbl : s.blocks[b]? = some bl) (hx : s.block x = none) :
    Consistent (putInstruction s b bl x) := by
  have hblt : b < s.blocks.length := (List.getElem?_eq_some_iff.1 hbl).1
  refine ⟨fun y c hy => ?_, fun k bk y hbk => ?_⟩
  · rw [putInstruction_length]
    rw [putInstruction_block] at hy
    by_cases hyx : y = x
    · rw [if_pos hyx] at hy
      injection hy with hy
      omega
    · rw [if_neg hyx] at hy
      exact hs.valid y c hy
  · rw [putInstruction_blocks x hbl] at hbk
    rw [putInstruction_block]
    by_cases hkb : k = b
    · rw [if_pos hkb] at hbk
      injection hbk with hbk
      subst hbk
      subst hkb
      by_cases hyx : y = x
      · simp [hyx]
      · simp only [List.mem_append, List.mem_singleton, hyx, or_false, if_false]
        exact hs.mem_iff k bl y hbl
    · rw [if_neg hkb] at hbk
      by_cases hyx : y = x
      · subst hyx
        simp only [if_true]
        constructor
        · intro hmem
          have := (hs.mem_iff k bk y hbk).1 hmem
          rw [hx] at this
          exact absurd this (by simp)
        · intro hbk1
          injection hbk1 with hbk1
          exact absurd hbk1.symm hkb
      · rw [if_neg hyx]
        exact hs.mem_iff k bk y hbk

theorem putInstruction_frame {s : State} {b x : Nat} {bl : Block}
    (hbl : s.blocks[b]? = some bl) (hx : s.block x = none) :
    Frame s b (putInstruction s b bl x) := by
  refine ⟨Nat.le_of_eq (putInstruction_length s b bl x).symm, fun y c hy => ?_, ?_⟩
  · rw [putInstruction_block]
    by_cases hyx : y = x
    · subst hyx
      rw [hx] at hy
      exact absurd hy (by simp)
    · rw [if_neg hyx]
      exact hy
  · intro k bk hk hbk
    refine ⟨bk, ?_, SameCore.rfl bk⟩
    rw [putInstruction_blocks x hbl, if_neg hk]
    exact hbk

theorem successors_of_not_branch {i : Instruction} (h : i.opcode.isBranch = false) :
    successors i =
      some (i.follower.toList.map (fun f => (f, BlockEdgeType.kBlockEdgeTypeUnconditional))) := by
  simp [successors, h]

theorem successors_of_branch {i : Instruction} (h : i.opcode.isBranch = true) :
    successors i = branchTargets i := by
  simp [successors, h]

/-- Appending the instruction the loop is at keeps the shape of an open block. -/
theorem Open.put {code : List Instruction} (hf : FollowerNext code) {s : State} {b x : Nat}
    {i : Instruction} {bl : Block} (ho : Open code s b (some x)) (hx : code[x]? = some i)
    (hb : s.block x = none) (hbl : s.blocks[b]? = some bl)
    (hsplit : ¬ (i.addressType ≠ .kAddressTypeNone ∧ bl.instructions ≠ [])) :
    bl.children = [] ∧ bl.childrenTypes = [] ∧
    ∃ h m, h + m = x ∧
      BlockShape code { bl with instructions := bl.instructions ++ [x] } h m := by
  obtain ⟨bl0, hbl0, hch, hty, hcase⟩ := ho
  rw [hbl] at hbl0
  injection hbl0 with hbl0
  subst hbl0
  refine ⟨hch, hty, ?_⟩
  rcases hcase with ⟨hnil, y, j, hy, hj, haddr, _⟩ | ⟨h, m, last, hshape, hlast, _, hfol⟩
  · injection hy with hy
    subst hy
    rw [hx] at hj
    injection hj with hj
    subst hj
    refine ⟨x, 0, rfl, ?_, ⟨i, hx, haddr⟩, ?_, ?_⟩
    · simp [hnil, List.range']
    · intro k _ h1 h2
      omega
    · intro k _ h1 h2
      omega
  · have hxe : x = (h + m) + 1 := hf (h + m) last x hlast hfol
    have hne : bl.instructions ≠ [] := by
      rw [hshape.instrs]
      simp [List.range']
    have hat : i.addressType = .kAddressTypeNone := by
      by_contra hc
      exact hsplit ⟨hc, hne⟩
    refine ⟨h, m + 1, by omega, ?_, hshape.head, ?_, ?_⟩
    · show bl.instructions ++ [x] = List.range' h (m + 1 + 1)
      rw [List.range'_concat h (m + 1), hshape.instrs, hxe]
      simp
      omega
    · intro k j h1 h2 hk
      by_cases hkm : k < h + m
      · exact hshape.inner k j h1 hkm hk
      · have hke : k = h + m := by omega
        subst hke
        rw [hlast] at hk
        injection hk with hk
        subst hk
        assumption
    · intro k j h1 h2 hk
      by_cases hkm : k ≤ h + m
      · exact hshape.unmarked k j h1 hkm hk
      · have hke : k = x := by omega
        subst hke
        rw [hx] at hk
        injection hk with hk
        subst hk
        exact hat

theorem post_loopEnd {code : List Instruction} {s : State} {b : Nat}
    (hs : Consistent s) (ho : Open code s b none) : Post code (.loop b none) s s := by
  obtain ⟨bl, hbl, hch, hty, hcase⟩ := ho
  refine ⟨⟨hs, Frame.refl s b, fun k h1 h2 => absurd h2 (by omega)⟩, ?_, ?_⟩
  · rcases hcase with ⟨_, y, j, hy, _⟩ | ⟨h, m, last, hshape, hlast, hnb, hfol⟩
    · exact absurd hy (by simp)
    · refine ⟨bl, h, m, last, [], hbl, hshape, hlast, ?_, ?_⟩
      · rw [successors_of_not_branch hnb, hfol]
        rfl
      · simp [Linked, hch, hty]
  · intro x _ hx
    exact absurd hx (by simp)

theorem post_loopSeen {code : List Instruction} {s s1 : State} {b x c : Nat}
    (hb : s.block x = some c)
    (hl : linkBlocks s b c .kBlockEdgeTypeUnconditional = .ok s1)
    (hs : Consistent s) (ho : Open code s b (some x)) :
    Post code (.loop b (some x)) s s1 := by
  obtain ⟨bl, hbl, hch, hty, hcase⟩ := ho
  obtain ⟨hblock, _, _, hlen, _⟩ := linkBlocks_ok hl
  refine ⟨⟨linkBlocks_consistent hl hs, linkBlocks_frame hl,
    fun k h1 h2 => absurd h2 (by omega)⟩, ?_, ?_⟩
  · rcases hcase with ⟨_, y, j, hy, _, _, hnone⟩ | ⟨h, m, last, hshape, hlast, hnb, hfol⟩
    · injection hy with hy
      subst hy
      rw [hb] at hnone
      exact absurd hnone (by simp)
    · refine ⟨_, h, m, last, [(x, .kBlockEdgeTypeUnconditional)], linkBlocks_lookup hl hbl,
        ⟨hshape.instrs, hshape.head, hshape.inner, hshape.unmarked⟩, hlast, ?_, ?_⟩
      · rw [successors_of_not_branch hnb, hfol]
        rfl
      · simp [Linked, Block.linked, hch, hty, hblock, hb]
  · intro y _ hy hnone
    injection hy with hy
    subst hy
    rw [hb] at hnone
    exact absurd hnone (by simp)

theorem post_loopSplit {code : List Instruction} {s s1 : State} {b x : Nat} {bl : Block}
    (hbl : s.blocks[b]? = some bl) (hne : bl.instructions ≠ [])
    (ih : Post code (.branch b x .kBlockEdgeTypeUnconditional) s s1)
    (ho : Open code s b (some x)) :
    Post code (.loop b (some x)) s s1 := by
  obtain ⟨bl0, hbl0, hch, hty, hcase⟩ := ho
  rw [hbl] at hbl0
  injection hbl0 with hbl0
  subst hbl0
  obtain ⟨hcommon, bl2, bl1, cs, hbl2, hbl1, hstart, hinstr, hchildren, hcs, htypes⟩ := ih
  rw [hbl] at hbl2
  injection hbl2 with hbl2
  subst hbl2
  refine ⟨hcommon, ?_, ?_⟩
  · rcases hcase with ⟨hnil, _⟩ | ⟨h, m, last, hshape, hlast, hnb, hfol⟩
    · exact absurd hnil hne
    · refine ⟨bl1, h, m, last, [(x, .kBlockEdgeTypeUnconditional)], hbl1,
        ⟨by rw [hinstr]; exact hshape.instrs, by rw [hstart]; exact hshape.head,
          hshape.inner, hshape.unmarked⟩, hlast, ?_, ?_⟩
      · rw [successors_of_not_branch hnb, hfol]
        rfl
      · refine ⟨?_, ?_⟩
        · rw [hchildren, hch, List.nil_append, hcs]
        · rw [htypes, hty, List.nil_append]
  · intro y bl3 _ _ hbl3 hnil
    rw [hbl] at hbl3
    injection hbl3 with hbl3
    subst hbl3
    exact absurd hnil hne

theorem post_loopBranch {code : List Instruction} (hf : FollowerNext code)
    {s s1 : State} {b x : Nat} {i : Instruction} {bl : Block}
    {l : List (Nat × BlockEdgeType)}
    (hx : code[x]? = some i) (hb : s.block x = none) (hbl : s.blocks[b]? = some bl)
    (hsplit : ¬ (i.addressType ≠ .kAddressTypeNone ∧ bl.instructions ≠ []))
    (hbr : i.opcode.isBranch = true) (ht : branchTargets i = some l)
    (ih : Post code (.branches b l) (putInstruction s b bl x) s1)
    (ho : Open code s b (some x)) :
    Post code (.loop b (some x)) s s1 := by
  obtain ⟨hch, hty, h, m, hhm, hshape⟩ := ho.put hf hx hb hbl hsplit
  obtain ⟨⟨hcons, hframe, hnew⟩, bl0, bl1, cs, hbl0, hbl1, hstart, hinstr, hchildren, hcs,
    htypes⟩ := ih
  rw [putInstruction_blocks x hbl, if_pos rfl] at hbl0
  injection hbl0 with hbl0
  subst hbl0
  have hfr : Frame s b s1 := (putInstruction_frame hbl hb).frame_trans hframe (Or.inl rfl)
  refine ⟨⟨hcons, hfr, ?_⟩, ?_, ?_⟩
  · intro k h1 h2
    exact hnew k (by rw [putInstruction_length]; exact h1) h2
  · refine ⟨bl1, h, m, i, l, hbl1,
      ⟨by rw [hinstr]; exact hshape.instrs, by rw [hstart]; exact hshape.head,
        hshape.inner, hshape.unmarked⟩, by rw [hhm]; exact hx, ?_, ?_⟩
    · rw [successors_of_branch hbr, ht]
    · refine ⟨?_, ?_⟩
      · rw [hchildren]
        simp only [hch, List.nil_append]
        exact hcs
      · rw [htypes]
        simp only [hty, List.nil_append]
  · intro y _ hy _ _ _
    injection hy with hy
    subst hy
    exact hframe.keep x b (by rw [putInstruction_block, if_pos rfl])

theorem post_loopNext {code : List Instruction} (hf : FollowerNext code)
    {s s1 : State} {b x : Nat} {i : Instruction} {bl : Block}
    (hx : code[x]? = some i) (hb : s.block x = none) (hbl : s.blocks[b]? = some bl)
    (hsplit : ¬ (i.addressType ≠ .kAddressTypeNone ∧ bl.instructions ≠ []))
    (hbr : i.opcode.isBranch = false)
    (ih : Open code (putInstruction s b bl x) b i.follower →
      Post code (.loop b i.follower) (putInstruction s b bl x) s1)
    (ho : Open code s b (some x)) :
    Post code (.loop b (some x)) s s1 := by
  obtain ⟨hch, hty, h, m, hhm, hshape⟩ := ho.put hf hx hb hbl hsplit
  have hopen : Open code (putInstruction s b bl x) b i.follower := by
    refine ⟨{ bl with instructions := bl.instructions ++ [x] },
      by rw [putInstruction_blocks x hbl, if_pos rfl], hch, hty, Or.inr ?_⟩
    exact ⟨h, m, i, hshape, by rw [hhm]; exact hx, hbr, rfl⟩
  obtain ⟨⟨hcons, hframe, hnew⟩, hdone, _⟩ := ih hopen
  have hfr : Frame s b s1 := (putInstruction_frame hbl hb).frame_trans hframe (Or.inl rfl)
  refine ⟨⟨hcons, hfr, ?_⟩, hdone, ?_⟩
  · intro k h1 h2
    exact hnew k (by rw [putInstruction_length]; exact h1) h2
  · intro y _ hy _ _ _
    injection hy with hy
    subst hy
    exact hframe.keep x b (by rw [putInstruction_block, if_pos rfl])

theorem post_branchOld {code : List Instruction} {s s1 : State} {b d c : Nat}
    {ty : BlockEdgeType} (hb : s.block d = some c) (hl : linkBlocks s b c ty = .ok s1)
    (hs : Consistent s) : Post code (.branch b d ty) s s1 := by
  obtain ⟨_, _, _, hlen, _⟩ := linkBlocks_ok hl
  exact ⟨⟨linkBlocks_consistent hl hs, linkBlocks_frame hl,
    fun k h1 h2 => absurd h2 (by omega)⟩, linkBlocks_grown hl hb⟩

theorem post_branchNew {code : List Instruction} {s s1 s2 : State} {b d : Nat}
    {ty : BlockEdgeType} {i : Instruction}
    (hd : code[d]? = some i) (hb : s.block d = none)
    (hl : linkBlocks { s with blocks := s.blocks ++ [Block.new i.address] } b
      s.blocks.length ty = .ok s1)
    (ih : Consistent s1 → Open code s1 s.blocks.length (some d) →
      Post code (.loop s.blocks.length (some d)) s1 s2)
    (hs : Consistent s) (hpre : b < s.blocks.length) :
    Post code (.branch b d ty) s s2 := by
  obtain ⟨hblock, _, _, hlen, _⟩ := linkBlocks_ok hl
  have hlen1 : s1.blocks.length = s.blocks.length + 1 := by
    rw [hlen]
    simp
  have hcons1 : Consistent s1 := linkBlocks_consistent hl (newBlock_consistent i.address hs)
  have hne : s.blocks.length ≠ b := by omega
  have hnewblk : s1.blocks[s.blocks.length]? =
      some ((Block.new i.address).linked b s.blocks.length ty s.blocks.length) :=
    linkBlocks_lookup hl (by rw [newBlock_lookup, if_pos rfl])
  have hopen : Open code s1 s.blocks.length (some d) := by
    refine ⟨_, hnewblk, ?_, ?_, Or.inl ⟨?_, d, i, rfl, hd, ?_, ?_⟩⟩
    · simp [Block.linked, Block.new, hne]
    · simp [Block.linked, Block.new, hne]
    · simp [Block.linked, Block.new]
    · simp [Block.linked, Block.new]
    · rw [hblock]
      exact hb
  obtain ⟨⟨hcons, hframe, hnew⟩, hdone, hassigned⟩ := ih hcons1 hopen
  have hsd : s2.block d = some s.blocks.length :=
    hassigned d _ rfl (by rw [hblock]; exact hb) hnewblk (by simp [Block.linked, Block.new])
  have hfr : Frame s b s2 :=
    ((newBlock_frame s i.address b).frame_trans (linkBlocks_frame hl) (Or.inl rfl)).frame_trans hframe
      (Or.inr (Nat.le_refl _))
  refine ⟨⟨hcons, hfr, ?_⟩, ?_⟩
  · intro k h1 h2
    by_cases hk : k = s.blocks.length
    · rw [hk]
      exact hdone
    · exact hnew k (by omega) h2
  · have hbl : s.blocks[b]? = some s.blocks[b] := List.getElem?_eq_getElem hpre
    have hbl1 : s1.blocks[b]? = some (s.blocks[b].linked b s.blocks.length ty b) :=
      linkBlocks_lookup hl (by rw [newBlock_lookup, if_neg (by omega)]; exact hbl)
    obtain ⟨bl2, hbl2, hcore⟩ := hframe.core b _ (by omega) hbl1
    refine ⟨_, bl2, [s.blocks.length], hbl, hbl2, ?_, ?_, ?_, ?_, ?_⟩
    · rw [hcore.1]; rfl
    · rw [hcore.2.1]; rfl
    · rw [hcore.2.2.1]; simp [Block.linked]
    · simp [hsd]
    · rw [hcore.2.2.2]; simp [Block.linked]

theorem post_branchesNil {code : List Instruction} {s : State} {b : Nat}
    (hs : Consistent s) (hpre : b < s.blocks.length) : Post code (.branches b []) s s := by
  refine ⟨⟨hs, Frame.refl s b, fun k h1 h2 => absurd h2 (by omega)⟩, ?_⟩
  exact ⟨_, _, [], List.getElem?_eq_getElem hpre, List.getElem?_eq_getElem hpre, rfl, rfl,
    by simp, by simp, by simp⟩

theorem post_branchesCons {code : List Instruction} {s s1 s2 : State} {b d : Nat}
    {ty : BlockEdgeType} {rest : List (Nat × BlockEdgeType)}
    (ih1 : Post code (.branch b d ty) s s1)
    (ih2 : Consistent s1 → b < s1.blocks.length → Post code (.branches b rest) s1 s2)
    (hpre : b < s.blocks.length) :
    Post code (.branches b ((d, ty) :: rest)) s s2 := by
  obtain ⟨⟨hcons1, hframe1, hnew1⟩, bl, bl1, cs1, hbl, hbl1, hstart1, hinstr1, hch1, hcs1,
    hty1⟩ := ih1
  obtain ⟨⟨hcons2, hframe2, hnew2⟩, bl1', bl2, cs2, hbl1', hbl2, hstart2, hinstr2, hch2, hcs2,
    hty2⟩ := ih2 hcons1 (Nat.lt_of_lt_of_le hpre hframe1.len)
  rw [hbl1] at hbl1'
  injection hbl1' with hbl1'
  subst hbl1'
  refine ⟨⟨hcons2, hframe1.frame_trans hframe2 (Or.inl rfl), ?_⟩, ?_⟩
  · intro k h1 h2
    by_cases hk : k < s1.blocks.length
    · exact (hnew1 k h1 hk).of_frame hframe2 (by omega)
    · exact hnew2 k (by omega) h2
  · refine ⟨bl, bl2, cs1 ++ cs2, hbl, hbl2, hstart2.trans hstart1, hinstr2.trans hinstr1, ?_,
      ?_, ?_⟩
    · rw [hch2, hch1, List.append_assoc]
    · cases cs1 with
      | nil => simp at hcs1
      | cons c cs =>
        cases cs with
        | cons c2 cs3 => simp at hcs1
        | nil =>
          simp only [List.map_cons, List.map_nil, List.cons.injEq, and_true] at hcs1
          simp only [List.singleton_append, List.map_cons, List.cons.injEq]
          exact ⟨(hframe2.keep d c hcs1.symm).symm, hcs2⟩
    · rw [hty2, hty1]
      simp

/-- The postcondition of every task of a run that starts in a consistent state
that satisfies the precondition of the task. -/
theorem exec_post {code : List Instruction} (hf : FollowerNext code) {t : Task}
    {s s1 : State} (h : Exec code t s s1) :
    Consistent s → Pre code t s → Post code t s s1 := by
  induction h with
  | loopEnd s b => exact fun hs ho => post_loopEnd hs ho
  | loopSeen hx hb hl => exact fun hs ho => post_loopSeen hb hl hs ho
  | loopSplit hx hb hbl hat hne _ ih =>
    intro hs ho
    exact post_loopSplit hbl hne (ih hs (List.getElem?_eq_some_iff.1 hbl).1) ho
  | loopBranch hx hb hbl hsplit hbr ht _ ih =>
    intro hs ho
    refine post_loopBranch hf hx hb hbl hsplit hbr ht
      (ih (putInstruction_consistent hs hbl hb) ?_) ho
    show _ < (putInstruction _ _ _ _).blocks.length
    rw [putInstruction_length]
    exact (List.getElem?_eq_some_iff.1 hbl).1
  | loopNext hx hb hbl hsplit hbr _ ih =>
    intro hs ho
    exact post_loopNext hf hx hb hbl hsplit hbr (ih (putInstruction_consistent hs hbl hb)) ho
  | branchOld hd hb hl => exact fun hs _ => post_branchOld hb hl hs
  | branchNew hd hb hl _ ih => exact fun hs hpre => post_branchNew hd hb hl ih hs hpre
  | branchesNil s b => exact fun hs hpre => post_branchesNil hs hpre
  | branchesCons _ _ ih1 ih2 =>
    intro hs hpre
    exact post_branchesCons (ih1 hs hpre) ih2 hpre

/-! ## Consequences of well-formedness -/

theorem WellFormed.follower_eq {code : List Instruction} (hwf : WellFormed code) {k : Nat}
    {i : Instruction} (hk : code[k]? = some i) :
    i.follower = if k + 1 < code.length then some (k + 1) else none := by
  have h := hwf.2.1 k (List.getElem?_eq_some_iff.1 hk).1
  rw [hk] at h
  exact h

theorem WellFormed.followerNext {code : List Instruction} (hwf : WellFormed code) :
    FollowerNext code := by
  intro k i f hk hfol
  rw [hwf.follower_eq hk] at hfol
  by_cases h : k + 1 < code.length
  · rw [if_pos h] at hfol
    injection hfol with hfol
    exact hfol.symm
  · rw [if_neg h] at hfol
    exact absurd hfol (by simp)

theorem WellFormed.follower_lt {code : List Instruction} (hwf : WellFormed code) {k f : Nat}
    {i : Instruction} (hk : code[k]? = some i) (hfol : i.follower = some f) :
    f < code.length := by
  rw [hwf.follower_eq hk] at hfol
  by_cases h : k + 1 < code.length
  · rw [if_pos h] at hfol
    injection hfol with hfol
    omega
  · rw [if_neg h] at hfol
    exact absurd hfol (by simp)

theorem WellFormed.targets {code : List Instruction} (hwf : WellFormed code) {k : Nat}
    {i : Instruction} (hk : code[k]? = some i) :
    ∃ l, branchTargets i = some l ∧ ∀ p ∈ l, p.1 < code.length := by
  have hmem : i ∈ code := List.getElem?_mem hk
  have hbr := hwf.2.2.1 i hmem
  have har := hwf.2.2.2 i hmem
  have hfl : ∀ f, i.follower = some f → f < code.length := fun f hf => hwf.follower_lt hk hf
  unfold arityOK at har
  unfold branchTargets
  rcases hb : i.branches with _ | ⟨t, _ | ⟨f, _ | ⟨g, r⟩⟩⟩ <;>
    rcases hfo : i.follower with _ | f2 <;>
    rcases ho : i.opcode with _ | _ | _ | _ | _ | _ | n <;>
    simp_all <;>
    (intro a _ h; rcases h with h | h <;> omega)

theorem WellFormed.address_inj {code : List Instruction} (hwf : WellFormed code) {x y : Nat}
    {i j : Instruction} (hx : code[x]? = some i) (hy : code[y]? = some j)
    (h : i.address = j.address) : x = y := by
  have hp := hwf.1
  rw [List.pairwise_map] at hp
  obtain ⟨hxl, hxe⟩ := List.getElem?_eq_some_iff.1 hx
  obtain ⟨hyl, hye⟩ := List.getElem?_eq_some_iff.1 hy
  rcases Nat.lt_trichotomy x y with hlt | heq | hgt
  · have := List.pairwise_iff_getElem.1 hp x y hxl hyl hlt
    rw [hxe, hye] at this
    omega
  · exact heq
  · have := List.pairwise_iff_getElem.1 hp y x hyl hxl hgt
    rw [hxe, hye] at this
    omega

/-! ## Termination measure -/

theorem unassigned_le_of_keep {code : List Instruction} {s s1 : State}
    (h : ∀ x c, s.block x = some c → s1.block x = some c) :
    unassigned code s1 ≤ unassigned code s := by
  unfold unassigned
  apply Finset.card_le_card
  intro x hx
  simp only [Finset.mem_filter, Finset.mem_range] at hx ⊢
  refine ⟨hx.1, ?_⟩
  cases hs : s.block x with
  | none => rfl
  | some c =>
    have := h x c hs
    rw [hx.2] at this
    exact absurd this (by simp)

theorem unassigned_congr {code : List Instruction} {s s1 : State} (h : s1.block = s.block) :
    unassigned code s1 = unassigned code s := by
  unfold unassigned
  rw [h]

theorem unassigned_put {code : List Instruction} {s : State} {x : Nat} (b : Nat) (bl : Block)
    (hx : x < code.length) (hb : s.block x = none) :
    unassigned code (putInstruction s b bl x) + 1 ≤ unassigned code s := by
  unfold unassigned
  apply Nat.succ_le_of_lt
  apply Finset.card_lt_card
  rw [Finset.ssubset_iff_of_subset]
  · refine ⟨x, ?_, ?_⟩
    · simp [hx, hb]
    · simp [putInstruction_block]
  · intro y hy
    simp only [Finset.mem_filter, Finset.mem_range, putInstruction_block] at hy ⊢
    refine ⟨hy.1, ?_⟩
    by_cases hyx : y = x
    · rw [hyx]; exact hb
    · have := hy.2
      rw [if_neg hyx] at this
      exact this

/-! ## The construction completes on well-formed streams -/

theorem open_new {code : List Instruction} {s s1 : State} {b d : Nat} {ty : BlockEdgeType}
    {i : Instruction} (hd : code[d]? = some i) (hb : s.block d = none)
    (hl : linkBlocks { s with blocks := s.blocks ++ [Block.new i.address] } b
      s.blocks.length ty = .ok s1)
    (hpre : b < s.blocks.length) :
    Open code s1 s.blocks.length (some d) ∧
    ∃ bl, s1.blocks[s.blocks.length]? = some bl ∧ bl.instructions = [] := by
  obtain ⟨hblock, _, _, hlen, _⟩ := linkBlocks_ok hl
  have hne : s.blocks.length ≠ b := by omega
  have hnewblk : s1.blocks[s.blocks.length]? =
      some ((Block.new i.address).linked b s.blocks.length ty s.blocks.length) :=
    linkBlocks_lookup hl (by rw [newBlock_lookup, if_pos rfl])
  refine ⟨⟨_, hnewblk, ?_, ?_, Or.inl ⟨?_, d, i, rfl, hd, ?_, ?_⟩⟩, _, hnewblk, ?_⟩
  · simp [Block.linked, Block.new, hne]
  · simp [Block.linked, Block.new, hne]
  · simp [Block.linked, Block.new]
  · simp [Block.linked, Block.new]
  · rw [hblock]
    exact hb
  · simp [Block.linked, Block.new]

theorem branchTo_total {code : List Instruction} {fuel : Nat}
    {recurse : State → Nat → Option Nat → Except Error State}
    (htotal : ∀ s b oi, Consistent s → Open code s b oi → Enough code fuel s b →
      ∃ s1, recurse s b oi = .ok s1)
    {s : State} {b d : Nat} (ty : BlockEdgeType) (hs : Consistent s)
    (hb : b < s.blocks.length) (hd : d < code.length)
    (hfuel : 2 * unassigned code s ≤ fuel) :
    ∃ s1, branchTo recurse code s b d ty = .ok s1 := by
  unfold branchTo addBranchBlock
  have hdi : code[d]? = some code[d] := List.getElem?_eq_getElem hd
  rw [hdi]
  simp only
  cases hbd : s.block d with
  | some c =>
    simp only
    obtain ⟨s1, hl⟩ := linkBlocks_total s ty hb (hs.valid d c hbd)
    rw [hl]
    exact ⟨s1, rfl⟩
  | none =>
    simp only
    obtain ⟨s1, hl⟩ := linkBlocks_total
      ({ s with blocks := s.blocks ++ [Block.new code[d].address] } : State) ty
      (a := b) (c := s.blocks.length) (by simp; omega) (by simp)
    rw [hl]
    simp only [if_true]
    obtain ⟨hopen, hempty⟩ := open_new hdi hbd hl hb
    refine htotal s1 _ _ (linkBlocks_consistent hl (newBlock_consistent _ hs)) hopen
      (Or.inr ⟨hempty, ?_⟩)
    rw [unassigned_congr (s := s) (linkBlocks_ok hl).1]
    exact hfuel

theorem branchAll_total {code : List Instruction} (hf : FollowerNext code) {fuel : Nat}
    {recurse : State → Nat → Option Nat → Except Error State}
    (htotal : ∀ s b oi, Consistent s → Open code s b oi → Enough code fuel s b →
      ∃ s1, recurse s b oi = .ok s1)
    (hsound : ∀ s b oi s1, recurse s b oi = .ok s1 → Exec code (.loop b oi) s s1)
    (b : Nat) (l : List (Nat × BlockEdgeType)) :
    ∀ s, (∀ p ∈ l, p.1 < code.length) → Consistent s → b < s.blocks.length →
      2 * unassigned code s ≤ fuel → ∃ s1, branchAll recurse code s b l = .ok s1 := by
  induction l with
  | nil => exact fun s _ _ _ _ => ⟨s, rfl⟩
  | cons p rest ih =>
    intro s hl hs hb hfuel
    obtain ⟨d, ty⟩ := p
    obtain ⟨s1, h1⟩ := branchTo_total htotal ty hs hb (hl (d, ty) (List.mem_cons_self _ _)) hfuel
    obtain ⟨⟨hcons1, hframe1, _⟩, _⟩ := exec_post hf (exec_of_branchTo hsound h1) hs hb
    have hle := @unassigned_le_of_keep code _ _ hframe1.keep
    obtain ⟨s2, h2⟩ := ih s1 (fun q hq => hl q (List.mem_cons_of_mem _ hq)) hcons1
      (Nat.lt_of_lt_of_le hb hframe1.len) (by omega)
    refine ⟨s2, ?_⟩
    simp only [branchAll, h1]
    exact h2

theorem constructBlocksFrom_total {code : List Instruction} (hwf : WellFormed code) :
    ∀ fuel s b oi, Consistent s → Open code s b oi → Enough code fuel s b →
      ∃ s1, constructBlocksFrom code fuel s b oi = .ok s1 := by
  have hf := hwf.followerNext
  -- the instruction the loop is at is an instruction of the stream
  have hrange : ∀ s b x, Open code s b (some x) → x < code.length := by
    intro s b x ho
    obtain ⟨bl, _, _, _, hcase⟩ := ho
    rcases hcase with ⟨_, y, j, hy, hj, _⟩ | ⟨h, m, last, _, hlast, _, hfol⟩
    · injection hy with hy
      subst hy
      exact (List.getElem?_eq_some_iff.1 hj).1
    · exact hwf.follower_lt hlast hfol
  intro fuel
  induction fuel with
  | zero =>
    intro s b oi hs ho hen
    cases oi with
    | none => exact ⟨s, by simp [constructBlocksFrom]⟩
    | some x =>
      exfalso
      obtain ⟨bl, hbl, _, _, hcase⟩ := ho
      rcases hen with hen | ⟨⟨bl1, hbl1, hnil⟩, hen⟩
      · omega
      · rw [hbl] at hbl1
        injection hbl1 with hbl1
        subst hbl1
        rcases hcase with ⟨_, y, j, hy, hj, _, hnone⟩ | ⟨h, m, last, hshape, _⟩
        · have hpos : 0 < unassigned code s := by
            unfold unassigned
            apply Finset.card_pos.2
            exact ⟨y, by simp [hnone, (List.getElem?_eq_some_iff.1 hj).1]⟩
          omega
        · rw [hshape.instrs] at hnil
          simp [List.range'] at hnil
  | succ fuel ih =>
    intro s b oi hs ho hen
    cases oi with
    | none => exact ⟨s, by simp [constructBlocksFrom]⟩
    | some x =>
      have hxlt := hrange s b x ho
      have hxi : code[x]? = some code[x] := List.getElem?_eq_getElem hxlt
      obtain ⟨bl, hbl, hch, hty, hcase⟩ := id ho
      have hblt : b < s.blocks.length := (List.getElem?_eq_some_iff.1 hbl).1
      simp only [constructBlocksFrom, hxi]
      cases hbx : s.block x with
      | some c =>
        simp only
        exact linkBlocks_total s _ hblt (hs.valid x c hbx)
      | none =>
        simp only [hbl]
        have hen2 : 2 * unassigned code s ≤ fuel + 1 := by
          rcases hen with hen | ⟨_, hen⟩ <;> omega
        have hput := @unassigned_put code _ _ b bl hxlt hbx
        by_cases hsplit : code[x].addressType ≠ .kAddressTypeNone ∧ bl.instructions ≠ []
        · rw [if_pos hsplit]
          refine branchTo_total ih _ hs hblt hxlt ?_
          rcases hen with hen | ⟨⟨bl1, hbl1, hnil⟩, _⟩
          · omega
          · rw [hbl] at hbl1
            injection hbl1 with hbl1
            subst hbl1
            exact absurd hnil hsplit.2
        · rw [if_neg hsplit]
          have hcons0 := putInstruction_consistent hs hbl hbx
          cases hbr : code[x].opcode.isBranch with
          | true =>
            simp only [if_true]
            rw [followBranchBlock_eq_branchAll]
            obtain ⟨l, hl, hlt⟩ := hwf.targets hxi
            rw [hl]
            simp only
            refine branchAll_total hf ih (exec_of_constructBlocksFrom code fuel) b l _ hlt hcons0
              ?_ (by omega)
            rw [putInstruction_length]
            exact hblt
          | false =>
            simp only [Bool.false_eq_true, if_false]
            obtain ⟨_, _, h, m, hhm, hshape⟩ := ho.put hf hxi hbx hbl hsplit
            refine ih _ _ _ hcons0 ?_ (Or.inl (by omega))
            refine ⟨{ bl with instructions := bl.instructions ++ [x] },
              by rw [putInstruction_blocks x hbl, if_pos rfl], hch, hty, Or.inr ?_⟩
            exact ⟨h, m, code[x], hshape, by rw [hhm]; exact hxi, hbr, rfl⟩

/-! ## The graph built for a well-formed stream -/

theorem unassigned_le_length (code : List Instruction) (s : State) :
    unassigned code s ≤ code.length := by
  unfold unassigned
  calc ((Finset.range code.length).filter (fun x => s.block x = none)).card
      ≤ (Finset.range code.length).card := Finset.card_filter_le _ _
    _ = code.length := Finset.card_range _

theorem constructBlocks_built {code : List Instruction} {fuel : Nat} (hwf : WellFormed code)
    (hfuel : 2 * code.length ≤ fuel) :
    ∃ s, constructBlocks fuel code noBlock [] = .ok s ∧ Built code s := by
  unfold constructBlocks
  simp only [ne_eq, not_true_eq_false, if_false]
  cases code with
  | nil =>
    refine ⟨_, rfl, ⟨fun x c h => ?_, fun b bl x h => ?_⟩, fun k h => ?_, fun h => absurd rfl h⟩
    · simp [noBlock] at h
    · simp at h
    · simp at h
  | cons first rest =>
    simp only [List.nil_append, List.length_nil]
    have hs0 : Consistent { block := noBlock, blocks := [Block.new first.address] } := by
      refine ⟨fun x c h => ?_, fun b bl x h => ?_⟩
      · simp [noBlock] at h
      · cases b with
        | zero =>
          simp at h
          subst h
          simp [Block.new, noBlock]
        | succ n => simp at h
    have ho : Open (first :: rest) { block := noBlock, blocks := [Block.new first.address] } 0
        (some 0) :=
      ⟨Block.new first.address, rfl, rfl, rfl,
        Or.inl ⟨rfl, 0, first, rfl, List.getElem?_cons_zero, rfl, rfl⟩⟩
    have hen : Enough (first :: rest) fuel
        { block := noBlock, blocks := [Block.new first.address] } 0 := by
      refine Or.inr ⟨⟨Block.new first.address, rfl, rfl⟩, ?_⟩
      have := unassigned_le_length (first :: rest)
        { block := noBlock, blocks := [Block.new first.address] }
      omega
    obtain ⟨s1, h1⟩ := constructBlocksFrom_total hwf fuel _ 0 (some 0) hs0 ho hen
    obtain ⟨⟨hcons, hframe, hnew⟩, hdone, hentry⟩ :=
      exec_post hwf.followerNext (exec_of_constructBlocksFrom _ fuel _ 0 (some 0) s1 h1) hs0 ho
    refine ⟨s1, h1, hcons, fun k hk => ?_, fun _ => hentry 0 _ rfl rfl rfl rfl⟩
    cases k with
    | zero => exact hdone
    | succ n => exact hnew (n + 1) (by simp) hk

theorem getLast?_range'_succ (h m : Nat) : (List.range' h (m + 1)).getLast? = some (h + m) := by
  rw [List.range'_concat, List.getLast?_concat]
  simp

theorem Built.lookup {code : List Instruction} {s : State} (hb : Built code s) {b : Nat}
    {bl : Block} (hbl : s.blocks[b]? = some bl) :
    ∃ h m last l, BlockShape code bl h m ∧ code[h + m]? = some last ∧
      successors last = some l ∧ Linked s bl l := by
  obtain ⟨bl1, h, m, last, l, hbl1, hrest⟩ := hb.done b (List.getElem?_eq_some_iff.1 hbl).1
  rw [hbl] at hbl1
  injection hbl1 with hbl1
  subst hbl1
  exact ⟨h, m, last, l, hrest⟩

theorem Built.last {code : List Instruction} {s : State} (hb : Built code s) {b x : Nat}
    {bl : Block} {i : Instruction} (hbl : s.blocks[b]? = some bl)
    (hx : bl.instructions.getLast? = some x) (hi : code[x]? = some i) :
    ∃ l, successors i = some l ∧ Linked s bl l := by
  obtain ⟨h, m, last, l, hshape, hlast, hsucc, hlinked⟩ := hb.lookup hbl
  rw [hshape.instrs, getLast?_range'_succ] at hx
  injection hx with hx
  subst hx
  rw [hlast] at hi
  injection hi with hi
  subst hi
  exact ⟨l, hsucc, hlinked⟩

theorem Built.block_of {code : List Instruction} {s : State} (hb : Built code s) {x c : Nat}
    (hx : s.block x = some c) : ∃ bl, s.blocks[c]? = some bl ∧ x ∈ bl.instructions := by
  have hc := hb.consistent.valid x c hx
  exact ⟨s.blocks[c], List.getElem?_eq_getElem hc,
    (hb.consistent.mem_iff c _ x (List.getElem?_eq_getElem hc)).2 hx⟩

theorem Linked.assigned {s : State} {bl : Block} {l : List (Nat × BlockEdgeType)}
    (h : Linked s bl l) {p : Nat × BlockEdgeType} (hp : p ∈ l) :
    ∃ c, s.block p.1 = some c ∧ c ∈ bl.children := by
  have hmem : s.block p.1 ∈ l.map (fun p => s.block p.1) := List.mem_map.2 ⟨p, hp, rfl⟩
  rw [← h.1] at hmem
  obtain ⟨c, hc, hce⟩ := List.mem_map.1 hmem
  exact ⟨c, hce.symm, hc⟩

/-! ## Reachability -/

theorem branchTargets_mem_of_branch {i : Instruction} {l : List (Nat × BlockEdgeType)}
    (hl : branchTargets i = some l)
    (hop : i.opcode = .kOpcodeJMP ∨ i.opcode = .kOpcodeJZ ∨ i.opcode = .kOpcodeJNZ ∨
      i.opcode = .kOpcodeJSR ∨ i.opcode = .kOpcodeSTORESTATE)
    {y : Nat} (hy : y ∈ i.branches) : ∃ ty, (y, ty) ∈ l := by
  unfold branchTargets at hl
  rcases hb : i.branches with _ | ⟨t, _ | ⟨f, _ | ⟨g, r⟩⟩⟩ <;>
    rcases hfo : i.follower with _ | f2 <;>
    rcases ho : i.opcode with _ | _ | _ | _ | _ | _ | n <;>
    simp_all <;>
    subst hl <;>
    simp <;>
    (try (rcases hy with hy | hy <;> simp [hy]))

theorem branchTargets_mem_of_tail {i : Instruction} {l : List (Nat × BlockEdgeType)}
    (hl : branchTargets i = some l)
    (hop : i.opcode = .kOpcodeJSR ∨ i.opcode = .kOpcodeSTORESTATE)
    {y : Nat} (hy : i.follower = some y) :
    (y, BlockEdgeType.kBlockEdgeTypeFunctionReturn) ∈ l := by
  unfold branchTargets at hl
  rcases hb : i.branches with _ | ⟨t, _ | ⟨f, _ | ⟨g, r⟩⟩⟩ <;>
    rcases ho : i.opcode with _ | _ | _ | _ | _ | _ | n <;>
    simp_all <;>
    subst hl <;>
    simp

theorem isBranch_of_opcode {i : Instruction}
    (hop : i.opcode = .kOpcodeJMP ∨ i.opcode = .kOpcodeJZ ∨ i.opcode = .kOpcodeJNZ ∨
      i.opcode = .kOpcodeJSR ∨ i.opcode = .kOpcodeSTORESTATE ∨ i.opcode = .kOpcodeRETN) :
    i.opcode.isBranch = true := by
  rcases hop with h | h | h | h | h | h <;> rw [h] <;> rfl

/-- In the built graph an instruction that influences control flow is the last
instruction of its block. -/
theorem Built.branch_is_last {code : List Instruction} {s : State} (hb : Built code s)
    {x c : Nat} {i : Instruction} (hc : s.block x = some c) (hx : code[x]? = some i)
    (hbr : i.opcode.isBranch = true) :
    ∃ bl l, s.blocks[c]? = some bl ∧ successors i = some l ∧ Linked s bl l := by
  obtain ⟨bl, hbl, hmem⟩ := hb.block_of hc
  obtain ⟨h, m, last, l, hshape, hlast, hsucc, hlinked⟩ := hb.lookup hbl
  rw [hshape.instrs, List.mem_range'_1] at hmem
  by_cases hlt : x < h + m
  · have := hshape.inner x i hmem.1 hlt hx
    rw [hbr] at this
    exact absurd this (by simp)
  · have hxe : x = h + m := by omega
    subst hxe
    rw [hlast] at hx
    injection hx with hx
    subst hx
    exact ⟨bl, l, hbl, hsucc, hlinked⟩

theorem Built.reachable_assigned {code : List Instruction} {s : State}
    (hwf : WellFormed code) (hb : Built code s) {x : Nat} (hr : Reachable code x) :
    ∃ c, s.block x = some c := by
  induction hr with
  | first hne => exact ⟨0, hb.entry hne⟩
  | @follower x y i _ hx hnb hfol ih =>
    obtain ⟨c, hc⟩ := ih
    obtain ⟨bl, hbl, hmem⟩ := hb.block_of hc
    obtain ⟨h, m, last, l, hshape, hlast, hsucc, hlinked⟩ := hb.lookup hbl
    rw [hshape.instrs, List.mem_range'_1] at hmem
    have hy : y = x + 1 := hwf.followerNext x i y hx hfol
    by_cases hlt : x < h + m
    · refine ⟨c, (hb.consistent.mem_iff c bl y hbl).1 ?_⟩
      rw [hshape.instrs, List.mem_range'_1]
      omega
    · have hxe : x = h + m := by omega
      subst hxe
      rw [hlast] at hx
      injection hx with hx
      subst hx
      rw [successors_of_not_branch hnb, hfol] at hsucc
      injection hsucc with hsucc
      obtain ⟨c1, hc1, _⟩ := hlinked.assigned
        (p := (y, BlockEdgeType.kBlockEdgeTypeUnconditional)) (by rw [← hsucc]; simp)
      exact ⟨c1, hc1⟩
  | @branch x y i _ hx hop hmem ih =>
    obtain ⟨c, hc⟩ := ih
    have hbr : i.opcode.isBranch = true := by
      rcases hop with h | h | h | h | h <;> rw [h] <;> rfl
    obtain ⟨bl, l, _, hsucc, hlinked⟩ := hb.branch_is_last hc hx hbr
    rw [successors_of_branch hbr] at hsucc
    obtain ⟨ty, hty⟩ := branchTargets_mem_of_branch hsucc hop hmem
    obtain ⟨c1, hc1, _⟩ := hlinked.assigned hty
    exact ⟨c1, hc1⟩
  | @tail x y i _ hx hop hfol ih =>
    obtain ⟨c, hc⟩ := ih
    have hbr : i.opcode.isBranch = true := by
      rcases hop with h | h <;> rw [h] <;> rfl
    obtain ⟨bl, l, _, hsucc, hlinked⟩ := hb.branch_is_last hc hx hbr
    rw [successors_of_branch hbr] at hsucc
    obtain ⟨c1, hc1, _⟩ := hlinked.assigned (branchTargets_mem_of_tail hsucc hop hfol)
    exact ⟨c1, hc1⟩

/-! ## Total partition -/

theorem Built.partitioned {code : List Instruction} {s : State} (hwf : WellFormed code)
    (hb : Built code s) : Partitioned code s := by
  intro x hr
  obtain ⟨c, hc⟩ := hb.reachable_assigned hwf hr
  obtain ⟨bl, hbl, hmem⟩ := hb.block_of hc
  obtain ⟨h, m, _, _, hshape, _⟩ := hb.lookup hbl
  refine ⟨c, bl, hbl, ?_, ?_⟩
  · apply List.count_eq_one_of_mem _ hmem
    rw [hshape.instrs]
    exact List.nodup_range' h (m + 1)
  · intro b1 bl1 hbl1 hmem1
    have := (hb.consistent.mem_iff b1 bl1 x hbl1).1 hmem1
    rw [hc] at this
    injection this with this
    exact this.symm

/-- C1 (total partition): for a well-formed stream, with no block back-link set
and an empty block collection on entry, `constructBlocks` returns a graph in
which every instruction reachable from the first one occurs in the instruction
list of exactly one block, exactly once. -/
theorem C1_total_partition (code : List Instruction) (fuel : Nat) (hwf : WellFormed code)
    (hfuel : 2 * code.length ≤ fuel) :
    ∃ s, constructBlocks fuel code noBlock [] = .ok s ∧ Partitioned code s := by
  obtain ⟨s, hs, hb⟩ := constructBlocks_built hwf hfuel
  exact ⟨s, hs, hb.partitioned hwf⟩

theorem C1_total_partition_witness :
    WellFormed cycleStream ∧ 2 * cycleStream.length ≤ 6 ∧
    ∃ s, constructBlocks 6 cycleStream noBlock [] = .ok s ∧ Partitioned cycleStream s :=
  ⟨by decide, by decide, C1_total_partition cycleStream 6 (by decide) (by decide)⟩

/-! ## One block per address -/

theorem Built.distinctStarts {code : List Instruction} {s : State} (hwf : WellFormed code)
    (hb : Built code s) : DistinctStarts s := by
  intro a b bla blb hbla hblb hstart
  obtain ⟨ha, ma, _, _, hsa, _⟩ := hb.lookup hbla
  obtain ⟨hb1, mb, _, _, hsb, _⟩ := hb.lookup hblb
  obtain ⟨ia, hia, haddr⟩ := hsa.head
  obtain ⟨ib, hib, hbddr⟩ := hsb.head
  have heq : ha = hb1 := hwf.address_inj hia hib (by rw [haddr, hbddr, hstart])
  have h1 : s.block ha = some a := (hb.consistent.mem_iff a bla ha hbla).1 (by
    rw [hsa.instrs, List.mem_range'_1]; omega)
  have h2 : s.block hb1 = some b := (hb.consistent.mem_iff b blb hb1 hblb).1 (by
    rw [hsb.instrs, List.mem_range'_1]; omega)
  rw [heq, h2] at h1
  injection h1 with h1
  exact h1.symm

theorem addBranchBlock_of_assigned {code : List Instruction} {s s1 : State}
    {b d c bb : Nat} {ty : BlockEdgeType} {needAdd : Bool} (hc : s.block d = some c)
    (h : addBranchBlock code s b d ty = .ok (s1, bb, needAdd)) :
    s1.blocks.length = s.blocks.length ∧ bb = c ∧ needAdd = false := by
  unfold addBranchBlock at h
  cases hd : code[d]? with
  | none => simp [hd] at h
  | some i =>
    simp only [hd, hc] at h
    cases hl : linkBlocks s b c ty with
    | error e => simp [hl] at h
    | ok s2 =>
      simp only [hl, Except.ok.injEq, Prod.mk.injEq] at h
      obtain ⟨h1, h2, h3⟩ := h
      subst h1
      exact ⟨(linkBlocks_ok hl).2.2.2.1, h2.symm, h3.symm⟩

theorem constructBlocksFrom_of_assigned {code : List Instruction} {s s1 : State}
    {b x c fuel : Nat} (hc : s.block x = some c)
    (h : constructBlocksFrom code fuel s b (some x) = .ok s1) :
    s1.blocks.length = s.blocks.length := by
  cases fuel with
  | zero => simp [constructBlocksFrom] at h
  | succ fuel =>
    simp only [constructBlocksFrom] at h
    cases hx : code[x]? with
    | none => simp [hx] at h
    | some i =>
      simp only [hx, hc] at h
      exact (linkBlocks_ok h).2.2.2.1

/-- C2 (single block per address): for a well-formed stream with no block
back-link set on entry, no two blocks of the graph `constructBlocks` returns
have the same start address; and neither `addBranchBlock` nor the loop of
`constructBlocks` creates a block when it reaches an instruction that already
has one (the existing block is the branch block, and `needAdd` is false). -/
theorem C2_single_block_per_address (code : List Instruction) (fuel : Nat)
    (hwf : WellFormed code) (hfuel : 2 * code.length ≤ fuel) :
    (∃ s, constructBlocks fuel code noBlock [] = .ok s ∧ DistinctStarts s) ∧
    (∀ (s s1 : State) (b d c bb : Nat) (ty : BlockEdgeType) (needAdd : Bool),
      s.block d = some c → addBranchBlock code s b d ty = .ok (s1, bb, needAdd) →
      s1.blocks.length = s.blocks.length ∧ bb = c ∧ needAdd = false) ∧
    (∀ (s s1 : State) (b x c n : Nat), s.block x = some c →
      constructBlocksFrom code n s b (some x) = .ok s1 →
      s1.blocks.length = s.blocks.length) := by
  obtain ⟨s, hs, hb⟩ := constructBlocks_built hwf hfuel
  exact ⟨⟨s, hs, hb.distinctStarts hwf⟩,
    fun s s1 b d c bb ty needAdd hc h => addBranchBlock_of_assigned hc h,
    fun s s1 b x c n hc h => constructBlocksFrom_of_assigned hc h⟩

theorem C2_single_block_per_address_witness :
    WellFormed cycleStream ∧ 2 * cycleStream.length ≤ 6 ∧
    ((∃ s, constructBlocks 6 cycleStream noBlock [] = .ok s ∧ DistinctStarts s) ∧
    (∀ (s s1 : State) (b d c bb : Nat) (ty : BlockEdgeType) (needAdd : Bool),
      s.block d = some c → addBranchBlock cycleStream s b d ty = .ok (s1, bb, needAdd) →
      s1.blocks.length = s.blocks.length ∧ bb = c ∧ needAdd = false) ∧
    (∀ (s s1 : State) (b x c n : Nat), s.block x = some c →
      constructBlocksFrom cycleStream n s b (some x) = .ok s1 →
      s1.blocks.length = s.blocks.length)) :=
  ⟨by decide, by decide, C2_single_block_per_address cycleStream 6 (by decide) (by decide)⟩

/-! ## Edges of the blocks -/

theorem Built.inBlock {code : List Instruction} {s : State} (hb : Built code s) {x c : Nat}
    (hx : s.block x = some c) : InBlock s c x := hb.block_of hx

theorem Linked.one {s : State} {bl : Block} {t : Nat} {ty : BlockEdgeType}
    (h : Linked s bl [(t, ty)]) :
    ∃ c, bl.children = [c] ∧ bl.childrenTypes = [ty] ∧ s.block t = some c := by
  obtain ⟨h1, h2⟩ := h
  rcases hch : bl.children with _ | ⟨a, _ | ⟨b, r⟩⟩ <;> simp [hch] at h1
  exact ⟨a, rfl, by simpa using h2, h1.symm⟩

theorem Linked.two {s : State} {bl : Block} {t f : Nat} {ty1 ty2 : BlockEdgeType}
    (h : Linked s bl [(t, ty1), (f, ty2)]) :
    ∃ ct cf, bl.children = [ct, cf] ∧ bl.childrenTypes = [ty1, ty2] ∧
      s.block t = some ct ∧ s.block f = some cf := by
  obtain ⟨h1, h2⟩ := h
  rcases hch : bl.children with _ | ⟨a, _ | ⟨b, _ | ⟨c, r⟩⟩⟩ <;> simp [hch] at h1
  exact ⟨a, b, rfl, by simpa using h2, h1.1.symm, h1.2.symm⟩

theorem Built.conditionalEdges {code : List Instruction} {s : State} (hb : Built code s) :
    ConditionalEdges code s := by
  intro b x bl i hbl hx hi hop
  obtain ⟨l, hsucc, hlinked⟩ := hb.last hbl hx hi
  have hbr : i.opcode.isBranch = true := by
    rcases hop with h | h <;> rw [h] <;> rfl
  rw [successors_of_branch hbr] at hsucc
  unfold branchTargets at hsucc
  rcases hbs : i.branches with _ | ⟨t, _ | ⟨f, _ | ⟨g, r⟩⟩⟩ <;>
    rcases hop with ho | ho <;> simp [hbs, ho] at hsucc
  all_goals
    subst hsucc
    obtain ⟨ct, cf, h1, h2, h3, h4⟩ := hlinked.two
    exact ⟨t, f, ct, cf, rfl, h1, h2, hb.inBlock h3, hb.inBlock h4⟩

theorem Built.callEdges {code : List Instruction} {s : State} (hb : Built code s) :
    CallEdges code s := by
  intro b x bl i hbl hx hi hop
  obtain ⟨l, hsucc, hlinked⟩ := hb.last hbl hx hi
  have hbr : i.opcode.isBranch = true := by
    rcases hop with h | h <;> rw [h] <;> rfl
  rw [successors_of_branch hbr] at hsucc
  unfold branchTargets at hsucc
  rcases hbs : i.branches with _ | ⟨t, _ | ⟨f, r⟩⟩ <;>
    rcases hfo : i.follower with _ | f2 <;>
    rcases hop with ho | ho <;> simp [hbs, hfo, ho] at hsucc
  all_goals
    subst hsucc
    obtain ⟨ct, cf, h1, h2, h3, h4⟩ := hlinked.two
    exact ⟨t, f2, ct, cf, rfl, rfl, h1, by simpa [ho] using h2, hb.inBlock h3, hb.inBlock h4⟩

theorem Built.jumpEdges {code : List Instruction} {s : State} (hb : Built code s) :
    JumpEdges code s := by
  intro b x bl i hbl hx hi
  obtain ⟨l, hsucc, hlinked⟩ := hb.last hbl hx hi
  refine ⟨fun ho => ?_, fun ho => ?_⟩
  · have hbr : i.opcode.isBranch = true := by rw [ho]; rfl
    rw [successors_of_branch hbr] at hsucc
    unfold branchTargets at hsucc
    rcases hbs : i.branches with _ | ⟨t, _ | ⟨f, r⟩⟩ <;> simp [hbs, ho] at hsucc
    subst hsucc
    obtain ⟨c, h1, h2, h3⟩ := hlinked.one
    exact ⟨t, c, rfl, h1, h2, hb.inBlock h3⟩
  · have hbr : i.opcode.isBranch = true := by rw [ho]; rfl
    rw [successors_of_branch hbr] at hsucc
    unfold branchTargets at hsucc
    simp [ho] at hsucc
    subst hsucc
    obtain ⟨h1, h2⟩ := hlinked
    simp at h1 h2
    exact ⟨h1, h2⟩

/-- C3 (conditional-jump edges): in the graph built for a well-formed stream,
every block whose last instruction is `JZ` or `JNZ` has exactly two children,
in this order: the block containing `branches[0]` with edge type
ConditionalTrue and the block containing `branches[1]` with edge type
ConditionalFalse; the pairing is the same for `JNZ` as for `JZ`. -/
theorem C3_conditional_jump_edges (code : List Instruction) (fuel : Nat)
    (hwf : WellFormed code) (hfuel : 2 * code.length ≤ fuel) :
    ∃ s, constructBlocks fuel code noBlock [] = .ok s ∧ ConditionalEdges code s := by
  obtain ⟨s, hs, hb⟩ := constructBlocks_built hwf hfuel
  exact ⟨s, hs, hb.conditionalEdges⟩

theorem C3_conditional_jump_edges_witness :
    WellFormed cycleStream ∧ 2 * cycleStream.length ≤ 6 ∧
    ∃ s, constructBlocks 6 cycleStream noBlock [] = .ok s ∧ ConditionalEdges cycleStream s :=
  ⟨by decide, by decide, C3_conditional_jump_edges cycleStream 6 (by decide) (by decide)⟩

/-- C4 (call-like edges): in the graph built for a well-formed stream, every
block whose last instruction is `JSR` (respectively `STORESTATE`) has exactly
two children, in this order: the block containing `branches[0]` with edge type
FunctionCall (respectively StoreState) and the block containing the follower of
the instruction with edge type FunctionReturn. -/
theorem C4_call_edges (code : List Instruction) (fuel : Nat)
    (hwf : WellFormed code) (hfuel : 2 * code.length ≤ fuel) :
    ∃ s, constructBlocks fuel code noBlock [] = .ok s ∧ CallEdges code s := by
  obtain ⟨s, hs, hb⟩ := constructBlocks_built hwf hfuel
  exact ⟨s, hs, hb.callEdges⟩

theorem C4_call_edges_witness :
    WellFormed callStream ∧ 2 * callStream.length ≤ 6 ∧
    ∃ s, constructBlocks 6 callStream noBlock [] = .ok s ∧ CallEdges callStream s :=
  ⟨by decide, by decide, C4_call_edges callStream 6 (by decide) (by decide)⟩

/-- C5 (`JMP` and `RETN` edges): in the graph built for a well-formed stream,
every block whose last instruction is `JMP` has exactly one child, the block
containing `branches[0]`, with edge type Unconditional; every block whose last
instruction is `RETN` has no children and an empty `childrenTypes` list. -/
theorem C5_jump_and_return_edges (code : List Instruction) (fuel : Nat)
    (hwf : WellFormed code) (hfuel : 2 * code.length ≤ fuel) :
    ∃ s, constructBlocks fuel code noBlock [] = .ok s ∧ JumpEdges code s := by
  obtain ⟨s, hs, hb⟩ := constructBlocks_built hwf hfuel
  exact ⟨s, hs, hb.jumpEdges⟩

theorem C5_jump_and_return_edges_witness :
    WellFormed cycleStream ∧ 2 * cycleStream.length ≤ 6 ∧
    ∃ s, constructBlocks 6 cycleStream noBlock [] = .ok s ∧ JumpEdges cycleStream s :=
  ⟨by decide, by decide, C5_jump_and_return_edges cycleStream 6 (by decide) (by decide)⟩

/-! ## Branch edges and block starts -/

theorem branchTargets_fst {i : Instruction} {l : List (Nat × BlockEdgeType)}
    (hl : branchTargets i = some l) (hop : i.opcode.hasTargets) :
    l.map Prod.fst = targetsOf i := by
  unfold branchTargets at hl
  unfold targetsOf
  unfold Opcode.hasTargets at hop
  rcases hb : i.branches with _ | ⟨t, _ | ⟨f, _ | ⟨g, r⟩⟩⟩ <;>
    rcases hfo : i.follower with _ | f2 <;>
    rcases ho : i.opcode with _ | _ | _ | _ | _ | _ | n <;>
    simp_all <;>
    subst hl <;>
    simp

theorem Linked.forall₂ {s : State} {bl : Block} {l : List (Nat × BlockEdgeType)}
    (h : Linked s bl l) :
    List.Forall₂ (fun c t => s.block t = some c) bl.children (l.map Prod.fst) := by
  have h1 := h.1
  clear h
  generalize bl.children = cs at h1
  induction l generalizing cs with
  | nil =>
    cases cs with
    | nil => exact List.Forall₂.nil
    | cons c r => simp at h1
  | cons p rest ih =>
    cases cs with
    | nil => simp at h1
    | cons c r =>
      simp only [List.map_cons, List.cons.injEq] at h1
      exact List.Forall₂.cons h1.1.symm (ih r h1.2)

/-- An instruction that is in a block of the built graph but not at its start
is unmarked and is the follower of an instruction of the same block that does
not influence control flow. -/
theorem Built.start_of {code : List Instruction} {s : State}
    (hb : Built code s) {t c : Nat} (ht : s.block t = some c) :
    ∃ (blc : Block) (tgt : Instruction), s.blocks[c]? = some blc ∧ code[t]? = some tgt ∧
      t ∈ blc.instructions ∧
      (blc.startAddress = tgt.address ∨
        (tgt.addressType = .kAddressTypeNone ∧
          ∃ p prev, code[p]? = some prev ∧ p + 1 = t ∧ prev.opcode.isBranch = false)) := by
  obtain ⟨blc, hblc, hmem⟩ := hb.block_of ht
  obtain ⟨h, m, last, _, hshape, hlast, _⟩ := hb.lookup hblc
  have hmem1 := hmem
  rw [hshape.instrs, List.mem_range'_1] at hmem1
  have hlen : h + m < code.length := (List.getElem?_eq_some_iff.1 hlast).1
  have htl : t < code.length := by omega
  refine ⟨blc, code[t], hblc, List.getElem?_eq_getElem htl, hmem, ?_⟩
  by_cases hth : t = h
  · left
    obtain ⟨i, hi, haddr⟩ := hshape.head
    subst hth
    rw [List.getElem?_eq_getElem htl] at hi
    injection hi with hi
    rw [hi, haddr]
  · right
    refine ⟨hshape.unmarked t _ (by omega) (by omega) (List.getElem?_eq_getElem htl), ?_⟩
    have hpl : t - 1 < code.length := by omega
    exact ⟨t - 1, code[t - 1], List.getElem?_eq_getElem hpl, by omega,
      hshape.inner (t - 1) _ (by omega) (by omega) (List.getElem?_eq_getElem hpl)⟩

theorem Built.markedTargetsStartBlocks {code : List Instruction} {s : State}
    (hwf : WellFormed code) (hb : Built code s) : MarkedTargetsStartBlocks code s := by
  intro b x bl i hbl hx hi hop
  obtain ⟨l, hsucc, hlinked⟩ := hb.last hbl hx hi
  have hbr : i.opcode.isBranch = true := by
    rcases hop with h | h | h | h | h <;> rw [h] <;> rfl
  rw [successors_of_branch hbr] at hsucc
  have hF := hlinked.forall₂
  rw [branchTargets_fst hsucc hop] at hF
  refine hF.imp ?_
  intro c t hct
  obtain ⟨blc, tgt, hblc, htgt, hmem, hcase⟩ := hb.start_of hct
  refine ⟨blc, tgt, hblc, htgt, hmem, fun hcond => ?_⟩
  rcases hcase with hstart | ⟨hnone, p, prev, hp, hpt, hnb⟩
  · exact hstart
  · rcases hcond with hmarked | hfol
    · exact absurd hnone hmarked
    · have hxt : t = x + 1 := hwf.followerNext x i t hi hfol
      have hpx : p = x := by omega
      subst hpx
      rw [hi] at hp
      injection hp with hp
      subst hp
      rw [hbr] at hnb
      exact absurd hnb (by simp)

/-- C7, as amended (branch edges and block starts): in the graph built for a
well-formed stream, for every block that ends in `JMP`, `JZ`, `JNZ`, `JSR` or
`STORESTATE` the child linked for each target (each element of `branches`, and
the follower for `JSR`/`STORESTATE`) is the block that contains the target; the
start address of that block is the address of the target whenever the target
is marked as jump destination or subroutine start, or is the follower of the
branch instruction. -/
theorem C7_marked_targets_start_blocks (code : List Instruction) (fuel : Nat)
    (hwf : WellFormed code) (hfuel : 2 * code.length ≤ fuel) :
    ∃ s, constructBlocks fuel code noBlock [] = .ok s ∧ MarkedTargetsStartBlocks code s := by
  obtain ⟨s, hs, hb⟩ := constructBlocks_built hwf hfuel
  exact ⟨s, hs, hb.markedTargetsStartBlocks hwf⟩

theorem C7_marked_targets_start_blocks_witness :
    WellFormed callStream ∧ 2 * callStream.length ≤ 6 ∧
    ∃ s, constructBlocks 6 callStream noBlock [] = .ok s ∧
      MarkedTargetsStartBlocks callStream s :=
  ⟨by decide, by decide, C7_marked_targets_start_blocks callStream 6 (by decide) (by decide)⟩

/-- C7, as stated, fails: the stream `unmarkedJumpStream` is well-formed, and its
graph is the single block of all three instructions with start address 0; the
child linked for the target of the `JMP` (the unmarked instruction at address 1)
is that block, whose start address is not 1. -/
theorem C7_targets_start_blocks_counterexample :
    WellFormed unmarkedJumpStream ∧
    ∃ s, constructBlocks 6 unmarkedJumpStream noBlock [] = .ok s ∧
      ¬ TargetsStartBlocks unmarkedJumpStream s := by
  refine ⟨by decide, unmarkedJumpGraph, rfl, fun h => ?_⟩
  have h1 := h 0 2 _ _ rfl rfl rfl (Or.inl rfl)
  simp [targetsOf, unmarkedJumpStream, unmarkedJumpGraph] at h1

/-! ## Contiguity -/

theorem Built.contiguous {code : List Instruction} {s : State} (hwf : WellFormed code)
    (hb : Built code s) : Contiguous code s := by
  intro b bl hbl
  obtain ⟨h, m, last, _, hshape, hlast, _⟩ := hb.lookup hbl
  have hlen : h + m < code.length := (List.getElem?_eq_some_iff.1 hlast).1
  refine ⟨fun n x y hx hy => ?_, h, m + 1, by omega, hshape.instrs⟩
  rw [hshape.instrs] at hx hy
  have hn1 : n + 1 < m + 1 := by
    have := (List.getElem?_eq_some_iff.1 hy).1
    simpa using this
  rw [List.getElem?_range' h 1 (by omega : n < m + 1)] at hx
  rw [List.getElem?_range' h 1 hn1] at hy
  injection hx with hx
  injection hy with hy
  have hxl : x < code.length := by omega
  refine ⟨code[x], List.getElem?_eq_getElem hxl, ?_⟩
  rw [hwf.follower_eq (List.getElem?_eq_getElem hxl), if_pos (by omega)]
  congr 1
  omega

/-- C8 (contiguity): in the graph built for a well-formed stream, in every
block each instruction after the first is the follower of the instruction
before it, and the instruction list of the block is a contiguous slice of the
stream. -/
theorem C8_contiguity (code : List Instruction) (fuel : Nat)
    (hwf : WellFormed code) (hfuel : 2 * code.length ≤ fuel) :
    ∃ s, constructBlocks fuel code noBlock [] = .ok s ∧ Contiguous code s := by
  obtain ⟨s, hs, hb⟩ := constructBlocks_built hwf hfuel
  exact ⟨s, hs, hb.contiguous hwf⟩

theorem C8_contiguity_witness :
    WellFormed unmarkedJumpStream ∧ 2 * unmarkedJumpStream.length ≤ 6 ∧
    ∃ s, constructBlocks 6 unmarkedJumpStream noBlock [] = .ok s ∧
      Contiguous unmarkedJumpStream s :=
  ⟨by decide, by decide, C8_contiguity unmarkedJumpStream 6 (by decide) (by decide)⟩

/-! ## Totality -/

/-- C10 (totality on well-formed input): for every well-formed stream, cyclic
or not and with or without unreachable instructions, `constructBlocks` returns
a graph: no assertion fails, no pointer is invalid, and two units of fuel per
instruction are enough. -/
theorem C10_total_on_well_formed (code : List Instruction) (fuel : Nat)
    (hwf : WellFormed code) (hfuel : 2 * code.length ≤ fuel) :
    ∃ s, constructBlocks fuel code noBlock [] = .ok s := by
  obtain ⟨s, hs, _⟩ := constructBlocks_built hwf hfuel
  exact ⟨s, hs⟩

theorem C10_total_on_well_formed_witness :
    WellFormed selfLoopStream ∧ 2 * selfLoopStream.length ≤ 4 ∧
    ∃ s, constructBlocks 4 selfLoopStream noBlock [] = .ok s :=
  ⟨by decide, by decide, C10_total_on_well_formed selfLoopStream 4 (by decide) (by decide)⟩

/-! ## Invariants that hold for every input -/

/-- A property of the state that the three elementary steps preserve is
preserved by every task. -/
theorem exec_invariant {code : List Instruction} (inv : State → Prop)
    (hlink : ∀ s a c ty s1, inv s → linkBlocks s a c ty = .ok s1 → inv s1)
    (hnew : ∀ (s : State) addr, inv s → inv { s with blocks := s.blocks ++ [Block.new addr] })
    (hput : ∀ s b bl x, inv s → s.blocks[b]? = some bl → s.block x = none →
      inv (putInstruction s b bl x))
    {t : Task} {s s1 : State} (h : Exec code t s s1) : inv s → inv s1 := by
  induction h with
  | loopEnd s b => exact fun hs => hs
  | loopSeen _ _ hl => exact fun hs => hlink _ _ _ _ _ hs hl
  | loopSplit _ _ _ _ _ _ ih => exact ih
  | loopBranch _ hb hbl _ _ _ _ ih => exact fun hs => ih (hput _ _ _ _ hs hbl hb)
  | loopNext _ hb hbl _ _ _ ih => exact fun hs => ih (hput _ _ _ _ hs hbl hb)
  | branchOld _ _ hl => exact fun hs => hlink _ _ _ _ _ hs hl
  | branchNew _ _ hl _ ih => exact fun hs => ih (hlink _ _ _ _ _ (hnew _ _ hs) hl)
  | branchesNil s b => exact fun hs => hs
  | branchesCons _ _ ih1 ih2 => exact fun hs => ih2 (ih1 hs)

/-- A run of `constructBlocks` that returns is the empty graph for the empty
stream, and a run of the loop on the first block otherwise. -/
theorem constructBlocks_ok {code : List Instruction} {fuel : Nat} {block0 : Nat → Option Nat}
    {blocks : List Block} {s : State} (h : constructBlocks fuel code block0 blocks = .ok s) :
    blocks = [] ∧
    ((code = [] ∧ s = { block := block0, blocks := [] }) ∨
     (∃ first rest, code = first :: rest ∧
        Exec code (.loop 0 (some 0))
          { block := block0, blocks := [Block.new first.address] } s)) := by
  unfold constructBlocks at h
  by_cases hb : blocks = []
  · subst hb
    refine ⟨rfl, ?_⟩
    simp only [ne_eq, not_true_eq_false, if_false] at h
    cases code with
    | nil =>
      left
      simp only [Except.ok.injEq] at h
      exact ⟨rfl, h.symm⟩
    | cons first rest =>
      right
      exact ⟨first, rest, rfl, exec_of_constructBlocksFrom _ fuel _ _ _ _ h⟩
  · simp [hb] at h

/-! ## Adjacency symmetry -/

theorem linkBlocks_symmetric {s s1 : State} {a c : Nat} {ty : BlockEdgeType}
    (h : linkBlocks s a c ty = .ok s1) (hs : EdgesValid s ∧ Symmetric s) :
    EdgesValid s1 ∧ Symmetric s1 := by
  obtain ⟨_, ha, hc, hlen, _⟩ := linkBlocks_ok h
  refine ⟨fun k bl1 hk => ?_, fun k1 k2 bl1 bl2 h1 h2 => ?_⟩
  · obtain ⟨bl, hbl, rfl⟩ := linkBlocks_lookup_inv h hk
    have hv := hs.1 k bl hbl
    rw [hlen]
    refine ⟨fun x hx => ?_, fun x hx => ?_⟩
    · simp only [Block.linked] at hx
      by_cases hka : k = a
      · simp only [hka, if_true, List.mem_append, List.mem_singleton] at hx
        rcases hx with hx | hx
        · exact hv.1 x hx
        · omega
      · simp only [hka, if_false] at hx
        exact hv.1 x hx
    · simp only [Block.linked] at hx
      by_cases hkc : k = c
      · simp only [hkc, if_true, List.mem_append, List.mem_singleton] at hx
        rcases hx with hx | hx
        · exact hv.2 x hx
        · omega
      · simp only [hkc, if_false] at hx
        exact hv.2 x hx
  · obtain ⟨b1, hb1, rfl⟩ := linkBlocks_lookup_inv h h1
    obtain ⟨b2, hb2, rfl⟩ := linkBlocks_lookup_inv h h2
    have hsym := hs.2 k1 k2 b1 b2 hb1 hb2
    simp only [Block.linked]
    by_cases hk1 : k1 = a <;> by_cases hk2 : k2 = c <;>
      (simp [hk1, hk2, hsym]; try simp_all)

theorem newBlock_symmetric {s : State} (addr : Nat) (hs : EdgesValid s ∧ Symmetric s) :
    EdgesValid { s with blocks := s.blocks ++ [Block.new addr] } ∧
    Symmetric { s with blocks := s.blocks ++ [Block.new addr] } := by
  refine ⟨fun k bl hk => ?_, fun k1 k2 bl1 bl2 h1 h2 => ?_⟩
  · rw [newBlock_lookup] at hk
    simp only [List.length_append, List.length_singleton]
    by_cases hkl : k = s.blocks.length
    · rw [if_pos hkl] at hk
      injection hk with hk
      subst hk
      simp [Block.new]
    · rw [if_neg hkl] at hk
      have hv := hs.1 k bl hk
      exact ⟨fun x hx => Nat.lt_succ_of_lt (hv.1 x hx), fun x hx => Nat.lt_succ_of_lt (hv.2 x hx)⟩
  · rw [newBlock_lookup] at h1 h2
    by_cases hk1 : k1 = s.blocks.length
    · rw [if_pos hk1] at h1
      injection h1 with h1
      subst h1
      by_cases hk2 : k2 = s.blocks.length
      · rw [if_pos hk2] at h2
        injection h2 with h2
        subst h2
        simp [Block.new]
      · rw [if_neg hk2] at h2
        have hv := (hs.1 k2 bl2 h2).2 k1
        simp only [Block.new, List.not_mem_nil, false_iff]
        intro hmem
        have := hv hmem
        omega
    · rw [if_neg hk1] at h1
      by_cases hk2 : k2 = s.blocks.length
      · rw [if_pos hk2] at h2
        injection h2 with h2
        subst h2
        have hv := (hs.1 k1 bl1 h1).1 k2
        simp only [Block.new, List.not_mem_nil, iff_false]
        intro hmem
        have := hv hmem
        omega
      · rw [if_neg hk2] at h2
        exact hs.2 k1 k2 bl1 bl2 h1 h2

theorem putInstruction_symmetric {s : State} {b x : Nat} {bl : Block}
    (hbl : s.blocks[b]? = some bl) (hs : EdgesValid s ∧ Symmetric s) :
    EdgesValid (putInstruction s b bl x) ∧ Symmetric (putInstruction s b bl x) := by
  have key : ∀ (k : Nat) (blk : Block), (putInstruction s b bl x).blocks[k]? = some blk →
      ∃ blk0 : Block, s.blocks[k]? = some blk0 ∧ blk.children = blk0.children ∧
        blk.parents = blk0.parents := by
    intro k blk hk
    rw [putInstruction_blocks x hbl] at hk
    by_cases hkb : k = b
    · rw [if_pos hkb] at hk
      injection hk with hk
      subst hk
      exact ⟨bl, by rw [hkb]; exact hbl, rfl, rfl⟩
    · rw [if_neg hkb] at hk
      exact ⟨blk, hk, rfl, rfl⟩
  refine ⟨fun k blk hk => ?_, fun k1 k2 bl1 bl2 h1 h2 => ?_⟩
  · obtain ⟨blk0, h0, hc, hp⟩ := key k blk hk
    rw [putInstruction_length, hc, hp]
    exact hs.1 k blk0 h0
  · obtain ⟨b1, hb1, hc1, _⟩ := key k1 bl1 h1
    obtain ⟨b2, hb2, _, hp2⟩ := key k2 bl2 h2
    rw [hc1, hp2]
    exact hs.2 k1 k2 b1 b2 hb1 hb2

/-- C6 (adjacency symmetry): for every input on which `constructBlocks`
completes (any stream, any block back-links on entry, any fuel), in the block
collection it returns a block `b` occurs in the children of a block `a` if and
only if `a` occurs in the parents of `b`. -/
theorem C6_adjacency_symmetry (code : List Instruction) (fuel : Nat)
    (block0 : Nat → Option Nat) (blocks : List Block) (s : State)
    (h : constructBlocks fuel code block0 blocks = .ok s) : Symmetric s := by
  obtain ⟨_, hcase⟩ := constructBlocks_ok h
  rcases hcase with ⟨_, hs⟩ | ⟨first, rest, _, hexec⟩
  · subst hs
    intro a b bla blb ha
    simp at ha
  · refine (exec_invariant (fun s => EdgesValid s ∧ Symmetric s)
      (fun _ _ _ _ _ hs hl => linkBlocks_symmetric hl hs)
      (fun _ addr hs => newBlock_symmetric addr hs)
      (fun _ _ _ _ hs hbl _ => putInstruction_symmetric hbl hs) hexec ?_).2
    refine ⟨fun k bl hk => ?_, fun k1 k2 bl1 bl2 h1 h2 => ?_⟩
    · cases k with
      | zero =>
        simp at hk
        subst hk
        simp [Block.new]
      | succ n => simp at hk
    · cases k1 with
      | zero =>
        cases k2 with
        | zero =>
          simp at h1 h2
          subst h1
          subst h2
          simp [Block.new]
        | succ n => simp at h2
      | succ n => simp at h1

theorem C6_adjacency_symmetry_witness :
    constructBlocks 6 cycleStream noBlock [] = .ok cycleGraph ∧ Symmetric cycleGraph :=
  ⟨rfl, C6_adjacency_symmetry cycleStream 6 noBlock [] cycleGraph rfl⟩

/-! ## Branch instructions only at the end of a block -/

theorem linkBlocks_noInnerBranch {code : List Instruction} {s s1 : State} {a c : Nat}
    {ty : BlockEdgeType} (h : linkBlocks s a c ty = .ok s1) (hs : NoInnerBranch code s) :
    NoInnerBranch code s1 := by
  intro b bl1 hbl1
  obtain ⟨bl, hbl, rfl⟩ := linkBlocks_lookup_inv h hbl1
  exact hs b bl hbl

theorem putInstruction_noInnerBranch {code : List Instruction} {s : State} {b x : Nat}
    {bl : Block} (hbl : s.blocks[b]? = some bl) (hs : NoInnerBranch code s)
    (hb : NoBranchYet code s b) : NoInnerBranch code (putInstruction s b bl x) := by
  intro k blk hk
  rw [putInstruction_blocks x hbl] at hk
  by_cases hkb : k = b
  · rw [if_pos hkb] at hk
    injection hk with hk
    subst hk
    simp only [List.dropLast_concat]
    exact hb bl hbl
  · rw [if_neg hkb] at hk
    exact hs k blk hk

theorem putInstruction_noBranchYet {code : List Instruction} {s : State} {b x : Nat}
    {bl : Block} {i : Instruction} (hbl : s.blocks[b]? = some bl) (hx : code[x]? = some i)
    (hnb : i.opcode.isBranch = false) (hb : NoBranchYet code s b) :
    NoBranchYet code (putInstruction s b bl x) b := by
  intro blk hk y hy j hj
  rw [putInstruction_blocks x hbl, if_pos rfl] at hk
  injection hk with hk
  subst hk
  simp only [List.mem_append, List.mem_singleton] at hy
  rcases hy with hy | hy
  · exact hb bl hbl y hy j hj
  · subst hy
    rw [hx] at hj
    injection hj with hj
    subst hj
    exact hnb

theorem exec_noInnerBranch {code : List Instruction} {t : Task} {s s1 : State}
    (h : Exec code t s s1) :
    NoInnerBranch code s → PreNoBranch code t s → NoInnerBranch code s1 := by
  induction h with
  | loopEnd s b => exact fun hs _ => hs
  | loopSeen _ _ hl => exact fun hs _ => linkBlocks_noInnerBranch hl hs
  | loopSplit _ _ _ _ _ _ ih => exact fun hs _ => ih hs trivial
  | loopBranch _ _ hbl _ _ _ _ ih =>
    exact fun hs hpre => ih (putInstruction_noInnerBranch hbl hs hpre) trivial
  | loopNext hx _ hbl _ hnb _ ih =>
    exact fun hs hpre => ih (putInstruction_noInnerBranch hbl hs hpre)
      (putInstruction_noBranchYet hbl hx hnb hpre)
  | branchOld _ _ hl => exact fun hs _ => linkBlocks_noInnerBranch hl hs
  | @branchNew s s1 s2 b d ty i _ _ hl _ ih =>
    intro hs _
    have hs0 : NoInnerBranch code { s with blocks := s.blocks ++ [Block.new i.address] } := by
      intro k blk hk
      rw [newBlock_lookup] at hk
      by_cases hkl : k = s.blocks.length
      · rw [if_pos hkl] at hk
        injection hk with hk
        subst hk
        simp [Block.new]
      · rw [if_neg hkl] at hk
        exact hs k blk hk
    refine ih (linkBlocks_noInnerBranch hl hs0) ?_
    intro blk hk
    obtain ⟨bl0, hbl0, rfl⟩ := linkBlocks_lookup_inv hl hk
    rw [newBlock_lookup, if_pos rfl] at hbl0
    injection hbl0 with hbl0
    subst hbl0
    simp [Block.linked, Block.new]
  | branchesNil s b => exact fun hs _ => hs
  | branchesCons _ _ ih1 ih2 => exact fun hs _ => ih2 (ih1 hs trivial) trivial

theorem NoInnerBranch.branchOnlyLast {code : List Instruction} {s : State}
    (h : NoInnerBranch code s) : BranchOnlyLast code s := by
  intro b n x bl i hbl hn hx hi
  have hmem : x ∈ bl.instructions.dropLast := by
    apply List.getElem?_mem (n := n)
    rw [List.getElem?_dropLast, if_pos (by omega)]
    exact hx
  have hnb := h b bl hbl x hmem i hi
  refine ⟨?_, ?_, ?_, ?_, ?_, ?_⟩ <;>
  · intro ho
    rw [ho] at hnb
    exact absurd hnb (by decide)

/-- C9 (branch instruction only at block end): for every input on which
`constructBlocks` completes (any stream, any block back-links on entry, any
fuel), in every block of the result no instruction other than the last one of
the instruction list has opcode `JMP`, `JZ`, `JNZ`, `JSR`, `RETN` or
`STORESTATE`. -/
theorem C9_branch_only_at_block_end (code : List Instruction) (fuel : Nat)
    (block0 : Nat → Option Nat) (blocks : List Block) (s : State)
    (h : constructBlocks fuel code block0 blocks = .ok s) : BranchOnlyLast code s := by
  apply NoInnerBranch.branchOnlyLast
  obtain ⟨_, hcase⟩ := constructBlocks_ok h
  rcases hcase with ⟨_, hs⟩ | ⟨first, rest, _, hexec⟩
  · subst hs
    intro b bl hb
    simp at hb
  · refine exec_noInnerBranch hexec ?_ ?_
    · intro k bl hk
      cases k with
      | zero =>
        simp at hk
        subst hk
        simp [Block.new]
      | succ n => simp at hk
    · intro bl hk
      simp at hk
      subst hk
      simp [Block.new]

theorem C9_branch_only_at_block_end_witness :
    constructBlocks 6 unmarkedJumpStream noBlock [] = .ok unmarkedJumpGraph ∧
    BranchOnlyLast unmarkedJumpStream unmarkedJumpGraph :=
  ⟨rfl, C9_branch_only_at_block_end unmarkedJumpStream 6 noBlock [] unmarkedJumpGraph rfl⟩

/-! ## Empty input -/

/-- C13 (empty input): `constructBlocks` called with an empty instruction
collection and an empty block collection returns, whatever the fuel, with the
block collection still empty (there is no entry block) and the back-links
untouched. -/
theorem C13_empty_input (fuel : Nat) (block0 : Nat → Option Nat) :
    constructBlocks fuel [] block0 [] = .ok { block := block0, blocks := [] } := by
  simp [constructBlocks]

/-! ## Parallel edge lists -/

theorem exec_parallelEdges {code : List Instruction} {t : Task} {s s1 : State}
    (h : Exec code t s s1) : ParallelEdges s → ParallelEdges s1 := by
  refine exec_invariant ParallelEdges ?_ ?_ ?_ h
  · intro s a c ty s1 hs hl b bl1 hbl1
    obtain ⟨bl, hbl, rfl⟩ := linkBlocks_lookup_inv hl hbl1
    have := hs b bl hbl
    simp only [Block.linked]
    by_cases hba : b = a
    · simp [hba, this]
    · simp [hba, this]
  · intro s addr hs b bl hbl
    rw [newBlock_lookup] at hbl
    by_cases hb : b = s.blocks.length
    · rw [if_pos hb] at hbl
      injection hbl with hbl
      subst hbl
      rfl
    · rw [if_neg hb] at hbl
      exact hs b bl hbl
  · intro s b bl x hs hbl _ k blk hk
    rw [putInstruction_blocks x hbl] at hk
    by_cases hkb : k = b
    · rw [if_pos hkb] at hk
      injection hk with hk
      subst hk
      exact hs b bl hbl
    · rw [if_neg hkb] at hk
      exact hs k blk hk

/-- C18 (parallel edge lists): for every input on which `constructBlocks`
completes (any stream, any block back-links on entry, any fuel), every block of
the result has as many entries in `childrenTypes` as in `children`. -/
theorem C18_parallel_edge_lists (code : List Instruction) (fuel : Nat)
    (block0 : Nat → Option Nat) (blocks : List Block) (s : State)
    (h : constructBlocks fuel code block0 blocks = .ok s) : ParallelEdges s := by
  obtain ⟨_, hcase⟩ := constructBlocks_ok h
  rcases hcase with ⟨_, hs⟩ | ⟨first, rest, _, hexec⟩
  · subst hs
    intro b bl hb
    simp at hb
  · refine exec_parallelEdges hexec ?_
    intro k bl hk
    cases k with
    | zero =>
      simp at hk
      subst hk
      rfl
    | succ n => simp at hk

theorem C18_parallel_edge_lists_witness :
    constructBlocks 6 callStream noBlock [] = .ok callGraph ∧ ParallelEdges callGraph :=
  ⟨rfl, C18_parallel_edge_lists callStream 6 noBlock [] callGraph rfl⟩

/-! ## More fuel does not change the result -/

theorem branchTo_mono {r1 r2 : State → Nat → Option Nat → Except Error State}
    (hr : ∀ s b oi s1, r1 s b oi = .ok s1 → r2 s b oi = .ok s1)
    {code : List Instruction} {s s1 : State} {b d : Nat} {ty : BlockEdgeType}
    (h : branchTo r1 code s b d ty = .ok s1) : branchTo r2 code s b d ty = .ok s1 := by
  unfold branchTo at h ⊢
  cases ha : addBranchBlock code s b d ty with
  | error e => simp [ha] at h
  | ok res =>
    obtain ⟨s2, bb, needAdd⟩ := res
    simp only [ha] at h ⊢
    cases needAdd with
    | true =>
      simp only [if_true] at h ⊢
      exact hr _ _ _ _ h
    | false =>
      simpa using h

theorem branchAll_mono {r1 r2 : State → Nat → Option Nat → Except Error State}
    (hr : ∀ s b oi s1, r1 s b oi = .ok s1 → r2 s b oi = .ok s1)
    {code : List Instruction} (b : Nat) (l : List (Nat × BlockEdgeType)) :
    ∀ s s1, branchAll r1 code s b l = .ok s1 → branchAll r2 code s b l = .ok s1 := by
  induction l with
  | nil => exact fun s s1 h => h
  | cons p rest ih =>
    intro s s1 h
    obtain ⟨d, ty⟩ := p
    simp only [branchAll] at h ⊢
    cases h1 : branchTo r1 code s b d ty with
    | error e => simp [h1] at h
    | ok s2 =>
      simp only [h1] at h
      rw [branchTo_mono hr h1]
      exact ih s2 s1 h

theorem constructBlocksFrom_succ (code : List Instruction) :
    ∀ fuel s b oi s1, constructBlocksFrom code fuel s b oi = .ok s1 →
      constructBlocksFrom code (fuel + 1) s b oi = .ok s1 := by
  intro fuel
  induction fuel with
  | zero =>
    intro s b oi s1 h
    cases oi with
    | none => simpa [constructBlocksFrom] using h
    | some x => simp [constructBlocksFrom] at h
  | succ fuel ih =>
    intro s b oi s1 h
    cases oi with
    | none => simpa [constructBlocksFrom] using h
    | some x =>
      simp only [constructBlocksFrom] at h ⊢
      cases hx : code[x]? with
      | none => simp [hx] at h
      | some i =>
        simp only [hx] at h ⊢
        cases hb : s.block x with
        | some c =>
          simp only [hb] at h ⊢
          exact h
        | none =>
          simp only [hb] at h ⊢
          cases hbl : s.blocks[b]? with
          | none => simp [hbl] at h
          | some bl =>
            simp only [hbl] at h ⊢
            by_cases hsplit : i.addressType ≠ .kAddressTypeNone ∧ bl.instructions ≠ []
            · rw [if_pos hsplit] at h ⊢
              exact branchTo_mono ih h
            · rw [if_neg hsplit] at h ⊢
              cases hbr : i.opcode.isBranch with
              | true =>
                simp only [hbr, if_true] at h ⊢
                rw [followBranchBlock_eq_branchAll] at h ⊢
                cases ht : branchTargets i with
                | none => simp [ht] at h
                | some l =>
                  simp only [ht] at h ⊢
                  exact branchAll_mono ih b l _ _ h
              | false =>
                simp only [hbr] at h ⊢
                exact ih _ _ _ _ h

theorem constructBlocks_add {code : List Instruction} {fuel : Nat}
    {block0 : Nat → Option Nat} {blocks : List Block} {s : State}
    (h : constructBlocks fuel code block0 blocks = .ok s) (n : Nat) :
    constructBlocks (fuel + n) code block0 blocks = .ok s := by
  induction n with
  | zero => exact h
  | succ n ih =>
    unfold constructBlocks at ih ⊢
    by_cases hb : blocks ≠ []
    · simp [hb] at ih
    · simp only [hb, if_false] at ih ⊢
      cases code with
      | nil => exact ih
      | cons first rest => exact constructBlocksFrom_succ _ _ _ _ _ _ ih

/-! ## The cycle scenario -/

theorem cycle_run_none (t1 t2 : AddressType) :
    constructBlocks 2 (cycleStreamWith .kAddressTypeNone t1 t2) noBlock [] = .ok cycleGraph := by
  cases t1 <;> cases t2 <;> exact rfl

theorem cycle_run_jump (t1 t2 : AddressType) :
    constructBlocks 2 (cycleStreamWith .kAddressTypeJumpDestination t1 t2) noBlock [] =
      .ok cycleGraph := by
  cases t1 <;> cases t2 <;> exact rfl

theorem cycle_run_sub (t1 t2 : AddressType) :
    constructBlocks 2 (cycleStreamWith .kAddressTypeSubroutineStart t1 t2) noBlock [] =
      .ok cycleGraph := by
  cases t1 <;> cases t2 <;> exact rfl

theorem isCycleGraph_cycleGraph : IsCycleGraph cycleGraph :=
  ⟨rfl, 0, 2, 1, _, _, _, rfl, rfl, rfl, rfl, rfl, rfl, rfl, rfl, rfl, rfl, rfl, rfl,
    rfl, rfl, rfl⟩

/-- C20 (cycle scenario): for the three-instruction cycle of the spec (`JZ` at
address 0 with branches to address 2 and address 1, `JMP` back to address 0 at
address 1, `RETN` at address 2), with any address types, `constructBlocks`
returns for every fuel of at least 2 the graph `cycleGraph`: exactly three
blocks, the block of the `JZ` with children [block of the `RETN`, block of the
`JMP`] and types [ConditionalTrue, ConditionalFalse], the block of the `JMP`
with the one child [block of the `JZ`] of type Unconditional, the block of the
`RETN` without children. -/
theorem C20_cycle_scenario (t0 t1 t2 : AddressType) (n : Nat) :
    constructBlocks (2 + n) (cycleStreamWith t0 t1 t2) noBlock [] = .ok cycleGraph ∧
    IsCycleGraph cycleGraph := by
  refine ⟨@constructBlocks_add _ 2 _ _ _ ?_ n, isCycleGraph_cycleGraph⟩
  cases t0
  · exact cycle_run_none t1 t2
  · exact cycle_run_jump t1 t2
  · exact cycle_run_sub t1 t2

/-! ## The entry block -/

theorem Built.entryBlock {code : List Instruction} {s : State} (hb : Built code s)
    (hne : code ≠ []) : EntryBlock code s := by
  have h0 := hb.entry hne
  obtain ⟨bl, hbl, hmem⟩ := hb.block_of h0
  obtain ⟨h, m, _, _, hshape, _⟩ := hb.lookup hbl
  have hmem1 := hmem
  rw [hshape.instrs, List.mem_range'_1] at hmem1
  have hh : h = 0 := by omega
  subst hh
  obtain ⟨i, hi, haddr⟩ := hshape.head
  refine ⟨i, bl, hi, hbl, haddr.symm, ?_, ?_⟩
  · rw [hshape.instrs, List.range'_succ]
    rfl
  · intro b1 bl1 hbl1 hmem2
    have := (hb.consistent.mem_iff b1 bl1 0 hbl1).1 hmem2
    rw [h0] at this
    injection this with this
    exact this.symm

/-- C12 (entry block): for every non-empty well-formed stream the first block of
the graph `constructBlocks` returns has the address of the first instruction as
its start address, has the first instruction as the first element of its
instruction list, and is the only block whose instruction list contains the
first instruction. -/
theorem C12_entry_block (code : List Instruction) (fuel : Nat) (hwf : WellFormed code)
    (hne : code ≠ []) (hfuel : 2 * code.length ≤ fuel) :
    ∃ s, constructBlocks fuel code noBlock [] = .ok s ∧ EntryBlock code s := by
  obtain ⟨s, hs, hb⟩ := constructBlocks_built hwf hfuel
  exact ⟨s, hs, hb.entryBlock hne⟩

theorem C12_entry_block_witness :
    WellFormed unmarkedJumpStream ∧ unmarkedJumpStream ≠ [] ∧
    2 * unmarkedJumpStream.length ≤ 6 ∧
    ∃ s, constructBlocks 6 unmarkedJumpStream noBlock [] = .ok s ∧
      EntryBlock unmarkedJumpStream s :=
  ⟨by decide, by decide, by decide,
    C12_entry_block unmarkedJumpStream 6 (by decide) (by decide) (by decide)⟩

/-! ## Unreached instructions -/

theorem branchTargets_mem_inv {i : Instruction} {l : List (Nat × BlockEdgeType)}
    (hl : branchTargets i = some l) {p : Nat × BlockEdgeType} (hp : p ∈ l) :
    (p.1 ∈ i.branches ∧ i.opcode.hasTargets) ∨
    (i.follower = some p.1 ∧
      (i.opcode = .kOpcodeJSR ∨ i.opcode = .kOpcodeSTORESTATE)) := by
  unfold branchTargets at hl
  rcases hb : i.branches with _ | ⟨t, _ | ⟨f, _ | ⟨g, r⟩⟩⟩ <;>
    rcases hfo : i.follower with _ | f2 <;>
    rcases ho : i.opcode with _ | _ | _ | _ | _ | _ | n <;>
    simp [hb, hfo, ho] at hl <;>
    subst hl <;>
    simp at hp <;>
    (try rcases hp with hp | hp) <;>
    (try subst hp) <;>
    simp_all [Opcode.hasTargets]

theorem branchTargets_reachable {code : List Instruction} {x : Nat} {i : Instruction}
    {l : List (Nat × BlockEdgeType)} (hr : Reachable code x) (hx : code[x]? = some i)
    (hl : branchTargets i = some l) : ∀ p ∈ l, Reachable code p.1 := by
  intro p hp
  rcases branchTargets_mem_inv hl hp with ⟨hmem, hop⟩ | ⟨hfol, hop⟩
  · exact Reachable.branch hr hx hop hmem
  · exact Reachable.tail hr hx hop hfol

theorem exec_allReachable {code : List Instruction} {t : Task} {s s1 : State}
    (h : Exec code t s s1) :
    AllReachable code s → PreReachable code t s → AllReachable code s1 := by
  have hput : ∀ (s : State) (b x : Nat) (bl : Block), AllReachable code s →
      Reachable code x → AllReachable code (putInstruction s b bl x) := by
    intro s b x bl hs hx y c hy
    rw [putInstruction_block] at hy
    by_cases hyx : y = x
    · rw [hyx]; exact hx
    · rw [if_neg hyx] at hy
      exact hs y c hy
  have hlink : ∀ (s s1 : State) (a c : Nat) (ty : BlockEdgeType), AllReachable code s →
      linkBlocks s a c ty = .ok s1 → AllReachable code s1 := by
    intro s s1 a c ty hs hl y k hy
    rw [(linkBlocks_ok hl).1] at hy
    exact hs y k hy
  induction h with
  | loopEnd s b => exact fun hs _ => hs
  | loopSeen _ _ hl => exact fun hs _ => hlink _ _ _ _ _ hs hl
  | loopSplit _ _ _ _ _ _ ih => exact fun hs hpre => ih hs (hpre _ rfl)
  | loopBranch hx _ _ _ _ ht _ ih =>
    exact fun hs hpre => ih (hput _ _ _ _ hs (hpre _ rfl))
      (branchTargets_reachable (hpre _ rfl) hx ht)
  | loopNext hx _ _ _ hnb _ ih =>
    intro hs hpre
    refine ih (hput _ _ _ _ hs (hpre _ rfl)) ?_
    intro y hy
    exact Reachable.follower (hpre _ rfl) hx hnb hy
  | branchOld _ _ hl => exact fun hs _ => hlink _ _ _ _ _ hs hl
  | branchNew _ _ hl _ ih =>
    intro hs hpre
    refine ih (hlink _ _ _ _ _ ?_ hl) ?_
    · exact fun y c hy => hs y c hy
    · intro y hy
      injection hy with hy
      rw [← hy]
      exact hpre
  | branchesNil s b => exact fun hs _ => hs
  | branchesCons _ _ ih1 ih2 =>
    intro hs hpre
    exact ih2 (ih1 hs (hpre _ (List.mem_cons_self _ _)))
      (fun p hp => hpre p (List.mem_cons_of_mem _ hp))

theorem Built.onlyReachable {code : List Instruction} {s : State} (hb : Built code s)
    (hr : AllReachable code s) : OnlyReachable code s := by
  have hmem : ∀ (b x : Nat) (bl : Block), s.blocks[b]? = some bl → x ∈ bl.instructions →
      Reachable code x :=
    fun b x bl hbl hx => hr x b ((hb.consistent.mem_iff b bl x hbl).1 hx)
  refine ⟨fun x => ⟨?_, ?_⟩, hr, hmem, fun x hx => ⟨?_, ?_⟩⟩
  · rintro ⟨c, hc⟩
    obtain ⟨bl, hbl, hin⟩ := hb.block_of hc
    exact ⟨c, bl, hbl, hin⟩
  · rintro ⟨b, bl, hbl, hin⟩
    exact ⟨b, (hb.consistent.mem_iff b bl x hbl).1 hin⟩
  · cases hs : s.block x with
    | none => rfl
    | some c => exact absurd (hr x c hs) hx
  · intro b bl hbl hin
    exact hx (hmem b x bl hbl hin)

/-- C14 (unreached instructions are omitted): in the graph built for a
well-formed stream the instructions with a block back-link are the instructions
that occur in the instruction list of a block, and each of them is reachable
from the first instruction (through followers of instructions that do not
influence control flow, branches of `JMP`/`JZ`/`JNZ`/`JSR`/`STORESTATE` and
followers of `JSR`/`STORESTATE`); an instruction that is not reachable keeps an
unset back-link and occurs in no block. -/
theorem C14_unreached_omitted (code : List Instruction) (fuel : Nat) (hwf : WellFormed code)
    (hfuel : 2 * code.length ≤ fuel) :
    ∃ s, constructBlocks fuel code noBlock [] = .ok s ∧ OnlyReachable code s := by
  obtain ⟨s, hs, hb⟩ := constructBlocks_built hwf hfuel
  refine ⟨s, hs, hb.onlyReachable ?_⟩
  obtain ⟨_, hcase⟩ := constructBlocks_ok hs
  rcases hcase with ⟨_, hs0⟩ | ⟨first, rest, hcode, hexec⟩
  · subst hs0
    intro x c hx
    simp [noBlock] at hx
  · refine exec_allReachable hexec ?_ ?_
    · intro x c hx
      simp [noBlock] at hx
    · intro x hx
      injection hx with hx
      rw [← hx]
      exact Reachable.first (by rw [hcode]; simp)

theorem C14_unreached_omitted_witness :
    WellFormed deadCodeStream ∧ 2 * deadCodeStream.length ≤ 4 ∧
    ∃ s, constructBlocks 4 deadCodeStream noBlock [] = .ok s ∧
      OnlyReachable deadCodeStream s :=
  ⟨by decide, by decide, C14_unreached_omitted deadCodeStream 4 (by decide) (by decide)⟩

/-! ## Start address of the blocks -/

theorem linkBlocks_headOK {s s1 : State} {a c : Nat}
    {ty : BlockEdgeType} (hl : linkBlocks s a c ty = .ok s1) {k : Nat} {bl1 : Block}
    (hk : s1.blocks[k]? = some bl1) :
    ∃ bl : Block, s.blocks[k]? = some bl ∧ bl1.instructions = bl.instructions ∧
      bl1.startAddress = bl.startAddress := by
  obtain ⟨bl, hbl, rfl⟩ := linkBlocks_lookup_inv hl hk
  exact ⟨bl, hbl, rfl, rfl⟩

theorem linkBlocks_startsAtHead {code : List Instruction} {s s1 : State} {a c : Nat}
    {ty : BlockEdgeType} (hl : linkBlocks s a c ty = .ok s1) (hs : StartsAtHead code s) :
    StartsAtHead code s1 := by
  intro k bl1 hk
  obtain ⟨bl, hbl, hi, hst⟩ := linkBlocks_headOK hl hk
  obtain ⟨h, t, i, h1, h2, h3⟩ := hs k bl hbl
  exact ⟨h, t, i, by rw [hi, h1], h2, by rw [hst, h3]⟩

theorem putInstruction_startsAtHead {code : List Instruction} {s : State} {b x : Nat}
    {bl : Block} (hbl : s.blocks[b]? = some bl)
    (hpre : PreHead code (.loop b (some x)) s) :
    StartsAtHead code (putInstruction s b bl x) := by
  intro k blk hk
  rw [putInstruction_blocks x hbl] at hk
  by_cases hkb : k = b
  · rw [if_pos hkb] at hk
    injection hk with hk
    subst hk
    rcases hpre.2 bl hbl with ⟨h, t, j, h1, h2, h3⟩ | ⟨hnil, y, j, hy, hj, hst, _⟩
    · exact ⟨h, t ++ [x], j, by simp [h1], h2, h3⟩
    · injection hy with hy
      subst hy
      exact ⟨x, [], j, by simp [hnil], hj, hst⟩
  · rw [if_neg hkb] at hk
    exact hpre.1 k blk hkb hk

theorem exec_startsAtHead {code : List Instruction} {t : Task} {s s1 : State}
    (h : Exec code t s s1) : PreHead code t s → StartsAtHead code s1 := by
  induction h with
  | loopEnd s b =>
    intro hpre k bl hk
    by_cases hkb : k = b
    · subst hkb
      rcases hpre.2 bl hk with hok | ⟨_, y, j, hy, _⟩
      · exact hok
      · exact absurd hy (by simp)
    · exact hpre.1 k bl hkb hk
  | @loopSeen s s1 b x c i _ hb hl =>
    intro hpre
    refine linkBlocks_startsAtHead hl ?_
    intro k bl hk
    by_cases hkb : k = b
    · subst hkb
      rcases hpre.2 bl hk with hok | ⟨_, y, j, hy, _, _, hnone⟩
      · exact hok
      · injection hy with hy
        subst hy
        rw [hb] at hnone
        exact absurd hnone (by simp)
    · exact hpre.1 k bl hkb hk
  | @loopSplit s s1 b x i bl _ _ hbl _ hne _ ih =>
    intro hpre
    refine ih ?_
    intro k blk hk
    by_cases hkb : k = b
    · subst hkb
      rw [hbl] at hk
      injection hk with hk
      subst hk
      rcases hpre.2 bl hbl with hok | ⟨hnil, _⟩
      · exact hok
      · exact absurd hnil hne
    · exact hpre.1 k blk hkb hk
  | loopBranch _ _ hbl _ _ _ _ ih =>
    exact fun hpre => ih (putInstruction_startsAtHead hbl hpre)
  | loopNext _ _ hbl _ _ _ ih =>
    intro hpre
    have hs := putInstruction_startsAtHead hbl hpre
    exact ih ⟨fun k blk _ hk => hs k blk hk, fun blk hk => Or.inl (hs _ blk hk)⟩
  | branchOld _ _ hl => exact fun hpre => linkBlocks_startsAtHead hl hpre
  | @branchNew s s1 s2 b d ty i hd hb hl _ ih =>
    intro hpre
    refine ih ⟨?_, ?_⟩
    · intro k bl1 hkn hk
      obtain ⟨bl, hbl, hi, hst⟩ := linkBlocks_headOK hl hk
      rw [newBlock_lookup, if_neg hkn] at hbl
      obtain ⟨h, t, j, h1, h2, h3⟩ := hpre k bl hbl
      exact ⟨h, t, j, by rw [hi, h1], h2, by rw [hst, h3]⟩
    · intro bl1 hk
      obtain ⟨bl, hbl, hi, hst⟩ := linkBlocks_headOK hl hk
      rw [newBlock_lookup, if_pos rfl] at hbl
      injection hbl with hbl
      subst hbl
      refine Or.inr ⟨hi, d, i, rfl, hd, hst, ?_⟩
      rw [(linkBlocks_ok hl).1]
      exact hb
  | branchesNil s b => exact fun hpre => hpre
  | branchesCons _ _ ih1 ih2 => exact fun hpre => ih2 (ih1 hpre)

/-- C17, as amended (block start address): for every input in which the first
instruction has no block back-link on entry and on which `constructBlocks`
completes (any stream, any other back-links, any fuel), every block of the
result has a non-empty instruction list and its start address is the address of
the first instruction of that list. -/
theorem C17_block_start_address (code : List Instruction) (fuel : Nat)
    (block0 : Nat → Option Nat) (blocks : List Block) (s : State) (h0 : block0 0 = none)
    (h : constructBlocks fuel code block0 blocks = .ok s) : StartsAtHead code s := by
  obtain ⟨_, hcase⟩ := constructBlocks_ok h
  rcases hcase with ⟨_, hs⟩ | ⟨first, rest, hcode, hexec⟩
  · subst hs
    intro b bl hb
    simp at hb
  · refine exec_startsAtHead hexec ⟨?_, ?_⟩
    · intro k bl hk0 hk
      cases k with
      | zero => exact absurd rfl hk0
      | succ n => simp at hk
    · intro bl hk
      simp at hk
      subst hk
      exact Or.inr ⟨rfl, 0, first, rfl, by rw [hcode]; exact List.getElem?_cons_zero, rfl, h0⟩

theorem C17_block_start_address_witness :
    noBlock 0 = none ∧ constructBlocks 6 cycleStream noBlock [] = .ok cycleGraph ∧
    StartsAtHead cycleStream cycleGraph :=
  ⟨rfl, rfl, C17_block_start_address cycleStream 6 noBlock [] cycleGraph rfl rfl⟩

/-- C17, as stated, fails: when the one instruction of `returnStream` has a
block back-link on entry, `constructBlocks` completes with an entry block whose
instruction list is empty. -/
theorem C17_block_start_address_counterexample :
    constructBlocks 1 returnStream firstHasBlock [] = .ok emptyEntryGraph ∧
    ¬ StartsAtHead returnStream emptyEntryGraph := by
  refine ⟨rfl, fun h => ?_⟩
  obtain ⟨hd, t, i, h1, _⟩ := h 0 _ rfl
  simp [emptyEntryGraph] at h1

/-! ## The parents of a block -/

theorem linkBlocks_parentsPerEdge {s s1 : State} {a c : Nat} {ty : BlockEdgeType}
    (h : linkBlocks s a c ty = .ok s1) (hs : ParentsPerEdge s) : ParentsPerEdge s1 := by
  intro k1 k2 bl1 bl2 h1 h2
  obtain ⟨b1, hb1, rfl⟩ := linkBlocks_lookup_inv h h1
  obtain ⟨b2, hb2, rfl⟩ := linkBlocks_lookup_inv h h2
  have hcnt := hs k1 k2 b1 b2 hb1 hb2
  simp only [Block.linked]
  by_cases hk1 : k1 = a
  · by_cases hk2 : k2 = c
    · subst hk1
      subst hk2
      simp [hcnt]
    · have hck : ¬ c = k2 := fun e => hk2 e.symm
      subst hk1
      simp [hk2, hck, hcnt, List.count_singleton]
  · have hak : ¬ a = k1 := fun e => hk1 e.symm
    by_cases hk2 : k2 = c
    · subst hk2
      simp [hk1, hak, hcnt, List.count_singleton]
    · simp [hk1, hk2, hcnt]

theorem newBlock_parentsPerEdge {s : State} (addr : Nat) (hv : EdgesValid s)
    (hs : ParentsPerEdge s) :
    ParentsPerEdge { s with blocks := s.blocks ++ [Block.new addr] } := by
  intro k1 k2 bl1 bl2 h1 h2
  rw [newBlock_lookup] at h1 h2
  by_cases hk1 : k1 = s.blocks.length
  · rw [if_pos hk1] at h1
    injection h1 with h1
    subst h1
    by_cases hk2 : k2 = s.blocks.length
    · rw [if_pos hk2] at h2
      injection h2 with h2
      subst h2
      simp [Block.new]
    · rw [if_neg hk2] at h2
      have hnot : k1 ∉ bl2.parents := fun hmem => by
        have := (hv k2 bl2 h2).2 k1 hmem
        omega
      simp [Block.new, List.count_eq_zero_of_not_mem hnot]
  · rw [if_neg hk1] at h1
    by_cases hk2 : k2 = s.blocks.length
    · rw [if_pos hk2] at h2
      injection h2 with h2
      subst h2
      have hnot : k2 ∉ bl1.children := fun hmem => by
        have := (hv k1 bl1 h1).1 k2 hmem
        omega
      simp [Block.new, List.count_eq_zero_of_not_mem hnot]
    · rw [if_neg hk2] at h2
      exact hs k1 k2 bl1 bl2 h1 h2

theorem putInstruction_parentsPerEdge {s : State} {b x : Nat} {bl : Block}
    (hbl : s.blocks[b]? = some bl) (hs : ParentsPerEdge s) :
    ParentsPerEdge (putInstruction s b bl x) := by
  have key : ∀ (k : Nat) (blk : Block), (putInstruction s b bl x).blocks[k]? = some blk →
      ∃ blk0 : Block, s.blocks[k]? = some blk0 ∧ blk.children = blk0.children ∧
        blk.parents = blk0.parents := by
    intro k blk hk
    rw [putInstruction_blocks x hbl] at hk
    by_cases hkb : k = b
    · rw [if_pos hkb] at hk
      injection hk with hk
      subst hk
      exact ⟨bl, by rw [hkb]; exact hbl, rfl, rfl⟩
    · rw [if_neg hkb] at hk
      exact ⟨blk, hk, rfl, rfl⟩
  intro k1 k2 bl1 bl2 h1 h2
  obtain ⟨b1, hb1, hc1, _⟩ := key k1 bl1 h1
  obtain ⟨b2, hb2, _, hp2⟩ := key k2 bl2 h2
  rw [hc1, hp2]
  exact hs k1 k2 b1 b2 hb1 hb2

theorem exec_parentsPerEdge {code : List Instruction} {t : Task} {s s1 : State}
    (h : Exec code t s s1) (hs : (EdgesValid s ∧ Symmetric s) ∧ ParentsPerEdge s) :
    (EdgesValid s1 ∧ Symmetric s1) ∧ ParentsPerEdge s1 :=
  exec_invariant (fun s => (EdgesValid s ∧ Symmetric s) ∧ ParentsPerEdge s)
    (fun _ _ _ _ _ hs hl => ⟨linkBlocks_symmetric hl hs.1, linkBlocks_parentsPerEdge hl hs.2⟩)
    (fun _ addr hs => ⟨newBlock_symmetric addr hs.1, newBlock_parentsPerEdge addr hs.1.1 hs.2⟩)
    (fun _ _ _ _ hs hbl _ =>
      ⟨putInstruction_symmetric hbl hs.1, putInstruction_parentsPerEdge hbl hs.2⟩)
    h hs

theorem constructBlocks_parentsPerEdge {code : List Instruction} {fuel : Nat}
    {block0 : Nat → Option Nat} {blocks : List Block} {s : State}
    (h : constructBlocks fuel code block0 blocks = .ok s) :
    EdgesValid s ∧ ParentsPerEdge s := by
  obtain ⟨_, hcase⟩ := constructBlocks_ok h
  rcases hcase with ⟨_, hs⟩ | ⟨first, rest, _, hexec⟩
  · subst hs
    exact ⟨fun a bl ha => by simp at ha, fun a b bla blb ha => by simp at ha⟩
  · have hinit : (EdgesValid { block := block0, blocks := [Block.new first.address] } ∧
        Symmetric { block := block0, blocks := [Block.new first.address] }) ∧
        ParentsPerEdge { block := block0, blocks := [Block.new first.address] } := by
      refine ⟨⟨fun k bl hk => ?_, fun k1 k2 bl1 bl2 h1 h2 => ?_⟩,
        fun k1 k2 bl1 bl2 h1 h2 => ?_⟩
      · cases k with
        | zero =>
          simp at hk
          subst hk
          simp [Block.new]
        | succ n => simp at hk
      · cases k1 with
        | zero =>
          simp at h1
          subst h1
          cases k2 with
          | zero =>
            simp at h2
            subst h2
            simp [Block.new]
          | succ n => simp at h2
        | succ n => simp at h1
      · cases k1 with
        | zero =>
          simp at h1
          subst h1
          cases k2 with
          | zero =>
            simp at h2
            subst h2
            simp [Block.new]
          | succ n => simp at h2
        | succ n => simp at h1
    have := exec_parentsPerEdge hexec hinit
    exact ⟨this.1.1, this.2⟩

theorem successors_length_le {i : Instruction} {l : List (Nat × BlockEdgeType)}
    (h : successors i = some l) : l.length ≤ 2 := by
  unfold successors branchTargets at h
  rcases hb : i.branches with _ | ⟨t, _ | ⟨f, _ | ⟨g, r⟩⟩⟩ <;>
    rcases hfo : i.follower with _ | f2 <;>
    rcases ho : i.opcode with _ | _ | _ | _ | _ | _ | n <;>
    simp [hb, hfo, ho, Opcode.isBranch] at h <;>
    subst h <;>
    simp

theorem Built.children_length_le {code : List Instruction} {s : State} (hb : Built code s)
    {b : Nat} {bl : Block} (hbl : s.blocks[b]? = some bl) : bl.children.length ≤ 2 := by
  obtain ⟨_, _, _, l, _, _, hsucc, hlinked⟩ := hb.lookup hbl
  have h1 : bl.children.length = l.length := by
    have := congrArg List.length hlinked.1
    simpa using this
  rw [h1]
  exact successors_length_le hsucc

theorem Built.parentsOncePerEdge {code : List Instruction} {s : State} (hb : Built code s)
    (hv : EdgesValid s) (hp : ParentsPerEdge s) : ParentsOncePerEdge s := by
  refine ⟨hp, fun a b bl hbl => ?_⟩
  by_cases ha : a < s.blocks.length
  · have hbla : s.blocks[a]? = some s.blocks[a] := List.getElem?_eq_getElem ha
    rw [hp a b _ bl hbla hbl]
    exact Nat.le_trans (List.count_le_length _ _) (hb.children_length_le hbla)
  · have hnot : a ∉ bl.parents := fun hmem => ha ((hv b bl hbl).2 a hmem)
    rw [List.count_eq_zero_of_not_mem hnot]
    omega

/-- C19, as amended (parents hold one entry per edge): in the graph built for a
well-formed stream, a block `a` occurs in the parents of a block `b` exactly as
many times as `b` occurs in the children of `a`, so once per edge from `a` to
`b`, and at most twice; the parents are not a set. -/
theorem C19_parents_once_per_edge (code : List Instruction) (fuel : Nat)
    (hwf : WellFormed code) (hfuel : 2 * code.length ≤ fuel) :
    ∃ s, constructBlocks fuel code noBlock [] = .ok s ∧ ParentsOncePerEdge s := by
  obtain ⟨s, hs, hb⟩ := constructBlocks_built hwf hfuel
  obtain ⟨hv, hp⟩ := constructBlocks_parentsPerEdge hs
  exact ⟨s, hs, hb.parentsOncePerEdge hv hp⟩

theorem C19_parents_once_per_edge_witness :
    WellFormed sameTargetStream ∧ 2 * sameTargetStream.length ≤ 4 ∧
    ∃ s, constructBlocks 4 sameTargetStream noBlock [] = .ok s ∧ ParentsOncePerEdge s :=
  ⟨by decide, by decide, C19_parents_once_per_edge sameTargetStream 4 (by decide) (by decide)⟩

/-- C19, as stated, fails: `sameTargetStream` is well-formed, both branches of
its `JZ` lead to the block of the `RETN`, and the parents of that block hold
the block of the `JZ` twice. -/
theorem C19_parents_are_set_counterexample :
    WellFormed sameTargetStream ∧
    constructBlocks 4 sameTargetStream noBlock [] = .ok sameTargetGraph ∧
    ¬ ParentsAreSet sameTargetGraph := by
  refine ⟨by decide, rfl, fun h => ?_⟩
  have h1 := h 1 _ rfl
  simp [sameTargetGraph] at h1

/-! ## Arity of `RETN` -/

/-- C16, as amended (the arity of `RETN` is not checked): `RETN` influences
control flow, so it ends its block, but `followBranchBlock` makes no assertion
on it: whatever the `branches` list of a `RETN` is, `followBranchBlock` returns
the state unchanged, and the loop of `constructBlocks` that reaches a `RETN`
without a block returns with the instruction put into the block and no child
added. -/
theorem C16_return_arity_not_checked (code : List Instruction)
    (recurse : State → Nat → Option Nat → Except Error State) (fuel : Nat) (s : State)
    (b x : Nat) (bl : Block) (i : Instruction) (hop : i.opcode = .kOpcodeRETN)
    (hx : code[x]? = some i) (hb : s.block x = none) (hbl : s.blocks[b]? = some bl)
    (hsplit : ¬ (i.addressType ≠ .kAddressTypeNone ∧ bl.instructions ≠ [])) :
    followBranchBlock recurse code s b i = .ok s ∧
    constructBlocksFrom code (fuel + 1) s b (some x) = .ok (putInstruction s b bl x) := by
  have hfollow : ∀ (r : State → Nat → Option Nat → Except Error State) (s0 : State),
      followBranchBlock r code s0 b i = .ok s0 := by
    intro r s0
    unfold followBranchBlock
    rw [hop]
  refine ⟨hfollow recurse s, ?_⟩
  simp only [constructBlocksFrom, hx, hb, hbl]
  rw [if_neg hsplit]
  have hbr : i.opcode.isBranch = true := by rw [hop]; rfl
  simp only [hbr, if_true]
  exact hfollow _ _

theorem C16_return_arity_not_checked_witness :
    returnWithBranchStream[0]? =
      some { address := 0, opcode := .kOpcodeRETN, addressType := .kAddressTypeNone,
             branches := [0], follower := none } ∧
    followBranchBlock (constructBlocksFrom returnWithBranchStream 0) returnWithBranchStream
      { block := noBlock, blocks := [Block.new 0] } 0
      { address := 0, opcode := .kOpcodeRETN, addressType := .kAddressTypeNone,
        branches := [0], follower := none } =
      .ok { block := noBlock, blocks := [Block.new 0] } ∧
    constructBlocksFrom returnWithBranchStream (0 + 1)
      { block := noBlock, blocks := [Block.new 0] } 0 (some 0) =
      .ok (putInstruction { block := noBlock, blocks := [Block.new 0] } 0 (Block.new 0) 0) :=
  ⟨rfl, C16_return_arity_not_checked returnWithBranchStream
    (constructBlocksFrom returnWithBranchStream 0) 0
    { block := noBlock, blocks := [Block.new 0] } 0 0 (Block.new 0) _ rfl rfl rfl rfl
    (by decide)⟩

/-- C16, as stated, fails: for the stream of one `RETN` whose `branches` list
is not empty `constructBlocks` returns a graph, with the `RETN` in its block. -/
theorem C16_return_arity_enforced_counterexample :
    ¬ ReturnArityEnforced returnWithBranchStream := by
  intro h
  have h1 := h 1 returnGraph rfl 0 0 _ _ rfl (by simp [returnGraph]) rfl rfl
  simp [returnWithBranchStream] at h1

/-! ## Termination -/

theorem linkBlocks_error {s : State} {a c : Nat} {ty : BlockEdgeType} {e : Error}
    (h : linkBlocks s a c ty = .error e) : e = .invalidPointer := by
  unfold linkBlocks at h
  cases hc : s.blocks[c]? with
  | none =>
    simp only [hc] at h
    injection h with h
    exact h.symm
  | some t =>
    simp only [hc] at h
    cases ha : (s.blocks.set c { t with parents := t.parents ++ [a] })[a]? with
    | none =>
      simp only [ha] at h
      injection h with h
      exact h.symm
    | some b => simp [ha] at h

/-- An instruction that has a block keeps it. -/
theorem exec_keep {code : List Instruction} {t : Task} {s s1 : State}
    (h : Exec code t s s1) : ∀ x c, s.block x = some c → s1.block x = some c := by
  refine exec_invariant (fun s2 => ∀ x c, s.block x = some c → s2.block x = some c)
    ?_ ?_ ?_ h (fun _ _ hx => hx)
  · intro s2 a c ty s3 hs hl x k hx
    rw [(linkBlocks_ok hl).1]
    exact hs x k hx
  · intro s2 addr hs x k hx
    exact hs x k hx
  · intro s2 b bl y hs _ hy x k hx
    rw [putInstruction_block]
    have h2 := hs x k hx
    by_cases hxy : x = y
    · rw [hxy, hy] at h2
      exact absurd h2 (by simp)
    · rw [if_neg hxy]
      exact h2

theorem addBranchBlock_needAdd {code : List Instruction} {s s1 : State} {b d bb : Nat}
    {ty : BlockEdgeType} (h : addBranchBlock code s b d ty = .ok (s1, bb, true)) :
    s.block d = none ∧ bb = s.blocks.length ∧ Fresh code s1 bb (some d) := by
  unfold addBranchBlock at h
  cases hd : code[d]? with
  | none => simp [hd] at h
  | some i =>
    simp only [hd] at h
    cases hb : s.block d with
    | some c =>
      simp only [hb] at h
      cases hl : linkBlocks s b c ty with
      | error e => simp [hl] at h
      | ok s2 => simp [hl] at h
    | none =>
      simp only [hb] at h
      cases hl : linkBlocks { s with blocks := s.blocks ++ [Block.new i.address] } b
          s.blocks.length ty with
      | error e => simp [hl] at h
      | ok s2 =>
        simp only [hl, Except.ok.injEq, Prod.mk.injEq, and_true] at h
        obtain ⟨h1, h2⟩ := h
        subst h1
        subst h2
        refine ⟨rfl, rfl, _, d, linkBlocks_lookup hl (by rw [newBlock_lookup, if_pos rfl]),
          ?_, rfl, (List.getElem?_eq_some_iff.1 hd).1, ?_⟩
        · simp [Block.linked, Block.new]
        · rw [(linkBlocks_ok hl).1]
          exact hb

theorem branchTo_of_assigned {code : List Instruction}
    (r1 r2 : State → Nat → Option Nat → Except Error State) {s : State} {b d c : Nat}
    (ty : BlockEdgeType) (hc : s.block d = some c) :
    branchTo r1 code s b d ty = branchTo r2 code s b d ty := by
  unfold branchTo
  cases ha : addBranchBlock code s b d ty with
  | error e => rfl
  | ok res =>
    obtain ⟨s1, bb, needAdd⟩ := res
    have := (addBranchBlock_of_assigned hc ha).2.2
    subst this
    rfl

theorem branchTo_terminates {code : List Instruction} {fuel : Nat}
    {recurse : State → Nat → Option Nat → Except Error State}
    (hterm : ∀ s b oi, EnoughAny code fuel s b oi → recurse s b oi ≠ .error .outOfFuel)
    {s : State} {b d : Nat} (ty : BlockEdgeType) (hfuel : 2 * unassigned code s ≤ fuel) :
    branchTo recurse code s b d ty ≠ .error .outOfFuel := by
  unfold branchTo
  cases ha : addBranchBlock code s b d ty with
  | error e =>
    simp only
    intro he
    injection he with he
    subst he
    unfold addBranchBlock at ha
    cases hd : code[d]? with
    | none => simp [hd] at ha
    | some i =>
      simp only [hd] at ha
      cases hb : s.block d with
      | some c =>
        simp only [hb] at ha
        cases hl : linkBlocks s b c ty with
        | error e =>
          have := linkBlocks_error hl
          subst this
          simp [hl] at ha
        | ok s2 => simp [hl] at ha
      | none =>
        simp only [hb] at ha
        cases hl : linkBlocks { s with blocks := s.blocks ++ [Block.new i.address] } b
            s.blocks.length ty with
        | error e =>
          have := linkBlocks_error hl
          subst this
          simp [hl] at ha
        | ok s2 => simp [hl] at ha
  | ok res =>
    obtain ⟨s1, bb, needAdd⟩ := res
    simp only
    cases needAdd with
    | false => simp
    | true =>
      simp only [if_true]
      obtain ⟨_, _, hfresh⟩ := addBranchBlock_needAdd ha
      refine hterm s1 bb (some d) (Or.inr ⟨hfresh, ?_⟩)
      have hblock : s1.block = s.block := by
        unfold addBranchBlock at ha
        cases hd : code[d]? with
        | none => simp [hd] at ha
        | some i =>
          simp only [hd] at ha
          cases hb : s.block d with
          | some c =>
            simp only [hb] at ha
            cases hl : linkBlocks s b c ty with
            | error e => simp [hl] at ha
            | ok s2 => simp [hl] at ha
          | none =>
            simp only [hb] at ha
            cases hl : linkBlocks { s with blocks := s.blocks ++ [Block.new i.address] } b
                s.blocks.length ty with
            | error e => simp [hl] at ha
            | ok s2 =>
              simp only [hl, Except.ok.injEq, Prod.mk.injEq, and_true] at ha
              rw [← ha.1]
              exact (linkBlocks_ok hl).1
      rw [unassigned_congr hblock]
      exact hfuel

theorem branchAll_terminates {code : List Instruction} {fuel : Nat}
    {recurse : State → Nat → Option Nat → Except Error State}
    (hterm : ∀ s b oi, EnoughAny code fuel s b oi → recurse s b oi ≠ .error .outOfFuel)
    (hsound : ∀ s b oi s1, recurse s b oi = .ok s1 → Exec code (.loop b oi) s s1)
    (b : Nat) (l : List (Nat × BlockEdgeType)) :
    ∀ s, 2 * unassigned code s ≤ fuel →
      branchAll recurse code s b l ≠ .error .outOfFuel := by
  induction l with
  | nil =>
    intro s _
    simp [branchAll]
  | cons p rest ih =>
    intro s hfuel
    obtain ⟨d, ty⟩ := p
    simp only [branchAll]
    cases h1 : branchTo recurse code s b d ty with
    | error e =>
      simp only
      intro he
      injection he with he
      subst he
      exact branchTo_terminates hterm ty hfuel h1
    | ok s1 =>
      simp only
      have hle := @unassigned_le_of_keep code _ _ (exec_keep (exec_of_branchTo hsound h1))
      exact ih s1 (by omega)

theorem constructBlocksFrom_terminates (code : List Instruction) :
    ∀ fuel s b oi, EnoughAny code fuel s b oi →
      constructBlocksFrom code fuel s b oi ≠ .error .outOfFuel := by
  intro fuel
  induction fuel with
  | zero =>
    intro s b oi hen
    cases oi with
    | none => simp [constructBlocksFrom]
    | some x =>
      exfalso
      rcases hen with hen | ⟨⟨bl, y, _, _, hy, hlt, hnone⟩, hen⟩
      · omega
      · have hpos : 0 < unassigned code s := by
          unfold unassigned
          apply Finset.card_pos.2
          exact ⟨y, by simp [hnone, hlt]⟩
        omega
  | succ fuel ih =>
    intro s b oi hen
    cases oi with
    | none => simp [constructBlocksFrom]
    | some x =>
      simp only [constructBlocksFrom]
      cases hx : code[x]? with
      | none => simp
      | some i =>
        simp only
        have hxlt : x < code.length := (List.getElem?_eq_some_iff.1 hx).1
        cases hb : s.block x with
        | some c =>
          simp only
          intro he
          have := linkBlocks_error he
          exact absurd this (by simp)
        | none =>
          simp only
          cases hbl : s.blocks[b]? with
          | none => simp
          | some bl =>
            simp only
            have hen2 : 2 * unassigned code s ≤ fuel + 1 := by
              rcases hen with hen | ⟨_, hen⟩ <;> omega
            have hput := @unassigned_put code _ _ b bl hxlt hb
            by_cases hsplit : i.addressType ≠ .kAddressTypeNone ∧ bl.instructions ≠ []
            · rw [if_pos hsplit]
              refine branchTo_terminates ih _ ?_
              rcases hen with hen | ⟨⟨bl1, y, hbl1, hnil, _⟩, _⟩
              · omega
              · rw [hbl] at hbl1
                injection hbl1 with hbl1
                subst hbl1
                exact absurd hnil hsplit.2
            · rw [if_neg hsplit]
              cases hbr : i.opcode.isBranch with
              | true =>
                simp only [if_true]
                rw [followBranchBlock_eq_branchAll]
                cases ht : branchTargets i with
                | none => simp
                | some l =>
                  simp only
                  exact branchAll_terminates ih (exec_of_constructBlocksFrom code fuel) b l _
                    (by omega)
              | false =>
                simp only [Bool.false_eq_true, if_false]
                exact ih _ _ _ (Or.inl (by omega))

theorem constructBlocks_terminates (code : List Instruction) (fuel : Nat)
    (hfuel : 2 * code.length + 1 ≤ fuel) (block0 : Nat → Option Nat) (blocks : List Block) :
    constructBlocks fuel code block0 blocks ≠ .error .outOfFuel := by
  unfold constructBlocks
  by_cases hb : blocks ≠ []
  · simp [hb]
  · simp only [hb, if_false]
    cases code with
    | nil => simp
    | cons first rest =>
      refine constructBlocksFrom_terminates _ fuel _ _ _ (Or.inl ?_)
      have := unassigned_le_length (first :: rest)
        { block := block0, blocks := blocks ++ [Block.new first.address] }
      omega

theorem descent_decreases {code : List Instruction} {n : Nat} {s s1 : State} {b x : Nat}
    (hfresh : Fresh code s b (some x))
    (h : constructBlocksFrom code n s b (some x) = .ok s1) :
    unassigned code s1 < unassigned code s := by
  obtain ⟨bl, y, hbl, hnil, hy, hlt, hnone⟩ := hfresh
  injection hy with hy
  subst hy
  cases n with
  | zero => simp [constructBlocksFrom] at h
  | succ n =>
    have hx : code[x]? = some code[x] := List.getElem?_eq_getElem hlt
    have hsplit : ¬ (code[x].addressType ≠ .kAddressTypeNone ∧ bl.instructions ≠ []) :=
      fun hc => hc.2 hnil
    simp only [constructBlocksFrom, hx, hnone, hbl] at h
    rw [if_neg hsplit] at h
    have hput := @unassigned_put code _ _ b bl hlt hnone
    have hle : unassigned code s1 ≤ unassigned code (putInstruction s b bl x) := by
      apply unassigned_le_of_keep
      cases hbr : code[x].opcode.isBranch with
      | true =>
        simp only [hbr, if_true] at h
        rw [followBranchBlock_eq_branchAll] at h
        cases ht : branchTargets code[x] with
        | none => simp [ht] at h
        | some l =>
          simp only [ht] at h
          exact exec_keep (exec_of_branchAll (exec_of_constructBlocksFrom code n) b l _ _ h)
      | false =>
        simp only [hbr] at h
        exact exec_keep (exec_of_constructBlocksFrom code n _ _ _ _ h)
    omega

theorem linkBlocks_othersKept {s s1 : State} {a c : Nat} {ty : BlockEdgeType}
    (hl : linkBlocks s a c ty = .ok s1) (b : Nat) : OthersKept s b s1 :=
  fun _ _ _ hk => ⟨_, linkBlocks_lookup hl hk, rfl⟩

theorem OthersKept.kept_trans {s s1 s2 : State} {b b1 : Nat} (h1 : OthersKept s b s1)
    (h2 : OthersKept s1 b1 s2) (hb : b1 = b ∨ s.blocks.length ≤ b1) : OthersKept s b s2 := by
  intro k bl hk hbl
  obtain ⟨bl1, hbl1, hi1⟩ := h1 k bl hk hbl
  have hklt : k < s.blocks.length := (List.getElem?_eq_some_iff.1 hbl).1
  have hk1 : k ≠ b1 := by
    rcases hb with hb | hb
    · rw [hb]; exact hk
    · omega
  obtain ⟨bl2, hbl2, hi2⟩ := h2 k bl1 hk1 hbl1
  exact ⟨bl2, hbl2, hi2.trans hi1⟩

theorem exec_othersKept {code : List Instruction} {t : Task} {s s1 : State}
    (h : Exec code t s s1) : OthersKept s t.block s1 := by
  have hput : ∀ (s : State) (b x : Nat) (bl : Block), s.blocks[b]? = some bl →
      OthersKept s b (putInstruction s b bl x) := by
    intro s b x bl hbl k blk hk hblk
    exact ⟨blk, by rw [putInstruction_blocks x hbl, if_neg hk]; exact hblk, rfl⟩
  induction h with
  | loopEnd s b => exact fun k bl _ hk => ⟨bl, hk, rfl⟩
  | loopSeen _ _ hl => exact linkBlocks_othersKept hl _
  | loopSplit _ _ _ _ _ _ ih => exact ih
  | loopBranch _ _ hbl _ _ _ _ ih => exact (hput _ _ _ _ hbl).kept_trans ih (Or.inl rfl)
  | loopNext _ _ hbl _ _ _ ih => exact (hput _ _ _ _ hbl).kept_trans ih (Or.inl rfl)
  | branchOld _ _ hl => exact linkBlocks_othersKept hl _
  | @branchNew s s1 s2 b d ty i _ _ hl _ ih =>
    have h0 : OthersKept s b { s with blocks := s.blocks ++ [Block.new i.address] } := by
      intro k bl _ hk
      have hklt : k < s.blocks.length := (List.getElem?_eq_some_iff.1 hk).1
      exact ⟨bl, by rw [newBlock_lookup, if_neg (by omega)]; exact hk, rfl⟩
    have h1 : OthersKept s b s1 := by
      intro k bl hkb hk
      obtain ⟨bl0, hbl0, hi0⟩ := h0 k bl hkb hk
      exact ⟨_, linkBlocks_lookup hl hbl0, hi0⟩
    exact h1.kept_trans ih (Or.inr (Nat.le_refl _))
  | branchesNil s b => exact fun k bl _ hk => ⟨bl, hk, rfl⟩
  | branchesCons _ _ ih1 ih2 => exact ih1.kept_trans ih2 (Or.inl rfl)

/-- C11 (termination): for every instruction stream, cyclic or not, and every
fuel of more than two units per instruction, `constructBlocks` does not run out
of fuel, whatever the back-links and blocks on entry: the recursion between
`constructBlocks` and `followBranchBlock` terminates.  A descent is started
only for a block `addBranchBlock` has just created, at an instruction that had
no block; every descent lowers the number of instructions without a block; and
a run of the loop on a block leaves the instruction lists of all other blocks
that exist when it starts as they are, so no block is extended more than
once. -/
theorem C11_termination (code : List Instruction) (fuel : Nat)
    (hfuel : 2 * code.length + 1 ≤ fuel) : Terminating code fuel :=
  ⟨fun block0 blocks => constructBlocks_terminates code fuel hfuel block0 blocks,
    fun _ _ _ _ _ _ h => addBranchBlock_needAdd h,
    fun r1 r2 _ _ _ _ ty hc => branchTo_of_assigned r1 r2 ty hc,
    fun _ _ _ _ _ hfresh h => descent_decreases hfresh h,
    fun n _ _ _ _ h => exec_othersKept (exec_of_constructBlocksFrom code n _ _ _ _ h)⟩

theorem C11_termination_witness :
    2 * cycleStream.length + 1 ≤ 7 ∧ Terminating cycleStream 7 :=
  ⟨by decide, C11_termination cycleStream 7 (by decide)⟩

/-! ## Malformed arity -/

theorem malformedArity_iff (i : Instruction) :
    malformedArity i = true ↔ branchTargets i = none := by
  unfold malformedArity branchTargets
  rcases hb : i.branches with _ | ⟨t, _ | ⟨f, _ | ⟨g, r⟩⟩⟩ <;>
    rcases hfo : i.follower with _ | f2 <;>
    rcases ho : i.opcode with _ | _ | _ | _ | _ | _ | n <;>
    simp

theorem isBranch_of_malformedArity {i : Instruction} (h : malformedArity i = true) :
    i.opcode.isBranch = true := by
  unfold malformedArity at h
  rcases ho : i.opcode with _ | _ | _ | _ | _ | _ | n <;> simp [ho] at h <;> rfl

theorem followBranchBlock_malformed {code : List Instruction}
    (recurse : State → Nat → Option Nat → Except Error State) (s : State) (b : Nat)
    {i : Instruction} (h : malformedArity i = true) :
    followBranchBlock recurse code s b i = .error .assertionFailed := by
  rw [followBranchBlock_eq_branchAll, (malformedArity_iff i).1 h]

/-- A task that completes in a state is carried out by the functions to that
state, unless the fuel runs out. -/
theorem exec_complete {code : List Instruction} {t : Task} {s s1 : State}
    (h : Exec code t s s1) :
    ∀ fuel, runTask code fuel t s = .ok s1 ∨ runTask code fuel t s = .error .outOfFuel := by
  induction h with
  | loopEnd s b =>
    intro fuel
    left
    cases fuel <;> simp [runTask, constructBlocksFrom]
  | loopSeen hx hb hl =>
    intro fuel
    cases fuel with
    | zero => right; simp [runTask, constructBlocksFrom]
    | succ n => left; simp [runTask, constructBlocksFrom, hx, hb, hl]
  | loopSplit hx hb hbl hat hne _ ih =>
    intro fuel
    cases fuel with
    | zero => right; simp [runTask, constructBlocksFrom]
    | succ n =>
      have := ih n
      simp only [runTask] at this
      simp only [runTask, constructBlocksFrom, hx, hb, hbl]
      rw [if_pos ⟨hat, hne⟩]
      exact this
  | loopBranch hx hb hbl hsplit hbr ht _ ih =>
    intro fuel
    cases fuel with
    | zero => right; simp [runTask, constructBlocksFrom]
    | succ n =>
      have := ih n
      simp only [runTask] at this
      simp only [runTask, constructBlocksFrom, hx, hb, hbl]
      rw [if_neg hsplit]
      simp only [hbr, if_true]
      rw [followBranchBlock_eq_branchAll, ht]
      exact this
  | loopNext hx hb hbl hsplit hbr _ ih =>
    intro fuel
    cases fuel with
    | zero => right; simp [runTask, constructBlocksFrom]
    | succ n =>
      have := ih n
      simp only [runTask] at this
      simp only [runTask, constructBlocksFrom, hx, hb, hbl]
      rw [if_neg hsplit]
      simp only [hbr, Bool.false_eq_true, if_false]
      exact this
  | branchOld hd hb hl =>
    intro fuel
    left
    simp [runTask, branchTo, addBranchBlock, hd, hb, hl]
  | branchNew hd hb hl _ ih =>
    intro fuel
    have := ih fuel
    simp only [runTask] at this
    simp only [runTask, branchTo, addBranchBlock, hd, hb, hl, if_true]
    exact this
  | branchesNil s b =>
    intro fuel
    left
    simp [runTask, branchAll]
  | branchesCons _ _ ih1 ih2 =>
    intro fuel
    have h1 := ih1 fuel
    have h2 := ih2 fuel
    simp only [runTask] at h1 h2
    simp only [runTask, branchAll]
    rcases h1 with h1 | h1
    · rw [h1]
      exact h2
    · rw [h1]
      right
      rfl

/-- A task that reaches an instruction with malformed arity ends with the
assertion failure, unless the fuel runs out first. -/
theorem reachesMalformed_fails {code : List Instruction} {t : Task} {s : State}
    (h : ReachesMalformed code t s) :
    ∀ fuel, runTask code fuel t s = .error .assertionFailed ∨
      runTask code fuel t s = .error .outOfFuel := by
  induction h with
  | here hx hb hbl hsplit hmal =>
    intro fuel
    cases fuel with
    | zero => right; simp [runTask, constructBlocksFrom]
    | succ n =>
      left
      simp only [runTask, constructBlocksFrom, hx, hb, hbl]
      rw [if_neg hsplit]
      simp only [isBranch_of_malformedArity hmal, if_true]
      exact followBranchBlock_malformed _ _ _ hmal
  | loopSplit hx hb hbl hat hne _ ih =>
    intro fuel
    cases fuel with
    | zero => right; simp [runTask, constructBlocksFrom]
    | succ n =>
      have := ih n
      simp only [runTask] at this
      simp only [runTask, constructBlocksFrom, hx, hb, hbl]
      rw [if_pos ⟨hat, hne⟩]
      exact this
  | loopBranch hx hb hbl hsplit hbr ht _ ih =>
    intro fuel
    cases fuel with
    | zero => right; simp [runTask, constructBlocksFrom]
    | succ n =>
      have := ih n
      simp only [runTask] at this
      simp only [runTask, constructBlocksFrom, hx, hb, hbl]
      rw [if_neg hsplit]
      simp only [hbr, if_true]
      rw [followBranchBlock_eq_branchAll, ht]
      exact this
  | loopNext hx hb hbl hsplit hbr _ ih =>
    intro fuel
    cases fuel with
    | zero => right; simp [runTask, constructBlocksFrom]
    | succ n =>
      have := ih n
      simp only [runTask] at this
      simp only [runTask, constructBlocksFrom, hx, hb, hbl]
      rw [if_neg hsplit]
      simp only [hbr, Bool.false_eq_true, if_false]
      exact this
  | branchNew hd hb hl _ ih =>
    intro fuel
    have := ih fuel
    simp only [runTask] at this
    simp only [runTask, branchTo, addBranchBlock, hd, hb, hl, if_true]
    exact this
  | branchesHead _ ih =>
    intro fuel
    have h1 := ih fuel
    simp only [runTask] at h1
    simp only [runTask, branchAll]
    rcases h1 with h1 | h1
    · rw [h1]
      left
      rfl
    · rw [h1]
      right
      rfl
  | branchesTail hexec _ ih =>
    intro fuel
    have h1 := exec_complete hexec fuel
    have h2 := ih fuel
    simp only [runTask] at h1 h2
    simp only [runTask, branchAll]
    rcases h1 with h1 | h1
    · rw [h1]
      exact h2
    · rw [h1]
      right
      rfl

/-- No instruction in a block has malformed arity. -/
theorem exec_wellArity {code : List Instruction} {t : Task} {s s1 : State}
    (h : Exec code t s s1) :
    (∀ (b x : Nat) (bl : Block) (i : Instruction), s.blocks[b]? = some bl →
      x ∈ bl.instructions → code[x]? = some i → malformedArity i = false) →
    ∀ (b x : Nat) (bl : Block) (i : Instruction), s1.blocks[b]? = some bl →
      x ∈ bl.instructions → code[x]? = some i → malformedArity i = false := by
  have hlink : ∀ (s s1 : State) (a c : Nat) (ty : BlockEdgeType),
      linkBlocks s a c ty = .ok s1 →
      (∀ (b x : Nat) (bl : Block) (i : Instruction), s.blocks[b]? = some bl →
        x ∈ bl.instructions → code[x]? = some i → malformedArity i = false) →
      ∀ (b x : Nat) (bl : Block) (i : Instruction), s1.blocks[b]? = some bl →
        x ∈ bl.instructions → code[x]? = some i → malformedArity i = false := by
    intro s s1 a c ty hl hs b x bl1 i hbl1 hmem hx
    obtain ⟨bl, hbl, rfl⟩ := linkBlocks_lookup_inv hl hbl1
    exact hs b x bl i hbl hmem hx
  have hput : ∀ (s : State) (b y : Nat) (bl : Block) (j : Instruction),
      s.blocks[b]? = some bl → code[y]? = some j → malformedArity j = false →
      (∀ (b x : Nat) (bl : Block) (i : Instruction), s.blocks[b]? = some bl →
        x ∈ bl.instructions → code[x]? = some i → malformedArity i = false) →
      ∀ (k x : Nat) (blk : Block) (i : Instruction),
        (putInstruction s b bl y).blocks[k]? = some blk →
        x ∈ blk.instructions → code[x]? = some i → malformedArity i = false := by
    intro s b y bl j hbl hy hj hs k x blk i hk hmem hx
    rw [putInstruction_blocks y hbl] at hk
    by_cases hkb : k = b
    · rw [if_pos hkb] at hk
      injection hk with hk
      subst hk
      simp only [List.mem_append, List.mem_singleton] at hmem
      rcases hmem with hmem | hmem
      · exact hs b x bl i hbl hmem hx
      · subst hmem
        rw [hy] at hx
        injection hx with hx
        subst hx
        exact hj
    · rw [if_neg hkb] at hk
      exact hs k x blk i hk hmem hx
  induction h with
  | loopEnd s b => exact fun hs => hs
  | loopSeen _ _ hl => exact hlink _ _ _ _ _ hl
  | loopSplit _ _ _ _ _ _ ih => exact ih
  | @loopBranch s s1 b x i bl l hx _ hbl _ _ ht _ ih =>
    intro hs
    refine ih (hput s b x bl i hbl hx ?_ hs)
    cases hm : malformedArity i with
    | false => rfl
    | true =>
      rw [(malformedArity_iff i).1 hm] at ht
      exact absurd ht (by simp)
  | @loopNext s s1 b x i bl hx _ hbl _ hnb _ ih =>
    intro hs
    refine ih (hput s b x bl i hbl hx ?_ hs)
    cases hm : malformedArity i with
    | false => rfl
    | true =>
      rw [isBranch_of_malformedArity hm] at hnb
      exact absurd hnb (by simp)
  | branchOld _ _ hl => exact hlink _ _ _ _ _ hl
  | @branchNew s s1 s2 b d ty i _ _ hl _ ih =>
    intro hs
    refine ih (hlink _ _ _ _ _ hl ?_)
    intro k x blk j hk hmem hx
    rw [newBlock_lookup] at hk
    by_cases hkl : k = s.blocks.length
    · rw [if_pos hkl] at hk
      injection hk with hk
      subst hk
      simp [Block.new] at hmem
    · rw [if_neg hkl] at hk
      exact hs k x blk j hk hmem hx
  | branchesNil s b => exact fun hs => hs
  | branchesCons _ _ ih1 ih2 => exact fun hs => ih2 (ih1 hs)

/-- C15 (malformed jump/call arity aborts): for every stream and every fuel of
more than two units per instruction, with the assertions of `followBranchBlock`
in force: `followBranchBlock` fails its assertion on a `JMP`, `JSR` or
`STORESTATE` whose `branches` list does not have exactly one element, on a `JZ`
or `JNZ` whose `branches` list does not have exactly two elements, and on a
`JSR` or `STORESTATE` without follower; a run of `constructBlocks` that reaches
such an instruction (its loop puts the instruction into a block) ends with the
assertion failure; and no graph that `constructBlocks` returns holds such an
instruction. -/
theorem C15_malformed_arity_aborts (code : List Instruction) (fuel : Nat)
    (hfuel : 2 * code.length + 1 ≤ fuel) : AbortsOnMalformed code fuel := by
  refine ⟨fun recurse s b i h => followBranchBlock_malformed recurse s b h, ?_, ?_⟩
  · rintro block0 ⟨first, rest, hcode, hreach⟩
    have hterm := constructBlocks_terminates code fuel hfuel block0 []
    have hfail := reachesMalformed_fails hreach fuel
    have hrun : constructBlocks fuel code block0 [] =
        runTask code fuel (.loop 0 (some 0))
          { block := block0, blocks := [Block.new first.address] } := by
      subst hcode
      simp [constructBlocks, runTask]
    rw [hrun] at hterm ⊢
    rcases hfail with hfail | hfail
    · exact hfail
    · exact absurd hfail hterm
  · intro block0 blocks s h b x bl i hbl hmem hx
    obtain ⟨_, hcase⟩ := constructBlocks_ok h
    rcases hcase with ⟨_, hs⟩ | ⟨first, rest, _, hexec⟩
    · subst hs
      simp at hbl
    · refine exec_wellArity hexec ?_ b x bl i hbl hmem hx
      intro k y blk j hk hmem1
      cases k with
      | zero =>
        simp at hk
        subst hk
        simp [Block.new] at hmem1
      | succ n => simp at hk

theorem C15_malformed_arity_aborts_witness :
    2 * malformedJumpStream.length + 1 ≤ 5 ∧ AbortsOnMalformed malformedJumpStream 5 ∧
    ReachesMalformedRun malformedJumpStream noBlock ∧
    constructBlocks 5 malformedJumpStream noBlock [] = .error .assertionFailed :=
  ⟨by decide, C15_malformed_arity_aborts malformedJumpStream 5 (by decide),
    ⟨_, _, rfl, @ReachesMalformed.loopNext _ _ 0 0 _ (Block.new 0) rfl rfl rfl
      (by decide) rfl
      (@ReachesMalformed.here _ _ 0 1 _ { (Block.new 0) with instructions := [0] }
        rfl rfl rfl (by decide) rfl)⟩,
    rfl⟩

/-! ## Fallthrough edges -/

/-- The block of an instruction, with its shape and the place of the
instruction in it. -/
theorem Built.shape_of {code : List Instruction} {s : State} (hb : Built code s) {t c : Nat}
    (ht : s.block t = some c) :
    ∃ (blc : Block) (h m : Nat), s.blocks[c]? = some blc ∧ BlockShape code blc h m ∧
      h ≤ t ∧ t ≤ h + m := by
  obtain ⟨blc, hblc, hmem⟩ := hb.block_of ht
  obtain ⟨h, m, _, _, hshape, _⟩ := hb.lookup hblc
  rw [hshape.instrs, List.mem_range'_1] at hmem
  exact ⟨blc, h, m, hblc, hshape, hmem.1, by omega⟩

theorem head?_range'_succ (h m : Nat) : (List.range' h (m + 1)).head? = some h := by
  simp [List.range'_succ]

/-- The one block that starts with a given instruction. -/
theorem Built.head_unique {code : List Instruction} {s : State} (hb : Built code s)
    {f c c1 : Nat} {bl1 : Block} (hf : s.block f = some c) (hbl1 : s.blocks[c1]? = some bl1)
    (hhead : bl1.instructions.head? = some f) : c1 = c := by
  have hmem : f ∈ bl1.instructions := List.mem_of_mem_head? hhead
  have := (hb.consistent.mem_iff c1 bl1 f hbl1).1 hmem
  rw [hf] at this
  injection this with this
  exact this.symm

/-- The follower of the last instruction of a block is the first instruction of
its own block. -/
theorem Built.follower_is_head {code : List Instruction} {s : State} (hwf : WellFormed code)
    (hb : Built code s) {b x f c : Nat} {bl : Block} {i : Instruction}
    (hbl : s.blocks[b]? = some bl) (hx : bl.instructions.getLast? = some x)
    (hi : code[x]? = some i) (hfol : i.follower = some f) (hc : s.block f = some c) :
    ∃ blc, s.blocks[c]? = some blc ∧ blc.instructions.head? = some f := by
  obtain ⟨blc, h, m, hblc, hshape, hle, hle2⟩ := hb.shape_of hc
  refine ⟨blc, hblc, ?_⟩
  have hfx : f = x + 1 := hwf.followerNext x i f hi hfol
  by_cases hfh : f = h
  · rw [hshape.instrs, head?_range'_succ, hfh]
  · exfalso
    have hxmem : x ∈ blc.instructions := by
      rw [hshape.instrs, List.mem_range'_1]
      omega
    have hxc := (hb.consistent.mem_iff c blc x hblc).1 hxmem
    have hxb := (hb.consistent.mem_iff b bl x hbl).1 (List.mem_of_mem_getLast? hx)
    rw [hxc] at hxb
    injection hxb with hxb
    subst hxb
    rw [hbl] at hblc
    injection hblc with hblc
    subst hblc
    rw [hshape.instrs, getLast?_range'_succ] at hx
    injection hx with hx
    omega

theorem Built.fallthroughEdges {code : List Instruction} {s : State} (hwf : WellFormed code)
    (hb : Built code s) : FallthroughEdges code s := by
  intro b x bl i hbl hx hi hnb
  obtain ⟨l, hsucc, hlinked⟩ := hb.last hbl hx hi
  rw [successors_of_not_branch hnb] at hsucc
  refine ⟨fun hnone => ?_, fun f hfol => ?_⟩
  · rw [hnone] at hsucc
    simp only [Option.toList, List.map_nil, Option.some.injEq] at hsucc
    subst hsucc
    obtain ⟨h1, h2⟩ := hlinked
    simp only [List.map_nil, List.map_eq_nil_iff] at h1
    exact ⟨h1, h2⟩
  · rw [hfol] at hsucc
    simp only [Option.toList, List.map_cons, List.map_nil, Option.some.injEq] at hsucc
    subst hsucc
    obtain ⟨c, h1, h2, h3⟩ := hlinked.one
    obtain ⟨blc, hblc, hhead⟩ := hb.follower_is_head hwf hbl hx hi hfol h3
    exact ⟨c, blc, h1, h2, hblc, hhead, fun c1 bl1 hbl1 hh => hb.head_unique h3 hbl1 hh⟩

/-- C30 (fallthrough edge): in the graph built for a well-formed stream, every
block whose last instruction does not influence control flow has no children
when that instruction has no follower, and otherwise exactly one child, with
edge type Unconditional, which is the one block whose first instruction is the
follower of that last instruction. -/
theorem C30_fallthrough_edge (code : List Instruction) (fuel : Nat)
    (hwf : WellFormed code) (hfuel : 2 * code.length ≤ fuel) :
    ∃ s, constructBlocks fuel code noBlock [] = .ok s ∧ FallthroughEdges code s := by
  obtain ⟨s, hs, hb⟩ := constructBlocks_built hwf hfuel
  exact ⟨s, hs, hb.fallthroughEdges hwf⟩

theorem C30_fallthrough_edge_witness :
    WellFormed fallthroughStream ∧ 2 * fallthroughStream.length ≤ 4 ∧
    ∃ s, constructBlocks 4 fallthroughStream noBlock [] = .ok s ∧
      FallthroughEdges fallthroughStream s :=
  ⟨by decide, by decide, C30_fallthrough_edge fallthroughStream 4 (by decide) (by decide)⟩

/-! ## Convergence on a jump destination -/

/-- A marked instruction is the first instruction of its block, and the block
starts at its address. -/
theorem Built.marked_is_head {code : List Instruction} {s : State} (hb : Built code s)
    {t c : Nat} {T : Instruction} (hc : s.block t = some c) (ht : code[t]? = some T)
    (hmark : T.addressType ≠ .kAddressTypeNone) :
    ∃ blc h m, s.blocks[c]? = some blc ∧ BlockShape code blc h m ∧ h = t ∧
      blc.startAddress = T.address ∧ blc.instructions.head? = some t := by
  obtain ⟨blc, h, m, hblc, hshape, hle, hle2⟩ := hb.shape_of hc
  have hth : h = t := by
    by_contra hne
    exact hmark (hshape.unmarked t T (by omega) hle2 ht)
  subst hth
  obtain ⟨i, hi, haddr⟩ := hshape.head
  rw [ht] at hi
  injection hi with hi
  subst hi
  exact ⟨blc, h, m, hblc, hshape, rfl, haddr.symm, by rw [hshape.instrs, head?_range'_succ]⟩

theorem Built.converges {code : List Instruction} {s : State} (hwf : WellFormed code)
    (hb : Built code s) {t j p : Nat} {T J P : Instruction}
    (ht : code[t]? = some T) (hmark : T.addressType ≠ .kAddressTypeNone)
    (hj : code[j]? = some J) (hJ : J.opcode = .kOpcodeJMP) (hJt : t ∈ J.branches)
    (hrj : Reachable code j)
    (hp : code[p]? = some P) (hP : P.opcode.isBranch = false) (hPf : P.follower = some t)
    (hrp : Reachable code p) : Converges code s t j p := by
  obtain ⟨bj, hbj⟩ := hb.reachable_assigned hwf hrj
  obtain ⟨bp, hbp⟩ := hb.reachable_assigned hwf hrp
  -- the block ending in the `JMP`
  have hJbr : J.opcode.isBranch = true := by rw [hJ]; rfl
  obtain ⟨blj, lj, hblj, hsuccj, hlinkedj⟩ := hb.branch_is_last hbj hj hJbr
  obtain ⟨hj1, mj, lastj, lj1, hshapej, hlastj, _, _⟩ := hb.lookup hblj
  have hjmem := (hb.consistent.mem_iff bj blj j hblj).2 hbj
  rw [hshapej.instrs, List.mem_range'_1] at hjmem
  have hjlast : j = hj1 + mj := by
    by_contra hne
    have := hshapej.inner j J hjmem.1 (by omega) hj
    rw [hJbr] at this
    exact absurd this (by simp)
  rw [successors_of_branch hJbr] at hsuccj
  unfold branchTargets at hsuccj
  rcases hbs : J.branches with _ | ⟨t1, _ | ⟨f, r⟩⟩ <;> simp [hbs, hJ] at hsuccj
  rw [hbs] at hJt
  simp only [List.mem_singleton] at hJt
  subst hJt
  subst hsuccj
  obtain ⟨c, hcj1, hcj2, hc⟩ := hlinkedj.one
  obtain ⟨blc, h, m, hblc, hshape, hth, hstart, hhead⟩ := hb.marked_is_head hc ht hmark
  -- the block containing `p`
  obtain ⟨blp, hp1, mp, hblp, hshapep, hple, hple2⟩ := hb.shape_of hbp
  have htp : t = p + 1 := hwf.followerNext p P t hp hPf
  have hplast : p = hp1 + mp := by
    by_contra hne
    exact hmark (hshapep.unmarked t T (by omega) (by omega) ht)
  have hpl : blp.instructions.getLast? = some p := by
    rw [hshapep.instrs, getLast?_range'_succ, hplast]
  obtain ⟨lp, hsuccp, hlinkedp⟩ := hb.last hblp hpl hp
  rw [successors_of_not_branch hP, hPf] at hsuccp
  simp only [Option.toList, List.map_cons, List.map_nil, Option.some.injEq] at hsuccp
  subst hsuccp
  obtain ⟨c2, hcp1, hcp2, hc2⟩ := hlinkedp.one
  rw [hc] at hc2
  injection hc2 with hc2
  subst hc2
  refine ⟨c, blc, T, ht, hblc, hstart, hhead, ?_, ?_, ?_⟩
  · intro c1 bl1 hbl1 hst
    exact hb.distinctStarts hwf c1 c bl1 blc hbl1 hblc (by rw [hst, hstart])
  · exact ⟨bj, blj, hblj, by rw [hshapej.instrs, getLast?_range'_succ, hjlast], hcj1, hcj2⟩
  · exact ⟨bp, blp, hblp, (hb.consistent.mem_iff bp blp p hblp).2 hbp, hcp1, hcp2⟩

/-- C22 (split-on-target convergence): in the graph built for a well-formed
stream, if the marked instruction `T` (at index `t`) is the target of a
reachable `JMP` (at index `j`) and the follower of a reachable instruction `P`
(at index `p`) that does not influence control flow, then exactly one block has
the start address of `T`, `T` is its first instruction, and that block is the
only child, with edge type Unconditional, both of the block that ends in the
`JMP` and of the block that contains `P`. -/
theorem C22_split_on_target_convergence (code : List Instruction) (fuel : Nat)
    (hwf : WellFormed code) (hfuel : 2 * code.length ≤ fuel) (t j p : Nat)
    (T J P : Instruction)
    (ht : code[t]? = some T) (hmark : T.addressType = .kAddressTypeJumpDestination)
    (hj : code[j]? = some J) (hJ : J.opcode = .kOpcodeJMP) (hJt : t ∈ J.branches)
    (hrj : Reachable code j)
    (hp : code[p]? = some P) (hP : P.opcode.isBranch = false) (hPf : P.follower = some t)
    (hrp : Reachable code p) :
    ∃ s, constructBlocks fuel code noBlock [] = .ok s ∧ Converges code s t j p := by
  obtain ⟨s, hs, hb⟩ := constructBlocks_built hwf hfuel
  exact ⟨s, hs, hb.converges hwf ht (by rw [hmark]; decide) hj hJ hJt hrj hp hP hPf hrp⟩

theorem splitOnTarget_reachable_one : Reachable splitOnTargetStream 1 :=
  Reachable.follower (x := 0) (Reachable.first (by decide)) rfl rfl rfl

theorem C22_split_on_target_convergence_witness :
    WellFormed splitOnTargetStream ∧ 2 * splitOnTargetStream.length ≤ 12 ∧
    Reachable splitOnTargetStream 2 ∧ Reachable splitOnTargetStream 4 ∧
    ∃ s, constructBlocks 12 splitOnTargetStream noBlock [] = .ok s ∧
      Converges splitOnTargetStream s 5 2 4 :=
  have h2 : Reachable splitOnTargetStream 2 :=
    Reachable.branch (x := 1) splitOnTarget_reachable_one rfl (Or.inr (Or.inl rfl))
      (by decide)
  have h3 : Reachable splitOnTargetStream 3 :=
    Reachable.branch (x := 1) splitOnTarget_reachable_one rfl (Or.inr (Or.inl rfl))
      (by decide)
  have h4 : Reachable splitOnTargetStream 4 :=
    Reachable.follower (x := 3) h3 rfl rfl rfl
  ⟨by decide, by decide, h2, h4,
    C22_split_on_target_convergence splitOnTargetStream 12 (by decide) (by decide) 5 2 4
      _ _ _ rfl rfl rfl rfl (by decide) h2 rfl rfl rfl h4⟩

/-! ## Number of blocks -/

theorem linkBlocks_allStarts {code : List Instruction} {s s1 : State} {a c : Nat}
    {ty : BlockEdgeType} (hl : linkBlocks s a c ty = .ok s1) (hs : AllStarts code s) :
    AllStarts code s1 := by
  intro k bl1 hk
  obtain ⟨bl, hbl, _, hst⟩ := linkBlocks_headOK hl hk
  obtain ⟨d, i, h1, h2, h3⟩ := hs k bl hbl
  exact ⟨d, i, h1, by rw [hst, h2], h3⟩

theorem putInstruction_allStarts {code : List Instruction} {s : State} {b x : Nat}
    {bl : Block} (hbl : s.blocks[b]? = some bl) (hs : AllStarts code s) :
    AllStarts code (putInstruction s b bl x) := by
  intro k blk hk
  rw [putInstruction_blocks x hbl] at hk
  by_cases hkb : k = b
  · rw [if_pos hkb] at hk
    injection hk with hk
    subst hk
    exact hs b bl hbl
  · rw [if_neg hkb] at hk
    exact hs k blk hk

theorem exec_allStarts {code : List Instruction} {t : Task} {s s1 : State}
    (h : Exec code t s s1) : PreStarts code t → AllStarts code s → AllStarts code s1 := by
  induction h with
  | loopEnd s b => exact fun _ hs => hs
  | loopSeen _ _ hl => exact fun _ hs => linkBlocks_allStarts hl hs
  | loopSplit hx _ _ hmark _ _ ih =>
    exact fun _ hs => ih (Or.inr (Or.inl ⟨_, hx, hmark⟩)) hs
  | loopBranch hx _ hbl _ _ hl _ ih =>
    intro _ hs
    refine ih ?_ (putInstruction_allStarts hbl hs)
    intro p hp
    exact Or.inr (Or.inr ⟨_, _, _, p.2, hx, hl, hp⟩)
  | loopNext _ _ hbl _ _ _ ih => exact fun _ hs => ih trivial (putInstruction_allStarts hbl hs)
  | branchOld _ _ hl => exact fun _ hs => linkBlocks_allStarts hl hs
  | @branchNew s s1 s2 b d ty i hd _ hl _ ih =>
    intro hpre hs
    refine ih trivial (linkBlocks_allStarts hl ?_)
    intro k bl hk
    simp only at hk
    rw [getElem?_concat] at hk
    by_cases hkl : k = s.blocks.length
    · rw [if_pos hkl] at hk
      injection hk with hk
      subst hk
      exact ⟨d, i, hd, rfl, hpre⟩
    · rw [if_neg hkl] at hk
      exact hs k bl hk
  | branchesNil s b => exact fun _ hs => hs
  | branchesCons _ _ ih1 ih2 =>
    intro hpre hs
    exact ih2 (fun p hp => hpre p (List.mem_cons_of_mem _ hp))
      (ih1 (hpre _ (List.mem_cons_self _ _)) hs)

theorem isDestination_of_mem {code : List Instruction} {x d : Nat} {i : Instruction}
    {l : List (Nat × BlockEdgeType)} {ty : BlockEdgeType} (hx : code[x]? = some i)
    (hl : branchTargets i = some l) (hd : (d, ty) ∈ l) : isDestination code d = true := by
  unfold isDestination
  rw [List.any_eq_true]
  refine ⟨i, List.getElem?_mem hx, ?_⟩
  rw [hl, List.any_eq_true]
  exact ⟨(d, ty), hd, by simp⟩

theorem mem_blockStartAddresses {code : List Instruction} {d : Nat} {i : Instruction}
    (hd : code[d]? = some i) (hc : StartCandidate code d) :
    i.address ∈ blockStartAddresses code := by
  unfold blockStartAddresses
  rw [List.mem_dedup, List.mem_filterMap]
  refine ⟨(d, i), List.mk_mem_enum_iff_getElem?.2 hd, ?_⟩
  have hcond : d = 0 ∨ i.addressType ≠ .kAddressTypeNone ∨ isDestination code d = true := by
    rcases hc with h | ⟨j, hj, hm⟩ | ⟨x, j, l, ty, hx, hl, hmem⟩
    · exact Or.inl h
    · rw [hd] at hj
      injection hj with hj
      subst hj
      exact Or.inr (Or.inl hm)
    · exact Or.inr (Or.inr (isDestination_of_mem hx hl hmem))
  simp only
  rw [if_pos hcond]

theorem blocks_bounded {code : List Instruction} {s : State} (hd : DistinctStarts s)
    (hs : AllStarts code s) : BoundedByStarts code s := by
  have hnd : (s.blocks.map Block.startAddress).Nodup := by
    rw [List.nodup_iff_getElem?_ne_getElem?]
    intro a b hab hb heq
    rw [List.length_map] at hb
    have ha : a < s.blocks.length := by omega
    rw [List.getElem?_map, List.getElem?_map, List.getElem?_eq_getElem ha,
      List.getElem?_eq_getElem hb] at heq
    simp only [Option.map_some', Option.some.injEq] at heq
    have := hd a b _ _ (List.getElem?_eq_getElem ha) (List.getElem?_eq_getElem hb) heq
    omega
  have hsub : s.blocks.map Block.startAddress ⊆ blockStartAddresses code := by
    intro a ha
    rw [List.mem_map] at ha
    obtain ⟨bl, hbl, rfl⟩ := ha
    obtain ⟨b, hb⟩ := List.getElem?_of_mem hbl
    obtain ⟨d, i, hdi, haddr, hc⟩ := hs b bl hb
    rw [← haddr]
    exact mem_blockStartAddresses hdi hc
  have := (List.subperm_of_subset hnd hsub).length_le
  rw [List.length_map] at this
  exact this

/-- C23 (bound on the number of blocks): for every well-formed stream the
number of blocks of the graph is at most the number of distinct addresses that
are the entry address, the address of a marked instruction (`addressType` not
None), or the address of a destination of a branch (a branch of a `JMP`, `JZ`,
`JNZ`, `JSR` or `STORESTATE`, or the follower of a `JSR` or `STORESTATE`). -/
theorem C23_block_count_bound (code : List Instruction) (fuel : Nat)
    (hwf : WellFormed code) (hfuel : 2 * code.length ≤ fuel) :
    ∃ s, constructBlocks fuel code noBlock [] = .ok s ∧ BoundedByStarts code s := by
  obtain ⟨s, hs, hb⟩ := constructBlocks_built hwf hfuel
  refine ⟨s, hs, blocks_bounded (hb.distinctStarts hwf) ?_⟩
  obtain ⟨_, hcase⟩ := constructBlocks_ok hs
  rcases hcase with ⟨_, hs0⟩ | ⟨first, rest, hcode, hexec⟩
  · subst hs0
    intro b bl hbl
    simp at hbl
  · refine exec_allStarts hexec trivial ?_
    intro b bl hbl
    have hmem := List.getElem?_mem hbl
    simp only [List.mem_singleton] at hmem
    subst hmem
    exact ⟨0, first, by rw [hcode]; exact List.getElem?_cons_zero, rfl, Or.inl rfl⟩

theorem C23_block_count_bound_witness :
    WellFormed callStream ∧ 2 * callStream.length ≤ 6 ∧
    ∃ s, constructBlocks 6 callStream noBlock [] = .ok s ∧ BoundedByStarts callStream s :=
  ⟨by decide, by decide, C23_block_count_bound callStream 6 (by decide) (by decide)⟩

/-- C23, as stated, fails: the stream `cycleStream` is well-formed and none of
its instructions is marked, so the entry address is the only address that is
the entry or marked; its graph has three blocks, one for each destination of
the `JZ` and the `JMP`. -/
theorem C23_marked_bound_counterexample :
    WellFormed cycleStream ∧ (entryOrMarkedAddresses cycleStream).length = 1 ∧
    ∃ s, constructBlocks 6 cycleStream noBlock [] = .ok s ∧ s.blocks.length = 3 ∧
      ¬ BoundedByMarked cycleStream s :=
  ⟨by decide, by decide, cycleGraph, rfl, rfl, by unfold BoundedByMarked; decide⟩

/-! ## Straight-line code -/

theorem branchTargets_of_not_branch {i : Instruction} (h : i.opcode.isBranch = false) :
    branchTargets i = some [] := by
  unfold branchTargets
  rcases ho : i.opcode with _ | _ | _ | _ | _ | _ | n <;> simp_all [Opcode.isBranch]

theorem branchTargets_of_return {i : Instruction} (h : i.opcode = .kOpcodeRETN) :
    branchTargets i = some [] := by
  unfold branchTargets
  simp [h]

/-- The graph of straight-line code is one block. -/
theorem Built.oneBlock {code : List Instruction} {s : State} (hb : Built code s)
    (hstarts : AllStarts code s) (hsl : StraightLine code) (n : Nat)
    (hlen : code.length = n + 1) : OneBlock s (n + 1) := by
  obtain ⟨hwf, hret, hnb, hum⟩ := hsl
  have hne : code ≠ [] := by
    intro h
    rw [h] at hlen
    simp at hlen
  -- the instructions of the stream
  have hinner : ∀ (k : Nat) (i : Instruction), k < n → code[k]? = some i →
      i.opcode.isBranch = false := by
    intro k i hk hi
    have := hnb k (by omega)
    rw [hi] at this
    simpa using this
  have hlast : ∀ i : Instruction, code[n]? = some i → i.opcode = .kOpcodeRETN := by
    intro i hi
    rw [List.getLast?_eq_getElem?, hlen, Nat.add_sub_cancel, hi] at hret
    simpa using hret
  have htargets : ∀ (x : Nat) (i : Instruction), code[x]? = some i →
      branchTargets i = some [] := by
    intro x i hi
    have hx : x < code.length := (List.getElem?_eq_some_iff.1 hi).1
    by_cases hxn : x < n
    · exact branchTargets_of_not_branch (hinner x i hxn hi)
    · have hxe : x = n := by omega
      subst hxe
      exact branchTargets_of_return (hlast i hi)
  -- every block starts at the first instruction
  have h0 : 0 < code.length := by omega
  have hstart : ∀ (b : Nat) (bl : Block), s.blocks[b]? = some bl →
      bl.startAddress = (code[0]).address := by
    intro b bl hbl
    obtain ⟨d, i, hdi, haddr, hc⟩ := hstarts b bl hbl
    have hd0 : d = 0 := by
      rcases hc with h | ⟨j, hj, hm⟩ | ⟨x, j, l, ty, hx, hl, hmem⟩
      · exact h
      · by_contra hd
        have := hum d (List.getElem?_eq_some_iff.1 hj).1 (by omega)
        rw [hj] at this
        simp only [Option.map_some', Option.some.injEq] at this
        exact hm this
      · rw [htargets x j hx] at hl
        injection hl with hl
        subst hl
        simp at hmem
    subst hd0
    rw [List.getElem?_eq_getElem h0] at hdi
    injection hdi with hdi
    rw [← haddr, hdi]
  -- so there is one block
  have hentry := hb.entry hne
  have hpos : 0 < s.blocks.length := hb.consistent.valid 0 0 hentry
  have hone : s.blocks.length = 1 := by
    by_contra hlen1
    have h1 : 1 < s.blocks.length := by omega
    have := hb.distinctStarts hwf 0 1 _ _ (List.getElem?_eq_getElem hpos)
      (List.getElem?_eq_getElem h1)
      (by rw [hstart 0 _ (List.getElem?_eq_getElem hpos),
        hstart 1 _ (List.getElem?_eq_getElem h1)])
    omega
  obtain ⟨bl, hbls⟩ := List.length_eq_one.1 hone
  have hbl : s.blocks[0]? = some bl := by rw [hbls]; rfl
  obtain ⟨h, m, last, l, hshape, hlastm, hsucc, hlinked⟩ := hb.lookup hbl
  -- which starts at the first instruction
  have hh : h = 0 := by
    obtain ⟨i, hi, haddr⟩ := hshape.head
    refine hwf.address_inj hi (List.getElem?_eq_getElem h0) ?_
    rw [haddr, hstart 0 bl hbl]
  subst hh
  rw [Nat.zero_add] at hlastm
  have hmn : m < n + 1 := by
    rw [← hlen]
    exact (List.getElem?_eq_some_iff.1 hlastm).1
  -- and ends at the last
  have hm : m = n := by
    by_contra hne1
    have hlt : m < n := by omega
    have hnbl := hinner m last hlt hlastm
    have hfol := hwf.follower_eq hlastm
    rw [if_pos (by omega)] at hfol
    rw [successors_of_not_branch hnbl, hfol] at hsucc
    simp only [Option.toList, List.map_cons, List.map_nil, Option.some.injEq] at hsucc
    subst hsucc
    obtain ⟨c, _, _, hc⟩ := hlinked.one
    have hc1 := hb.consistent.valid _ _ hc
    have hc0 : c = 0 := by omega
    subst hc0
    have := (hb.consistent.mem_iff 0 bl (m + 1) hbl).2 hc
    rw [hshape.instrs, List.mem_range'_1] at this
    omega
  subst hm
  have hbr : last.opcode.isBranch = true := by rw [hlast last hlastm]; rfl
  rw [successors_of_branch hbr, branchTargets_of_return (hlast last hlastm)] at hsucc
  injection hsucc with hsucc
  subst hsucc
  obtain ⟨h1, h2⟩ := hlinked
  simp only [List.map_nil, List.map_eq_nil_iff] at h1
  exact ⟨bl, hbls, by rw [hshape.instrs, List.range_eq_range'], h1, h2⟩

/-- C21, as amended (straight-line code is one block): for every `n`, the graph
built for a stream of `n` instructions that do not influence control flow
followed by a final `RETN`, with no instruction after the first marked, the
final `RETN` included, is exactly one block; its instruction list is all
`n + 1` instructions in the order of the stream (which is the order of their
addresses), and it has no children. -/
theorem C21_straight_line_one_block (n : Nat) (code : List Instruction) (fuel : Nat)
    (hlen : code.length = n + 1) (hsl : StraightLine code) (hfuel : 2 * code.length ≤ fuel) :
    ∃ s, constructBlocks fuel code noBlock [] = .ok s ∧ OneBlock s (n + 1) := by
  obtain ⟨s, hs, hb⟩ := constructBlocks_built hsl.1 hfuel
  refine ⟨s, hs, hb.oneBlock ?_ hsl n hlen⟩
  obtain ⟨_, hcase⟩ := constructBlocks_ok hs
  rcases hcase with ⟨hnil, _⟩ | ⟨first, rest, hcode, hexec⟩
  · rw [hnil] at hlen
    simp at hlen
  · refine exec_allStarts hexec trivial ?_
    intro b bl hbl
    have hmem := List.getElem?_mem hbl
    simp only [List.mem_singleton] at hmem
    subst hmem
    exact ⟨0, first, by rw [hcode]; exact List.getElem?_cons_zero, rfl, Or.inl rfl⟩

theorem C21_straight_line_one_block_witness :
    straightLineStream.length = 5 + 1 ∧ StraightLine straightLineStream ∧
    2 * straightLineStream.length ≤ 12 ∧
    ∃ s, constructBlocks 12 straightLineStream noBlock [] = .ok s ∧ OneBlock s (5 + 1) :=
  ⟨rfl, by decide, by decide,
    C21_straight_line_one_block 5 straightLineStream 12 rfl (by decide) (by decide)⟩

/-- C21, as stated, fails: in `fallthroughStream` one instruction without
influence on control flow is followed by the final `RETN`, and the only marked
instruction is that `RETN`; the loop of `constructBlocks` ends the block before
the marked `RETN`, so the graph has two blocks, whatever the fuel, and the
first block has a child. -/
theorem C21_marked_return_counterexample :
    fallthroughStream.length = 1 + 1 ∧ StraightLineStated fallthroughStream ∧
    ¬ StraightLine fallthroughStream ∧
    (∀ fuel, 4 ≤ fuel → constructBlocks fuel fallthroughStream noBlock [] = .ok fallthroughGraph) ∧
    fallthroughGraph.blocks.length = 2 ∧ ¬ OneBlock fallthroughGraph (1 + 1) := by
  refine ⟨rfl, by decide, by decide, ?_, rfl, ?_⟩
  · intro fuel hfuel
    obtain ⟨k, rfl⟩ := Nat.exists_eq_add_of_le hfuel
    exact constructBlocks_add (show constructBlocks 4 fallthroughStream noBlock [] = _ from rfl) k
  · rintro ⟨bl, hbl, _⟩
    have h := congrArg List.length hbl
    simp [fallthroughGraph] at h

/-! ## Marked instructions start a block -/

theorem linkBlocks_markedFirst {code : List Instruction} {s s1 : State} {a c : Nat}
    {ty : BlockEdgeType} (hl : linkBlocks s a c ty = .ok s1) (hs : MarkedFirst code s) :
    MarkedFirst code s1 := by
  intro b k x bl1 i hbl1 hk hx hm
  obtain ⟨bl, hbl, hi, _⟩ := linkBlocks_headOK hl hbl1
  rw [hi] at hk
  exact hs b k x bl i hbl hk hx hm

theorem putInstruction_markedFirst {code : List Instruction} {s : State} {b x : Nat}
    {bl : Block} {i : Instruction} (hbl : s.blocks[b]? = some bl) (hx : code[x]? = some i)
    (hsplit : ¬ (i.addressType ≠ .kAddressTypeNone ∧ bl.instructions ≠ []))
    (hs : MarkedFirst code s) : MarkedFirst code (putInstruction s b bl x) := by
  intro b1 k y bl1 j hbl1 hk hy hm
  rw [putInstruction_blocks x hbl] at hbl1
  by_cases hb : b1 = b
  · rw [if_pos hb] at hbl1
    injection hbl1 with hbl1
    subst hbl1
    simp only at hk
    rw [getElem?_concat] at hk
    by_cases hkl : k = bl.instructions.length
    · rw [if_pos hkl] at hk
      injection hk with hk
      subst hk
      rw [hx] at hy
      injection hy with hy
      subst hy
      have hnil : bl.instructions = [] := by
        by_contra hne
        exact hsplit ⟨hm, hne⟩
      rw [hkl, hnil]
      rfl
    · rw [if_neg hkl] at hk
      exact hs b k y bl j hbl hk hy hm
  · rw [if_neg hb] at hbl1
    exact hs b1 k y bl1 j hbl1 hk hy hm

theorem exec_markedFirst {code : List Instruction} {t : Task} {s s1 : State}
    (h : Exec code t s s1) : MarkedFirst code s → MarkedFirst code s1 := by
  induction h with
  | loopEnd s b => exact fun hs => hs
  | loopSeen _ _ hl => exact fun hs => linkBlocks_markedFirst hl hs
  | loopSplit _ _ _ _ _ _ ih => exact ih
  | loopBranch hx _ hbl hsplit _ _ _ ih =>
    exact fun hs => ih (putInstruction_markedFirst hbl hx hsplit hs)
  | loopNext hx _ hbl hsplit _ _ ih =>
    exact fun hs => ih (putInstruction_markedFirst hbl hx hsplit hs)
  | branchOld _ _ hl => exact fun hs => linkBlocks_markedFirst hl hs
  | @branchNew s s1 s2 b d ty i _ _ hl _ ih =>
    intro hs
    refine ih (linkBlocks_markedFirst hl ?_)
    intro b1 k y bl j hbl hk hy hm
    simp only at hbl
    rw [getElem?_concat] at hbl
    by_cases hb : b1 = s.blocks.length
    · rw [if_pos hb] at hbl
      injection hbl with hbl
      subst hbl
      simp [Block.new] at hk
    · rw [if_neg hb] at hbl
      exact hs b1 k y bl j hbl hk hy hm
  | branchesNil s b => exact fun hs => hs
  | branchesCons _ _ ih1 ih2 => exact fun hs => ih2 (ih1 hs)

/-- C31 (marked instructions always start a block): for every input on which
`constructBlocks` completes (any stream, any block back-links on entry, any
fuel), no instruction whose `addressType` is JumpDestination or
SubroutineStart stands at a position other than the first in the instruction
list of a block. -/
theorem C31_marked_instructions_start_blocks (code : List Instruction) (fuel : Nat)
    (block0 : Nat → Option Nat) (blocks : List Block) (s : State)
    (h : constructBlocks fuel code block0 blocks = .ok s) : MarkedFirst code s := by
  obtain ⟨_, hcase⟩ := constructBlocks_ok h
  rcases hcase with ⟨_, hs⟩ | ⟨first, rest, _, hexec⟩
  · subst hs
    intro b k x bl i hbl
    simp at hbl
  · refine exec_markedFirst hexec ?_
    intro b k x bl i hbl hk
    have hmem := List.getElem?_mem hbl
    simp only [List.mem_singleton] at hmem
    subst hmem
    simp [Block.new] at hk

theorem C31_marked_instructions_start_blocks_witness :
    constructBlocks 6 callStream noBlock [] = .ok callGraph ∧
    MarkedFirst callStream callGraph :=
  ⟨rfl, C31_marked_instructions_start_blocks callStream 6 noBlock [] callGraph rfl⟩

/-! ## Effect of `addBranchBlock` -/

/-- C33 (linking only appends): for a block `block` of the collection, a
destination `d` of the stream and a back-link of `d` that is unset or refers to
a block of the collection, `addBranchBlock` returns; it appends exactly one new
empty block, with the start address of the destination, when the destination
has no block and none otherwise, appends `block` to the parents of the block of
the branch and one entry each to the children and the edge types of `block`,
and leaves the back-links, the instruction lists, the other children and edge
type lists and the existing entries of every list as they are. -/
theorem C33_linking_only_appends (code : List Instruction) (s : State) (block d : Nat)
    (type : BlockEdgeType) (i : Instruction) (hblock : block < s.blocks.length)
    (hd : code[d]? = some i) (hc : ∀ c, s.block d = some c → c < s.blocks.length) :
    ∃ s1 branchBlock needAdd,
      addBranchBlock code s block d type = .ok (s1, branchBlock, needAdd) ∧
      AppendsOnly code s block d type s1 branchBlock needAdd := by
  unfold addBranchBlock
  rw [hd]
  simp only
  cases hbd : s.block d with
  | some c =>
    simp only
    obtain ⟨s1, hl⟩ := linkBlocks_total s type hblock (hc c hbd)
    rw [hl]
    obtain ⟨hb, _, _, hlen, _⟩ := linkBlocks_ok hl
    refine ⟨s1, c, false, rfl, hb, ?_, ?_, ?_⟩
    · intro j _ hn
      rw [hbd] at hn
      exact absurd hn (by simp)
    · intro c1 hc1
      rw [hbd] at hc1
      injection hc1 with hc1
      exact ⟨rfl, hc1, hlen⟩
    · intro k bl hk
      exact ⟨_, linkBlocks_lookup hl hk, rfl, rfl, rfl, rfl, rfl⟩
  | none =>
    simp only
    have hlen0 : ({ s with blocks := s.blocks ++ [Block.new i.address] } : State).blocks.length
        = s.blocks.length + 1 := by simp
    obtain ⟨s1, hl⟩ := linkBlocks_total
      ({ s with blocks := s.blocks ++ [Block.new i.address] } : State) type
      (a := block) (c := s.blocks.length) (by rw [hlen0]; omega) (by rw [hlen0]; omega)
    rw [hl]
    obtain ⟨hb, _, _, hlen, _⟩ := linkBlocks_ok hl
    refine ⟨s1, s.blocks.length, true, rfl, hb, ?_, ?_, ?_⟩
    · intro j hj _
      rw [hd] at hj
      injection hj with hj
      subst hj
      refine ⟨rfl, rfl, by rw [hlen, hlen0], ?_⟩
      have hnew : ({ s with blocks := s.blocks ++ [Block.new i.address] } : State).blocks[
          s.blocks.length]? = some (Block.new i.address) := by
        rw [newBlock_lookup, if_pos rfl]
      rw [linkBlocks_lookup hl hnew]
      have hne : ¬ s.blocks.length = block := by omega
      simp [Block.linked, Block.new, hne]
    · intro c1 hc1
      rw [hbd] at hc1
      exact absurd hc1 (by simp)
    · intro k bl hk
      have hklt : k < s.blocks.length := (List.getElem?_eq_some_iff.1 hk).1
      have hk1 : ({ s with blocks := s.blocks ++ [Block.new i.address] } : State).blocks[k]?
          = some bl := by
        rw [newBlock_lookup, if_neg (by omega)]
        exact hk
      exact ⟨_, linkBlocks_lookup hl hk1, rfl, rfl, rfl, rfl, rfl⟩

theorem C33_linking_only_appends_witness :
    0 < cycleGraph.blocks.length ∧
    cycleStream[2]? =
      some { address := 2, opcode := .kOpcodeRETN, addressType := .kAddressTypeNone,
             branches := [], follower := none } ∧
    (∀ c, cycleGraph.block 2 = some c → c < cycleGraph.blocks.length) ∧
    ∃ s1 branchBlock needAdd,
      addBranchBlock cycleStream cycleGraph 0 2 .kBlockEdgeTypeUnconditional =
        .ok (s1, branchBlock, needAdd) ∧
      AppendsOnly cycleStream cycleGraph 0 2 .kBlockEdgeTypeUnconditional s1 branchBlock
        needAdd :=
  have hc : ∀ c, cycleGraph.block 2 = some c → c < cycleGraph.blocks.length := by
    intro c h
    simp [cycleGraph] at h
    subst h
    decide
  ⟨by decide, rfl, hc,
    C33_linking_only_appends cycleStream cycleGraph 0 2 .kBlockEdgeTypeUnconditional _
      (by decide) rfl hc⟩

/-! ## Opcodes `followBranchBlock` does not know -/

/-- C34, as amended (other opcodes are passed over): `followBranchBlock` applied
to an instruction whose opcode is none of `JMP`, `JZ`, `JNZ`, `JSR`,
`STORESTATE` and `RETN` returns normally, with the blocks and the back-links as
they were and so without a child added to the block; and the loop of
`constructBlocks` does not apply it to such an instruction, but puts the
instruction into the block and goes on with its follower. -/
theorem C34_other_opcode_passed_over (code : List Instruction)
    (recurse : State → Nat → Option Nat → Except Error State) (fuel : Nat) (s : State)
    (b x : Nat) (bl : Block) (i : Instruction) (hop : i.opcode.isBranch = false)
    (hx : code[x]? = some i) (hb : s.block x = none) (hbl : s.blocks[b]? = some bl)
    (hsplit : ¬ (i.addressType ≠ .kAddressTypeNone ∧ bl.instructions ≠ [])) :
    followBranchBlock recurse code s b i = .ok s ∧
    constructBlocksFrom code (fuel + 1) s b (some x) =
      constructBlocksFrom code fuel (putInstruction s b bl x) b i.follower := by
  constructor
  · unfold followBranchBlock
    rcases ho : i.opcode with _ | _ | _ | _ | _ | _ | n <;> simp_all [Opcode.isBranch]
  · simp only [constructBlocksFrom, hx, hb, hbl]
    rw [if_neg hsplit]
    simp [hop]

theorem C34_other_opcode_passed_over_witness :
    unmarkedJumpStream[0]? =
      some { address := 0, opcode := .kOpcodeOther 45, addressType := .kAddressTypeNone,
             branches := [], follower := some 1 } ∧
    followBranchBlock (constructBlocksFrom unmarkedJumpStream 0) unmarkedJumpStream
      { block := noBlock, blocks := [Block.new 0] } 0
      { address := 0, opcode := .kOpcodeOther 45, addressType := .kAddressTypeNone,
        branches := [], follower := some 1 } =
      .ok { block := noBlock, blocks := [Block.new 0] } ∧
    constructBlocksFrom unmarkedJumpStream (5 + 1)
      { block := noBlock, blocks := [Block.new 0] } 0 (some 0) =
      constructBlocksFrom unmarkedJumpStream 5
        (putInstruction { block := noBlock, blocks := [Block.new 0] } 0 (Block.new 0) 0) 0
        (some 1) :=
  ⟨rfl, C34_other_opcode_passed_over unmarkedJumpStream
    (constructBlocksFrom unmarkedJumpStream 0) 5
    { block := noBlock, blocks := [Block.new 0] } 0 0 (Block.new 0) _ rfl rfl rfl rfl
    (by decide)⟩

/-- C34, as stated, fails: for an instruction with another opcode the `switch`
of `followBranchBlock` takes its `default` branch and the function returns. -/
theorem C34_aborts_on_other_opcode_counterexample : ¬ AbortsOnOtherOpcode := by
  intro h
  obtain ⟨e, he⟩ := h (fun s _ _ => .ok s) [] { block := noBlock, blocks := [] } 0
    { address := 0, opcode := .kOpcodeOther 0, addressType := .kAddressTypeNone,
      branches := [], follower := none } rfl
  simp [followBranchBlock] at he

/-! ## Connectedness of the graph -/

theorem linkBlocks_parentEarlier {s s1 : State} {a c : Nat} {ty : BlockEdgeType}
    (hl : linkBlocks s a c ty = .ok s1) (hs : ParentEarlier s) : ParentEarlier s1 := by
  intro k bl1 hk hpos
  obtain ⟨bl, hbl, rfl⟩ := linkBlocks_lookup_inv hl hk
  obtain ⟨p, hp, hlt⟩ := hs k bl hbl hpos
  refine ⟨p, ?_, hlt⟩
  simp only [Block.linked]
  split
  · exact List.mem_append_left _ hp
  · exact hp

theorem putInstruction_parentEarlier {s : State} {b x : Nat} {bl : Block}
    (hbl : s.blocks[b]? = some bl) (hs : ParentEarlier s) :
    ParentEarlier (putInstruction s b bl x) := by
  intro k blk hk hpos
  rw [putInstruction_blocks x hbl] at hk
  by_cases hkb : k = b
  · rw [if_pos hkb] at hk
    injection hk with hk
    subst hk
    subst hkb
    exact hs k bl hbl hpos
  · rw [if_neg hkb] at hk
    exact hs k blk hk hpos

/-- A task on a block of the collection keeps the blocks and that every block
but the first has an earlier parent. -/
theorem exec_parentEarlier {code : List Instruction} {t : Task} {s s1 : State}
    (h : Exec code t s s1) :
    t.block < s.blocks.length → ParentEarlier s →
      ParentEarlier s1 ∧ s.blocks.length ≤ s1.blocks.length := by
  induction h with
  | loopEnd s b => exact fun _ hs => ⟨hs, le_refl _⟩
  | loopSeen _ _ hl =>
    exact fun _ hs => ⟨linkBlocks_parentEarlier hl hs, by rw [(linkBlocks_ok hl).2.2.2.1]⟩
  | loopSplit _ _ _ _ _ _ ih => exact ih
  | @loopBranch s s1 b x i bl l _ _ hbl _ _ _ _ ih =>
    intro hb hs
    have hlen : (putInstruction s b bl x).blocks.length = s.blocks.length :=
      putInstruction_length s b bl x
    obtain ⟨h1, h2⟩ := ih (by simpa [Task.block, hlen] using hb)
      (putInstruction_parentEarlier hbl hs)
    exact ⟨h1, by omega⟩
  | @loopNext s s1 b x i bl _ _ hbl _ _ _ ih =>
    intro hb hs
    have hlen : (putInstruction s b bl x).blocks.length = s.blocks.length :=
      putInstruction_length s b bl x
    obtain ⟨h1, h2⟩ := ih (by simpa [Task.block, hlen] using hb)
      (putInstruction_parentEarlier hbl hs)
    exact ⟨h1, by omega⟩
  | branchOld _ _ hl =>
    exact fun _ hs => ⟨linkBlocks_parentEarlier hl hs, by rw [(linkBlocks_ok hl).2.2.2.1]⟩
  | @branchNew s s1 s2 b d ty i _ _ hl _ ih =>
    intro hb hs
    simp only [Task.block] at hb
    have hlen1 : s1.blocks.length = s.blocks.length + 1 := by
      rw [(linkBlocks_ok hl).2.2.2.1]
      simp
    have hs1 : ParentEarlier s1 := by
      intro k bl1 hk hpos
      obtain ⟨bl, hbl, rfl⟩ := linkBlocks_lookup_inv hl hk
      rw [newBlock_lookup] at hbl
      by_cases hkl : k = s.blocks.length
      · rw [if_pos hkl] at hbl
        injection hbl with hbl
        subst hbl
        refine ⟨b, ?_, by omega⟩
        simp [Block.linked, Block.new, hkl]
      · rw [if_neg hkl] at hbl
        obtain ⟨p, hp, hlt⟩ := hs k bl hbl hpos
        refine ⟨p, ?_, hlt⟩
        simp only [Block.linked]
        split
        · exact List.mem_append_left _ hp
        · exact hp
    obtain ⟨h1, h2⟩ := ih (by simp only [Task.block]; omega) hs1
    exact ⟨h1, by omega⟩
  | branchesNil s b => exact fun _ hs => ⟨hs, le_refl _⟩
  | branchesCons _ _ ih1 ih2 =>
    intro hb hs
    simp only [Task.block] at hb ih1 ih2
    obtain ⟨h1, h2⟩ := ih1 hb hs
    obtain ⟨h3, h4⟩ := ih2 (by omega) h1
    exact ⟨h3, by omega⟩

/-- With symmetric adjacency, blocks that have an earlier parent are reachable
from the first block. -/
theorem reachable_of_parentEarlier {s : State} (hp : ParentEarlier s) (hv : EdgesValid s)
    (hsym : Symmetric s) : ∀ k, k < s.blocks.length → BlockReachable s k := by
  intro k
  induction k using Nat.strong_induction_on with
  | _ k ih =>
    intro hk
    rcases Nat.eq_zero_or_pos k with h0 | hpos
    · subst h0
      exact BlockReachable.entry hk
    · have hbl : s.blocks[k]? = some s.blocks[k] := List.getElem?_eq_getElem hk
      obtain ⟨p, hpm, hlt⟩ := hp k _ hbl hpos
      have hpl : p < s.blocks.length := (hv k _ hbl).2 p hpm
      have hblp : s.blocks[p]? = some s.blocks[p] := List.getElem?_eq_getElem hpl
      exact BlockReachable.child (ih p hlt hpl) hblp ((hsym p k _ _ hblp hbl).2 hpm)

/-- C35 (connected graph in discovery order): for every input on which
`constructBlocks` completes (any stream, any block back-links on entry, any
fuel), every block other than the first has at least one parent that stands
earlier in the block collection, and every block is reachable from the first
block by following children edges. -/
theorem C35_connected_in_discovery_order (code : List Instruction) (fuel : Nat)
    (block0 : Nat → Option Nat) (blocks : List Block) (s : State)
    (h : constructBlocks fuel code block0 blocks = .ok s) : Connected s := by
  obtain ⟨_, hcase⟩ := constructBlocks_ok h
  rcases hcase with ⟨_, hs⟩ | ⟨first, rest, _, hexec⟩
  · subst hs
    refine ⟨fun k bl hk => ?_, fun k hk => ?_⟩
    · simp at hk
    · simp at hk
  · have hpe : ParentEarlier s := by
      refine (exec_parentEarlier hexec (by simp [Task.block]) ?_).1
      intro k bl hk hpos
      have : k < 1 := by simpa using (List.getElem?_eq_some_iff.1 hk).1
      omega
    have hsym : EdgesValid s ∧ Symmetric s := by
      refine exec_invariant (fun s => EdgesValid s ∧ Symmetric s)
        (fun _ _ _ _ _ hs hl => linkBlocks_symmetric hl hs)
        (fun _ addr hs => newBlock_symmetric addr hs)
        (fun _ _ _ _ hs hbl _ => putInstruction_symmetric hbl hs) hexec ?_
      refine ⟨fun k bl hk => ?_, fun k1 k2 bl1 bl2 h1 h2 => ?_⟩
      · have hmem := List.getElem?_mem hk
        simp only [List.mem_singleton] at hmem
        subst hmem
        simp [Block.new]
      · have hm1 := List.getElem?_mem h1
        have hm2 := List.getElem?_mem h2
        simp only [List.mem_singleton] at hm1 hm2
        subst hm1
        subst hm2
        simp [Block.new]
    exact ⟨hpe, reachable_of_parentEarlier hpe hsym.1 hsym.2⟩

theorem C35_connected_in_discovery_order_witness :
    constructBlocks 6 cycleStream noBlock [] = .ok cycleGraph ∧ Connected cycleGraph :=
  ⟨rfl, C35_connected_in_discovery_order cycleStream 6 noBlock [] cycleGraph rfl⟩

/-! ## Back-links -/

theorem execLog_of_exec {code : List Instruction} {t : Task} {s s1 : State}
    (h : Exec code t s s1) : ∃ log, ExecLog code t s s1 log := by
  induction h with
  | loopEnd s b => exact ⟨[], ExecLog.loopEnd s b⟩
  | loopSeen h1 h2 h3 => exact ⟨[], ExecLog.loopSeen h1 h2 h3⟩
  | loopSplit h1 h2 h3 h4 h5 _ ih =>
    obtain ⟨log, hl⟩ := ih
    exact ⟨log, ExecLog.loopSplit h1 h2 h3 h4 h5 hl⟩
  | loopBranch h1 h2 h3 h4 h5 h6 _ ih =>
    obtain ⟨log, hl⟩ := ih
    exact ⟨_, ExecLog.loopBranch h1 h2 h3 h4 h5 h6 hl⟩
  | loopNext h1 h2 h3 h4 h5 _ ih =>
    obtain ⟨log, hl⟩ := ih
    exact ⟨_, ExecLog.loopNext h1 h2 h3 h4 h5 hl⟩
  | branchOld h1 h2 h3 => exact ⟨[], ExecLog.branchOld h1 h2 h3⟩
  | branchNew h1 h2 h3 _ ih =>
    obtain ⟨log, hl⟩ := ih
    exact ⟨log, ExecLog.branchNew h1 h2 h3 hl⟩
  | branchesNil s b => exact ⟨[], ExecLog.branchesNil s b⟩
  | branchesCons _ _ ih1 ih2 =>
    obtain ⟨log1, hl1⟩ := ih1
    obtain ⟨log2, hl2⟩ := ih2
    exact ⟨log1 ++ log2, ExecLog.branchesCons hl1 hl2⟩

theorem writtenOnce_link {s s1 : State} {a c : Nat} {ty : BlockEdgeType}
    (hl : linkBlocks s a c ty = .ok s1) : WrittenOnce s s1 [] := by
  have hb := (linkBlocks_ok hl).1
  exact ⟨fun x c hx => by rw [hb]; exact hx, fun x b h => by simp at h, by simp,
    fun x _ => by rw [hb]⟩

theorem writtenOnce_put {s s1 : State} {b x : Nat} {bl : Block} {log : List (Nat × Nat)}
    (hx : s.block x = none) (h : WrittenOnce (putInstruction s b bl x) s1 log) :
    WrittenOnce s s1 ((x, b) :: log) := by
  have hput : (putInstruction s b bl x).block x = some b := by
    simp [putInstruction]
  have hother : ∀ y, y ≠ x → (putInstruction s b bl x).block y = s.block y := by
    intro y hy
    simp [putInstruction, hy]
  refine ⟨fun y c hy => ?_, fun y c hy => ?_, ?_, fun y hy => ?_⟩
  · have hne : y ≠ x := by
      intro he
      rw [he, hx] at hy
      exact absurd hy (by simp)
    exact h.keep y c (by rw [hother y hne]; exact hy)
  · rcases List.mem_cons.1 hy with he | hin
    · injection he with h1 h2
      subst h1
      subst h2
      exact ⟨hx, h.keep _ _ hput⟩
    · obtain ⟨h1, h2⟩ := h.fresh y c hin
      have hne : y ≠ x := by
        intro he
        rw [he, hput] at h1
        exact absurd h1 (by simp)
      exact ⟨by rw [← hother y hne]; exact h1, h2⟩
  · simp only [List.map_cons, List.nodup_cons]
    refine ⟨?_, h.once⟩
    intro hin
    obtain ⟨p, hp, hpx⟩ := List.mem_map.1 hin
    have := (h.fresh p.1 p.2 hp).1
    rw [hpx, hput] at this
    exact absurd this (by simp)
  · simp only [List.map_cons, List.mem_cons, not_or] at hy
    rw [h.others y hy.2, hother y hy.1]

theorem writtenOnce_append {s s1 s2 : State} {log1 log2 : List (Nat × Nat)}
    (h1 : WrittenOnce s s1 log1) (h2 : WrittenOnce s1 s2 log2) :
    WrittenOnce s s2 (log1 ++ log2) := by
  refine ⟨fun x c hx => h2.keep x c (h1.keep x c hx), fun x b hx => ?_, ?_, fun x hx => ?_⟩
  · rcases List.mem_append.1 hx with h | h
    · obtain ⟨ha, hb⟩ := h1.fresh x b h
      exact ⟨ha, h2.keep x b hb⟩
    · obtain ⟨ha, hb⟩ := h2.fresh x b h
      refine ⟨?_, hb⟩
      cases hs : s.block x with
      | none => rfl
      | some c =>
        rw [h1.keep x c hs] at ha
        exact absurd ha (by simp)
  · rw [List.map_append, List.nodup_append]
    refine ⟨h1.once, h2.once, ?_⟩
    intro x hx1 hx2
    obtain ⟨p, hp, hpx⟩ := List.mem_map.1 hx1
    obtain ⟨q, hq, hqx⟩ := List.mem_map.1 hx2
    have ha := (h1.fresh p.1 p.2 hp).2
    have hb := (h2.fresh q.1 q.2 hq).1
    rw [hpx] at ha
    rw [hqx, ha] at hb
    exact absurd hb (by simp)
  · rw [List.map_append, List.mem_append, not_or] at hx
    rw [h2.others x hx.2, h1.others x hx.1]

/-- Every task writes each back-link at most once, writes only back-links that
are unset, and changes no back-link that is set. -/
theorem execLog_writtenOnce {code : List Instruction} {t : Task} {s s1 : State}
    {log : List (Nat × Nat)} (h : ExecLog code t s s1 log) : WrittenOnce s s1 log := by
  induction h with
  | loopEnd s b =>
    exact ⟨fun _ _ hx => hx, fun x b h => by simp at h, by simp, fun _ _ => rfl⟩
  | loopSeen _ _ hl => exact writtenOnce_link hl
  | loopSplit _ _ _ _ _ _ ih => exact ih
  | loopBranch _ hx _ _ _ _ _ ih => exact writtenOnce_put hx ih
  | loopNext _ hx _ _ _ _ ih => exact writtenOnce_put hx ih
  | branchOld _ _ hl => exact writtenOnce_link hl
  | branchNew _ _ hl _ ih =>
    have hb := (linkBlocks_ok hl).1
    refine ⟨fun x c hx => ih.keep x c (by rw [hb]; exact hx), fun x b hx => ?_, ih.once,
      fun x hx => ?_⟩
    · obtain ⟨h1, h2⟩ := ih.fresh x b hx
      rw [hb] at h1
      exact ⟨h1, h2⟩
    · rw [ih.others x hx, hb]
  | branchesNil s b =>
    exact ⟨fun _ _ hx => hx, fun x b h => by simp at h, by simp, fun _ _ => rfl⟩
  | branchesCons _ _ ih1 ih2 => exact writtenOnce_append ih1 ih2

/-- C32 (back-link consistency): for every input whose block back-links are
unset on entry and on which `constructBlocks` completes (any stream, any fuel),
the back-link of an instruction refers to block `B` if and only if the
instruction occurs in the instruction list of `B`; and the executions of
line 98 during the run, in order, write each back-link at most once, only
while it is unset, and the back-links after the run are exactly the ones
written, so none was changed after it was written. -/
theorem C32_back_link_consistency (code : List Instruction) (fuel : Nat) (s : State)
    (h : constructBlocks fuel code noBlock [] = .ok s) : BackLinksConsistent code s := by
  obtain ⟨_, hcase⟩ := constructBlocks_ok h
  rcases hcase with ⟨hcode, hs⟩ | ⟨first, rest, hcode, hexec⟩
  · subst hs
    refine ⟨⟨fun x c hx => by simp [noBlock] at hx, fun b bl x hbl => by simp at hbl⟩,
      [], Or.inl ⟨hcode, rfl⟩, by simp, fun x b => ?_⟩
    simp [noBlock]
  · have hcons : Consistent s := by
      refine exec_invariant Consistent
        (fun _ _ _ _ _ hs hl => linkBlocks_consistent hl hs)
        (fun _ addr hs => newBlock_consistent addr hs)
        (fun _ _ _ _ hs hbl hx => putInstruction_consistent hs hbl hx) hexec ?_
      refine ⟨fun x c hx => by simp [noBlock] at hx, fun b bl x hbl => ?_⟩
      have hmem := List.getElem?_mem hbl
      simp only [List.mem_singleton] at hmem
      subst hmem
      simp [Block.new, noBlock]
    obtain ⟨log, hlog⟩ := execLog_of_exec hexec
    have hw := execLog_writtenOnce hlog
    refine ⟨hcons, log, Or.inr ⟨first, rest, hcode, hlog⟩, hw.once, fun x b => ⟨fun hx => ?_,
      fun hx => (hw.fresh x b hx).2⟩⟩
    by_contra hnot
    have hnin : x ∉ log.map Prod.fst := by
      intro hin
      obtain ⟨p, hp, hpx⟩ := List.mem_map.1 hin
      have := (hw.fresh p.1 p.2 hp).2
      rw [hpx, hx] at this
      injection this with this
      apply hnot
      rw [this, ← hpx]
      exact hp
    have := hw.others x hnin
    rw [hx] at this
    simp [noBlock] at this

theorem C32_back_link_consistency_witness :
    constructBlocks 6 callStream noBlock [] = .ok callGraph ∧
    BackLinksConsistent callStream callGraph :=
  ⟨rfl, C32_back_link_consistency callStream 6 callGraph rfl⟩

end NWScript

namespace Common

/-! ## The fixed memory write stream -/

/-- The state of a stream over a buffer of length `len`. -/
theorem MemoryWriteStream.write_inv {len : Nat} (hlen : len < 2 ^ 64) {s : MemoryWriteStream}
    (hs : s.ptr = s.pos ∧ s.pos ≤ s.bufSize ∧ s.bufSize = len) (data : Nat → Nat) (n : Nat) :
    (s.write data n).2 = min n (len - s.pos) ∧
    (s.write data n).1.ptr = (s.write data n).1.pos ∧
    (s.write data n).1.pos = s.pos + (s.write data n).2 ∧
    (s.write data n).1.pos ≤ (s.write data n).1.bufSize ∧
    (s.write data n).1.bufSize = len ∧
    (s.write data n).1.mem = memcpy s.mem s.pos data (s.write data n).2 := by
  obtain ⟨h1, h2, h3⟩ := hs
  have hsub : subSize s.bufSize s.pos = len - s.pos := by
    unfold subSize
    rw [h3]
    have hp : s.pos < 2 ^ 64 := by omega
    rw [Nat.mod_eq_of_lt hp]
    have : len + 2 ^ 64 - s.pos = (len - s.pos) + 2 ^ 64 := by omega
    rw [this, Nat.add_mod_right]
    exact Nat.mod_eq_of_lt (by omega)
  unfold MemoryWriteStream.write
  simp only [hsub]
  by_cases hn : n > len - s.pos
  · simp only [if_pos hn]
    refine ⟨by omega, by rw [h1]; unfold addSize; rw [Nat.mod_eq_of_lt (by omega)],
      by unfold addSize; rw [Nat.mod_eq_of_lt (by omega)],
      by unfold addSize; rw [Nat.mod_eq_of_lt (by omega)]; omega, h3, by rw [h1]⟩
  · simp only [if_neg hn]
    refine ⟨by omega, by rw [h1]; unfold addSize; rw [Nat.mod_eq_of_lt (by omega)],
      by unfold addSize; rw [Nat.mod_eq_of_lt (by omega)],
      by unfold addSize; rw [Nat.mod_eq_of_lt (by omega)]; omega, h3, by rw [h1]⟩

theorem MemoryWriteStream.writeAll_inv {len : Nat} (hlen : len < 2 ^ 64)
    (ws : List ((Nat → Nat) × Nat)) (s : MemoryWriteStream)
    (hs : s.ptr = s.pos ∧ s.pos ≤ s.bufSize ∧ s.bufSize = len) :
    (s.writeAll ws).ptr = (s.writeAll ws).pos ∧ (s.writeAll ws).pos ≤ (s.writeAll ws).bufSize ∧
      (s.writeAll ws).bufSize = len := by
  induction ws generalizing s with
  | nil => exact hs
  | cons w rest ih =>
    obtain ⟨d, n⟩ := w
    obtain ⟨_, h2, h3, h4, h5, _⟩ := MemoryWriteStream.write_inv hlen hs d n
    exact ih _ ⟨h2, h4, h5⟩

/-- C25 (the fixed memory stream truncates): for every stream over a buffer of
length `len` and every sequence `ws` of writes made before, the call
`write(data, n)` returns `min n (len - pos)`, stores exactly that many bytes,
the first bytes of `data`, at the offset `pos` of the buffer, advances `pos` by
that amount and leaves every other byte (inside and beyond the buffer)
unchanged; afterwards `pos() ≤ size() = len`. -/
theorem C25_fixed_stream_truncates (buf : Nat → Nat) (len : Nat) (hlen : len < 2 ^ 64)
    (ws : List ((Nat → Nat) × Nat)) (data : Nat → Nat) (n : Nat) :
    Truncates len ((MemoryWriteStream.new buf len).writeAll ws) data n := by
  have hinv := MemoryWriteStream.writeAll_inv hlen ws (MemoryWriteStream.new buf len)
    ⟨rfl, Nat.zero_le _, rfl⟩
  obtain ⟨h1, h2, h3, h4, h5, h6⟩ := MemoryWriteStream.write_inv hlen hinv data n
  unfold Truncates
  simp only [MemoryWriteStream.getPos, MemoryWriteStream.size]
  refine ⟨h1, h3, ?_, ?_, h4, h5⟩
  · intro i hi1 hi2
    rw [h6]
    unfold memcpy
    rw [if_pos ⟨hi1, hi2⟩]
  · intro i hi
    rw [h6]
    unfold memcpy
    rw [if_neg hi]

theorem C25_fixed_stream_truncates_witness :
    (4 : Nat) < 2 ^ 64 ∧
    Truncates 4 ((MemoryWriteStream.new (fun _ => 0) 4).writeAll [(fun i => i + 1, 3)])
      (fun i => i + 7) 5 :=
  ⟨by decide, C25_fixed_stream_truncates (fun _ => 0) 4 (by decide) [(fun i => i + 1, 3)]
    (fun i => i + 7) 5⟩

/-! ## The growable memory write stream -/

theorem growCapacity_pow (s : Nat) (hs : s ≤ 2 ^ 63) :
    ∀ (fuel j : Nat), 1 ≤ j → j ≤ 63 → 63 - j ≤ fuel →
      ∃ j1, j ≤ j1 ∧ j1 ≤ 63 ∧ growCapacity s fuel (2 ^ j) = some (2 ^ j1) ∧ s ≤ 2 ^ j1 := by
  intro fuel
  induction fuel with
  | zero =>
    intro j _ h63 hf
    have hj : j = 63 := by omega
    subst hj
    refine ⟨63, le_refl _, le_refl _, ?_, hs⟩
    unfold growCapacity
    rw [if_neg (by omega)]
  | succ fuel ih =>
    intro j h1 h63 hf
    unfold growCapacity
    by_cases hlt : 2 ^ j < s
    · rw [if_pos hlt]
      have hj : j < 63 := by
        by_contra hge
        have hj : j = 63 := by omega
        subst hj
        omega
      have hpow : (2 : Nat) ^ (j + 1) ≤ 2 ^ 63 := Nat.pow_le_pow_right (by decide) (by omega)
      have h2 : (2 : Nat) ≤ 2 ^ (j + 1) := by
        calc (2 : Nat) = 2 ^ 1 := by norm_num
          _ ≤ 2 ^ (j + 1) := Nat.pow_le_pow_right (by decide) (by omega)
      have hmul : max 2 (mulSize (2 ^ j) 2) = 2 ^ (j + 1) := by
        unfold mulSize
        rw [← Nat.pow_succ, Nat.mod_eq_of_lt (by omega)]
        exact max_eq_right h2
      rw [hmul]
      obtain ⟨j1, hj1, hj2, hg, hsj⟩ := ih (j + 1) (by omega) (by omega) (by omega)
      exact ⟨j1, by omega, hj2, hg, hsj⟩
    · rw [if_neg hlt]
      exact ⟨j, le_refl _, h63, rfl, by omega⟩

theorem growCapacity_ok {s c fuel : Nat} (hs : s ≤ 2 ^ 63) (hc : PowCap c) (hlt : c < s)
    (hf : 64 ≤ fuel) :
    ∃ c1, growCapacity s fuel c = some c1 ∧ s ≤ c1 ∧ PowCap c1 := by
  rcases hc with h0 | ⟨j, h1, h63, hj⟩
  · subst h0
    obtain ⟨fuel1, rfl⟩ : ∃ f, fuel = f + 1 := ⟨fuel - 1, by omega⟩
    unfold growCapacity
    rw [if_pos hlt]
    have hmul : max 2 (mulSize 0 2) = 2 ^ 1 := by
      unfold mulSize
      norm_num
    rw [hmul]
    obtain ⟨j1, hj1, hj2, hg, hsj⟩ := growCapacity_pow s hs fuel1 1 (le_refl _) (by omega)
      (by omega)
    exact ⟨2 ^ j1, hg, hsj, Or.inr ⟨j1, hj1, hj2, rfl⟩⟩
  · subst hj
    obtain ⟨j1, hj1, hj2, hg, hsj⟩ := growCapacity_pow s hs fuel j h1 h63 (by omega)
    exact ⟨2 ^ j1, hg, hsj, Or.inr ⟨j1, by omega, hj2, rfl⟩⟩

theorem MemoryWriteStreamDynamic.reserve_holds (junk : Nat → Nat → Nat) {fuel : Nat}
    {st : MemoryWriteStreamDynamic} {c : List Nat} (hst : Holds st c)
    (hsize : st.size = c.length) {s : Nat} (hs : s ≤ 2 ^ 63) (hf : 64 ≤ fuel) :
    ∃ st1, st.reserve junk fuel s = .ok st1 ∧ Holds st1 c ∧ st1.size = c.length ∧
      s ≤ st1.capacity := by
  unfold MemoryWriteStreamDynamic.reserve
  by_cases hle : s ≤ st.capacity
  · rw [if_pos hle]
    exact ⟨st, rfl, hst, hsize, hle⟩
  · rw [if_neg hle]
    obtain ⟨c1, hg, hsc, hpow⟩ := growCapacity_ok hs hst.pow (by omega) hf
    rw [hg]
    have hcap := hst.cap
    cases hd : st.data with
    | none =>
      refine ⟨_, rfl, ⟨hst.pos, hst.pos, ?_, hpow, ?_, ?_⟩, hsize, hsc⟩
      · show c.length ≤ c1
        omega
      · intro h
        simp at h
      · intro m i x _ hx
        have := hst.null hd
        have hi := (List.getElem?_eq_some_iff.1 hx).1
        omega
    | some oldData =>
      simp only
      rw [if_pos ⟨by omega, by omega⟩]
      refine ⟨_, rfl, ⟨hst.pos, hst.pos, ?_, hpow, ?_, ?_⟩, hsize, hsc⟩
      · show c.length ≤ c1
        omega
      · intro h
        simp at h
      · intro m i x hm hx
        simp only [Option.some.injEq] at hm
        subst hm
        have hi := (List.getElem?_eq_some_iff.1 hx).1
        unfold memcpy
        rw [if_pos ⟨Nat.zero_le _, by omega⟩]
        exact hst.bytes oldData i x hd hx

theorem MemoryWriteStreamDynamic.write_holds (junk : Nat → Nat → Nat) {fuel : Nat}
    {st : MemoryWriteStreamDynamic} {c : List Nat} (hst : Holds st c)
    (hsize : st.size = c.length) (d : List Nat) (hlen : (c ++ d).length ≤ 2 ^ 63)
    (hf : 64 ≤ fuel) :
    ∃ st1, st.write junk fuel (bytesAt d) d.length = .ok (st1, d.length) ∧
      Holds st1 (c ++ d) ∧ st1.size = (c ++ d).length := by
  rw [List.length_append] at hlen
  have hadd : addSize st.pos d.length = c.length + d.length := by
    unfold addSize
    rw [hst.pos, Nat.mod_eq_of_lt (by omega)]
  -- the state after `ensureCapacity`
  have hens : ∃ st1, st.ensureCapacity junk fuel (c.length + d.length) = .ok st1 ∧
      Holds st1 c ∧ (st1.size = c.length ∨ st1.size = c.length + d.length) ∧
      c.length + d.length ≤ st1.capacity := by
    unfold MemoryWriteStreamDynamic.ensureCapacity
    by_cases hle : c.length + d.length ≤ st.capacity
    · rw [if_pos hle]
      exact ⟨st, rfl, hst, Or.inl hsize, hle⟩
    · rw [if_neg hle]
      obtain ⟨st1, hr, hh, _, hcap⟩ :=
        MemoryWriteStreamDynamic.reserve_holds junk hst hsize hlen hf
      rw [hr]
      exact ⟨_, rfl, ⟨hh.pos, hh.ptr, hh.cap, hh.pow, hh.null, hh.bytes⟩, Or.inr rfl, hcap⟩
  obtain ⟨st1, he, hh, hsz, hcap⟩ := hens
  unfold MemoryWriteStreamDynamic.write
  rw [hadd, he]
  simp only
  have hadd1 : addSize st1.pos d.length = c.length + d.length := by
    unfold addSize
    rw [hh.pos, Nat.mod_eq_of_lt (by omega)]
  rw [if_pos (by rw [hh.ptr]; exact hcap), hadd1]
  refine ⟨_, rfl, ⟨?_, ?_, ?_, hh.pow, ?_, ?_⟩, ?_⟩
  · rw [List.length_append]
  · rw [List.length_append, hh.ptr]
  · rw [List.length_append]
    exact hcap
  · intro h
    simp only [Option.map_eq_none'] at h
    exact hh.null h
  · intro m i x hm hx
    simp only [Option.map_eq_some'] at hm
    obtain ⟨m0, hm0, rfl⟩ := hm
    unfold memcpy
    rw [hh.ptr]
    by_cases hi : i < c.length
    · rw [if_neg (by omega)]
      rw [List.getElem?_append_left hi] at hx
      exact hh.bytes m0 i x hm0 hx
    · have hge : c.length ≤ i := by omega
      rw [List.getElem?_append_right hge] at hx
      have hid := (List.getElem?_eq_some_iff.1 hx).1
      rw [if_pos ⟨hge, by omega⟩]
      unfold bytesAt
      rw [List.getD_eq_getElem?_getD, hx]
      rfl
  · show (if c.length + d.length > st1.size then c.length + d.length else st1.size) = _
    rw [List.length_append]
    rcases hsz with h | h <;> rw [h] <;> split <;> omega

theorem MemoryWriteStreamDynamic.writeAll_holds (junk : Nat → Nat → Nat) {fuel : Nat}
    (hf : 64 ≤ fuel) (ds : List (List Nat)) :
    ∀ (st : MemoryWriteStreamDynamic) (c : List Nat), Holds st c → st.size = c.length →
      (c ++ ds.flatten).length ≤ 2 ^ 63 →
      ∃ st1, MemoryWriteStreamDynamic.writeAll junk fuel st ds = .ok (st1, ds.map List.length) ∧
        Holds st1 (c ++ ds.flatten) ∧ st1.size = (c ++ ds.flatten).length := by
  induction ds with
  | nil =>
    intro st c hst hsize _
    exact ⟨st, rfl, by simpa using hst, by simpa using hsize⟩
  | cons d rest ih =>
    intro st c hst hsize hlen
    rw [List.flatten_cons, ← List.append_assoc] at hlen
    have hlen1 : (c ++ d).length ≤ 2 ^ 63 := by
      rw [List.length_append] at hlen
      omega
    obtain ⟨st1, hw, hh1, hs1⟩ :=
      MemoryWriteStreamDynamic.write_holds junk hst hsize d hlen1 hf
    obtain ⟨st2, hw2, hh2, hs2⟩ := ih st1 (c ++ d) hh1 hs1 hlen
    refine ⟨st2, ?_, ?_, ?_⟩
    · unfold MemoryWriteStreamDynamic.writeAll
      rw [hw]
      simp only
      rw [hw2]
      rfl
    · rw [List.flatten_cons, ← List.append_assoc]
      exact hh2
    · rw [List.flatten_cons, ← List.append_assoc]
      exact hs2

/-- The capacity the loop of `reserve` ends with, whenever it ends, is again
zero or a power of two, and is not below the capacity asked for. -/
theorem growCapacity_powCap (s : Nat) :
    ∀ (fuel c c1 : Nat), PowCap c → growCapacity s fuel c = some c1 → PowCap c1 ∧ s ≤ c1 := by
  have hnext : ∀ c, PowCap c → PowCap (max 2 (mulSize c 2)) := by
    intro c hc
    rcases hc with h0 | ⟨j, h1, h63, hj⟩
    · subst h0
      exact Or.inr ⟨1, le_refl _, by omega, by unfold mulSize; norm_num⟩
    · subst hj
      by_cases hj63 : j = 63
      · subst hj63
        exact Or.inr ⟨1, le_refl _, by omega, by unfold mulSize; norm_num⟩
      · refine Or.inr ⟨j + 1, by omega, by omega, ?_⟩
        have hpow : (2 : Nat) ^ (j + 1) ≤ 2 ^ 63 := Nat.pow_le_pow_right (by decide) (by omega)
        have h2 : (2 : Nat) ≤ 2 ^ (j + 1) := by
          calc (2 : Nat) = 2 ^ 1 := by norm_num
            _ ≤ 2 ^ (j + 1) := Nat.pow_le_pow_right (by decide) (by omega)
        unfold mulSize
        rw [← Nat.pow_succ, Nat.mod_eq_of_lt (by omega)]
        exact max_eq_right h2
  intro fuel
  induction fuel with
  | zero =>
    intro c c1 hc h
    unfold growCapacity at h
    by_cases hlt : c < s
    · rw [if_pos hlt] at h
      exact absurd h (by simp)
    · rw [if_neg hlt] at h
      injection h with h
      subst h
      exact ⟨hc, by omega⟩
  | succ fuel ih =>
    intro c c1 hc h
    unfold growCapacity at h
    by_cases hlt : c < s
    · rw [if_pos hlt] at h
      exact ih _ c1 (hnext c hc) h
    · rw [if_neg hlt] at h
      injection h with h
      subst h
      exact ⟨hc, by omega⟩

/-- A call of `reserve` that returns leaves the bytes held in place. -/
theorem MemoryWriteStreamDynamic.reserve_holds_of_ok {junk : Nat → Nat → Nat} {fuel : Nat}
    {st st1 : MemoryWriteStreamDynamic} {c : List Nat} (hst : Holds st c)
    (hsize : st.size = c.length) {s : Nat} (h : st.reserve junk fuel s = .ok st1) :
    Holds st1 c ∧ st1.size = c.length := by
  unfold MemoryWriteStreamDynamic.reserve at h
  by_cases hle : s ≤ st.capacity
  · rw [if_pos hle] at h
    injection h with h
    subst h
    exact ⟨hst, hsize⟩
  · rw [if_neg hle] at h
    cases hg : growCapacity s fuel st.capacity with
    | none => simp [hg] at h
    | some c1 =>
      obtain ⟨hpow, hsc⟩ := growCapacity_powCap s fuel _ c1 hst.pow hg
      have hcap := hst.cap
      simp only [hg] at h
      cases hd : st.data with
      | none =>
        simp only [hd, Except.ok.injEq] at h
        subst h
        refine ⟨⟨hst.pos, hst.pos, ?_, hpow, ?_, ?_⟩, hsize⟩
        · show c.length ≤ c1
          omega
        · intro h
          simp at h
        · intro m i x _ hx
          have := hst.null hd
          have hi := (List.getElem?_eq_some_iff.1 hx).1
          omega
      | some oldData =>
        simp only [hd] at h
        rw [if_pos ⟨by omega, by omega⟩] at h
        injection h with h
        subst h
        refine ⟨⟨hst.pos, hst.pos, ?_, hpow, ?_, ?_⟩, hsize⟩
        · show c.length ≤ c1
          omega
        · intro h
          simp at h
        · intro m i x hm hx
          simp only [Option.some.injEq] at hm
          subst hm
          have hi := (List.getElem?_eq_some_iff.1 hx).1
          unfold memcpy
          rw [if_pos ⟨Nat.zero_le _, by omega⟩]
          exact hst.bytes oldData i x hd hx

/-- C24 (the growable memory stream holds what was written): the constructor
returns for every initial capacity of at most `2 ^ 63`; and for a stream the
constructor returned, with any initial capacity, and every sequence of calls of
`write` with data `ds` of at most `2 ^ 63` bytes in total, every call returns,
each call returns the length of its data, and afterwards `pos()` and `size()`
are the total length of the data and the first `size()` bytes of `getData()`
are the data in the order written. -/
theorem C24_growable_stream_holds_written (junk : Nat → Nat → Nat) (fuel : Nat)
    (disposeMemory : Bool) (capacity : Nat) (ds : List (List Nat)) (hf : 64 ≤ fuel)
    (hlen : ds.flatten.length ≤ 2 ^ 63) :
    (capacity ≤ 2 ^ 63 →
      ∃ st0, MemoryWriteStreamDynamic.new junk fuel disposeMemory capacity = .ok st0) ∧
    ∀ st0, MemoryWriteStreamDynamic.new junk fuel disposeMemory capacity = .ok st0 →
      ∃ st rets, MemoryWriteStreamDynamic.writeAll junk fuel st0 ds = .ok (st, rets) ∧
        HoldsWritten st rets ds := by
  have h0 : Holds (MemoryWriteStreamDynamic.mk none disposeMemory 0 0 0 0) [] :=
    ⟨rfl, rfl, le_refl _, Or.inl rfl, fun _ => rfl, fun m i x _ hx => by simp at hx⟩
  refine ⟨fun hcap => ?_, fun st0 hnew => ?_⟩
  · obtain ⟨st0, hnew, _⟩ :=
      MemoryWriteStreamDynamic.reserve_holds junk h0 rfl hcap hf
    exact ⟨st0, hnew⟩
  · obtain ⟨hh0, hs0⟩ := MemoryWriteStreamDynamic.reserve_holds_of_ok h0 rfl hnew
    obtain ⟨st, hw, hh, hs⟩ :=
      MemoryWriteStreamDynamic.writeAll_holds junk hf ds st0 [] hh0 hs0
        (by simpa using hlen)
    rw [List.nil_append] at hh hs
    refine ⟨st, ds.map List.length, hw, rfl, hh.pos, hs, ?_⟩
    intro i x hx
    have hi := (List.getElem?_eq_some_iff.1 hx).1
    cases hd : st.data with
    | none =>
      have := hh.null hd
      have := hh.cap
      omega
    | some m => exact ⟨m, hd, hh.bytes m i x hd hx⟩

theorem C24_growable_stream_holds_written_witness :
    64 ≤ 64 ∧ [[1, 2, 3], [], [4, 5]].flatten.length ≤ 2 ^ 63 ∧
    ∃ st0, MemoryWriteStreamDynamic.new (fun _ _ => 170) 64 true 1 = .ok st0 ∧
      ∃ st rets,
        MemoryWriteStreamDynamic.writeAll (fun _ _ => 170) 64 st0 [[1, 2, 3], [], [4, 5]]
          = .ok (st, rets) ∧
        HoldsWritten st rets [[1, 2, 3], [], [4, 5]] :=
  ⟨by decide, by decide,
    ⟨MemoryWriteStreamDynamic.mk (some (fun _ => 170)) true 0 0 2 0, rfl,
      (C24_growable_stream_holds_written (fun _ _ => 170) 64 true 1 [[1, 2, 3], [], [4, 5]]
        (by decide) (by decide)).2 _ rfl⟩⟩

/-! ## Parsing of booleans -/

/-- C28 (boolean parsing): for every non-empty string `s`, `parseString<bool>`
does not fail and sets the value to `true` if and only if `s` equals "true",
"yes", "y" or "on" ignoring case, or equals "1", and to `false` for every other
non-empty string; for the empty string it fails when `allowEmpty` is false, and
returns with the value unchanged when `allowEmpty` is true. -/
theorem C28_boolean_parsing (s : String) (value allowEmpty : Bool) :
    (s ≠ "" → ∃ v, parseStringBool s value allowEmpty = .ok v ∧
      (v = true ↔ IsTrueWord s) ∧ (v = false ↔ ¬ IsTrueWord s)) ∧
    (s = "" → allowEmpty = false → ∃ e, parseStringBool s value allowEmpty = .error e) ∧
    (s = "" → allowEmpty = true → parseStringBool s value allowEmpty = .ok value) := by
  refine ⟨fun hne => ?_, fun he ha => ?_, fun he ha => ?_⟩
  · unfold parseStringBool
    rw [if_neg hne]
    refine ⟨_, rfl, ?_⟩
    have hiff : (equalsIgnoreCase s "true" || equalsIgnoreCase s "yes" ||
        equalsIgnoreCase s "y" || equalsIgnoreCase s "on" || s == "1") = true ↔
        IsTrueWord s := by
      unfold IsTrueWord
      simp only [Bool.or_eq_true, beq_iff_eq]
      tauto
    by_cases h : IsTrueWord s
    · rw [if_pos (hiff.2 h)]
      simp [h]
    · rw [if_neg (fun hc => h (hiff.1 hc))]
      simp [h]
  · subst he
    subst ha
    exact ⟨_, rfl⟩
  · subst he
    subst ha
    rfl

theorem parseStringBool_examples :
    parseStringBool "YeS" false false = .ok true ∧
    parseStringBool "on" false true = .ok true ∧
    parseStringBool "1" false false = .ok true ∧
    parseStringBool "no" true false = .ok false ∧
    parseStringBool "true " true false = .ok false ∧
    parseStringBool "" true true = .ok true ∧
    parseStringBool "" true false = .error "Trying to parse an empty string" :=
  ⟨rfl, rfl, rfl, rfl, rfl, rfl, rfl⟩

theorem C28_boolean_parsing_witness :
    "YeS" ≠ "" ∧ IsTrueWord "YeS" ∧
    ∃ v, parseStringBool "YeS" false false = .ok v ∧ (v = true ↔ IsTrueWord "YeS") ∧
      (v = false ↔ ¬ IsTrueWord "YeS") :=
  ⟨by decide, Or.inr (Or.inl rfl), (C28_boolean_parsing "YeS" false false).1 (by decide)⟩

/-! ## Decimal rendering of integers -/

theorem lsbCodes_small {n : Nat} (h : n < 10) : lsbCodes n = [n + 48] := by
  unfold lsbCodes
  by_cases h0 : n = 0
  · subst h0
    rfl
  · rw [if_neg h0, Nat.digits_def' (by decide) (by omega)]
    have h1 : n / 10 = 0 := by omega
    have h2 : n % 10 = n := by omega
    rw [h1, h2]
    simp

theorem lsbCodes_large {n : Nat} (h : 10 ≤ n) :
    lsbCodes n = (n % 10 + 48) :: lsbCodes (n / 10) := by
  unfold lsbCodes
  have h0 : n ≠ 0 := by omega
  have h1 : n / 10 ≠ 0 := by omega
  rw [if_neg h0, if_neg h1, Nat.digits_def' (by decide) (by omega)]
  simp

theorem lsbCodes_length_le (k : Nat) : ∀ n, n < 10 ^ (k + 1) → (lsbCodes n).length ≤ k + 1 := by
  induction k with
  | zero =>
    intro n hn
    rw [lsbCodes_small (by simpa using hn)]
    simp
  | succ k ih =>
    intro n hn
    by_cases h : n < 10
    · rw [lsbCodes_small h]
      simp
    · rw [lsbCodes_large (by omega)]
      have : n / 10 < 10 ^ (k + 1) := by
        rw [Nat.div_lt_iff_lt_mul (by decide)]
        rw [Nat.pow_succ] at hn
        exact hn
      have := ih (n / 10) this
      simp only [List.length_cons]
      omega

theorem lsbCodes_pos (n : Nat) : 0 < (lsbCodes n).length := by
  by_cases h : n < 10
  · rw [lsbCodes_small h]
    simp
  · rw [lsbCodes_large (by omega)]
    simp

theorem lsbCodes_ne_zero (n : Nat) : ∀ x ∈ lsbCodes n, x ≠ 0 := by
  unfold lsbCodes
  split
  · simp
  · intro x hx
    rw [List.mem_map] at hx
    obtain ⟨d, _, rfl⟩ := hx
    omega

theorem toCharCode_digit (n : Nat) : toCharCode ((n : Int).tmod 10 + 48) = n % 10 + 48 := by
  unfold toCharCode
  rw [Int.tmod_eq_emod (Int.ofNat_nonneg n) (by decide)]
  omega

/-- The loop that collects the digits writes the digits of a value that is not
negative, least significant first, from `strEnd` on. -/
theorem collectDigits_natural (t : IntType)
    (hwrap : ∀ x : Int, 0 ≤ x → x ≤ t.maxValue → t.wrap x = x) :
    ∀ (fuel n e : Nat) (buf : Nat → Nat), (n : Int) ≤ t.maxValue →
      (lsbCodes n).length ≤ fuel → e + (lsbCodes n).length ≤ 63 →
      collectDigits t fuel (n : Int) e buf =
        some (e + (lsbCodes n).length,
          fun i => if e ≤ i ∧ i < e + (lsbCodes n).length
            then (lsbCodes n).getD (i - e) 0 else buf i) := by
  intro fuel
  induction fuel with
  | zero =>
    intro n e buf _ hf _
    have := lsbCodes_pos n
    omega
  | succ fuel ih =>
    intro n e buf hmax hf he
    unfold collectDigits
    have hdiv : t.wrap ((n : Int).tdiv 10) = ((n / 10 : Nat) : Int) := by
      rw [Int.tdiv_eq_ediv (Int.ofNat_nonneg n) (by decide)]
      have h : (n : Int) / 10 = ((n / 10 : Nat) : Int) := by omega
      rw [h]
      exact hwrap _ (Int.ofNat_nonneg _) (by omega)
    simp only [hdiv, toCharCode_digit]
    by_cases hsmall : n < 10
    · have h0 : n / 10 = 0 := by omega
      rw [if_neg (by rw [h0]; simp), lsbCodes_small hsmall]
      simp only [List.length_singleton, Option.some.injEq, Prod.mk.injEq, true_and]
      funext i
      unfold store
      by_cases hi : i = e
      · subst hi
        simp
        omega
      · rw [if_neg hi, if_neg (by omega)]
    · have hlarge := lsbCodes_large (n := n) (by omega)
      rw [hlarge] at hf he ⊢
      simp only [List.length_cons] at hf he ⊢
      have h0 : ((n / 10 : Nat) : Int) ≠ 0 := by omega
      rw [if_pos ⟨h0, by have := lsbCodes_pos (n / 10); omega⟩]
      rw [ih (n / 10) (e + 1) _ (by omega) (by omega) (by omega)]
      simp only [Option.some.injEq, Prod.mk.injEq]
      refine ⟨by omega, ?_⟩
      funext i
      unfold store
      by_cases hi : i = e
      · subst hi
        simp
      · by_cases hin : e + 1 ≤ i ∧ i < e + 1 + (lsbCodes (n / 10)).length
        · rw [if_pos hin, if_pos (by omega)]
          have : i - e = (i - (e + 1)) + 1 := by omega
          rw [this, List.getD_cons_succ]
        · rw [if_neg hin, if_neg hi, if_neg (by omega)]

/-- The loop that reverses the digits reverses the buffer between `strStart`
and `strEnd`. -/
theorem reverseDigits_eq :
    ∀ (fuel s e : Nat) (buf : Nat → Nat), e - s ≤ 2 * fuel →
      reverseDigits fuel s e buf =
        some (fun i => if s ≤ i ∧ i ≤ e then buf (s + e - i) else buf i) := by
  intro fuel
  induction fuel with
  | zero =>
    intro s e buf h
    unfold reverseDigits
    rw [if_neg (by omega)]
    simp only [Option.some.injEq]
    funext i
    split
    · have : s + e - i = i := by omega
      rw [this]
    · rfl
  | succ fuel ih =>
    intro s e buf h
    unfold reverseDigits
    by_cases hlt : s < e
    · rw [if_pos hlt, ih _ _ _ (by omega)]
      simp only [Option.some.injEq]
      funext i
      simp only [store]
      split_ifs <;> first | (exfalso; omega) | rfl | (congr 1; omega)
    · rw [if_neg hlt]
      simp only [Option.some.injEq]
      funext i
      split
      · have : s + e - i = i := by omega
        rw [this]
      · rfl

/-- Reading the C string of a buffer that holds the characters `l` and then a
`'\0'`. -/
theorem cString_eq (buf : Nat → Nat) :
    ∀ (l : List Nat) (fuel j : Nat), (∀ x ∈ l, x ≠ 0) →
      (∀ i, i < l.length → buf (j + i) = l.getD i 0) → buf (j + l.length) = 0 →
      l.length < fuel → cString buf fuel j = l := by
  intro l
  induction l with
  | nil =>
    intro fuel j _ _ hz hf
    obtain ⟨f, rfl⟩ : ∃ f, fuel = f + 1 := ⟨fuel - 1, by simp at hf; omega⟩
    unfold cString
    rw [if_pos (by simpa using hz)]
  | cons a l ih =>
    intro fuel j hne hb hz hf
    obtain ⟨f, rfl⟩ : ∃ f, fuel = f + 1 := ⟨fuel - 1, by simp at hf; omega⟩
    unfold cString
    have h0 := hb 0 (by simp)
    simp only [Nat.add_zero, List.getD_cons_zero] at h0
    rw [h0, if_neg (hne a (List.mem_cons_self _ _))]
    congr 1
    refine ih f (j + 1) (fun x hx => hne x (List.mem_cons_of_mem _ hx)) ?_ ?_ ?_
    · intro i hi
      have := hb (i + 1) (by simp; omega)
      rw [List.getD_cons_succ] at this
      rw [← this]
      congr 1
      omega
    · rw [← hz]
      congr 1
      simp only [List.length_cons]
      omega
    · simp only [List.length_cons] at hf
      omega

theorem wrap_of_nonneg {t : IntType} (ht : t ∈ instantiatedTypes) (x : Int) (h0 : 0 ≤ x)
    (hx : x ≤ t.maxValue) : t.wrap x = x := by
  simp only [instantiatedTypes, List.mem_cons, List.mem_singleton, List.not_mem_nil,
    or_false] at ht
  rcases ht with rfl | rfl | rfl | rfl | rfl | rfl | rfl | rfl | rfl | rfl <;>
    simp only [IntType.wrap, IntType.maxValue] at hx ⊢ <;> norm_num at hx ⊢ <;> omega

theorem maxValue_lt {t : IntType} (ht : t ∈ instantiatedTypes) : t.maxValue < 10 ^ 20 := by
  simp only [instantiatedTypes, List.mem_cons, List.mem_singleton, List.not_mem_nil,
    or_false] at ht
  rcases ht with rfl | rfl | rfl | rfl | rfl | rfl | rfl | rfl | rfl | rfl <;>
    simp only [IntType.maxValue] <;> norm_num

theorem negate_of_neg {t : IntType} (ht : t ∈ instantiatedTypes) (hs : t.signed = true)
    (v : Int) (hmin : t.minValue < v) (hneg : v < 0) :
    t.negate v = -v ∧ -v ≤ t.maxValue := by
  simp only [instantiatedTypes, List.mem_cons, List.mem_singleton, List.not_mem_nil,
    or_false] at ht
  rcases ht with rfl | rfl | rfl | rfl | rfl | rfl | rfl | rfl | rfl | rfl <;>
    simp only [IntType.negate, IntType.wrap, IntType.maxValue, IntType.minValue] at hmin hs ⊢ <;>
    norm_num at hmin hs ⊢ <;> omega

/-- The three steps after the sign: collecting the digits, reversing them and
reading the buffer as a C string give the characters before the digits and then
the digits, most significant first. -/
theorem render_natural {t : IntType} (ht : t ∈ instantiatedTypes) (buf0 : Nat → Nat)
    (pre : List Nat) (hpre : pre.length ≤ 1) (hne : ∀ x ∈ pre, x ≠ 0)
    (hbuf : ∀ i, i < pre.length → buf0 i = pre.getD i 0) (n : Nat)
    (hn : (n : Int) ≤ t.maxValue) :
    (match collectDigits t 64 (n : Int) pre.length buf0 with
      | none => none
      | some (strEnd, buf1) =>
        match reverseDigits 64 pre.length (strEnd - 1) (store buf1 strEnd 0) with
        | none => none
        | some buf2 => some (String.mk ((cString buf2 64 0).map Char.ofNat))) =
      some (String.mk ((pre ++ (lsbCodes n).reverse).map Char.ofNat)) := by
  have hn20 : n < 10 ^ (19 + 1) := by
    have := maxValue_lt ht
    have h : (n : Int) < 10 ^ 20 := lt_of_le_of_lt hn this
    exact_mod_cast h
  have hk := lsbCodes_length_le 19 n hn20
  have hk0 := lsbCodes_pos n
  rw [collectDigits_natural t (wrap_of_nonneg ht) 64 n pre.length buf0 hn (by omega) (by omega)]
  simp only
  rw [reverseDigits_eq 64 _ _ _ (by omega)]
  simp only
  congr 2
  refine congrArg _ (cString_eq _ _ 64 0 ?_ ?_ ?_ ?_)
  · intro x hx
    rw [List.mem_append, List.mem_reverse] at hx
    rcases hx with hx | hx
    · exact hne x hx
    · exact lsbCodes_ne_zero n x hx
  · intro i hi
    rw [List.length_append, List.length_reverse] at hi
    rw [Nat.zero_add]
    simp only [store]
    by_cases hip : i < pre.length
    · rw [if_neg (by omega), if_neg (by omega), if_neg (by omega)]
      rw [List.getD_append _ _ _ _ hip]
      exact hbuf i hip
    · rw [if_pos (by omega), if_neg (by omega), if_pos (by omega)]
      rw [List.getD_append_right _ _ _ _ (by omega)]
      rw [List.getD_eq_getElem?_getD, List.getD_eq_getElem?_getD,
        List.getElem?_reverse (by omega)]
      congr 2
      omega
  · rw [Nat.zero_add, List.length_append, List.length_reverse]
    simp only [store]
    rw [if_neg (by omega)]
    simp
  · rw [List.length_append, List.length_reverse]
    omega

theorem decimalCodes_eq (v : Int) :
    decimalCodes v = (if v < 0 then [45] else []) ++ (lsbCodes v.natAbs).reverse := by
  unfold decimalCodes lsbCodes
  congr 1
  by_cases h : v = 0
  · subst h
    rfl
  · rw [if_neg h, if_neg (by omega), List.map_reverse]

/-- The value `composeString` returns for every value but the least value of a
signed type is the canonical decimal representation. -/
theorem composeString_decimal {t : IntType} (ht : t ∈ instantiatedTypes) (junk : Nat → Nat)
    (v : Int) (hmin : t.minValue ≤ v) (hmax : v ≤ t.maxValue)
    (hne : ¬ (t.signed = true ∧ v = t.minValue)) :
    composeString t junk v = some (decimal v) := by
  unfold composeString decimal
  rw [decimalCodes_eq]
  by_cases hneg : v < 0
  · have hs : t.signed = true := by
      by_contra hs
      have : t.minValue = 0 := by simp [IntType.minValue, hs]
      omega
    have hlt : t.minValue < v := by
      rcases lt_or_eq_of_le hmin with h | h
      · exact h
      · exact absurd ⟨hs, h.symm⟩ hne
    obtain ⟨hn1, hn2⟩ := negate_of_neg ht hs v hlt hneg
    have hv : -v = ((v.natAbs : Nat) : Int) := by omega
    simp only [hneg, decide_True, if_true, hn1]
    rw [hv] at hn2 ⊢
    exact render_natural ht (store junk 0 45) [45] (by simp) (by simp)
      (by intro i hi; simp at hi; subst hi; rfl) v.natAbs hn2
  · have hv : v = ((v.natAbs : Nat) : Int) := by omega
    simp only [hneg, decide_False, if_false, Bool.false_eq_true]
    rw [hv] at hmax
    have := render_natural ht junk [] (by simp) (by simp) (by intro i hi; simp at hi)
      v.natAbs hmax
    rw [← hv] at this
    exact this

theorem decimal_least_8 : decimal (-128) = "-128" := by
  simp [decimal, decimalCodes]

theorem decimal_least_16 : decimal (-32768) = "-32768" := by
  simp [decimal, decimalCodes]

theorem decimal_least_32 : decimal (-2147483648) = "-2147483648" := by
  simp [decimal, decimalCodes]

theorem decimal_least_64 : decimal (-9223372036854775808) = "-9223372036854775808" := by
  simp [decimal, decimalCodes]

/-- For the least value of each signed type the value returned is not the
decimal representation: the negation of line 297 gives the least value again,
and the digits collected from it are the characters that are `value % 10`
places before `'0'`. -/
theorem composeString_least {t : IntType} (ht : t ∈ instantiatedTypes) (hs : t.signed = true)
    (junk : Nat → Nat) :
    ∃ s, composeString t junk t.minValue = some s ∧ s ≠ decimal t.minValue := by
  simp only [instantiatedTypes, List.mem_cons, List.mem_singleton, List.not_mem_nil,
    or_false] at ht
  have h8 : IntType.minValue ⟨8, true⟩ = -128 := by decide
  have h16 : IntType.minValue ⟨16, true⟩ = -32768 := by decide
  have h32 : IntType.minValue ⟨32, true⟩ = -2147483648 := by decide
  have h64 : IntType.minValue ⟨64, true⟩ = -9223372036854775808 := by decide
  rcases ht with rfl | rfl | rfl | rfl | rfl | rfl | rfl | rfl | rfl | rfl <;>
    simp only [Bool.false_eq_true] at hs
  · exact ⟨"-/.(", rfl, by rw [h8, decimal_least_8]; decide⟩
  · exact ⟨"--.)*(", rfl, by rw [h16, decimal_least_16]; decide⟩
  · exact ⟨"-./,),(-*,(", rfl, by rw [h32, decimal_least_32]; decide⟩
  · exact ⟨"-'..--).0-*(+,))+(0(", rfl, by rw [h64, decimal_least_64]; decide⟩
  · exact ⟨"-'..--).0-*(+,))+(0(", rfl, by rw [h64, decimal_least_64]; decide⟩

/-- C26 (`composeString` renders decimal), with the value the claim gets wrong
set apart: for every value `v` of every instantiated integer type,
`composeString` returns the canonical decimal representation of `v` (a leading
`'-'` exactly when `v < 0`, then the digits of `|v|`, most significant first,
without leading zeros, `'0'` for zero), unless `v` is the least value of a
signed type; for the least value of a signed type it returns a string that is
not the decimal representation of `v`. -/
theorem C26_compose_string_decimal_but_least (t : IntType) (ht : t ∈ instantiatedTypes)
    (junk : Nat → Nat) (v : Int) (hmin : t.minValue ≤ v) (hmax : v ≤ t.maxValue) :
    (¬ (t.signed = true ∧ v = t.minValue) → composeString t junk v = some (decimal v)) ∧
    (t.signed = true ∧ v = t.minValue →
      ∃ s, composeString t junk v = some s ∧ s ≠ decimal v) := by
  refine ⟨fun hne => composeString_decimal ht junk v hmin hmax hne, ?_⟩
  rintro ⟨hs, rfl⟩
  exact composeString_least ht hs junk

theorem C26_compose_string_decimal_but_least_witness :
    (⟨8, true⟩ : IntType) ∈ instantiatedTypes ∧
    IntType.minValue ⟨8, true⟩ ≤ -128 ∧ -128 ≤ IntType.maxValue ⟨8, true⟩ ∧
    composeString ⟨8, true⟩ (fun _ => 0) (-128) = some "-/.(" ∧
    (∃ s, composeString ⟨8, true⟩ (fun _ => 0) (-128) = some s ∧ s ≠ decimal (-128)) :=
  ⟨by decide, by decide, by decide, rfl,
    (C26_compose_string_decimal_but_least ⟨8, true⟩ (by decide) (fun _ => 0) (-128)
      (by decide) (by decide)).2 ⟨rfl, by decide⟩⟩

/-! ## Parsing of numbers -/

/-- C38 (numeric parsing is atomic): for every numeric type `T`, every string
`s` and whatever the conversion functions of the C library return, if
`parseString<T>` fails, `value` is exactly what it was before the call; it
fails for the empty string when `allowEmpty` is false, when characters other
than white space are left after the number, and when the number is outside the
range of `T`, also for a value that fits `long` but not a narrower `char`,
`short` or `int` type; for the empty string with `allowEmpty` true it returns
without failing and without changing `value`. -/
theorem C38_numeric_parsing_atomic {F : Type} (lib : CLibrary F) (t : NumericType)
    (s : String) (value : Number F) (allowEmpty : Bool) :
    ParsesAtomically lib t s value allowEmpty := by
  unfold ParsesAtomically
  refine ⟨?_, ?_, ?_, ?_, ?_, ?_⟩
  · intro h
    unfold parseString at h ⊢
    by_cases hs : s = ""
    · rw [if_pos hs]
      split <;> rfl
    · rw [if_neg hs] at h ⊢
      simp only at h ⊢
      split at h
      · rfl
      · exact absurd rfl h
  · intro hs ha
    unfold parseString
    rw [if_pos hs, ha]
    rfl
  · intro hs ht
    unfold parseString
    rw [if_neg hs]
    simp only [ht, if_true]
  · intro hs ht hr
    unfold parseString
    rw [if_neg hs]
    simp only [ht, hr, if_true]
    rfl
  · intro w v hn hv
    cases t <;>
      simp only [narrowValue, Option.some.injEq, Prod.mk.injEq, reduceCtorEq] at hn <;>
      (obtain ⟨rfl, rfl⟩ := hn
       simp only [parse, parseNarrow, Bool.or_eq_true, decide_eq_true_eq]
       exact Or.inr hv)
  · intro hs ha
    unfold parseString
    rw [if_pos hs, ha]
    exact ⟨rfl, rfl⟩

theorem C38_numeric_parsing_atomic_witness :
    ParsesAtomically exampleLibrary .unsignedChar "300" (.integer 7) false ∧
    (parseString exampleLibrary .unsignedChar "300" (.integer 7) false).thrown =
      some .outOfRange :=
  ⟨C38_numeric_parsing_atomic exampleLibrary .unsignedChar "300" (.integer 7) false, rfl⟩

/-! ## Tokens of a stream -/

theorem readChar_none {s : SeekableReadStream} (h : s.data[s.pos]? = none) :
    s.readChar = (kEOF, s) := by
  simp only [SeekableReadStream.readChar, h]

theorem readChar_some {s : SeekableReadStream} {b : Nat} (h : s.data[s.pos]? = some b) :
    s.readChar = (b % 256, { s with pos := s.pos + 1 }) := by
  simp only [SeekableReadStream.readChar, h]

theorem byte_ne_kEOF (b : Nat) : b % 256 ≠ kEOF := by
  have h : b % 256 < 256 := Nat.mod_lt _ (by decide)
  simp only [kEOF]
  omega

theorem charsBetween_self (data : List Nat) (a : Nat) : charsBetween data a a = [] := by
  simp [charsBetween]

theorem charsBetween_cons {data : List Nat} {a e b : Nat} (hb : data[a]? = some b)
    (hlt : a < e) : charsBetween data a e = (b % 256) :: charsBetween data (a + 1) e := by
  obtain ⟨hlen, hget⟩ := List.getElem?_eq_some_iff.mp hb
  have hdrop : data.drop a = b :: data.drop (a + 1) := by
    rw [List.drop_eq_getElem_cons hlen, hget]
  have he : e - a = (e - (a + 1)) + 1 := by omega
  simp only [charsBetween, hdrop, he, List.take_succ_cons, List.map_cons]

theorem getElem?_pos_lt {data : List Nat} {a b : Nat} (hb : data[a]? = some b) :
    a < data.length :=
  (List.getElem?_eq_some_iff.mp hb).1

/-- The first loop does nothing between a state and itself. -/
theorem ReadsToken.stay (tok : StreamTokenizer) (st : TokenState) : ReadsToken tok st st where
  data := rfl
  le := Nat.le_refl _
  contents := ⟨[], List.nil_sublist _, by simp, by simp⟩
  stop := fun h => Or.inl h
  nochunk := fun p b h1 h2 _ => absurd h2 (by omega)
  separator := Or.inl rfl

/-- One character that is no chunk end is read, and the loop goes on. -/
theorem ReadsToken.step {tok : StreamTokenizer} {st st2 st1 : TokenState} {b : Nat}
    (hb : st.stream.data[st.stream.pos]? = some b)
    (hce : isIn (b % 256) tok.chunkEnds = false)
    (hstream : st2.stream = { st.stream with pos := st.stream.pos + 1 })
    (hchunk : st2.chunkEnd = st.chunkEnd)
    (hquote : st2.inQuote = if isIn (b % 256) tok.quotes then !st.inQuote else st.inQuote)
    (hsep : st2.separator = st.separator ∨ st2.separator = b % 256)
    (htok : st2.token = st.token ∨
      (st2.token = st.token ++ [b % 256] ∧ TokenChar tok (b % 256, st.inQuote)))
    (h : ReadsToken tok st2 st1) :
    ReadsToken tok st st1 ∧ st.stream.pos < st1.stream.pos := by
  have hdata := h.data
  have hle := h.le
  rw [hstream] at hdata hle
  simp only at hdata hle
  have hlt : st.stream.pos < st1.stream.pos := by omega
  refine ⟨?_, hlt⟩
  refine ⟨hdata, by omega, ?_, ?_, ?_, ?_⟩
  · obtain ⟨l, hsub, htoken, hchars⟩ := h.contents
    rw [hstream, hquote] at hsub
    simp only at hsub
    rw [charsBetween_cons hb hlt]
    simp only [withQuoteState]
    rcases htok with ht | ⟨ht, hc⟩
    · exact ⟨l, List.Sublist.cons _ hsub, by rw [htoken, ht], hchars⟩
    · refine ⟨(b % 256, st.inQuote) :: l, List.Sublist.cons₂ _ hsub, ?_, ?_⟩
      · rw [htoken, ht]
        simp
      · intro x hx
        rcases List.mem_cons.mp hx with rfl | hx
        · exact hc
        · exact hchars x hx
  · intro hc
    rcases h.stop hc with h1 | h1
    · exact Or.inl (hchunk ▸ h1)
    · exact Or.inr h1
  · intro p c hp1 hp2 hpc
    by_cases hpe : p = st.stream.pos
    · subst hpe
      rw [hb] at hpc
      injection hpc with hpc
      subst hpc
      exact hce
    · refine h.nochunk p c ?_ hp2 ?_
      · rw [hstream]
        simp only
        omega
      · rw [hstream]
        exact hpc
  · rcases h.separator with h1 | h1
    · rcases hsep with h2 | h2
      · exact Or.inl (h1.trans h2)
      · right
        rw [h1, h2]
        exact hce
    · exact Or.inr h1

/-- With enough fuel the first loop of `getToken` ends, and it moves over a
first character that is no chunk end. -/
theorem readToken_spec (tok : StreamTokenizer) :
    ∀ (fuel : Nat) (st : TokenState), st.stream.data.length - st.stream.pos < fuel →
      ∃ st1, readToken tok fuel st = some st1 ∧ ReadsToken tok st st1 ∧
        ∀ b, st.stream.data[st.stream.pos]? = some b → isIn (b % 256) tok.chunkEnds = false →
          st.stream.pos < st1.stream.pos := by
  intro fuel
  induction fuel with
  | zero =>
    intro st h
    omega
  | succ fuel ih =>
    intro st hfuel
    cases hb : st.stream.data[st.stream.pos]? with
    | none =>
      refine ⟨st, ?_, ReadsToken.stay tok st, fun b h => ?_⟩
      · simp only [readToken, readChar_none hb, if_true]
      · exact absurd h (by simp)
    | some b =>
      have hlen := getElem?_pos_lt hb
      have hne := byte_ne_kEOF b
      simp only [readToken, readChar_some hb, if_neg hne]
      by_cases hce : isIn (b % 256) tok.chunkEnds = true
      · simp only [hce, if_true]
        refine ⟨_, rfl, ?_, fun c hc hcf => ?_⟩
        · refine ⟨rfl, ?_, ⟨[], List.nil_sublist _, by simp, by simp⟩, fun _ => ?_, ?_, Or.inl rfl⟩
          · simp [SeekableReadStream.seekBack]
          · right
            refine ⟨b, ?_, hce⟩
            simpa [SeekableReadStream.seekBack] using hb
          · intro p c h1 h2
            simp only [SeekableReadStream.seekBack] at h2
            omega
        · injection hc with hc
          subst hc
          rw [hce] at hcf
          exact absurd hcf (by simp)
      · have hcf : isIn (b % 256) tok.chunkEnds = false := by simpa using hce
        simp only [hcf, Bool.false_eq_true, if_false]
        have hnext : ∀ (st2 : TokenState),
            st2.stream = { st.stream with pos := st.stream.pos + 1 } →
            st2.chunkEnd = st.chunkEnd →
            (st2.inQuote = if isIn (b % 256) tok.quotes then !st.inQuote else st.inQuote) →
            (st2.separator = st.separator ∨ st2.separator = b % 256) →
            (st2.token = st.token ∨
              (st2.token = st.token ++ [b % 256] ∧ TokenChar tok (b % 256, st.inQuote))) →
            ∃ st1, readToken tok fuel st2 = some st1 ∧ ReadsToken tok st st1 ∧
              ∀ c, some b = some c → isIn (c % 256) tok.chunkEnds = false →
                st.stream.pos < st1.stream.pos := by
          intro st2 h1 h2 h3 h4 h5
          obtain ⟨st1, hr, hreads, _⟩ := ih st2 (by rw [h1]; simp only; omega)
          obtain ⟨hres, hlt⟩ := ReadsToken.step hb hcf h1 h2 h3 h4 h5 hreads
          exact ⟨st1, hr, hres, fun _ _ _ => hlt⟩
        have hstop : ∀ (st2 : TokenState),
            st2.stream = { st.stream with pos := st.stream.pos + 1 } →
            st2.chunkEnd = st.chunkEnd →
            (st2.inQuote = if isIn (b % 256) tok.quotes then !st.inQuote else st.inQuote) →
            (st2.separator = st.separator ∨ st2.separator = b % 256) →
            (st2.token = st.token ∨
              (st2.token = st.token ++ [b % 256] ∧ TokenChar tok (b % 256, st.inQuote))) →
            ∃ st1, some st2 = some st1 ∧ ReadsToken tok st st1 ∧
              ∀ c, some b = some c → isIn (c % 256) tok.chunkEnds = false →
                st.stream.pos < st1.stream.pos := by
          intro st2 h1 h2 h3 h4 h5
          obtain ⟨hres, hlt⟩ := ReadsToken.step hb hcf h1 h2 h3 h4 h5 (ReadsToken.stay tok st2)
          exact ⟨st2, rfl, hres, fun _ _ _ => hlt⟩
        by_cases hq : isIn (b % 256) tok.quotes = true
        · simp only [hq, if_true]
          exact hnext _ rfl rfl (by simp [hq]) (Or.inl rfl) (Or.inl rfl)
        · have hqf : isIn (b % 256) tok.quotes = false := by simpa using hq
          simp only [hqf, Bool.false_eq_true, if_false]
          by_cases hs : (!st.inQuote && isIn (b % 256) tok.separators) = true
          · simp only [hs, if_true]
            split
            · exact hstop _ rfl rfl (by simp [hqf]) (Or.inr rfl) (Or.inl rfl)
            · split
              · exact hstop _ rfl rfl (by simp [hqf]) (Or.inr rfl) (Or.inl rfl)
              · split
                · exact hstop _ rfl rfl (by simp [hqf]) (Or.inr rfl) (Or.inl rfl)
                · exact hnext _ rfl rfl (by simp [hqf]) (Or.inr rfl) (Or.inl rfl)
          · simp only [hs, Bool.false_eq_true, if_false]
            by_cases hi : isIn (b % 256) tok.ignores = true
            · simp only [hi, if_true]
              exact hnext _ rfl rfl (by simp [hqf]) (Or.inl rfl) (Or.inl rfl)
            · have hif : isIn (b % 256) tok.ignores = false := by simpa using hi
              simp only [hif, Bool.false_eq_true, if_false]
              refine hnext _ rfl rfl (by simp [hqf]) (Or.inl rfl) (Or.inr ⟨rfl, hcf, hqf, hif, ?_⟩)
              intro hsep
              simp only [hsep, Bool.and_true, Bool.not_eq_true', Bool.not_eq_false] at hs
              exact hs

/-- With enough fuel the second loop of `getToken` ends; a character that it
passes over is the separator of the token under the rule `kRuleIgnoreSame`, and
a separator under the rule `kRuleIgnoreAll`. -/
theorem skipSeparators_spec (tok : StreamTokenizer) (separator : Nat) :
    ∀ (fuel : Nat) (s : SeekableReadStream), s.data.length - s.pos < fuel →
      ∃ s1, skipSeparators tok separator fuel s = some s1 ∧ s1.data = s.data ∧
        s.pos ≤ s1.pos ∧
        ∀ (p b : Nat), s.pos ≤ p → p < s1.pos → s.data[p]? = some b →
          (tok.conSepRule = .kRuleIgnoreSame → b % 256 = separator) ∧
          (tok.conSepRule = .kRuleIgnoreAll → isIn (b % 256) tok.separators = true) := by
  intro fuel
  induction fuel with
  | zero =>
    intro s h
    omega
  | succ fuel ih =>
    intro s hfuel
    cases hb : s.data[s.pos]? with
    | none =>
      refine ⟨s, ?_, rfl, Nat.le_refl _, fun p b h1 h2 => absurd h2 (by omega)⟩
      simp only [skipSeparators, readChar_none hb, if_true]
    | some b =>
      have hlen := getElem?_pos_lt hb
      have hne := byte_ne_kEOF b
      simp only [skipSeparators, readChar_some hb, if_neg hne]
      split
      · refine ⟨_, rfl, rfl, ?_, fun p c h1 h2 => ?_⟩
        · simp [SeekableReadStream.seekBack]
        · simp only [SeekableReadStream.seekBack] at h2
          omega
      · rename_i hcont
        obtain ⟨s1, hr, hdata, hle, hpass⟩ :=
          ih { s with pos := s.pos + 1 } (by simp only; omega)
        simp only at hdata hle hpass
        refine ⟨s1, hr, hdata, by omega, fun p c h1 h2 hc => ?_⟩
        by_cases hpe : p = s.pos
        · subst hpe
          rw [hb] at hc
          injection hc with hc
          subst hc
          constructor
          · intro hrule
            by_contra hsep
            exact hcont (Or.inl ⟨hrule, hsep⟩)
          · intro hrule
            by_contra hsep
            exact hcont (Or.inr ⟨hrule, by simpa using hsep⟩)
        · exact hpass p c (by omega) h2 hc

theorem clearEmpty_cases (token : List Nat) : clearEmpty token = [] ∨ clearEmpty token = token := by
  unfold clearEmpty
  split
  · exact Or.inl rfl
  · exact Or.inr rfl

/-- With enough fuel `getToken` returns; the token has the contents that
`TokenContents` states, and the stream has moved over a first character that is
no chunk end. -/
theorem getToken_spec (tok : StreamTokenizer) (fuel : Nat) (s : SeekableReadStream)
    (hfuel : s.data.length - s.pos < fuel) :
    ∃ st token s1, readToken tok fuel (TokenState.init s) = some st ∧
      getToken tok fuel s = some (token, s1) ∧ TokenContents tok s st token s1 ∧
      s1.data = s.data ∧ s.pos ≤ s1.pos ∧
      ∀ b, s.data[s.pos]? = some b → isIn (b % 256) tok.chunkEnds = false → s.pos < s1.pos := by
  obtain ⟨st, hr, hreads, hprog⟩ := readToken_spec tok fuel (TokenState.init s) hfuel
  have hdata : st.stream.data = s.data := hreads.data
  have hle : s.pos ≤ st.stream.pos := hreads.le
  have hquoted : ∃ l : List (Nat × Bool),
      l.Sublist (withQuoteState tok false (charsBetween s.data s.pos st.stream.pos)) ∧
      clearEmpty st.token = l.map Prod.fst ∧ ∀ x, x ∈ l → TokenChar tok x := by
    obtain ⟨l, hsub, htoken, hchars⟩ := hreads.contents
    rcases clearEmpty_cases st.token with hc | hc
    · exact ⟨[], List.nil_sublist _, by simp [hc], by simp⟩
    · refine ⟨l, hsub, ?_, hchars⟩
      rw [hc, htoken]
      simp [TokenState.init]
  have hplain : ∀ c, c ∈ clearEmpty st.token → isIn c tok.chunkEnds = false ∧
      isIn c tok.quotes = false ∧ isIn c tok.ignores = false := by
    obtain ⟨l, _, htoken, hchars⟩ := hquoted
    intro c hc
    rw [htoken] at hc
    obtain ⟨x, hx, rfl⟩ := List.mem_map.mp hc
    exact ⟨(hchars x hx).1, (hchars x hx).2.1, (hchars x hx).2.2.1⟩
  have hstop : st.chunkEnd = true →
      ∃ b, st.stream.data[st.stream.pos]? = some b ∧ isIn (b % 256) tok.chunkEnds = true := by
    intro hc
    rcases hreads.stop hc with h1 | h1
    · simp [TokenState.init] at h1
    · exact h1
  have hsep : st.separator = 0xFFFFFFFF ∨ isIn st.separator tok.chunkEnds = false := by
    rcases hreads.separator with h1 | h1
    · exact Or.inl h1
    · exact Or.inr h1
  by_cases hskip : st.chunkEnd = false ∧ tok.conSepRule ≠ .kRuleHeed
  · obtain ⟨s1, hs, hdata1, hle1, hpass⟩ :=
      skipSeparators_spec tok st.separator fuel st.stream (by rw [hdata]; omega)
    refine ⟨st, clearEmpty st.token, s1, hr, ?_, ⟨hplain, hquoted, ?_, ?_⟩, hdata1.trans hdata,
      by omega, fun b hb hce => ?_⟩
    · simp only [getToken, hr, if_pos hskip, hs]
    · intro hc
      rw [hskip.1] at hc
      exact absurd hc (by simp)
    · intro p b hp1 hp2 hb hce
      by_cases hlt : p < st.stream.pos
      · have := hreads.nochunk p b hp1 hlt hb
        rw [hce] at this
        exact absurd this (by simp)
      · obtain ⟨hsame, hall⟩ := hpass p b (by omega) hp2 (by rw [hdata]; exact hb)
        have hrule : tok.conSepRule = .kRuleIgnoreAll := by
          cases hcr : tok.conSepRule with
          | kRuleHeed => exact absurd hcr hskip.2
          | kRuleIgnoreAll => rfl
          | kRuleIgnoreSame =>
            exfalso
            have heq := hsame hcr
            rcases hsep with h1 | h1
            · have hlt256 : b % 256 < 256 := Nat.mod_lt _ (by decide)
              omega
            · rw [← heq, hce] at h1
              exact absurd h1 (by simp)
        exact ⟨hrule, hall hrule, by omega⟩
    · have := hprog b hb hce
      simp only [TokenState.init] at this
      omega
  · refine ⟨st, clearEmpty st.token, st.stream, hr, ?_, ⟨hplain, hquoted, ?_, ?_⟩, hdata,
      hle, fun b hb hce => ?_⟩
    · simp only [getToken, hr, if_neg hskip]
    · intro hc
      exact ⟨rfl, hstop hc⟩
    · intro p b hp1 hp2 hb hce
      have := hreads.nochunk p b hp1 hp2 hb
      rw [hce] at this
      exact absurd this (by simp)
    · exact hprog b hb hce

/-- C37 (contents of a token): for every stream and every tokenizer, with
enough fuel, `getToken` returns a token that contains no chunk-end character, no
quote character and no ignored character; the characters of the token are
characters that the first loop has read, in the order of the stream, and a
separator among them was read inside quotes; when the first loop stops at a
chunk-end character (`chunkEnd` is set), the stream is positioned on that
character after the call.  A chunk-end character is passed over only by the
second loop, under the rule `kRuleIgnoreAll`, when it is a separator too. -/
theorem C37_token_contents (tok : StreamTokenizer) (fuel : Nat) (s : SeekableReadStream)
    (hfuel : s.data.length - s.pos < fuel) :
    ∃ st token s1, readToken tok fuel (TokenState.init s) = some st ∧
      getToken tok fuel s = some (token, s1) ∧ TokenContents tok s st token s1 := by
  obtain ⟨st, token, s1, h1, h2, h3, _⟩ := getToken_spec tok fuel s hfuel
  exact ⟨st, token, s1, h1, h2, h3⟩

theorem C37_token_contents_witness :
    exampleLine.data.length - exampleLine.pos < 20 ∧
    getToken exampleTokenizer 20 exampleLine = some ([97, 32, 98], { exampleLine with pos := 7 }) ∧
    ∃ st token s1, readToken exampleTokenizer 20 (TokenState.init exampleLine) = some st ∧
      getToken exampleTokenizer 20 exampleLine = some (token, s1) ∧
      TokenContents exampleTokenizer exampleLine st token s1 :=
  ⟨by decide, by decide, C37_token_contents exampleTokenizer 20 exampleLine (by decide)⟩

/-! ## Token lists of a stream -/

theorem isChunkEnd_stream (tok : StreamTokenizer) (s : SeekableReadStream) :
    isChunkEnd tok s = ((isChunkEnd tok s).1, s) := by
  cases hb : s.data[s.pos]? with
  | none => simp only [isChunkEnd, readChar_none hb, if_true]
  | some b =>
    simp only [isChunkEnd, readChar_some hb, if_neg (byte_ne_kEOF b)]
    cases s
    simp [SeekableReadStream.seekBack]

theorem isChunkEnd_false {tok : StreamTokenizer} {s : SeekableReadStream}
    (h : (isChunkEnd tok s).1 = false) :
    ∃ b, s.data[s.pos]? = some b ∧ isIn (b % 256) tok.chunkEnds = false := by
  cases hb : s.data[s.pos]? with
  | none =>
    simp only [isChunkEnd, readChar_none hb, if_true] at h
    exact absurd h (by simp)
  | some b =>
    simp only [isChunkEnd, readChar_some hb, if_neg (byte_ne_kEOF b)] at h
    exact ⟨b, rfl, h⟩

/-- With enough iterations and enough fuel the first loop of `getTokens` ends:
it appends the tokens read to the list and counts them. -/
theorem tokensLoop_spec (tok : StreamTokenizer) (fuel max : Nat) :
    ∀ (n : Nat) (s : SeekableReadStream) (list : List (List Nat)) (count : Nat),
      s.data.length - s.pos < n → s.data.length - s.pos < fuel → count ≤ max →
      ∃ added s1, tokensLoop tok fuel max n s list count
          = some (count + added.length, list ++ added, s1) ∧
        count + added.length ≤ max ∧ ReadsTokens tok fuel s added s1 ∧
        ((isChunkEnd tok s1).1 = true ∨ count + added.length = max) ∧
        (tok.conSepRule = .kRuleIgnoreAll → ∀ t, t ∈ added → t ≠ []) := by
  intro n
  induction n with
  | zero =>
    intro s list count h
    omega
  | succ n ih =>
    intro s list count hn hfuel hcount
    unfold tokensLoop
    rw [isChunkEnd_stream tok s]
    simp only
    by_cases hgo : (isChunkEnd tok s).1 = false ∧ count < max
    · rw [if_pos hgo]
      obtain ⟨b, hb, hce⟩ := isChunkEnd_false hgo.1
      obtain ⟨st, token, s1, _, hget, _, hdata, _, hprog⟩ := getToken_spec tok fuel s hfuel
      have hlt := hprog b hb hce
      have hlen := getElem?_pos_lt hb
      simp only [hget]
      by_cases hkeep : token ≠ [] ∨ tok.conSepRule ≠ .kRuleIgnoreAll
      · rw [if_pos hkeep]
        obtain ⟨added, s2, hr, hle, hreads, hstop, hne⟩ :=
          ih s1 (list ++ [token]) (count + 1) (by rw [hdata]; omega) (by rw [hdata]; omega)
            (by omega)
        refine ⟨token :: added, s2, ?_, ?_, ReadsTokens.keep hgo.1 hget hkeep hreads, ?_, ?_⟩
        · rw [hr]
          simp only [List.length_cons, List.append_assoc, List.singleton_append]
          congr 2
          omega
        · simp only [List.length_cons]
          omega
        · simp only [List.length_cons]
          rcases hstop with h1 | h1
          · exact Or.inl h1
          · right
            omega
        · intro hrule t ht
          rcases List.mem_cons.mp ht with rfl | ht
          · rcases hkeep with h1 | h1
            · exact h1
            · exact absurd hrule h1
          · exact hne hrule t ht
      · rw [if_neg hkeep]
        have hempty : token = [] := by
          by_contra hc
          exact hkeep (Or.inl hc)
        have hrule : tok.conSepRule = .kRuleIgnoreAll := by
          by_contra hc
          exact hkeep (Or.inr hc)
        subst hempty
        obtain ⟨added, s2, hr, hle, hreads, hstop, hne⟩ :=
          ih s1 list count (by rw [hdata]; omega) (by rw [hdata]; omega) hcount
        exact ⟨added, s2, hr, hle, ReadsTokens.drop hgo.1 hget hrule hreads, hstop, hne⟩
    · rw [if_neg hgo]
      refine ⟨[], s, by simp, by simpa using hcount, ReadsTokens.done s, ?_, by simp⟩
      by_cases hce : (isChunkEnd tok s).1 = true
      · exact Or.inl hce
      · right
        have : (isChunkEnd tok s).1 = false := by simpa using hce
        simp only [List.length_nil, Nat.add_zero]
        by_contra hne
        exact hgo ⟨this, by omega⟩

/-- C36 (count and padding of `getTokens`): for every stream, every tokenizer
and `min ≤ max`, with enough fuel, `getTokens` returns a count `c ≤ max` and
leaves a list of exactly `max(c, min)` entries; the first `c` entries are the
tokens read in the order of the stream, the other entries are `def`; the
previous contents of the list do not matter (the result is the one for the
empty list); and under the rule `kRuleIgnoreAll` none of the first `c` entries
is an empty token. -/
theorem C36_get_tokens_count_and_padding (tok : StreamTokenizer) (fuel : Nat)
    (s : SeekableReadStream) (list : List (List Nat)) (min max : Nat) (defaultToken : List Nat)
    (hmm : min ≤ max) (hfuel : s.data.length - s.pos < fuel) :
    ∃ c out s1, getTokens tok fuel s list min max defaultToken = some (c, out, s1) ∧
      getTokens tok fuel s [] min max defaultToken = some (c, out, s1) ∧
      TokensResult tok fuel s min max defaultToken c out s1 := by
  obtain ⟨added, s1, hr, hle, hreads, hstop, hne⟩ :=
    tokensLoop_spec tok fuel max fuel s [] 0 hfuel hfuel (Nat.zero_le _)
  simp only [Nat.zero_add, List.nil_append] at hr hle hstop
  have hnot : ¬ max < min := by omega
  have htake : (padTokens added min defaultToken).take added.length = added := by
    simp [padTokens]
  refine ⟨added.length, padTokens added min defaultToken, s1, ?_, ?_, ⟨hle, ?_, ?_, hstop, ?_, ?_⟩⟩
  · simp only [getTokens, if_neg hnot, clear, hr]
  · simp only [getTokens, if_neg hnot, clear, hr]
  · simp only [padTokens, List.length_append, List.length_replicate]
    omega
  · rw [htake]
    exact hreads
  · intro k hk1 hk2
    simp only [padTokens, List.length_append, List.length_replicate] at hk2
    simp only [padTokens]
    rw [List.getElem?_append_right hk1, List.getElem?_replicate]
    rw [if_pos (by omega)]
  · intro hrule t ht
    rw [htake] at ht
    exact hne hrule t ht

theorem C36_get_tokens_count_and_padding_witness :
    (3 ≤ 5 ∧ exampleLine.data.length - exampleLine.pos < 20) ∧
    getTokens exampleTokenizer 20 exampleLine [[1]] 3 5 [63] =
      some (2, [[97, 32, 98], [99], [63]], { exampleLine with pos := 9 }) ∧
    ∃ c out s1, getTokens exampleTokenizer 20 exampleLine [[1]] 3 5 [63] = some (c, out, s1) ∧
      getTokens exampleTokenizer 20 exampleLine [] 3 5 [63] = some (c, out, s1) ∧
      TokensResult exampleTokenizer 20 exampleLine 3 5 [63] c out s1 :=
  ⟨⟨by decide, by decide⟩, by decide,
    C36_get_tokens_count_and_padding exampleTokenizer 20 exampleLine [[1]] 3 5 [63] (by decide)
      (by decide)⟩

end Common

namespace Aurora

/-! ## Size of an ITEX image -/

theorem readByte_ok {s : ReadStream} (h : s.pos + 1 ≤ s.data.length) :
    ∃ b, s.readByte = .ok (b, { s with pos := s.pos + 1 }) := by
  unfold ReadStream.readByte
  rw [List.getElem?_eq_getElem (by omega)]
  exact ⟨_, rfl⟩

theorem readByte_inv {s s1 : ReadStream} {b : Nat} (h : s.readByte = .ok (b, s1)) :
    s1.pos = s.pos + 1 ∧ s1.data = s.data := by
  unfold ReadStream.readByte at h
  cases hd : s.data[s.pos]? with
  | none => simp [hd] at h
  | some x =>
    simp only [hd, Except.ok.injEq, Prod.mk.injEq] at h
    rw [← h.2]
    exact ⟨rfl, rfl⟩

theorem readUint16_ok {s : ReadStream} (h : s.pos + 2 ≤ s.data.length) :
    ∃ b, s.readUint16 = .ok (b, { s with pos := s.pos + 2 }) := by
  unfold ReadStream.readUint16
  rw [List.getElem?_eq_getElem (by omega), List.getElem?_eq_getElem (by omega)]
  exact ⟨_, rfl⟩

theorem readUint16_inv {s s1 : ReadStream} {b : Nat} (h : s.readUint16 = .ok (b, s1)) :
    s1.pos = s.pos + 2 ∧ s1.data = s.data := by
  unfold ReadStream.readUint16 at h
  cases hd : s.data[s.pos]? with
  | none => simp [hd] at h
  | some x =>
    cases hd1 : s.data[s.pos + 1]? with
    | none => simp [hd, hd1] at h
    | some y =>
      simp only [hd, hd1, Except.ok.injEq, Prod.mk.injEq] at h
      rw [← h.2]
      exact ⟨rfl, rfl⟩

theorem writePixel_length (stream : List Nat) (r g b a : Nat) :
    (writePixel stream r g b a).length = stream.length + 4 := by
  simp [writePixel, writeByte]

theorem unpackPixels_length (texture : Texture) (palette : Nat → Nat) (bits mask : Nat) :
    ∀ (count pixels : Nat) (stream : List Nat),
      (unpackPixels texture palette bits mask count pixels stream).length =
        stream.length + 4 * count := by
  intro count
  induction count with
  | zero => intro pixels stream; rfl
  | succ count ih =>
    intro pixels stream
    unfold unpackPixels
    simp only
    rw [ih, writePixel_length]
    omega

/-- A body that reads one byte and writes `c` bytes. -/
theorem moves_of_readByte {body : Streams → Except Error Streams} {c : Nat}
    (f : Nat → List Nat → List Nat)
    (hbody : ∀ st, body st =
      match st.nsbtx.readByte with
      | .error e => .error e
      | .ok (pixel, nsbtx) => .ok { nsbtx := nsbtx, stream := f pixel st.stream })
    (hf : ∀ pixel stream, (f pixel stream).length = stream.length + c) :
    Moves body 1 c := by
  intro st
  refine ⟨fun h => ?_, fun st1 h => ?_⟩
  · obtain ⟨b, hb⟩ := readByte_ok h
    rw [hbody, hb]
    exact ⟨_, rfl⟩
  · rw [hbody] at h
    cases hr : st.nsbtx.readByte with
    | error e => simp [hr] at h
    | ok p =>
      obtain ⟨b, s1⟩ := p
      simp only [hr, Except.ok.injEq] at h
      obtain ⟨h1, h2⟩ := readByte_inv hr
      rw [← h]
      exact ⟨h1, h2, hf _ _⟩

theorem step2bpp_moves (texture : Texture) (palette : Nat → Nat) :
    Moves (step2bpp texture palette) 1 16 :=
  moves_of_readByte (fun pixels stream => unpackPixels texture palette 2 3 4 pixels stream)
    (fun _ => rfl) (fun _ _ => unpackPixels_length _ _ _ _ _ _ _)

theorem step4bpp_moves (texture : Texture) (palette : Nat → Nat) :
    Moves (step4bpp texture palette) 1 8 :=
  moves_of_readByte (fun pixels stream => unpackPixels texture palette 4 15 2 pixels stream)
    (fun _ => rfl) (fun _ _ => unpackPixels_length _ _ _ _ _ _ _)

theorem step8bpp_moves (texture : Texture) (palette : Nat → Nat) :
    Moves (step8bpp texture palette) 1 4 :=
  moves_of_readByte
    (fun pixel stream => writePixel stream (palette (pixel * 3 + 0)) (palette (pixel * 3 + 1))
      (palette (pixel * 3 + 2)) (if texture.alpha ∧ pixel = 0 then 0 else 255))
    (fun _ => rfl) (fun _ _ => writePixel_length _ _ _ _ _)

theorem stepA3I5_moves (palette : Nat → Nat) : Moves (stepA3I5 palette) 1 4 :=
  moves_of_readByte
    (fun pixel stream => writePixel stream (palette ((pixel &&& 31) * 3 + 0))
      (palette ((pixel &&& 31) * 3 + 1)) (palette ((pixel &&& 31) * 3 + 2))
      (((((pixel >>> 5) <<< 2) + (pixel >>> 6)) <<< 3) % 256))
    (fun _ => rfl) (fun _ _ => writePixel_length _ _ _ _ _)

theorem stepA5I3_moves (palette : Nat → Nat) : Moves (stepA5I3 palette) 1 4 :=
  moves_of_readByte
    (fun pixel stream => writePixel stream (palette ((pixel &&& 7) * 3 + 0))
      (palette ((pixel &&& 7) * 3 + 1)) (palette ((pixel &&& 7) * 3 + 2))
      (((pixel >>> 3) <<< 3) % 256))
    (fun _ => rfl) (fun _ _ => writePixel_length _ _ _ _ _)

theorem step16bpp_moves : Moves step16bpp 2 4 := by
  intro st
  refine ⟨fun h => ?_, fun st1 h => ?_⟩
  · obtain ⟨b, hb⟩ := readUint16_ok h
    unfold step16bpp
    rw [hb]
    exact ⟨_, rfl⟩
  · unfold step16bpp at h
    cases hr : st.nsbtx.readUint16 with
    | error e => simp [hr] at h
    | ok p =>
      obtain ⟨b, s1⟩ := p
      simp only [hr, Except.ok.injEq] at h
      obtain ⟨h1, h2⟩ := readUint16_inv hr
      rw [← h]
      exact ⟨h1, h2, writePixel_length _ _ _ _ _⟩

/-- A loop of `k` iterations reads and writes `k` times what its body does. -/
theorem forLoop_moves {body : Streams → Except Error Streams} {r c : Nat}
    (hbody : Moves body r c) {bound step : Nat} (hstep : 0 < step) :
    ∀ (fuel x k : Nat), bound = x + k * step → k ≤ fuel →
      Moves (forLoop bound step body fuel x) (r * k) (c * k) := by
  intro fuel
  induction fuel with
  | zero =>
    intro x k hk hf st
    have hk0 : k = 0 := by omega
    subst hk0
    unfold forLoop
    rw [if_neg (by omega)]
    refine ⟨fun _ => ⟨st, rfl⟩, fun st1 h => ?_⟩
    simp only [Except.ok.injEq] at h
    subst h
    simp
  | succ fuel ih =>
    intro x k hk hf st
    unfold forLoop
    rcases Nat.eq_zero_or_pos k with hk0 | hkpos
    · subst hk0
      rw [if_neg (by omega)]
      refine ⟨fun _ => ⟨st, rfl⟩, fun st1 h => ?_⟩
      simp only [Except.ok.injEq] at h
      subst h
      simp
    · obtain ⟨k1, rfl⟩ : ∃ k1, k = k1 + 1 := ⟨k - 1, by omega⟩
      have hlt : x < bound := by
        rw [hk, Nat.add_mul]
        omega
      rw [if_pos hlt]
      have hk1 : bound = x + step + k1 * step := by
        rw [hk, Nat.add_mul]
        omega
      have hm := ih (x + step) k1 hk1 (by omega)
      refine ⟨fun h => ?_, fun st2 h => ?_⟩
      · rw [Nat.mul_add, Nat.mul_one] at h
        obtain ⟨st1, hst1⟩ := (hbody st).1 (by omega)
        obtain ⟨h1, h2, _⟩ := (hbody st).2 st1 hst1
        rw [hst1]
        exact (hm st1).1 (by rw [h1, h2]; omega)
      · cases hb : body st with
        | error e => simp [hb] at h
        | ok st1 =>
          simp only [hb] at h
          obtain ⟨h1, h2, h3⟩ := (hbody st).2 st1 hb
          obtain ⟨h4, h5, h6⟩ := (hm st1).2 st2 h
          refine ⟨?_, by rw [h5, h2], ?_⟩
          · rw [h4, h1, Nat.mul_add]
            omega
          · rw [h6, h3, Nat.mul_add]
            omega

theorem pixelLoops_moves {body : Streams → Except Error Streams} {r c : Nat}
    (hbody : Moves body r c) (texture : Texture) {step : Nat} (hstep : 0 < step) (k : Nat)
    (hk : texture.width = k * step) :
    Moves (pixelLoops texture step body) (r * k * texture.height) (c * k * texture.height) := by
  unfold pixelLoops
  have hrow : Moves (forLoop texture.width step body texture.width 0) (r * k) (c * k) :=
    forLoop_moves hbody hstep texture.width 0 k (by omega) (by
      rw [hk]
      exact Nat.le_mul_of_pos_right k hstep)
  exact forLoop_moves hrow Nat.one_pos texture.height 0 texture.height (by omega) (le_refl _)

/-- What `getTexture` reads and writes for a texture whose width is a multiple
of four. -/
theorem getTexture_moves (texture : Texture) (palette : Nat → Nat) (k : Nat)
    (hk : texture.width = k * 4) (hf : texture.format.supported = true) (st : Streams) :
    (texture.offset + textureBytes texture ≤ st.nsbtx.data.length →
      ∃ st1, getTexture texture palette st = .ok st1) ∧
    ∀ st1, getTexture texture palette st = .ok st1 →
      st1.stream.length = st.stream.length + texture.width * texture.height * 4 := by
  unfold getTexture ReadStream.seek
  by_cases hle : texture.offset ≤ st.nsbtx.data.length
  · rw [if_pos hle]
    simp only
    have key : ∀ (body : Streams → Except Error Streams) (r c step j : Nat),
        Moves body r c → 0 < step → texture.width = j * step →
        r * j * texture.height = textureBytes texture →
        c * j * texture.height = texture.width * texture.height * 4 →
        (texture.offset + textureBytes texture ≤ st.nsbtx.data.length →
          ∃ st1, pixelLoops texture step body
            ⟨{ st.nsbtx with pos := texture.offset }, st.stream⟩ = .ok st1) ∧
        ∀ st1, pixelLoops texture step body
            ⟨{ st.nsbtx with pos := texture.offset }, st.stream⟩ = .ok st1 →
          st1.stream.length = st.stream.length + texture.width * texture.height * 4 := by
      intro body r c step j hb hs hj hr hc
      have hm := pixelLoops_moves hb texture hs j hj
      refine ⟨fun h => ?_, fun st1 h => ?_⟩
      · exact (hm _).1 (by simp only; rw [hr]; exact h)
      · have := ((hm _).2 st1 h).2.2
        rw [this, hc]
    cases hfm : texture.format with
    | kFormatA3I5 =>
      exact key _ 1 4 1 texture.width (stepA3I5_moves palette) Nat.one_pos (by omega)
        (by simp only [textureBytes, hfm]; ring) (by ring)
    | kFormat2bpp =>
      exact key _ 1 16 4 k (step2bpp_moves texture palette) (by decide) hk
        (by simp only [textureBytes, hfm, hk]; rw [Nat.mul_div_cancel _ (by decide)]; ring)
        (by rw [hk]; ring)
    | kFormat4bpp =>
      exact key _ 1 8 2 (k * 2) (step4bpp_moves texture palette) (by decide) (by omega)
        (by
          simp only [textureBytes, hfm, hk]
          have : k * 4 / 2 = k * 2 := by omega
          rw [this]
          ring)
        (by rw [hk]; ring)
    | kFormat8bpp =>
      exact key _ 1 4 1 texture.width (step8bpp_moves texture palette) Nat.one_pos (by omega)
        (by simp only [textureBytes, hfm]; ring) (by ring)
    | kFormatA5I3 =>
      exact key _ 1 4 1 texture.width (stepA5I3_moves palette) Nat.one_pos (by omega)
        (by simp only [textureBytes, hfm]; ring) (by ring)
    | kFormat16bpp =>
      exact key _ 2 4 1 texture.width step16bpp_moves Nat.one_pos (by omega)
        (by simp only [textureBytes, hfm]; ring) (by ring)
    | kFormatOther n =>
      rw [hfm] at hf
      exact absurd hf (by simp [Format.supported])
  · rw [if_neg hle]
    refine ⟨fun h => ?_, fun st1 h => ?_⟩
    · omega
    · simp at h

theorem shift_le_1024 {k : Nat} (hk : k ≤ 7) :
    8 <<< k ≤ 1024 ∧ 8 <<< k = (2 <<< k) * 4 := by
  interval_cases k <;> decide

/-- The widths and heights `readTextures` produces are `8 << k` with `k ≤ 7`. -/
theorem readTexture_dims (textureDataOffset offsetWord flags unknown : Nat) :
    ∃ kx ky, kx ≤ 7 ∧ ky ≤ 7 ∧
      (readTexture textureDataOffset offsetWord flags unknown).width = 8 <<< kx ∧
      (readTexture textureDataOffset offsetWord flags unknown).height = 8 <<< ky := by
  have hx : (flags >>> 4) &&& 7 ≤ 7 := Nat.and_le_right
  have hy : (flags >>> 7) &&& 7 ≤ 7 := Nat.and_le_right
  refine ⟨(flags >>> 4) &&& 7, (flags >>> 7) &&& 7, hx, hy, ?_, ?_⟩
  · have h0 : 8 <<< ((flags >>> 4) &&& 7) ≠ 0 := by
      rw [Nat.shiftLeft_eq]
      positivity
    simp only [readTexture, if_neg h0]
  · have h0 : 8 <<< ((flags >>> 7) &&& 7) ≠ 0 := by
      rw [Nat.shiftLeft_eq]
      positivity
    simp only [readTexture, if_neg h0]

/-- C27 (ITEX size agreement): for every texture whose width and height are
`8 << k` with `0 ≤ k ≤ 7`, as `readTextures` produces them, and whose format
is one of 2bpp, 4bpp, 8bpp, 16bpp, A3I5 and A5I3, `getITEXSize` is
`37 + width * height * 4`, `writeITEXHeader` writes 37 bytes, the last field
of the header is `width * height * 4`, and the bytes written by
`writeITEXHeader` followed by `getTexture` are as many as `getITEXSize` says
(`getTexture` returns when the file holds the bytes of the texture). -/
theorem C27_itex_size_agreement (texture : Texture) (palette : Nat → Nat)
    (nsbtx : ReadStream) (kx ky : Nat) (hkx : kx ≤ 7) (hky : ky ≤ 7)
    (hw : texture.width = 8 <<< kx) (hh : texture.height = 8 <<< ky)
    (hf : texture.format.supported = true) : ITEXSizeAgrees texture palette nsbtx := by
  obtain ⟨hw1, hw2⟩ := shift_le_1024 hkx
  obtain ⟨hh1, _⟩ := shift_le_1024 hky
  rw [← hw] at hw1 hw2
  rw [← hh] at hh1
  have hmul : texture.width * texture.height ≤ 1024 * 1024 := Nat.mul_le_mul hw1 hh1
  have hlt : texture.width * texture.height * 4 < 2 ^ 32 := by
    have : (2 : Nat) ^ 32 = 4294967296 := by norm_num
    omega
  have hlen : (writeITEXHeader texture []).length = 37 := by
    simp [writeITEXHeader, writeUint32BE, writeUint32LE, writeByte]
  have hm := getTexture_moves texture palette (2 <<< kx) hw2 hf
    ⟨nsbtx, writeITEXHeader texture []⟩
  have hsize : getITEXSize texture = 37 + texture.width * texture.height * 4 := by
    unfold getITEXSize kXEOSITEXHeaderSize kXEOSITEXMipMapHeaderSize
    rw [Nat.mod_eq_of_lt (by
      have : (2 : Nat) ^ 32 = 4294967296 := by norm_num
      omega)]
  refine ⟨hsize, hlen, ?_, ?_, hm.1⟩
  · unfold writeITEXHeader
    simp only [Nat.mod_eq_of_lt hlt]
    rfl
  · intro st hst
    rw [hm.2 st hst, hsize, hlen]

theorem C27_itex_size_agreement_witness :
    (1 : Nat) ≤ 7 ∧ (0 : Nat) ≤ 7 ∧ (readTexture 0 0 2064 0).width = 8 <<< 1 ∧
    (readTexture 0 0 2064 0).height = 8 <<< 0 ∧
    (readTexture 0 0 2064 0).format.supported = true ∧
    ITEXSizeAgrees (readTexture 0 0 2064 0) (fun _ => 0) ⟨List.replicate 32 0, 0, false⟩ :=
  ⟨by decide, by decide, by decide, by decide, by decide,
    C27_itex_size_agreement (readTexture 0 0 2064 0) (fun _ => 0)
      ⟨List.replicate 32 0, 0, false⟩ 1 0 (by decide) (by decide) (by decide) (by decide)
      (by decide)⟩

end Aurora

namespace Unrim

/-! ## Command line of `unrim` -/

theorem scanArguments_after :
    ∀ (rest acc : List String) (game : GameID),
      scanArguments rest true acc game =
        .finished (acc ++ rest.filter (fun a => a ≠ "--")) game := by
  intro rest
  induction rest with
  | nil => intro acc game; simp [scanArguments]
  | cons a rest ih =>
    intro acc game
    unfold scanArguments
    by_cases ha : a = "--"
    · rw [if_pos ha, ih]
      simp [ha]
    · rw [if_neg ha, if_neg (by simp), ih]
      simp [ha]

theorem optionsPart_dashes (rest : List String) : optionsPart ("--" :: rest) = [] := by
  simp [optionsPart]

theorem afterOptions_dashes (rest : List String) : afterOptions ("--" :: rest) = rest := by
  simp [afterOptions]

theorem optionsPart_cons {a : String} (ha : a ≠ "--") (rest : List String) :
    optionsPart (a :: rest) = a :: optionsPart rest := by
  simp [optionsPart, List.takeWhile_cons, ha]

theorem afterOptions_cons {a : String} (ha : a ≠ "--") (rest : List String) :
    afterOptions (a :: rest) = afterOptions rest := by
  simp [afterOptions, List.dropWhile_cons, ha]

theorem beginsWith_dashes {a : String} (h : beginsWith a "--" = true) :
    beginsWith a "-" = true := by
  unfold beginsWith at h ⊢
  rcases hl : a.toList with _ | ⟨x, _ | ⟨y, r⟩⟩ <;> simp_all [String.length]

/-- The scan of the arguments before the first `"--"` stops at the first
argument that `isStop` holds of, and otherwise collects the positional
arguments. -/
theorem scanArguments_before :
    ∀ (rest acc : List String) (game : GameID),
      (∀ a, (optionsPart rest).find? isStop = some a →
        ∃ out g, scanArguments rest false acc game =
          .stopped (if isHelp a then 0 else 1) out g) ∧
      ((optionsPart rest).find? isStop = none →
        ∃ g, scanArguments rest false acc game = .finished (acc ++ positionals rest) g) := by
  intro rest
  induction rest with
  | nil =>
    intro acc game
    simp [optionsPart, positionals, afterOptions, scanArguments]
  | cons a rest ih =>
    intro acc game
    unfold scanArguments
    by_cases ha : a = "--"
    · subst ha
      rw [if_pos rfl, optionsPart_dashes, scanArguments_after]
      simp [positionals, optionsPart_dashes, afterOptions_dashes]
    · rw [if_neg ha, if_pos rfl, optionsPart_cons ha]
      by_cases h1 : a = "-h" ∨ a = "--help"
      · rw [if_pos h1]
        have hhelp : isHelp a = true := by
          unfold isHelp
          rcases h1 with h | h <;> simp [h]
        have hstop : isStop a = true := by simp [isStop, hhelp]
        simp [List.find?_cons, hstop, hhelp]
      · rw [if_neg h1]
        by_cases h2 : a = "--version"
        · rw [if_pos h2]
          have hhelp : isHelp a = true := by simp [isHelp, h2]
          have hstop : isStop a = true := by simp [isStop, hhelp]
          simp [List.find?_cons, hstop, hhelp]
        · rw [if_neg h2]
          have hhelp : isHelp a = false := by
            unfold isHelp
            simp only [not_or] at h1
            simp [h1.1, h1.2, h2]
          by_cases h3 : a = "--nwn2"
          · rw [if_pos h3]
            have hstop : isStop a = false := by
              subst h3
              decide
            have hgame : isGameOption a = true := by simp [isGameOption, h3]
            simp only [List.find?_cons, hstop]
            have := ih acc .kGameIDNWN2
            simpa [positionals, optionsPart_cons ha, afterOptions_cons ha, hgame] using this
          · rw [if_neg h3]
            by_cases h4 : a = "--jade"
            · rw [if_pos h4]
              have hstop : isStop a = false := by
                subst h4
                decide
              have hgame : isGameOption a = true := by simp [isGameOption, h4]
              simp only [List.find?_cons, hstop]
              have := ih acc .kGameIDJade
              simpa [positionals, optionsPart_cons ha, afterOptions_cons ha, hgame] using this
            · rw [if_neg h4]
              have hgame : isGameOption a = false := by simp [isGameOption, h3, h4]
              by_cases h5 : (beginsWith a "-" || beginsWith a "--") = true
              · rw [if_pos h5]
                have hb : beginsWith a "-" = true := by
                  rcases Bool.or_eq_true_iff.1 h5 with h | h
                  · exact h
                  · exact beginsWith_dashes h
                have hstop : isStop a = true := by simp [isStop, hb, hgame]
                simp [List.find?_cons, hstop, hhelp]
              · rw [if_neg h5]
                have hb : beginsWith a "-" = false := by
                  cases hbb : beginsWith a "-" with
                  | false => rfl
                  | true => exact absurd (by simp [hbb]) h5
                have hstop : isStop a = false := by simp [isStop, hb, hhelp]
                simp only [List.find?_cons, hstop]
                have := ih (acc ++ [a]) game
                simpa [positionals, optionsPart_cons ha, afterOptions_cons ha, hgame] using this

theorem findCommand_eq (c : String) :
    (findCommand c ≠ .kCommandNone ↔ (c = "l" ∨ c = "e")) ∧
    ((c = "l" ∨ c = "e") →
      findCommand c = if c = "l" then .kCommandList else .kCommandExtract) := by
  unfold findCommand
  by_cases he : c = "e"
  · subst he
    simp
  · by_cases hl : c = "l"
    · subst hl
      simp
    · simp [he, hl]

/-- C29 (command line of `unrim`): `parseCommandLine` returns true if and only
if no argument before the first `"--"` is `-h`, `--help`, `--version` or any
other string starting with `'-'` except `--nwn2` and `--jade`, exactly two
positional arguments remain, and the first of them is `"l"` or `"e"`; the
positional arguments are the arguments before the first `"--"` other than
`--nwn2` and `--jade`, and the arguments after it other than a further `"--"`,
which the scan skips wherever it stands.  On success `command` is List for
`"l"` and Extract for `"e"` and `file` is the second positional argument; on
failure `returnValue` is 0 when the scan was stopped by `-h`, `--help` or
`--version`, and 1 in every other case. -/
theorem C29_unrim_command_line (name : String) (args : List String) (returnValue : Int)
    (command : Command) (file : String) (game : GameID) :
    CommandLineSpec positionals name args returnValue command file game := by
  unfold CommandLineSpec parseCommandLine
  dsimp only
  obtain ⟨hstop, hfin⟩ := scanArguments_before args [] game
  cases hfind : (optionsPart args).find? isStop with
  | some a =>
    obtain ⟨out, g, hscan⟩ := hstop a hfind
    rw [hscan]
    refine ⟨_, rfl, ?_, ?_, ?_⟩
    · simp only [Bool.false_eq_true, false_iff]
      rintro ⟨hall, _⟩
      have hmem := List.mem_of_find?_eq_some hfind
      have hst := List.find?_some hfind
      rw [hall a hmem] at hst
      exact absurd hst (by simp)
    · intro h
      simp at h
    · intro _
      simp [failureValue, hfind]
  | none =>
    obtain ⟨g, hscan⟩ := hfin hfind
    rw [hscan, List.nil_append]
    have hall : ∀ a ∈ optionsPart args, isStop a = false := by
      intro a ha
      have := List.find?_eq_none.1 hfind a ha
      simpa using this
    have hfail : failureValue args = 1 := by simp [failureValue, hfind]
    rcases hpos : positionals args with _ | ⟨c, _ | ⟨f, _ | ⟨x, r⟩⟩⟩
    · refine ⟨_, rfl, ?_, ?_, fun _ => hfail.symm⟩
      · simp [Accepted]
      · intro h
        simp at h
    · refine ⟨_, rfl, ?_, ?_, fun _ => hfail.symm⟩
      · simp [Accepted]
      · intro h
        simp at h
    · obtain ⟨hc1, hc2⟩ := findCommand_eq c
      by_cases hcmd : findCommand c = .kCommandNone
      · simp only [hcmd, if_true]
        refine ⟨_, rfl, ?_, ?_, fun _ => hfail.symm⟩
        · simp only [Bool.false_eq_true, false_iff]
          rintro ⟨_, c1, f1, heq, hor⟩
          simp only [List.cons.injEq, and_true] at heq
          rw [← heq.1] at hor
          exact (hc1.2 hor) hcmd
        · intro h
          simp at h
      · simp only [hcmd, if_false]
        have hor := hc1.1 hcmd
        refine ⟨_, rfl, ?_, ?_, ?_⟩
        · simp only [true_iff]
          exact ⟨hall, c, f, rfl, hor⟩
        · intro _
          exact ⟨c, f, rfl, rfl, hc2 hor⟩
        · intro h
          simp at h
    · refine ⟨_, rfl, ?_, ?_, fun _ => hfail.symm⟩
      · simp [Accepted]
      · intro h
        simp at h

theorem C29_unrim_command_line_witness :
    CommandLineSpec positionals "unrim" ["--nwn2", "e", "--", "file.rim", "--"] 1
      .kCommandNone "" .kGameIDUnknown :=
  C29_unrim_command_line "unrim" ["--nwn2", "e", "--", "file.rim", "--"] 1 .kCommandNone ""
    .kGameIDUnknown

/-- C29, as stated, fails: with every argument after the first `"--"` counted
as positional, the arguments `-- l --` have the two positional arguments `l`
and `--` and are accepted, but `parseCommandLine` skips the second `"--"` too,
is left with one positional argument and returns false. -/
theorem C29_arguments_after_dashes_counterexample :
    Accepted (positionalsStated ["--", "l", "--"]) ["--", "l", "--"] ∧
    parseCommandLine ["unrim", "--", "l", "--"] 1 .kCommandNone "" .kGameIDUnknown =
      .ok { result := false, returnValue := 1, command := .kCommandNone, file := "",
            game := .kGameIDUnknown, printed := some .usageStderr } ∧
    ¬ CommandLineSpec positionalsStated "unrim" ["--", "l", "--"] 1 .kCommandNone ""
        .kGameIDUnknown := by
  have hacc : Accepted (positionalsStated ["--", "l", "--"]) ["--", "l", "--"] :=
    ⟨by simp [optionsPart], "l", "--", by decide, Or.inl rfl⟩
  have hrun : parseCommandLine ["unrim", "--", "l", "--"] 1 .kCommandNone "" .kGameIDUnknown =
      .ok { result := false, returnValue := 1, command := .kCommandNone, file := "",
            game := .kGameIDUnknown, printed := some .usageStderr } := rfl
  refine ⟨hacc, hrun, ?_⟩
  rintro ⟨o, ho, hiff, _, _⟩
  rw [hrun] at ho
  injection ho with ho
  subst ho
  have := hiff.2 hacc
  simp at this

end Unrim

namespace Images

/-! ## Mip-map chain of a TXB header -/

/-- The loop over the mip maps only appends mip maps, and the ones it appends
fit. -/
theorem mipMapLoop_fits (util : ImageUtil) (format : PixelFormat) (minDataSize : Nat) :
    ∀ (remaining width height mipMapSize dataSize : Nat) (mipMaps res : List MipMap),
      mipMapLoop util format minDataSize remaining width height mipMapSize dataSize mipMaps
        = .ok res →
      ∃ added, res = mipMaps ++ added ∧ ChainFits added remaining width height dataSize := by
  intro remaining
  induction remaining with
  | zero =>
    intro width height mipMapSize dataSize mipMaps res h
    simp only [mipMapLoop, Except.ok.injEq] at h
    exact ⟨[], by simp [h], by simp [ChainFits]⟩
  | succ n ih =>
    intro width height mipMapSize dataSize mipMaps res h
    have hnil : res = mipMaps →
        ∃ added, res = mipMaps ++ added ∧ ChainFits added (n + 1) width height dataSize :=
      fun he => ⟨[], by simp [he], by simp [ChainFits]⟩
    unfold mipMapLoop at h
    simp only at h
    split at h
    · simp only [Except.ok.injEq] at h
      exact hnil h.symm
    · split at h
      · simp at h
      · rename_i mipMapDataSize hds
        split at h
        · simp only [Except.ok.injEq] at h
          exact hnil h.symm
        · rename_i hfit
          have hsize : max mipMapSize minDataSize ≤ dataSize := by omega
          have hone : ChainFits
              [{ width := max width 1, height := max height 1,
                 size := max mipMapSize minDataSize, data := none }] (n + 1) width height
              dataSize := by
            refine ⟨by simp, by simpa using hsize, ?_⟩
            intro i m hm
            cases i with
            | zero =>
              simp only [List.getElem?_cons_zero, Option.some.injEq] at hm
              subst hm
              simp [max_comm]
            | succ j => simp at hm
          split at h
          · simp only [Except.ok.injEq] at h
            exact ⟨_, h.symm, hone⟩
          · obtain ⟨added, hres, hlen, hsum, hdim⟩ := ih _ _ _ _ _ _ h
            refine ⟨{ width := max width 1, height := max height 1,
                      size := max mipMapSize minDataSize, data := none } :: added,
              by rw [hres]; simp, ?_, ?_, ?_⟩
            · simp only [List.length_cons]
              omega
            · simp only [List.map_cons, List.sum_cons]
              omega
            · intro i m hm
              cases i with
              | zero =>
                simp only [List.getElem?_cons_zero, Option.some.injEq] at hm
                subst hm
                simp [max_comm]
              | succ j =>
                simp only [List.getElem?_cons_succ] at hm
                obtain ⟨h1, h2⟩ := hdim j m hm
                rw [h1, h2, ← Nat.shiftRight_add, ← Nat.shiftRight_add, Nat.add_comm 1 j]
                exact ⟨rfl, rfl⟩

theorem readMipMaps_fits {util : ImageUtil} {f : Fields} {needDeSwizzle : Bool}
    {format : PixelFormat} {minDataSize mipMapSize : Nat} {h : Header}
    (hr : readMipMaps util f needDeSwizzle format minDataSize mipMapSize = .ok h) :
    HeaderFits f h := by
  unfold readMipMaps at hr
  split at hr
  · simp at hr
  · split at hr
    · simp at hr
    · split at hr
      · simp at hr
      · split at hr
        · simp at hr
        · rename_i mipMaps hloop
          split at hr
          · simp at hr
          · rename_i hne
            simp only [Except.ok.injEq] at hr
            subst hr
            obtain ⟨added, hres, hfits⟩ := mipMapLoop_fits _ _ _ _ _ _ _ _ _ _ hloop
            rw [List.nil_append] at hres
            subst hres
            refine ⟨hfits, fun hc => ?_⟩
            intro hnil
            exact hne ⟨hc, hnil⟩

/-- C39 (the mip-map chain of a TXB fits the data): whenever `readHeader`
succeeds, whatever `hasValidDimensions` and `getDataSize` return, the number of
mip maps kept is at most the `mipMapCount` of the header, the sum of their
sizes is at most the `dataSize` of the header, the mip map at position `i`
(from 0) has the width `max 1 (width >> i)` and the height
`max 1 (height >> i)`, and at least one mip map is kept unless `mipMapCount`
is zero. -/
theorem C39_mip_map_chain_fits (util : ImageUtil) (txb : ReadStream) (h : Header)
    (hr : readHeader util txb = .ok h) :
    ∃ f, readFields txb = .ok f ∧ HeaderFits f h := by
  unfold readHeader at hr
  cases hf : readFields txb with
  | error e => simp [hf] at hr
  | ok f =>
    simp only [hf] at hr
    refine ⟨f, rfl, ?_⟩
    split at hr
    · exact readMipMaps_fits hr
    · split at hr
      · exact readMipMaps_fits hr
      · split at hr
        · exact readMipMaps_fits hr
        · split at hr <;> simp at hr

set_option maxRecDepth 8192 in
theorem C39_mip_map_chain_fits_witness :
    readHeader exampleUtil exampleHeader = .ok exampleResult ∧
    ∃ f, readFields exampleHeader = .ok f ∧ HeaderFits f exampleResult :=
  ⟨rfl, C39_mip_map_chain_fits exampleUtil exampleHeader exampleResult rfl⟩

end Images

